import Mathlib

/-! COWStrings.

A shallow embedding of the copy-on-write UTF-8 string of `string.h` / `string.cpp`,
its character helper (`character.h`) and the reference-counted buffer of `mem.h`.

Conventions of the embedding:

* a byte is a `Nat` below 256, a region of memory seen through a pointer is the
  `List Nat` of the bytes that start at the pointer;
* the heap is a list of blocks (`Shared<u8[]>`), a block pointer is its index, a
  freed block is `none`;
* the 32-byte union `TData` is the inductive type `CowString`; its constructor
  stands for the two discriminator bits kept in the top of `data.bytes[31]`,
  the `small` view keeps all 32 raw bytes (so the low six bits of byte 31 are
  the free-slot count the source stores there);
* `u64` sizes are natural numbers; subtractions that the source does not guard
  wrap modulo `2 ^ 64` (`sub64`), the 62-bit cache is masked as in the source.
-/

namespace COWStrings

/-! ## Raw memory -/

/-- Subtraction of two `u64` operands, wrapping below zero. -/
def sub64 (a b : Nat) : Nat := if b ≤ a then a - b else a + 2 ^ 64 - b

/-- Read of the byte at offset `i` of a region. -/
def load (mem : List Nat) (i : Nat) : Nat := mem.getD i 0

/-- Write of one byte at offset `i` of a region. A write past the end of the
region (undefined behaviour in the source) does not land in the region, which is
returned as it was: the bytes behind a region are not part of the embedding. -/
def store (mem : List Nat) (i v : Nat) : List Nat := mem.set i v

/-- Region after `memcpy(dst + off, src, n)`: the first `n` bytes of `src` replace
the bytes of `dst` from offset `off` on; bytes that would fall behind the end of
`dst` (undefined behaviour in the source) do not land in it and cannot be read back. -/
def memcpy (dst : List Nat) (off : Nat) (src : List Nat) (n : Nat) : List Nat :=
  (dst.take off ++ src.take n ++ dst.drop (off + (src.take n).length)).take dst.length

/-- Region after `memmove(buf + dstOff, buf + srcOff, n)` inside one region: the
source bytes are read before any byte is written. -/
def memmove (buf : List Nat) (dstOff srcOff n : Nat) : List Nat :=
  memcpy buf dstOff (buf.drop srcOff) n

/-- Little-endian bytes of a 64-bit word. -/
def le64 (n : Nat) : List Nat :=
  (List.range 8).map fun i => n / 256 ^ i % 256

/-- Length found by `strlen`: the number of bytes before the first zero byte. -/
def strlen (s : List Nat) : Nat := (s.takeWhile fun b => b != 0).length

/-! ## character.h -/

/-- Source: `Character::byteLengthFromLeadingByte`. -/
def byteLengthFromLeadingByte (byte : Nat) : Nat :=
  if byte < 128 then 1
  else if byte < 224 then 2
  else if byte < 240 then 3
  else 4

/-- Loop of `Character::countCodePointsInBuffer`; `pos` is `ptr` as an offset,
`endPos` is `endPtr`. Every round moves `pos` forward, so `endPos` rounds of fuel
are enough. -/
def countLoop (mem : List Nat) (endPos : Nat) : Nat → Nat → Nat → Nat
  | 0, _, count => count
  | fuel + 1, pos, count =>
    if pos < endPos then
      countLoop mem endPos fuel (pos + byteLengthFromLeadingByte (load mem pos)) (count + 1)
    else count

/-- Source: `Character::countCodePointsInBuffer(ptr, length)`. -/
def countCodePointsInBuffer (mem : List Nat) (length : Nat) : Nat :=
  countLoop mem length length 0 0

/-- Loop of `Character::countCodePointsInCString`, returning `(count, ptr - startPtr)`. -/
def cstrLoop (mem : List Nat) : Nat → Nat → Nat → Nat → Nat × Nat
  | 0, pos, count, _ => (count, pos)
  | fuel + 1, pos, count, bytesToSkip =>
    if load mem pos != 0 then
      if bytesToSkip = 0 then
        cstrLoop mem fuel (pos + 1) (count + 1)
          (sub64 (byteLengthFromLeadingByte (load mem pos)) 1)
      else cstrLoop mem fuel (pos + 1) count (sub64 bytesToSkip 1)
    else (count, pos)

/-- Source: `Character::countCodePointsInCString(startPtr, &length)`; the pair is
the returned count and the value written to `*length`. The loop stops at the
first zero byte, which a region always has at the latest right behind its end. -/
def countCodePointsInCString (mem : List Nat) : Nat × Nat :=
  cstrLoop mem (mem.length + 1) 0 0 0

/-- Loop of `Character::getCodePointInBufferAt`; `none` is the null pointer, `some off`
the pointer `ptr + off`. -/
def getLoop (mem : List Nat) (endPos : Nat) : Nat → Nat → Nat → Option Nat
  | 0, _, _ => none
  | fuel + 1, pos, idx =>
    if pos < endPos then
      if idx = 0 then some pos
      else getLoop mem endPos fuel (pos + byteLengthFromLeadingByte (load mem pos)) (idx - 1)
    else none

/-- Source: `Character::getCodePointInBufferAt(ptr, length, idx)`, for a `length` with
which `ptr + length` does not wrap around the address space. -/
def getCodePointInBufferAt (mem : List Nat) (length idx : Nat) : Option Nat :=
  getLoop mem length length 0 idx

/-- Source: `class Character`, the `u32 value` holding the bytes of one code point
in memory order (little endian). -/
structure Character where
  value : Nat
  deriving DecidableEq, Repr

/-- Source: `Character::bytes()`, the four bytes of `value` in memory. -/
def Character.bytes (c : Character) : List Nat :=
  [c.value % 256, c.value / 256 % 256, c.value / 65536 % 256, c.value / 16777216 % 256]

/-- Source: `Character::byteCount()`. -/
def Character.byteCount (c : Character) : Nat :=
  byteLengthFromLeadingByte (load c.bytes 0)

/-- Source: `Character::utf8ToUnicodeCodePoint`, on a `u32`. -/
def utf8ToUnicodeCodePoint (utf8 : Nat) : Nat :=
  if utf8 < 128 then utf8
  else if utf8 < 224 then ((utf8 &&& 0x1F00) >>> 2) ||| (utf8 &&& 0x3F)
  else if utf8 < 240 then
    (((utf8 &&& 0x0F0000) >>> 4) ||| ((utf8 &&& 0x3F00) >>> 2)) ||| (utf8 &&& 0x3F)
  else
    ((((utf8 &&& 0x07000000) >>> 6) ||| ((utf8 &&& 0x3F0000) >>> 4))
      ||| ((utf8 &&& 0x3F00) >>> 2)) ||| (utf8 &&& 0x3F)

/-- Source: `Character::toUnicodeCodepoint()`, on the `u32 value`. -/
def Character.toUnicodeCodepoint (c : Character) : Nat :=
  utf8ToUnicodeCodePoint (c.value % 2 ^ 32)

/-- Source: `Character::Character(const u8* ptr)`, reading at offset `off` of `mem`. -/
def Character.ofPtr (mem : List Nat) (off : Nat) : Character :=
  let len := byteLengthFromLeadingByte (load mem off)
  if len = 1 then ⟨load mem off⟩
  else if len = 2 then ⟨load mem off + 256 * load mem (off + 1)⟩
  else if len = 3 then
    ⟨load mem off + 256 * load mem (off + 1) + 65536 * load mem (off + 2)⟩
  else
    ⟨load mem off + 256 * load mem (off + 1) + 65536 * load mem (off + 2)
      + 16777216 * load mem (off + 3)⟩

/-! ## mem.h: reference-counted blocks -/

/-- Source: `Shared<u8[]>` with the `refCounter` of its base `RefCounted`; `itemCount`
is the length of `value`. -/
structure Shared where
  refCounter : Nat
  value : List Nat
  deriving DecidableEq, Repr

/-- The heap: the blocks allocated so far (`none` once deleted), the bytes found in
fresh storage (`new u8[size]` does not initialise it) and the address of every block. -/
structure Heap where
  cells : List (Option Shared)
  junk : Nat → Nat
  addr : Nat → Nat

/-- Block behind a pointer, `none` when it was deleted or never allocated. -/
def Heap.get (h : Heap) (id : Nat) : Option Shared := h.cells.getD id none

/-- Source: `SharedPtrBase::refCount()` for a non-null pointer. -/
def Heap.refCount (h : Heap) (id : Nat) : Nat :=
  match h.get id with
  | some c => c.refCounter
  | none => 0

/-- Bytes behind `dataPtr()` of a block. -/
def Heap.data (h : Heap) (id : Nat) : List Nat :=
  match h.get id with
  | some c => c.value
  | none => []

/-- Source: `Shared<u8[]>::make(cnt)`: a fresh block of `cnt` uninitialised bytes,
held by an `OwnPtr`, reference counter still 0. -/
def Heap.make (h : Heap) (cnt : Nat) : Heap × Nat :=
  ({ h with cells := h.cells ++ [some ⟨0, (List.range cnt).map h.junk⟩] }, h.cells.length)

/-- Source: `RefManager::ref`. -/
def Heap.ref (h : Heap) (id : Nat) : Heap :=
  match h.get id with
  | some c => { h with cells := h.cells.set id (some { c with refCounter := c.refCounter + 1 }) }
  | none => h

/-- Source: `if (!unref(*obj)) delete obj;` of `SharedPtrBase::reset`. -/
def Heap.unref (h : Heap) (id : Nat) : Heap :=
  match h.get id with
  | some c =>
    if c.refCounter - 1 = 0 then { h with cells := h.cells.set id none }
    else { h with cells := h.cells.set id (some { c with refCounter := c.refCounter - 1 }) }
  | none => h

/-- Source: `SharedPtrBase::reset(n)`: the held block (if any) is released, then the
new one (if any) is referenced. -/
def Heap.reset (h : Heap) (obj n : Option Nat) : Heap :=
  let h1 := match obj with
    | some id => h.unref id
    | none => h
  match n with
  | some id => h1.ref id
  | none => h1

/-- Write through `dataPtr()` of a block: `f` maps the old bytes to the new ones. -/
def Heap.write (h : Heap) (buffer : Option Nat) (f : List Nat → List Nat) : Heap :=
  match buffer with
  | some id =>
    match h.get id with
    | some c => { h with cells := h.cells.set id (some { c with value := f c.value }) }
    | none => h
  | none => h

/-! ## string.h / string.cpp: the data model -/

/-- Source: `String::TSmallCapacity = sizeof(TDynamicString)`: the placeholder of the
buffer pointer and three `u64` fields, 32 bytes. -/
def TSmallCapacity : Nat := 32

/-- Source: `String::TDynamicString`, the `dyn` view of the union. `buffer` is the
`SharedPtr` (`none` is the null pointer), `codePoints` holds the low 62 bits of the
field (what `getCodePoints` shows). -/
structure TDynamicString where
  buffer : Option Nat
  capacity : Nat
  used : Nat
  codePoints : Nat
  deriving DecidableEq, Repr

/-- Source: `String::TLiteralString`, the `lit` view of the union. `buffer` is the
caller's storage seen through the `const char*` (never null: `initAsLiteralString`
asserts it). -/
structure TLiteralString where
  buffer : List Nat
  capacity : Nat
  used : Nat
  codePoints : Nat
  deriving DecidableEq, Repr

/-- Source: `class String` (its only member `data`). -/
inductive CowString where
  | small (bytes : List Nat)
  | lit (l : TLiteralString)
  | dyn (d : TDynamicString)
  deriving DecidableEq, Repr

/-- Source: `String::Mode`. -/
inductive Mode where
  | Small
  | Shared
  | Owned
  | Literal
  deriving DecidableEq, Repr

/-- The 32 bytes of a String object in the `dyn` view, read through `data.bytes`: the
buffer pointer, `capacity`, `used` and `codePoints` with the mode bits `10` on top. -/
def TDynamicString.rawBytes (h : Heap) (d : TDynamicString) : List Nat :=
  le64 (match d.buffer with
    | some id => h.addr id
    | none => 0)
  ++ le64 d.capacity ++ le64 d.used ++ le64 (d.codePoints % 2 ^ 62 + 2 ^ 63)

/-- A `const u8*` handed to `appendBytes`. -/
inductive BytePtr where
  /-- Storage the call does not write: caller memory, a literal, the value of a
  `Character`, the inline bytes of another String. -/
  | mem (bytes : List Nat)
  /-- `dataPtr()` of a heap block. -/
  | block (id : Nat)
  /-- `data.bytes` of the String that is being appended to. -/
  | inline
  deriving DecidableEq, Repr

namespace CowString

/-- Source: `String::isSmall`. -/
def isSmall : CowString → Bool
  | small _ => true
  | _ => false

/-- Source: `String::isDynamic`. -/
def isDynamic : CowString → Bool
  | dyn _ => true
  | _ => false

/-- Source: `String::isLiteral`. -/
def isLiteral : CowString → Bool
  | lit _ => true
  | _ => false

/-- Source: `String::isShared`. -/
def isShared (h : Heap) : CowString → Bool
  | dyn d =>
    match d.buffer with
    | some id => decide (h.refCount id > 1)
    | none => false
  | _ => false

/-- Source: `String::mode`. -/
def mode (h : Heap) (s : CowString) : Mode :=
  if s.isSmall then Mode.Small
  else if s.isLiteral then Mode.Literal
  else if s.isShared h then Mode.Shared
  else Mode.Owned

/-- Source: `String::bufferCapacity`. -/
def bufferCapacity : CowString → Nat
  | small _ => TSmallCapacity
  | lit _ => 0
  | dyn d => if d.buffer.isSome then d.capacity else 0

/-- Source: `String::bufferSize`. -/
def bufferSize : CowString → Nat
  | small b => sub64 TSmallCapacity (load b (TSmallCapacity - 1))
  | lit l => l.used
  | dyn d => if d.buffer.isSome then d.used else 0

/-- Source: `String::safeBufferPointer` (and `cString`): the memory behind the
returned pointer. -/
def cString (h : Heap) : CowString → List Nat
  | small b => b
  | lit l => l.buffer
  | dyn d =>
    match d.buffer with
    | some id => h.data id
    | none => [0]

/-- Source: `String::isEmpty`. -/
def isEmpty (s : CowString) : Bool := decide (s.bufferSize ≤ 1)

/-- Source: `String::countCodePoints`. -/
def countCodePoints (h : Heap) (s : CowString) : Nat :=
  countCodePointsInBuffer (s.cString h) (sub64 s.bufferSize 1)

end CowString

/-- Source: `StringDataInterface::getCodePoints` (the top two bits are the mode and
are not part of the field of the model). -/
def TDynamicString.getCodePoints (d : TDynamicString) : Nat := d.codePoints % 2 ^ 62

/-- Source: `StringDataInterface::setCodePoints`: the low 62 bits of `v` are stored,
the top two bits are kept. -/
def TDynamicString.setCodePoints (d : TDynamicString) (v : Nat) : TDynamicString :=
  { d with codePoints := v % 2 ^ 62 }

/-- Source: `StringDataInterface::hasCachedCodePoints`. -/
def TDynamicString.hasCachedCodePoints (d : TDynamicString) : Bool :=
  d.getCodePoints != 0 || decide (d.used ≤ 1)

/-- Source: `StringDataInterface::getCodePoints`, literal view. -/
def TLiteralString.getCodePoints (l : TLiteralString) : Nat := l.codePoints % 2 ^ 62

/-- Source: `StringDataInterface::setCodePoints`, literal view. -/
def TLiteralString.setCodePoints (l : TLiteralString) (v : Nat) : TLiteralString :=
  { l with codePoints := v % 2 ^ 62 }

/-- Source: `StringDataInterface::hasCachedCodePoints`, literal view. -/
def TLiteralString.hasCachedCodePoints (l : TLiteralString) : Bool :=
  l.getCodePoints != 0 || decide (l.used ≤ 1)

namespace CowString

/-- Source: `String::hasCachedCodePointsLitOrDyn`. -/
def hasCachedCodePointsLitOrDyn : CowString → Bool
  | small _ => false
  | lit l => l.hasCachedCodePoints
  | dyn d => d.hasCachedCodePoints

/-- Source: `String::resetCodePointsLitOrDyn`. -/
def resetCodePointsLitOrDyn : CowString → CowString
  | small b => small b
  | lit l => lit (l.setCodePoints 0)
  | dyn d => dyn (d.setCodePoints 0)

/-- The zero-filled union a constructor starts from (`TData() : bytes() {}`). -/
def zeroData : List Nat := List.replicate TSmallCapacity 0

/-- Source: `String::initAsSmallString(const u8* ptr, u64 len)`, on an object whose
raw bytes are `data`. -/
def initAsSmallString (data : List Nat) (ptr : List Nat) (len : Nat) : CowString :=
  let b1 := memcpy data 0 ptr len
  let b2 := store b1 (TSmallCapacity - 1) ((TSmallCapacity - len) % 256)
  let b3 := store b2 len 0
  small (store b3 (TSmallCapacity - 1) (load b3 (TSmallCapacity - 1) % 64))

/-- Source: `String::initAsSmallString()`, on an object whose raw bytes are `data`. -/
def initAsSmallStringEmpty (data : List Nat) : CowString :=
  small (store (store data (TSmallCapacity - 1) (TSmallCapacity - 1)) 0 0)

/-- Source: `String::initAsLiteralString`. -/
def initAsLiteralString (s : List Nat) (len : Nat) : CowString :=
  lit ((TLiteralString.mk s 0 len 0).setCodePoints 0)

/-- Source: `String::copySmallString`, on a freshly zero-filled object; the source
asserts `s.isSmall()`, and every caller has tested it. -/
def copySmallString : CowString → CowString
  | small b => initAsSmallString zeroData b (small b).bufferSize
  | _ => small zeroData

/-- Source: `String::growIntoDynamicString`. -/
def growIntoDynamicString (h : Heap) (s : CowString) (numBytes : Nat) :
    Heap × TDynamicString :=
  let newCapacity := max (TSmallCapacity * 2) numBytes
  let (h1, id) := h.make newCapacity
  let used := s.bufferSize
  let h2 := h1.write (some id) fun v => memcpy v 0 (s.cString h) used
  let h3 := h2.write (some id) fun v => store v used 0
  -- data.dyn.construct(); setMode(Mode::Owned); dyn().buffer() = std::move(newBuffer)
  let h4 := h3.reset none (some id)
  (h4, (TDynamicString.mk (some id) newCapacity used 0).setCodePoints 0)

/-- Source: `String::ensureOwnedCapacity`. The String is in the `dyn` view afterwards,
which is what is returned. -/
def ensureOwnedCapacity (h : Heap) (s : CowString) (numBytes : Nat) :
    Heap × TDynamicString :=
  match s with
  | dyn d =>
    let curCapacity := s.bufferCapacity
    let hasSpace := decide (curCapacity ≥ numBytes)
    if !s.isShared h && hasSpace then (h, d)
    else
      let newCapacity :=
        if hasSpace then curCapacity
        else max (max (curCapacity * 2) numBytes) (TSmallCapacity * 2)
      let (h1, id) := h.make newCapacity
      let h2 := match d.buffer with
        | some old => h1.write (some id) fun v => memcpy v 0 (h.data old) d.used
        | none => h1
      -- dyn().buffer() = std::move(newBuffer)
      let h3 := h2.reset d.buffer (some id)
      (h3, { d with buffer := some id, capacity := newCapacity })
  | _ => growIntoDynamicString h s numBytes

/-- The block a String holds: `dyn().buffer()` in the `dyn` view (`none` for the null
pointer), none for the other views. -/
def heldBlock : CowString → Option Nat
  | dyn d => d.buffer
  | _ => none

/-- Memory behind a `BytePtr`, for the String `a` being appended to. No caller
passes `data.bytes` of a literal String. -/
def deref (h : Heap) (a : CowString) : BytePtr → List Nat
  | BytePtr.mem bytes => bytes
  | BytePtr.block id => h.data id
  | BytePtr.inline =>
    match a with
    | small b => b
    | dyn d => d.rawBytes h
    | lit _ => []

/-- Source: `if (bytes == oldDataPtr) bytes = dyn().buffer().dataPtr();` of
`String::appendBytes`: a source pointer equal to the old data pointer follows the
buffer to its new block. -/
def rebase (bytes : BytePtr) (oldDataPtr newDataPtr : Option Nat) : BytePtr :=
  match bytes, oldDataPtr, newDataPtr with
  | BytePtr.block id, some old, some new => if id = old then BytePtr.block new else bytes
  | _, _, _ => bytes

/-- Source: `String::appendBytes`, the part behind the early return of the inline
case: the buffer is made owned and large enough, the bytes are copied behind the used
ones, the terminator is written and the cache is updated or reset. -/
def appendBytesOwned (h : Heap) (a : CowString) (bytes : BytePtr) (numBytes : Nat) :
    Heap × CowString :=
  let used := a.bufferSize
  let oldDataPtr : Option Nat := a.heldBlock
  let e := ensureOwnedCapacity h a (used + numBytes)
  let bytes1 : BytePtr := rebase bytes oldDataPtr e.2.buffer
  let h2 := e.1.write e.2.buffer fun v =>
    memcpy v (sub64 used 1) (deref e.1 (dyn e.2) bytes1) numBytes
  let h3 := h2.write e.2.buffer fun v => store v (sub64 (used + numBytes) 1) 0
  let d2 := { e.2 with used := used + numBytes }
  if d2.hasCachedCodePoints && decide (numBytes ≤ 64) then
    let numPoints := countCodePointsInBuffer (deref h3 (dyn d2) bytes1) numBytes
    (h3, dyn (d2.setCodePoints (d2.getCodePoints + numPoints)))
  else (h3, (dyn d2).resetCodePointsLitOrDyn)

/-- Source: `String::appendBytes`. -/
def appendBytes (h : Heap) (a : CowString) (bytes : BytePtr) (numBytes : Nat) :
    Heap × CowString :=
  let cap := a.bufferCapacity
  let used := a.bufferSize
  match a with
  | small b =>
    if used + numBytes ≤ cap then
      let b1 := memcpy b (sub64 used 1) (deref h a bytes) numBytes
      let b2 := store b1 (TSmallCapacity - 1) ((TSmallCapacity - used - numBytes) % 256)
      let b3 := store b2 (sub64 (used + numBytes) 1) 0
      (h, small b3)
    else appendBytesOwned h a bytes numBytes
  | _ => appendBytesOwned h a bytes numBytes

/-- Source: `String::length`; the second component is the String afterwards (the
cache is `mutable`). -/
def length (h : Heap) (s : CowString) : Nat × CowString :=
  match s with
  | small _ => (s.countCodePoints h, s)
  | lit l =>
    if !l.hasCachedCodePoints then
      let l1 := l.setCodePoints (s.countCodePoints h)
      (l1.getCodePoints, lit l1)
    else (l.getCodePoints, s)
  | dyn d =>
    if d.buffer.isNone then (0, s)
    else if !d.hasCachedCodePoints then
      let d1 := d.setCodePoints (s.countCodePoints h)
      (d1.getCodePoints, dyn d1)
    else (d.getCodePoints, s)

/-- The pointer `s.cString()` of another String `s`, as `appendBytes` sees it. -/
def cStringPtr : CowString → BytePtr
  | small b => BytePtr.mem b
  | lit l => BytePtr.mem l.buffer
  | dyn d =>
    match d.buffer with
    | some id => BytePtr.block id
    | none => BytePtr.mem [0]

/-- The pointer `s.cString()` when `s` is the String that is appended to: its own
inline bytes if it is Small. -/
def selfPtr : CowString → BytePtr
  | small _ => BytePtr.inline
  | s => cStringPtr s

/-- Write of `dyn().setCodePoints(v)` on a String in the `dyn` view. -/
def dynSetCodePoints (v : Nat) : CowString → CowString
  | dyn d => dyn (d.setCodePoints v)
  | s => s

/-- Source: `String::append(const String& s)` for an argument `s` that is another
object than `this` (it may share its heap block with `this`). Returns the heap,
`this` and `s` afterwards. -/
def append (h : Heap) (a s : CowString) : Heap × CowString × CowString :=
  let cond := (s.isSmall && a.hasCachedCodePointsLitOrDyn)
    || (s.hasCachedCodePointsLitOrDyn && a.isSmall)
    || (s.hasCachedCodePointsLitOrDyn && a.hasCachedCodePointsLitOrDyn)
  let (newCodePoints, a1, s1) :=
    if cond then
      let (la, a1) := length h a
      let (ls, s1) := length h s
      (la + ls, a1.resetCodePointsLitOrDyn, s1)
    else (0, a, s)
  let (h2, a2) := appendBytes h a1 (cStringPtr s1) (sub64 s1.bufferSize 1)
  (h2, if !a2.isSmall then dynSetCodePoints newCodePoints a2 else a2, s1)

/-- Source: `String::append(const String& s)` called as `a.append(a)`: every read of
`s` is a read of `this`. -/
def appendSelf (h : Heap) (a : CowString) : Heap × CowString :=
  let cond := (a.isSmall && a.hasCachedCodePointsLitOrDyn)
    || (a.hasCachedCodePointsLitOrDyn && a.isSmall)
    || (a.hasCachedCodePointsLitOrDyn && a.hasCachedCodePointsLitOrDyn)
  let (newCodePoints, a1) :=
    if cond then
      let (la, a0) := length h a
      let (ls, a1) := length h a0
      (la + ls, a1.resetCodePointsLitOrDyn)
    else (0, a)
  let (h2, a2) := appendBytes h a1 (selfPtr a1) (sub64 a1.bufferSize 1)
  (h2, if !a2.isSmall then dynSetCodePoints newCodePoints a2 else a2)

/-- Source: `String::append(const char* s)` for a pointer into memory that the call
does not write: `s` is the caller's memory from the pointer on. The call
`a.append(a.cString())`, whose pointer is into the String itself, is `appendCStrSelf`. -/
def appendCStr (h : Heap) (a : CowString) (s : List Nat) : Heap × CowString :=
  let (numCodePoints, numBytes) := countCodePointsInCString s
  let (newCodePoints, a1) :=
    if a.hasCachedCodePointsLitOrDyn
        || (a.isSmall && decide (a.bufferSize + numBytes > TSmallCapacity)) then
      let (la, a0) := length h a
      (la + numCodePoints, a0.resetCodePointsLitOrDyn)
    else (0, a)
  let (h2, a2) := appendBytes h a1 (BytePtr.mem s) numBytes
  (h2, if !a2.isSmall then dynSetCodePoints newCodePoints a2 else a2)

/-- Source: `String::append(const char* s)` called as `a.append(a.cString())`: the C
string is read behind `cString()` of `this`, and `appendBytes` is handed that pointer,
the inline bytes of a Small String or `dataPtr()` of the block of a Dynamic one. -/
def appendCStrSelf (h : Heap) (a : CowString) : Heap × CowString :=
  let (numCodePoints, numBytes) := countCodePointsInCString (a.cString h)
  let (newCodePoints, a1) :=
    if a.hasCachedCodePointsLitOrDyn
        || (a.isSmall && decide (a.bufferSize + numBytes > TSmallCapacity)) then
      let (la, a0) := length h a
      (la + numCodePoints, a0.resetCodePointsLitOrDyn)
    else (0, a)
  let (h2, a2) := appendBytes h a1 (selfPtr a1) numBytes
  (h2, if !a2.isSmall then dynSetCodePoints newCodePoints a2 else a2)

/-- Source: `String::append(Character c)`. -/
def appendChar (h : Heap) (a : CowString) (c : Character) : Heap × CowString :=
  appendBytes h a (BytePtr.mem c.bytes) c.byteCount

/-- The two guards of `String::append(String&& s)` that select the path taking over
the buffer of `s`. -/
def stealGuard (h : Heap) (a s : CowString) : Bool :=
  (decide (s.mode h = Mode.Owned)
    && decide (s.bufferCapacity ≥ sub64 (s.bufferSize + a.bufferSize) 1))
  && (decide (a.mode h ≠ Mode.Owned)
    || (decide (a.mode h = Mode.Owned)
        && decide (a.bufferCapacity < sub64 (s.bufferSize + a.bufferSize) 1))
    || (decide (a.mode h = Mode.Owned)
        && decide (sub64 s.bufferCapacity a.bufferCapacity > a.bufferSize)))

/-- The block `if (!isEmpty()) { memmove(...); memcpy(...); }` of
`String::append(String&& s)`: the bytes of `s = dyn ds` are moved back inside its
buffer and the bytes of `this` are put in front of them. -/
def shiftInto (h : Heap) (a : CowString) (ds : TDynamicString) : Heap :=
  if !a.isEmpty then
    let h1 := h.write ds.buffer fun v =>
      memmove v (sub64 a.bufferSize 1) 0 (dyn ds).bufferSize
    h1.write ds.buffer fun v => memcpy v 0 (a.cString h1) (sub64 a.bufferSize 1)
  else h

/-- Source: `String::append(String&& s)` for an argument that is another object than
`this`. Returns the heap, `this` and `s` afterwards. -/
def appendMove (h : Heap) (a s : CowString) : Heap × CowString × CowString :=
  match s with
  | dyn ds =>
    if stealGuard h a s then
      let h2 := shiftInto h a ds
      let newCodePoints :=
        if (a.isSmall || a.hasCachedCodePointsLitOrDyn) && ds.hasCachedCodePoints then
          (length h2 a).1 + (length h2 s).1
        else 0
      let oldUsage := a.bufferSize
      let own : Option Nat := a.heldBlock
      let d1 : TDynamicString :=
        (TDynamicString.mk ds.buffer ds.capacity (sub64 (oldUsage + ds.used) 1) 0).setCodePoints
          newCodePoints
      -- dyn().buffer() = std::move(s.dyn().buffer())
      let h3 := h2.reset own none
      (h3, dyn d1, initAsSmallStringEmpty ({ ds with buffer := none }.rawBytes h3))
    else append h a s
  | _ => append h a s

/-- Source: `String::append(String&& s)` called as `a.append(std::move(a))`. With `s`
and `this` the same object none of the three inner guards can hold, so the call ends
in `append(s)`; were they to hold, the object would end as `s.initAsSmallString()`
leaves it. -/
def appendMoveSelf (h : Heap) (a : CowString) : Heap × CowString :=
  if stealGuard h a a then ((appendMove h a a).1, (appendMove h a a).2.2)
  else appendSelf h a

/-- Source: `String::setCharAt`; `none` is the failed `assert(posPtr)`. -/
def setCharAt (h : Heap) (a : CowString) (idx : Nat) (c : Character) :
    Option (Heap × CowString) :=
  let used := a.bufferSize
  let bufferPtr := a.cString h
  match getCodePointInBufferAt bufferPtr (sub64 used 1) idx with
  | none => none
  | some offset =>
    let oldCharSize := byteLengthFromLeadingByte (load bufferPtr offset)
    let newCharSize := c.byteCount
    let requiredCap := (sub64 used oldCharSize + newCharSize) % 2 ^ 64
    let (h1, d1) := ensureOwnedCapacity h a requiredCap
    let tail := sub64 (sub64 used offset) oldCharSize
    let h2 :=
      if newCharSize > oldCharSize then
        h1.write d1.buffer fun v => memmove v (offset + newCharSize) (offset + oldCharSize) tail
      else h1
    let h3 := h2.write d1.buffer fun v => memcpy v offset c.bytes newCharSize
    let h4 :=
      if newCharSize < oldCharSize then
        h3.write d1.buffer fun v => memmove v (offset + newCharSize) (offset + oldCharSize) tail
      else h3
    some (h4, dyn d1)

/-- Source: `String::charAt`; `none` is the failed `assert(ptr)`. -/
def charAt (h : Heap) (s : CowString) (idx : Nat) : Option Character :=
  match getCodePointInBufferAt (s.cString h) (sub64 s.bufferSize 1) idx with
  | none => none
  | some off => some (Character.ofPtr (s.cString h) off)

/-- Source: `String::reserve`. -/
def reserve (h : Heap) (a : CowString) (numBytes : Nat) : Heap × CowString :=
  if decide (a.bufferCapacity < numBytes) || decide (a.mode h = Mode.Shared)
      || decide (a.mode h = Mode.Literal) then
    let (h1, d1) := ensureOwnedCapacity h a numBytes
    (h1, dyn d1)
  else (h, a)

/-- Source: `String::String()`. -/
def mkDefault : CowString := initAsSmallStringEmpty zeroData

/-- Source: `String::String(const char* s, std::optional<u64> knownLen)`; `s` is the
caller's memory from the pointer on. -/
def ofCString (h : Heap) (s : List Nat) (knownLen : Option Nat) : Heap × CowString :=
  let l := match knownLen with
    | some k => k
    | none => strlen s + 1
  if l ≤ TSmallCapacity then (h, initAsSmallString zeroData s l)
  else
    -- data.dyn.construct(); setMode(Mode::Owned)
    let (h1, d1) := ensureOwnedCapacity h (dyn ⟨none, 0, 0, 0⟩) l
    let h2 := h1.write d1.buffer fun v => memcpy v 0 s l
    (h2, (dyn { d1 with used := l }).resetCodePointsLitOrDyn)

/-- Source: `String::String(const char(&s)[N])`, with `N` the length of the array `s`. -/
def ofArray (s : List Nat) : CowString :=
  if s.length ≤ TSmallCapacity then initAsSmallString zeroData s s.length
  else initAsLiteralString s s.length

/-- Source: `String::String(const String& s)`. Returns the heap and the new String;
the argument is not written. -/
def copy (h : Heap) (s : CowString) : Heap × CowString :=
  match s with
  | small _ => (h, copySmallString s)
  | lit l => (h, lit l)
  | dyn d => (h.reset none d.buffer, dyn d)

/-- Source: `String::String(String&& s)`. Returns the heap, the new String and the
argument afterwards. -/
def move (h : Heap) (s : CowString) : Heap × CowString × CowString :=
  match s with
  | small _ => (h, copySmallString s, s)
  | lit _ => (h, small zeroData, s)
  | dyn d =>
    (h, dyn ((TDynamicString.mk d.buffer d.capacity d.used 0).setCodePoints d.getCodePoints),
      initAsSmallStringEmpty ({ d with buffer := none }.rawBytes h))

/-- Source: `String::~String`. -/
def destroy (h : Heap) (s : CowString) : Heap :=
  match s with
  | dyn d => h.reset d.buffer none
  | _ => h

end CowString

/-- A heap with no block, fresh storage filled with `0xCD`. -/
def Heap.empty : Heap := ⟨[], fun _ => 205, fun id => 4096 + 4096 * id⟩

end COWStrings

namespace COWStrings

/-! ## Predicates used to state the properties -/

/-- Source: `dyn().buffer().refCount()` of a String in the `dyn` view
(`SharedPtrBase::refCount`, 0 for the null pointer); 0 for the other views. -/
def CowString.bufferRefCount (h : Heap) : CowString → Nat
  | CowString.dyn d =>
    match d.buffer with
    | some id => h.refCount id
    | none => 0
  | _ => 0

/-- A byte sequence made of complete code points as the character helper sees them:
it splits into groups, each a leading byte `b` followed by exactly
`byteLengthFromLeadingByte b - 1` further bytes. Every well-formed UTF-8 string is of
this shape. -/
inductive Framed : List Nat → Prop
  | nil : Framed []
  | cons (b : Nat) (tail rest : List Nat) :
      tail.length + 1 = byteLengthFromLeadingByte b → Framed rest →
      Framed (b :: tail ++ rest)

/-- UTF-8 as a byte sequence: code points of one to four bytes, a leading byte of the
class `0xxxxxxx`, `110xxxxx`, `1110xxxx` or `11110xxx` followed by the continuation
bytes `10xxxxxx` of its class. (Well-formed UTF-8 further excludes overlong forms and
surrogates, so it is of this form.) -/
inductive Utf8 : List Nat → Prop
  | nil : Utf8 []
  | one (b : Nat) (rest : List Nat) : b < 128 → Utf8 rest → Utf8 (b :: rest)
  | two (b c1 : Nat) (rest : List Nat) : 192 ≤ b → b < 224 → 128 ≤ c1 → c1 < 192 →
      Utf8 rest → Utf8 (b :: c1 :: rest)
  | three (b c1 c2 : Nat) (rest : List Nat) : 224 ≤ b → b < 240 → 128 ≤ c1 → c1 < 192 →
      128 ≤ c2 → c2 < 192 → Utf8 rest → Utf8 (b :: c1 :: c2 :: rest)
  | four (b c1 c2 c3 : Nat) (rest : List Nat) : 240 ≤ b → b < 248 → 128 ≤ c1 → c1 < 192 →
      128 ≤ c2 → c2 < 192 → 128 ≤ c3 → c3 < 192 → Utf8 rest →
      Utf8 (b :: c1 :: c2 :: c3 :: rest)

/-- The bytes of a String in front of its terminator: the first `bufferSize() - 1`
bytes behind `cString()`. -/
def CowString.content (h : Heap) (s : CowString) : List Nat :=
  (s.cString h).take (s.bufferSize - 1)

/-- The value of the code-point cache (`getCodePoints()`), 0 for a Small String,
which has none. -/
def CowString.cachedCount : CowString → Nat
  | CowString.small _ => 0
  | CowString.lit l => l.getCodePoints
  | CowString.dyn d => d.getCodePoints

/-- Representation invariant of a String in a heap: at least the terminator is in use,
the used bytes lie inside the storage (32 inline bytes whose last one is a free-slot
count, the literal, or a live heap block as long as `capacity`), fewer than `2 ^ 62` of them, the last used byte is the
terminator and the bytes in front of it are complete code points. -/
structure Shape (h : Heap) (s : CowString) : Prop where
  used_pos : 1 ≤ s.bufferSize
  used_le : s.bufferSize ≤ (s.cString h).length
  used_bound : s.bufferSize ≤ 2 ^ 62
  terminated : load (s.cString h) (s.bufferSize - 1) = 0
  framed : Framed (s.content h)
  inl : ∀ b, s = CowString.small b → b.length = 32 ∧ load b 31 ≤ 32
  held : ∀ d, s = CowString.dyn d →
    ∃ id rc, d.buffer = some id ∧ h.get id = some ⟨rc, s.cString h⟩ ∧ 1 ≤ rc
      ∧ (s.cString h).length = d.capacity

/-- Cache validity (invariant I7): a cached count that is not 0 is the number of code
points `countCodePointsInBuffer` finds in the `bufferSize() - 1` bytes in front of the
terminator. -/
def CacheOk (h : Heap) (s : CowString) : Prop :=
  s.cachedCount ≠ 0 →
    s.cachedCount = countCodePointsInBuffer (s.cString h) (s.bufferSize - 1)

/-! ## Programs over Strings -/

/-- The Strings a program has constructed so far, with the heap they live in. -/
structure World where
  heap : Heap
  strs : List CowString

/-- A constructor, `length` or `append` call of the public interface; Strings are
named by their position in the world. `copy i` and `move i` construct a new String
from `strs[i]`, `length i` is `strs[i].length()` (which may fill the cache),
`append i j` is `strs[i].append(strs[j])` and `appendMove i j` is
`strs[i].append(std::move(strs[j]))`, which for `i = j` are the self-appends. -/
inductive Call where
  | default
  | ofCString (s : List Nat)
  | ofArray (s : List Nat)
  | copy (i : Nat)
  | move (i : Nat)
  | length (i : Nat)
  | appendChar (i : Nat) (c : Character)
  | appendCStr (i : Nat) (s : List Nat)
  | append (i j : Nat)
  | appendMove (i j : Nat)

/-- The world after a call. A call that names a String the world does not have is
not a call of the program and leaves the world alone. -/
def World.step (w : World) : Call → World
  | Call.default => ⟨w.heap, w.strs ++ [CowString.mkDefault]⟩
  | Call.ofCString s =>
    ⟨(CowString.ofCString w.heap s none).1, w.strs ++ [(CowString.ofCString w.heap s none).2]⟩
  | Call.ofArray s => ⟨w.heap, w.strs ++ [CowString.ofArray s]⟩
  | Call.copy i =>
    match w.strs[i]? with
    | some s => ⟨(CowString.copy w.heap s).1, w.strs ++ [(CowString.copy w.heap s).2]⟩
    | none => w
  | Call.move i =>
    match w.strs[i]? with
    | some s =>
      ⟨(CowString.move w.heap s).1,
        w.strs.set i (CowString.move w.heap s).2.2 ++ [(CowString.move w.heap s).2.1]⟩
    | none => w
  | Call.length i =>
    match w.strs[i]? with
    | some s => ⟨w.heap, w.strs.set i (CowString.length w.heap s).2⟩
    | none => w
  | Call.appendChar i c =>
    match w.strs[i]? with
    | some a =>
      ⟨(CowString.appendChar w.heap a c).1, w.strs.set i (CowString.appendChar w.heap a c).2⟩
    | none => w
  | Call.appendCStr i s =>
    match w.strs[i]? with
    | some a =>
      ⟨(CowString.appendCStr w.heap a s).1, w.strs.set i (CowString.appendCStr w.heap a s).2⟩
    | none => w
  | Call.append i j =>
    if i = j then
      match w.strs[i]? with
      | some a => ⟨(CowString.appendSelf w.heap a).1, w.strs.set i (CowString.appendSelf w.heap a).2⟩
      | none => w
    else
      match w.strs[i]?, w.strs[j]? with
      | some a, some s =>
        ⟨(CowString.append w.heap a s).1,
          (w.strs.set j (CowString.append w.heap a s).2.2).set i (CowString.append w.heap a s).2.1⟩
      | _, _ => w
  | Call.appendMove i j =>
    if i = j then
      match w.strs[i]? with
      | some a =>
        ⟨(CowString.appendMoveSelf w.heap a).1,
          w.strs.set i (CowString.appendMoveSelf w.heap a).2⟩
      | none => w
    else
      match w.strs[i]?, w.strs[j]? with
      | some a, some s =>
        ⟨(CowString.appendMove w.heap a s).1,
          (w.strs.set j (CowString.appendMove w.heap a s).2.2).set i
            (CowString.appendMove w.heap a s).2.1⟩
      | _, _ => w

/-- The inputs of a call are well-formed: a C string is NUL-free complete code points
followed by its terminator (and whatever lies behind it in the caller's memory), an
array is complete code points followed by its terminator. -/
def Call.Valid : Call → Prop
  | Call.ofCString s => ∃ b rest, s = b ++ 0 :: rest ∧ (∀ x ∈ b, x ≠ 0) ∧ Framed b
  | Call.ofArray s => ∃ b, s = b ++ [0] ∧ Framed b
  | Call.appendCStr _ s => ∃ b rest, s = b ++ 0 :: rest ∧ (∀ x ∈ b, x ≠ 0) ∧ Framed b
  | _ => True

/-- The String a call builds stays within `2 ^ 62` bytes, the range of the 62-bit
code-point cache: the bytes the call takes in, added to the bytes already in use. -/
def Call.Fits (w : World) : Call → Prop
  | Call.ofCString s => strlen s + 1 ≤ 2 ^ 62
  | Call.ofArray s => s.length ≤ 2 ^ 62
  | Call.appendChar i c => ∀ a, w.strs[i]? = some a → a.bufferSize + c.byteCount ≤ 2 ^ 62
  | Call.appendCStr i s => ∀ a, w.strs[i]? = some a → a.bufferSize + strlen s ≤ 2 ^ 62
  | Call.append i j => ∀ a s, w.strs[i]? = some a → w.strs[j]? = some s →
      a.bufferSize + (s.bufferSize - 1) ≤ 2 ^ 62
  | Call.appendMove i j => ∀ a s, w.strs[i]? = some a → w.strs[j]? = some s →
      a.bufferSize + (s.bufferSize - 1) ≤ 2 ^ 62
  | _ => True

/-- The worlds a program reaches: it starts without Strings in any heap and makes
calls with well-formed inputs that stay within `2 ^ 62` bytes. -/
inductive Reachable : World → Prop
  | init (h : Heap) : Reachable ⟨h, []⟩
  | step {w : World} (c : Call) : Reachable w → c.Valid → c.Fits w →
      Reachable (w.step c)

/-- Number of Strings of the world that hold heap block `id`. -/
def holders (strs : List CowString) (id : Nat) : Nat :=
  strs.countP fun s => decide (s.heldBlock = some id)

/-- Invariant of a world: every String satisfies the representation invariant and has
a valid cache, a block has at least as many references as Strings holding it, and
Strings holding one block agree on the bytes in use. -/
structure Consistent (w : World) : Prop where
  shape : ∀ (i : Nat) s, w.strs[i]? = some s → Shape w.heap s ∧ CacheOk w.heap s
  counted : ∀ id, holders w.strs id ≤ w.heap.refCount id
  agree : ∀ (i j : Nat) s t id, w.strs[i]? = some s → w.strs[j]? = some t →
    s.heldBlock = some id → t.heldBlock = some id → s.bufferSize = t.bufferSize

/-- What an operation on the String `a` does to the heap, `a'` being the String
afterwards: it leaves the heap alone and `a` on its block; or it writes in place into
the block of `a`, which nobody else references; or it moves `a` to a freshly allocated
block and releases the block held before. -/
def HeapStep (h : Heap) (a : CowString) (h' : Heap) (a' : CowString) : Prop :=
  (h' = h ∧ a'.heldBlock = a.heldBlock ∧ (a.heldBlock ≠ none → a'.bufferSize = a.bufferSize))
  ∨ (∃ id1 v3, a.heldBlock = some id1 ∧ a'.heldBlock = some id1 ∧ h.refCount id1 ≤ 1
      ∧ h'.get id1 = some ⟨1, v3⟩ ∧ ∀ j, j ≠ id1 → h'.get j = h.get j)
  ∨ (∃ v3, a'.heldBlock = some h.cells.length ∧ h'.get h.cells.length = some ⟨1, v3⟩
      ∧ ∀ j, j ≠ h.cells.length → h'.get j = (h.reset a.heldBlock none).get j)

/-- Example input: the C string of `é` followed by 38 `a`, 40 bytes and 39 code
points, with its terminator. -/
def demoSource : List Nat := 195 :: 169 :: List.replicate 38 97 ++ [0]

/-- Example program, step 1: `String s0(demoSource)`, a Dynamic/Owned String. -/
def demoWorld1 : World := (World.mk Heap.empty []).step (Call.ofCString demoSource)

/-- Example program, step 2: `String s1(s0)`, the two Strings share block 0. -/
def demoWorld2 : World := demoWorld1.step (Call.copy 0)

/-- Example program, step 3: `s1.length()` fills the cache of `s1`. -/
def demoWorld3 : World := demoWorld2.step (Call.length 1)

/-- Example program, step 4: `s0.append("b")` moves `s0` to a block of its own. -/
def demoWorld4 : World := demoWorld3.step (Call.appendCStr 0 [98, 0])

/-- Example program, step 5: `s0.length()` fills the cache of `s0`. -/
def demoWorld5 : World := demoWorld4.step (Call.length 0)

/-- Example program, step 6: `s0.append(s1)` adds the two cached counts and
reallocates. -/
def demoWorld : World := demoWorld5.step (Call.append 0 1)

/-- The String is Dynamic/Owned on a block of its own: `mode()` is `Owned` and the
block it holds has a reference count of exactly 1. -/
def OwnedUnique (h : Heap) (a : CowString) : Prop :=
  a.mode h = Mode.Owned ∧ a.bufferRefCount h = 1

/-- Example state: the pointer constructor on forty `a` (a Dynamic/Owned String on
block 0) followed by one copy construction; the heap and the copy. -/
def demoShared : Heap × CowString :=
  CowString.copy (CowString.ofCString Heap.empty (List.replicate 40 97 ++ [0]) none).1
    (CowString.ofCString Heap.empty (List.replicate 40 97 ++ [0]) none).2

/-- The bytes of block 0 in `demoShared`: the forty `a`, the terminator, and the
uninitialised rest of the 64 bytes. -/
def demoBytes : List Nat := List.replicate 40 97 ++ [0] ++ List.replicate 23 205

/-- The String `a` is Dynamic/Shared on block `id`: the block is live, holds the bytes
`v` and has a reference count of at least 2. -/
def SharedAt (h : Heap) (id : Nat) (v : List Nat) (a : CowString) : Prop :=
  ∃ d rc, a = CowString.dyn d ∧ d.buffer = some id ∧ h.get id = some ⟨rc, v⟩ ∧ 2 ≤ rc

/-- The String `a` has left block `id`: it is Dynamic on another block, which is live
with reference count 1, while block `id` is still live and holds the bytes `v`. -/
def MovedOff (id : Nat) (v : List Nat) (h : Heap) (a : CowString) : Prop :=
  ∃ d new cnew rc, a = CowString.dyn d ∧ d.buffer = some new ∧ new ≠ id
    ∧ h.get new = some cnew ∧ cnew.refCounter = 1 ∧ h.get id = some ⟨rc, v⟩ ∧ 1 ≤ rc

/-! ## Example Strings -/

/-- Example: `String s("abc")`, a Small String in the empty heap. -/
def demoAbc : CowString := (CowString.ofCString Heap.empty [97, 98, 99, 0] none).2

/-- Example: the Character `ä`, decoded from its UTF-8 bytes `C3 A4`. -/
def demoUml : Character := Character.ofPtr [195, 164, 0] 0

/-- Example: the array of `é` followed by 98 `a` and the terminator, 101 bytes. -/
def demoLongSource : List Nat := 195 :: 169 :: List.replicate 98 97 ++ [0]

/-- Example: `String s = "éaa…a"` through the array constructor, a Literal String with
101 bytes in use. -/
def demoLiteral : CowString := CowString.ofArray demoLongSource

/-- Example: `String s("aaaaaaaaaaaaaaaaaaaa")`, a Small String of 20 characters. -/
def demoTwenty : CowString :=
  (CowString.ofCString Heap.empty (List.replicate 20 97 ++ [0]) none).2

/-! ## Observing the Strings of a world -/

/-- The bytes in front of the terminator of the String at position `i` of a world:
the first `bufferSize() - 1` bytes behind `cString()`; `none` if the world has no such
String. -/
def World.contentAt (w : World) (i : Nat) : Option (List Nat) :=
  (w.strs[i]?).map fun s => s.content w.heap

/-- The contents of `cString()` of the String at position `i` of a world, read as a
C string: the bytes up to the first 0. -/
def World.textAt (w : World) (i : Nat) : Option (List Nat) :=
  (w.strs[i]?).map fun s => (s.cString w.heap).takeWhile fun x => x != 0

/-- The program `a.append(b); a.append(c);` on the Strings at positions `i`, `j`, `k`. -/
def assocLeft (w : World) (i j k : Nat) : World :=
  (w.step (Call.append i j)).step (Call.append i k)

/-- The program `String a2(a); b.append(c); a2.append(b);` on the Strings at positions
`i`, `j`, `k`; the clone `a2` is the String at position `w.strs.length`. -/
def assocRight (w : World) (i j k : Nat) : World :=
  ((w.step (Call.copy i)).step (Call.append j k)).step (Call.append w.strs.length j)

/-- Example world: `String a; a.append("aaa…a")` (30 characters, so `a` is Small with
31 bytes in use), `String b("x")`, `String c("y")`, at positions 0, 1 and 2. -/
def demoAssoc : World :=
  ((((World.mk Heap.empty []).step Call.default).step
    (Call.appendCStr 0 (List.replicate 30 97 ++ [0]))).step
      (Call.ofCString [120, 0])).step (Call.ofCString [121, 0])

/-! ## UTF-8 and code-point positions, as the properties name them -/

/-- A Unicode scalar value: a code point below `0x110000` that is no surrogate. -/
def IsScalar (cp : Nat) : Prop := cp < 0x110000 ∧ ¬ (0xD800 ≤ cp ∧ cp < 0xE000)

instance (cp : Nat) : Decidable (IsScalar cp) := by
  unfold IsScalar
  infer_instance

/-- The well-formed UTF-8 encoding of one Unicode scalar value (one to four bytes). -/
def utf8Encode (cp : Nat) : List Nat :=
  if cp < 0x80 then [cp]
  else if cp < 0x800 then [0xC0 + cp / 64, 0x80 + cp % 64]
  else if cp < 0x10000 then [0xE0 + cp / 4096, 0x80 + cp / 64 % 64, 0x80 + cp % 64]
  else [0xF0 + cp / 262144, 0x80 + cp / 4096 % 64, 0x80 + cp / 64 % 64, 0x80 + cp % 64]

/-- The well-formed UTF-8 encoding of a list of Unicode scalar values. -/
def utf8EncodeAll : List Nat → List Nat
  | [] => []
  | cp :: cs => utf8Encode cp ++ utf8EncodeAll cs

/-- The offset reached from the start of a buffer after `k` code points when every
code point is as long as its leading byte says: the sum of the leading-byte lengths of
the first `k` code points. -/
def walk (mem : List Nat) : Nat → Nat
  | 0 => 0
  | k + 1 => walk mem k + byteLengthFromLeadingByte (load mem (walk mem k))

/-! ## Strings of arbitrary bytes -/

/-- Representation invariant of a String in a heap without a condition on the text: at
least the terminator is in use, the used bytes lie inside the storage, the last used
byte is the terminator, the storage of a Small String is its 32 inline bytes, the last
one a free-slot count, and the storage of a Dynamic String is a live heap block as long
as `capacity`. -/
structure Stored (h : Heap) (s : CowString) : Prop where
  nonempty : 1 ≤ s.bufferSize
  inside : s.bufferSize ≤ (s.cString h).length
  closed : load (s.cString h) (s.bufferSize - 1) = 0
  inline32 : s.isSmall = true → (s.cString h).length = 32 ∧ load (s.cString h) 31 ≤ 31
  block : ∀ id, s.heldBlock = some id →
    ∃ rc, h.get id = some ⟨rc, s.cString h⟩ ∧ 1 ≤ rc
      ∧ (s.cString h).length = s.bufferCapacity

/-- Outcome `r` (heap and String) of appending the bytes `b` to the String `a` of heap
`h`: `bufferSize()` grew by the length of `b`, the used bytes behind `cString()` are the
old bytes in front of the terminator, then `b`, then the terminator, and the C string
behind `cString()` is the old bytes followed by `b`. -/
def Appended (h : Heap) (a : CowString) (b : List Nat) (r : Heap × CowString) : Prop :=
  r.2.bufferSize = a.bufferSize + b.length
  ∧ (r.2.cString r.1).take r.2.bufferSize = a.content h ++ b ++ [0]
  ∧ (r.2.cString r.1).takeWhile (fun x => x != 0) = a.content h ++ b

/-! ## The code-point field as a 64-bit word -/

/-- Source: `StringDataInterface::setCodePoints`, the value of the `u64` field
`codePoints` afterwards; `~mask` is taken in 64 bits. -/
def rawSetCodePoints (codePoints v : Nat) : Nat :=
  let mask := (3 <<< 62) % 2 ^ 64
  let topbits := codePoints &&& mask
  (v &&& (2 ^ 64 - 1 - mask)) ||| topbits

/-- Source: `StringDataInterface::getCodePoints`, on the `u64` field `codePoints`. -/
def rawGetCodePoints (codePoints : Nat) : Nat :=
  codePoints &&& (2 ^ 64 - 1 - (3 <<< 62) % 2 ^ 64)

/-- Source: `data.bytes[TSmallCapacity - 1] & 0xC0` of `String::isSmall`, `isDynamic` and
`isLiteral`, for an object whose field `codePoints`, the last eight bytes of the
object in memory order, holds `field`. -/
def modeBits (field : Nat) : Nat := load (le64 field) 7 &&& 0xC0

/-- The field `codePoints` of a String in the `lit` or `dyn` view as a 64-bit word:
the 62 bits of the model's field under the mode bits `01` or `10`; 0 for the Small
view, which has no such field. -/
def CowString.codePointsField : CowString → Nat
  | CowString.small _ => 0
  | CowString.lit l => l.codePoints % 2 ^ 62 + 2 ^ 62
  | CowString.dyn d => d.codePoints % 2 ^ 62 + 2 ^ 63

/-- Source: `String::initAsSmallString(const u8* ptr, u64 len)`: the indices of
`data.bytes` the call writes, in order: the `len` bytes of `memcpy`, the free-slot
count at `TSmallCapacity - 1`, the terminator store `data.bytes[len]`, and the `&=` of
`setMode` at `TSmallCapacity - 1`. -/
def initAsSmallStringWrites (len : Nat) : List Nat :=
  List.range len ++ [TSmallCapacity - 1, len, TSmallCapacity - 1]

/-- Example program for `append(String&&)`: `String s0(demoSource); String s1("abc");`,
a Dynamic/Owned String of 41 bytes with capacity 64 and a Small String. -/
def demoMove : World := demoWorld1.step (Call.ofCString [97, 98, 99, 0])

/-- Example heap: no block allocated yet, fresh storage filled with `0xCD`, blocks at
addresses from `0x55D5C8A3B2C0` on, as the heap of a 64-bit process has them. -/
def demoHigh : Heap := ⟨[], fun _ => 205, fun id => 0x55D5C8A3B2C0 + 4096 * id⟩

end COWStrings

namespace COWStrings

/-! ## Lemmas on raw memory -/

theorem sub64_of_le {a b : Nat} (h : b ≤ a) : sub64 a b = a - b := by
  simp [sub64, h]

theorem load_eq (m : List Nat) (i : Nat) : load m i = m[i]?.getD 0 := by
  simp [load, List.getD_eq_getElem?_getD]

theorem length_store (m : List Nat) (i v : Nat) : (store m i v).length = m.length := by
  simp [store]

theorem getElem?_store (m : List Nat) (i v j : Nat) :
    (store m i v)[j]? = if i = j then (if i < m.length then some v else none) else m[j]? := by
  simp [store, List.getElem?_set]

theorem store_of_length_le {m : List Nat} {i : Nat} (v : Nat) (h : m.length ≤ i) :
    store m i v = m := by
  simp [store, List.set_eq_of_length_le h]

theorem length_memcpy (dst : List Nat) (off : Nat) (src : List Nat) (n : Nat) :
    (memcpy dst off src n).length = dst.length := by
  simp only [memcpy, List.length_take, List.length_append, List.length_drop]
  omega

theorem getElem?_memcpy (dst : List Nat) (off : Nat) (src : List Nat) (n j : Nat) :
    (memcpy dst off src n)[j]? =
      if j < dst.length then
        (if off ≤ j ∧ j < off + min n src.length then src[j - off]? else dst[j]?)
      else none := by
  unfold memcpy
  rw [List.getElem?_take]
  by_cases hj : j < dst.length
  · rw [if_pos hj, if_pos hj, List.append_assoc, List.getElem?_append, List.getElem?_append]
    simp only [List.length_take, List.getElem?_take, List.getElem?_drop]
    by_cases h1 : j < off
    · have h2 : ¬ (off ≤ j ∧ j < off + min n src.length) := by omega
      have h3 : j < min off dst.length := by omega
      rw [if_pos h3, if_pos h1, if_neg h2]
    · have h3 : ¬ j < min off dst.length := by omega
      have hmin : min off dst.length = off := by omega
      rw [if_neg h3, hmin]
      by_cases h4 : j - off < min n src.length
      · have h5 : off ≤ j ∧ j < off + min n src.length := by omega
        have h6 : j - off < n := by omega
        rw [if_pos h4, if_pos h6, if_pos h5]
      · have h5 : ¬ (off ≤ j ∧ j < off + min n src.length) := by omega
        rw [if_neg h4, if_neg h5]
        congr 1
        omega
  · rw [if_neg hj, if_neg hj]

theorem take_eq_of_getElem? {m l : List Nat} {n : Nat} (hl : l.length = n)
    (h : ∀ j, j < n → m[j]? = l[j]?) : m.take n = l := by
  apply List.ext_getElem?
  intro j
  rw [List.getElem?_take]
  by_cases hj : j < n
  · simp [hj, h j hj]
  · simp only [hj, if_false]
    symm
    apply List.getElem?_eq_none
    omega

theorem strlen_append_zero (b rest : List Nat) (hb : ∀ x ∈ b, x ≠ 0) :
    strlen (b ++ 0 :: rest) = b.length := by
  unfold strlen
  rw [List.takeWhile_append_of_pos]
  · simp
  · intro a ha
    simpa using hb a ha

end COWStrings

namespace COWStrings

/-! ## Lemmas on the heap -/

theorem Heap.get_eq (h : Heap) (id : Nat) : h.get id = h.cells[id]?.getD none := by
  simp [Heap.get, List.getD_eq_getElem?_getD]

theorem Heap.get_of_length_le {h : Heap} {id : Nat} (hid : h.cells.length ≤ id) :
    h.get id = none := by
  rw [Heap.get_eq, List.getElem?_eq_none hid]
  rfl

theorem Heap.lt_length_of_get {h : Heap} {id : Nat} {c : Shared} (hc : h.get id = some c) :
    id < h.cells.length := by
  by_contra hlt
  rw [Heap.get_of_length_le (by omega)] at hc
  cases hc

theorem Heap.get_set (h : Heap) (id : Nat) (x : Option Shared) (j : Nat) :
    Heap.get { h with cells := h.cells.set id x } j =
      if j = id ∧ id < h.cells.length then x else h.get j := by
  simp only [Heap.get_eq, List.getElem?_set]
  by_cases hji : j = id
  · subst hji
    by_cases hlt : j < h.cells.length
    · simp [hlt]
    · simp [hlt, List.getElem?_eq_none (Nat.le_of_not_lt hlt)]
  · have : ¬ id = j := fun e => hji e.symm
    simp [hji, this]

theorem Heap.make_snd (h : Heap) (n : Nat) : (h.make n).2 = h.cells.length := rfl

theorem Heap.get_make (h : Heap) (n j : Nat) :
    (h.make n).1.get j =
      if j = h.cells.length then some ⟨0, (List.range n).map h.junk⟩ else h.get j := by
  simp only [Heap.make, Heap.get_eq, List.getElem?_append]
  by_cases hj : j < h.cells.length
  · have : j ≠ h.cells.length := by omega
    simp [hj, this]
  · by_cases hje : j = h.cells.length
    · subst hje
      simp
    · have h1 : 0 < j - h.cells.length := by omega
      have h2 : h.cells.length ≤ j := by omega
      simp only [hj, hje, if_false, List.getElem?_eq_none h2]
      rw [List.getElem?_eq_none]
      simp
      omega

theorem Heap.get_ref (h : Heap) (id j : Nat) :
    (h.ref id).get j =
      if j = id then (h.get id).map fun c => { c with refCounter := c.refCounter + 1 }
      else h.get j := by
  unfold Heap.ref
  cases hc : h.get id with
  | none =>
    by_cases hji : j = id
    · subst hji
      simp [hc]
    · simp [hji]
  | some c =>
    simp only [Heap.get_set]
    have := Heap.lt_length_of_get hc
    by_cases hji : j = id
    · subst hji
      simp [this]
    · simp [hji]

theorem Heap.get_unref (h : Heap) (id j : Nat) :
    (h.unref id).get j =
      if j = id then
        (h.get id).bind fun c =>
          if c.refCounter - 1 = 0 then none
          else some { c with refCounter := c.refCounter - 1 }
      else h.get j := by
  unfold Heap.unref
  cases hc : h.get id with
  | none =>
    by_cases hji : j = id
    · subst hji
      simp [hc]
    · simp [hji]
  | some c =>
    have := Heap.lt_length_of_get hc
    by_cases hz : c.refCounter - 1 = 0
    · simp only [hz, if_true, Heap.get_set]
      by_cases hji : j = id
      · subst hji
        simp [this, hz]
      · simp [hji]
    · simp only [hz, if_false, Heap.get_set]
      by_cases hji : j = id
      · subst hji
        simp [this, hz]
      · simp [hji]

theorem Heap.get_write (h : Heap) (id : Nat) (f : List Nat → List Nat) (j : Nat) :
    (h.write (some id) f).get j =
      if j = id then (h.get id).map fun c => { c with value := f c.value }
      else h.get j := by
  cases hc : h.get id with
  | none =>
    simp only [Heap.write, hc]
    by_cases hji : j = id
    · subst hji
      simp [hc]
    · simp [hji]
  | some c =>
    simp only [Heap.write, hc, Heap.get_set]
    have := Heap.lt_length_of_get hc
    by_cases hji : j = id
    · subst hji
      simp [this]
    · simp [hji]

theorem Heap.write_none (h : Heap) (f : List Nat → List Nat) : h.write none f = h := rfl

end COWStrings

namespace COWStrings
open CowString

theorem initAsSmallString_take (h : Heap) (s : List Nat) (l : Nat) (hl : l ≤ 32)
    (hs : l ≤ s.length) (hz : s[l - 1]? = some 0) (hl1 : 1 ≤ l) :
    ((initAsSmallString zeroData s l).cString h).take l = s.take l := by
  apply take_eq_of_getElem?
  · simp; omega
  · intro j hj
    have hmin : min l s.length = l := by omega
    have hj32 : j < 32 := by omega
    simp only [initAsSmallString, cString, TSmallCapacity, getElem?_store, length_store,
      length_memcpy, zeroData, List.length_replicate, getElem?_memcpy, load_eq, hmin,
      List.getElem?_take, hj, if_true]
    by_cases h31 : j = 31
    · subst h31
      have hl32 : l = 32 := by omega
      subst hl32
      simp at hz
      simp [hz]
    · have h1 : ¬ (32 - 1 = j) := by omega
      have h2 : ¬ (l = j) := by omega
      simp [h1, h2, hj32, hj]

end COWStrings

namespace COWStrings
open CowString

theorem Heap.data_eq (h : Heap) (id : Nat) : h.data id = ((h.get id).map Shared.value).getD [] := by
  unfold Heap.data
  cases h.get id <;> rfl

theorem Heap.refCount_eq (h : Heap) (id : Nat) :
    h.refCount id = ((h.get id).map Shared.refCounter).getD 0 := by
  unfold Heap.refCount
  cases h.get id <;> rfl

theorem ofCString_large (h : Heap) (s : List Nat) (hl : 32 < strlen s + 1) :
    (ofCString h s none).2
        = dyn ⟨some h.cells.length, max (strlen s + 1) 64, strlen s + 1, 0⟩ ∧
      ∀ j, (ofCString h s none).1.get j =
        if j = h.cells.length then
          some ⟨1, memcpy ((List.range (max (strlen s + 1) 64)).map h.junk) 0 s (strlen s + 1)⟩
        else h.get j := by
  have h1 : ¬ (strlen s + 1 ≤ 32) := by omega
  have h2 : ¬ (strlen s + 1 = 0) := by omega
  constructor
  · simp [ofCString, TSmallCapacity, h1, ensureOwnedCapacity, bufferCapacity, isShared, h2,
      Heap.make_snd, resetCodePointsLitOrDyn, TDynamicString.setCodePoints]
  · intro j
    simp only [ofCString, TSmallCapacity, h1, ensureOwnedCapacity, bufferCapacity, isShared, h2,
      Heap.make_snd, Heap.reset, Heap.get_write, Heap.get_ref, Heap.get_make, if_false]
    by_cases hj : j = h.cells.length
    · simp [hj, Heap.get_write, Heap.get_ref, Heap.get_make]
    · simp [hj, Heap.get_write, Heap.get_ref, Heap.get_make]

end COWStrings

namespace COWStrings
open CowString

theorem takeWhile_of_take_eq (m b : List Nat) (hb : ∀ x ∈ b, x ≠ 0)
    (hm : m.take (b.length + 1) = b ++ [0]) : (m.takeWhile fun x => x != 0) = b := by
  have hsplit : m = (b ++ [0]) ++ m.drop (b.length + 1) := by
    rw [← hm, List.take_append_drop]
  rw [hsplit, List.append_assoc, List.takeWhile_append_of_pos]
  · simp
  · intro a ha
    simpa using hb a ha

theorem take_cstr (b rest : List Nat) :
    (b ++ 0 :: rest).take (b.length + 1) = b ++ [0] := by
  have : b ++ 0 :: rest = (b ++ [0]) ++ rest := by simp
  rw [this, List.take_left']
  simp

theorem ofCString_take (h : Heap) (b rest : List Nat) (hb : ∀ x ∈ b, x ≠ 0) :
    ((ofCString h (b ++ 0 :: rest) none).2.cString (ofCString h (b ++ 0 :: rest) none).1).take
      (b.length + 1) = b ++ [0] := by
  have hlen := strlen_append_zero b rest hb
  by_cases hl : b.length + 1 ≤ 32
  · have : ofCString h (b ++ 0 :: rest) none
        = (h, initAsSmallString zeroData (b ++ 0 :: rest) (b.length + 1)) := by
      simp [ofCString, hlen, TSmallCapacity, hl]
    rw [this]
    simp only
    rw [initAsSmallString_take h _ _ hl (by simp) (by rw [Nat.add_sub_cancel, List.getElem?_append_right (le_refl _)]; simp) (by omega), take_cstr]
  · have hl2 : 32 < strlen (b ++ 0 :: rest) + 1 := by omega
    obtain ⟨h1, h2⟩ := ofCString_large h (b ++ 0 :: rest) hl2
    rw [h1]
    simp only [cString, Heap.data_eq, h2, if_true, Option.map_some', Option.getD_some, hlen]
    rw [← take_cstr b rest]
    apply take_eq_of_getElem?
    · simp
    · intro j hj
      rw [getElem?_memcpy]
      simp only [List.length_map, List.length_range, List.length_append, List.length_cons,
        List.getElem?_take, hj, if_true]
      have h3 : j < max (b.length + 1) 64 := by omega
      have h4 : 0 ≤ j ∧ j < 0 + min (b.length + 1) (b.length + (rest.length + 1)) := by omega
      rw [if_pos h3, if_pos h4]
      simp

end COWStrings

namespace COWStrings
open CowString

/-- C1 (round trip). For every heap and every NUL-free byte sequence `b`, the String
built by the pointer constructor from the C string `b`, its terminator and whatever
follows it in the caller's memory has `b` followed by one `0` as the first
`|b| + 1` bytes behind `cString()`; read as a C string, `cString()` is exactly `b`.
Both the inline path (`|b| + 1 ≤ 32`) and the heap path are covered. -/
theorem C1_round_trip (h : Heap) (b rest : List Nat) (hb : ∀ x ∈ b, x ≠ 0) :
    ((ofCString h (b ++ 0 :: rest) none).2.cString (ofCString h (b ++ 0 :: rest) none).1).take
        (b.length + 1) = b ++ [0]
    ∧ (((ofCString h (b ++ 0 :: rest) none).2.cString
          (ofCString h (b ++ 0 :: rest) none).1).takeWhile fun x => x != 0) = b :=
  ⟨ofCString_take h b rest hb,
    takeWhile_of_take_eq _ b hb (ofCString_take h b rest hb)⟩

/-- Witness of C1 on the C string "hi" in an empty heap. -/
theorem C1_round_trip_witness :
    (∀ x ∈ [104, 105], x ≠ 0)
    ∧ ((ofCString Heap.empty ([104, 105] ++ 0 :: []) none).2.cString
          (ofCString Heap.empty ([104, 105] ++ 0 :: []) none).1).take
        (([104, 105] : List Nat).length + 1) = [104, 105] ++ [0]
    ∧ (((ofCString Heap.empty ([104, 105] ++ 0 :: []) none).2.cString
          (ofCString Heap.empty ([104, 105] ++ 0 :: []) none).1).takeWhile fun x => x != 0)
        = [104, 105] :=
  ⟨by decide, C1_round_trip Heap.empty [104, 105] [] (by decide)⟩

end COWStrings

namespace COWStrings
open CowString

/-- C5: the pointer constructor on a C string of 30 characters (31 bytes with the
terminator) yields a Small String whose `bufferSize()` is 32, not 31: the store
`data.bytes[len] = 0` of `initAsSmallString` lands on the discriminator byte. -/
theorem C5_pointer_ctor_31_bytes :
    (ofCString Heap.empty (List.replicate 30 97 ++ [0]) none).2.bufferSize = 32
    ∧ (ofCString Heap.empty (List.replicate 30 97 ++ [0]) none).2.isSmall = true
    ∧ strlen (List.replicate 30 97 ++ [0]) + 1 = 31 := by
  decide

/-- C6: the pointer constructor on 30 ASCII characters (30 code points) yields a String
whose `length()` is 31: `bufferSize()` is 32, so the terminator is counted as well. -/
theorem C6_length_of_30_chars :
    (length (ofCString Heap.empty (List.replicate 30 97 ++ [0]) none).1
      (ofCString Heap.empty (List.replicate 30 97 ++ [0]) none).2).1 = 31
    ∧ countCodePointsInBuffer (List.replicate 30 97) 30 = 30 := by
  decide

/-- C7: the array constructor on an array of 31 bytes (30 characters and the
terminator) yields a Small String whose `bufferSize()` is 32, not 31. -/
theorem C7_array_ctor_31_bytes :
    (ofArray (List.replicate 30 97 ++ [0])).bufferSize = 32
    ∧ (ofArray (List.replicate 30 97 ++ [0])).isSmall = true
    ∧ (List.replicate 30 97 ++ [0]).length = 31 := by
  decide

/-- C8: a default String grown to 31 used bytes by `append(const char*)` has
`bufferSize()` 31 and `length()` 30; its copy has `bufferSize()` 32 and `length()` 31. -/
theorem C8_copy_of_31_byte_small :
    (appendCStr Heap.empty mkDefault (List.replicate 30 97 ++ [0])).2.bufferSize = 31
    ∧ (copy (appendCStr Heap.empty mkDefault (List.replicate 30 97 ++ [0])).1
        (appendCStr Heap.empty mkDefault (List.replicate 30 97 ++ [0])).2).2.bufferSize = 32
    ∧ (length (appendCStr Heap.empty mkDefault (List.replicate 30 97 ++ [0])).1
        (appendCStr Heap.empty mkDefault (List.replicate 30 97 ++ [0])).2).1 = 30
    ∧ (length (copy (appendCStr Heap.empty mkDefault (List.replicate 30 97 ++ [0])).1
          (appendCStr Heap.empty mkDefault (List.replicate 30 97 ++ [0])).2).1
        (copy (appendCStr Heap.empty mkDefault (List.replicate 30 97 ++ [0])).1
          (appendCStr Heap.empty mkDefault (List.replicate 30 97 ++ [0])).2).2).1 = 31 := by
  decide

end COWStrings

namespace COWStrings
open CowString

theorem mode_dyn (h : Heap) (d : TDynamicString) :
    (dyn d).mode h = if (dyn d).isShared h then Mode.Shared else Mode.Owned := by
  simp [mode, isSmall, isLiteral]

theorem isShared_dyn (h : Heap) (d : TDynamicString) (id : Nat) (hb : d.buffer = some id) :
    (dyn d).isShared h = decide (h.refCount id > 1) := by
  simp [isShared, hb]

/-- C9 (copy construction and mode). Copying a Small String gives a Small String and
copying a Literal String gives a Literal String of capacity 0, the heap untouched.
Copying a Dynamic String that holds a live block (reference count at least 1) leaves
source and copy Dynamic/Shared with the capacity and used bytes of the source, and the
reference count of the block has grown by exactly one. -/
theorem C9_copy_mode (h : Heap) :
    (∀ b, (copy h (small b)).2.isSmall = true ∧ (copy h (small b)).1.cells = h.cells)
    ∧ (∀ l, (copy h (lit l)).2.mode (copy h (lit l)).1 = Mode.Literal
        ∧ (copy h (lit l)).2.bufferCapacity = 0
        ∧ (copy h (lit l)).2.bufferSize = (lit l).bufferSize
        ∧ (copy h (lit l)).1.cells = h.cells)
    ∧ (∀ d id c, d.buffer = some id → h.get id = some c → 1 ≤ c.refCounter →
        (copy h (dyn d)).2.mode (copy h (dyn d)).1 = Mode.Shared
        ∧ (dyn d).mode (copy h (dyn d)).1 = Mode.Shared
        ∧ (copy h (dyn d)).2.bufferCapacity = (dyn d).bufferCapacity
        ∧ (copy h (dyn d)).2.bufferSize = (dyn d).bufferSize
        ∧ (copy h (dyn d)).1.refCount id = h.refCount id + 1) := by
  refine ⟨?_, ?_, ?_⟩
  · intro b
    simp [copy, copySmallString, initAsSmallString, isSmall]
  · intro l
    simp [copy, mode, isSmall, isLiteral, bufferCapacity]
  · intro d id c hb hg hrc
    have hcnt : (h.reset none (some id)).refCount id = h.refCount id + 1 := by
      simp [Heap.reset, Heap.refCount_eq, Heap.get_ref, hg]
    have hcnt2 : h.refCount id = c.refCounter := by
      simp [Heap.refCount_eq, hg]
    have hsh : (dyn d).isShared (h.reset none (some id)) = true := by
      rw [isShared_dyn _ _ _ hb, hcnt, hcnt2]
      simp
      omega
    have hc : copy h (dyn d) = (h.reset none (some id), dyn d) := by
      simp [copy, hb]
    rw [hc]
    refine ⟨?_, ?_, rfl, rfl, hcnt⟩
    · rw [mode_dyn, hsh]; rfl
    · rw [mode_dyn, hsh]; rfl

/-- Witness of C9: a Dynamic/Owned String holding the two bytes "h\0" in block 0. -/
theorem C9_copy_mode_witness :
    (⟨some 0, 64, 2, 0⟩ : TDynamicString).buffer = some 0
    ∧ (⟨[some ⟨1, [104, 0]⟩], fun _ => 205, fun _ => 4096⟩ : Heap).get 0 = some ⟨1, [104, 0]⟩
    ∧ 1 ≤ (⟨1, [104, 0]⟩ : Shared).refCounter
    ∧ (copy ⟨[some ⟨1, [104, 0]⟩], fun _ => 205, fun _ => 4096⟩ (dyn ⟨some 0, 64, 2, 0⟩)).2.mode
        (copy ⟨[some ⟨1, [104, 0]⟩], fun _ => 205, fun _ => 4096⟩ (dyn ⟨some 0, 64, 2, 0⟩)).1
        = Mode.Shared :=
  ⟨rfl, rfl, by decide,
    ((C9_copy_mode ⟨[some ⟨1, [104, 0]⟩], fun _ => 205, fun _ => 4096⟩).2.2
      ⟨some 0, 64, 2, 0⟩ 0 ⟨1, [104, 0]⟩ rfl rfl (by decide)).1⟩

/-- C10 (owned to shared and back). For a Dynamic/Owned String (its block is live with
reference count 1), copy-constructing a second String and destroying that copy leaves
the block as it was (not freed, same bytes, reference count 1), so the String is
Dynamic/Owned again with `bufferSize()`, `bufferCapacity()` and `cString()` unchanged;
in between both Strings were Shared. -/
theorem C10_owned_shared_owned (h : Heap) (d : TDynamicString) (id : Nat) (c : Shared)
    (hb : d.buffer = some id) (hg : h.get id = some c) (hrc : c.refCounter = 1) :
    (dyn d).mode h = Mode.Owned
    ∧ (dyn d).mode (copy h (dyn d)).1 = Mode.Shared
    ∧ (destroy (copy h (dyn d)).1 (copy h (dyn d)).2).get id = some c
    ∧ (dyn d).mode (destroy (copy h (dyn d)).1 (copy h (dyn d)).2) = Mode.Owned
    ∧ (destroy (copy h (dyn d)).1 (copy h (dyn d)).2).refCount id = 1
    ∧ (dyn d).cString (destroy (copy h (dyn d)).1 (copy h (dyn d)).2) = (dyn d).cString h := by
  have hget : (destroy (copy h (dyn d)).1 (copy h (dyn d)).2).get id = some c := by
    simp only [copy, destroy, hb, Heap.reset, Heap.get_unref, Heap.get_ref, hg, if_true,
      Option.map_some', Option.bind_some, hrc]
    cases c
    simp_all
  have hcnt : (destroy (copy h (dyn d)).1 (copy h (dyn d)).2).refCount id = 1 := by
    rw [Heap.refCount_eq, hget]
    simpa using hrc
  have hcnt0 : h.refCount id = 1 := by
    rw [Heap.refCount_eq, hg]
    simpa using hrc
  have hcnt1 : (copy h (dyn d)).1.refCount id = 2 := by
    simp [copy, hb, Heap.reset, Heap.refCount_eq, Heap.get_ref, hg, hrc]
  refine ⟨?_, ?_, hget, ?_, hcnt, ?_⟩
  · rw [mode_dyn, isShared_dyn _ _ _ hb, hcnt0]; rfl
  · rw [mode_dyn, isShared_dyn _ _ _ hb, hcnt1]; rfl
  · rw [mode_dyn, isShared_dyn _ _ _ hb, hcnt]; rfl
  · simp [cString, hb, Heap.data_eq, hget, hg]

/-- Witness of C10: a Dynamic/Owned String holding the two bytes "h\0" in block 0. -/
theorem C10_owned_shared_owned_witness :
    (⟨some 0, 64, 2, 0⟩ : TDynamicString).buffer = some 0
    ∧ (⟨[some ⟨1, [104, 0]⟩], fun _ => 205, fun _ => 4096⟩ : Heap).get 0 = some ⟨1, [104, 0]⟩
    ∧ (⟨1, [104, 0]⟩ : Shared).refCounter = 1
    ∧ (dyn ⟨some 0, 64, 2, 0⟩).mode
        (destroy
          (copy ⟨[some ⟨1, [104, 0]⟩], fun _ => 205, fun _ => 4096⟩ (dyn ⟨some 0, 64, 2, 0⟩)).1
          (copy ⟨[some ⟨1, [104, 0]⟩], fun _ => 205, fun _ => 4096⟩ (dyn ⟨some 0, 64, 2, 0⟩)).2)
        = Mode.Owned :=
  ⟨rfl, rfl, rfl,
    (C10_owned_shared_owned ⟨[some ⟨1, [104, 0]⟩], fun _ => 205, fun _ => 4096⟩
      ⟨some 0, 64, 2, 0⟩ 0 ⟨1, [104, 0]⟩ rfl rfl rfl).2.2.2.1⟩

end COWStrings

namespace COWStrings
open CowString

/-! ## Copy on write: leaving a shared block -/

theorem MovedOff.write {id : Nat} {v : List Nat} {h : Heap} {d : TDynamicString}
    (hm : MovedOff id v h (dyn d)) (f : List Nat → List Nat) :
    MovedOff id v (h.write d.buffer f) (dyn d) := by
  obtain ⟨d', new, cnew, rc, ha, hb, hne, hg, hc, hid, hrc⟩ := hm
  cases ha
  refine ⟨d, new, ⟨cnew.refCounter, f cnew.value⟩, rc, rfl, hb, hne, ?_, hc, ?_, hrc⟩
  · rw [hb, Heap.get_write, if_pos rfl, hg]; rfl
  · rw [hb, Heap.get_write, if_neg (fun e => hne e.symm), hid]

theorem MovedOff.fields {id : Nat} {v : List Nat} {h : Heap} {d : TDynamicString}
    (hm : MovedOff id v h (dyn d)) (d2 : TDynamicString) (hb2 : d2.buffer = d.buffer) :
    MovedOff id v h (dyn d2) := by
  obtain ⟨d', new, cnew, rc, ha, hb, hne, hg, hc, hid, hrc⟩ := hm
  cases ha
  exact ⟨d2, new, cnew, rc, rfl, hb2.trans hb, hne, hg, hc, hid, hrc⟩

theorem MovedOff.mode {id : Nat} {v : List Nat} {h : Heap} {a : CowString}
    (hm : MovedOff id v h a) :
    a.mode h = Mode.Owned ∧ a.bufferRefCount h = 1 ∧ h.data id = v := by
  obtain ⟨d', new, cnew, rc, ha, hb, hne, hg, hc, hid, hrc⟩ := hm
  subst ha
  have hcnt : h.refCount new = 1 := by
    rw [Heap.refCount_eq, hg]; simpa using hc
  refine ⟨?_, ?_, ?_⟩
  · rw [mode_dyn, isShared_dyn _ _ _ hb, hcnt]; rfl
  · simp [bufferRefCount, hb, hcnt]
  · rw [Heap.data_eq, hid]; rfl

theorem SharedAt.isShared {h : Heap} {id : Nat} {v : List Nat} {d : TDynamicString}
    (hs : SharedAt h id v (dyn d)) : (dyn d).isShared h = true := by
  obtain ⟨d', rc, ha, hb, hg, hrc⟩ := hs
  cases ha
  rw [isShared_dyn _ _ _ hb, Heap.refCount_eq, hg]
  simp
  omega

theorem ensureOwnedCapacity_realloc (h : Heap) (d : TDynamicString) (n : Nat)
    (hc : (dyn d).isShared h = true ∨ (dyn d).bufferCapacity < n) :
    ensureOwnedCapacity h (dyn d) n =
      (((match d.buffer with
          | some old =>
            (h.make (if (dyn d).bufferCapacity ≥ n then (dyn d).bufferCapacity
              else max (max ((dyn d).bufferCapacity * 2) n) (TSmallCapacity * 2))).1.write
              (some h.cells.length) fun v => memcpy v 0 (h.data old) d.used
          | none =>
            (h.make (if (dyn d).bufferCapacity ≥ n then (dyn d).bufferCapacity
              else max (max ((dyn d).bufferCapacity * 2) n) (TSmallCapacity * 2))).1).reset
          d.buffer (some h.cells.length)),
        { d with
          buffer := some h.cells.length,
          capacity := if (dyn d).bufferCapacity ≥ n then (dyn d).bufferCapacity
            else max (max ((dyn d).bufferCapacity * 2) n) (TSmallCapacity * 2) }) := by
  have hcond : (!(dyn d).isShared h && decide ((dyn d).bufferCapacity ≥ n)) = false := by
    rcases hc with hc | hc
    · simp [hc]
    · have : ¬ (dyn d).bufferCapacity ≥ n := by omega
      simp [this]
  unfold ensureOwnedCapacity
  simp only [hcond, Bool.false_eq_true, if_false, Heap.make_snd, decide_eq_true_eq]

theorem ensureOwnedCapacity_shared {h : Heap} {id : Nat} {v : List Nat} {a : CowString}
    (hs : SharedAt h id v a) (n : Nat) :
    MovedOff id v (ensureOwnedCapacity h a n).1 (dyn (ensureOwnedCapacity h a n).2) := by
  have hsh := hs
  obtain ⟨d, rc, rfl, hb, hg, hrc⟩ := hs
  have hsh' := hsh.isShared
  have hlt := Heap.lt_length_of_get hg
  have hne : h.cells.length ≠ id := by omega
  have hrc1 : ¬ (rc - 1 = 0) := by omega
  have h1 : (ensureOwnedCapacity h (dyn d) n).2.buffer = some h.cells.length := by
    rw [ensureOwnedCapacity_realloc h d n (Or.inl hsh')]
  have h2 : ∃ x, (ensureOwnedCapacity h (dyn d) n).1.get h.cells.length = some ⟨1, x⟩ := by
    rw [ensureOwnedCapacity_realloc h d n (Or.inl hsh')]
    simp only [hb, Heap.reset]
    rw [Heap.get_ref, if_pos rfl, Heap.get_unref, if_neg hne, Heap.get_write, if_pos rfl,
      Heap.get_make, if_pos rfl]
    exact ⟨_, rfl⟩
  have h3 : (ensureOwnedCapacity h (dyn d) n).1.get id = some ⟨rc - 1, v⟩ := by
    rw [ensureOwnedCapacity_realloc h d n (Or.inl hsh')]
    simp only [hb, Heap.reset]
    rw [Heap.get_ref, if_neg (fun e => hne e.symm), Heap.get_unref, if_pos rfl, Heap.get_write,
      if_neg (fun e => hne e.symm), Heap.get_make, if_neg (fun e => hne e.symm), hg]
    simp [hrc1]
  obtain ⟨x, hx⟩ := h2
  exact ⟨_, h.cells.length, ⟨1, x⟩, rc - 1, rfl, h1, hne, hx, rfl, h3, by omega⟩

end COWStrings

namespace COWStrings
open CowString

theorem appendBytes_dyn (h : Heap) (d : TDynamicString) (bytes : BytePtr) (numBytes : Nat) :
    appendBytes h (dyn d) bytes numBytes = appendBytesOwned h (dyn d) bytes numBytes := rfl

theorem appendBytes_shared {h : Heap} {id : Nat} {v : List Nat} {a : CowString}
    (hs : SharedAt h id v a) (bytes : BytePtr) (numBytes : Nat) :
    MovedOff id v (appendBytes h a bytes numBytes).1 (appendBytes h a bytes numBytes).2 := by
  have hs' := hs
  obtain ⟨d, rc, rfl, hb, hg, hrc⟩ := hs
  have hE := ensureOwnedCapacity_shared hs' ((dyn d).bufferSize + numBytes)
  rw [appendBytes_dyn]
  unfold appendBytesOwned
  simp only
  split
  · exact ((hE.write _).write _).fields _ rfl
  · exact ((hE.write _).write _).fields _ rfl

theorem SharedAt.of_length {h : Heap} {id : Nat} {v : List Nat} {a : CowString}
    (hs : SharedAt h id v a) : SharedAt h id v (length h a).2 := by
  obtain ⟨d, rc, rfl, hb, hg, hrc⟩ := hs
  unfold CowString.length
  simp only [hb, Option.isNone_some, Bool.false_eq_true, if_false]
  split
  · exact ⟨_, rc, rfl, hb, hg, hrc⟩
  · exact ⟨_, rc, rfl, hb, hg, hrc⟩

theorem SharedAt.reset {h : Heap} {id : Nat} {v : List Nat} {a : CowString}
    (hs : SharedAt h id v a) : SharedAt h id v a.resetCodePointsLitOrDyn := by
  obtain ⟨d, rc, rfl, hb, hg, hrc⟩ := hs
  exact ⟨_, rc, rfl, hb, hg, hrc⟩

theorem MovedOff.dynSetCodePoints {id : Nat} {v : List Nat} {h : Heap} {a : CowString}
    (hm : MovedOff id v h a) (n : Nat) : MovedOff id v h (dynSetCodePoints n a) := by
  have hm' := hm
  obtain ⟨d', new, cnew, rc, rfl, hb, hne, hg, hc, hid, hrc⟩ := hm
  exact hm'.fields _ rfl

theorem MovedOff.afterAppend {id : Nat} {v : List Nat} {h : Heap} {a : CowString}
    (hm : MovedOff id v h a) (n : Nat) :
    MovedOff id v h (if !a.isSmall then CowString.dynSetCodePoints n a else a) := by
  split
  · exact hm.dynSetCodePoints n
  · exact hm

theorem appendChar_shared {h : Heap} {id : Nat} {v : List Nat} {a : CowString}
    (hs : SharedAt h id v a) (c : Character) :
    MovedOff id v (appendChar h a c).1 (appendChar h a c).2 :=
  appendBytes_shared hs _ _

theorem appendCStr_shared {h : Heap} {id : Nat} {v : List Nat} {a : CowString}
    (hs : SharedAt h id v a) (s : List Nat) :
    MovedOff id v (appendCStr h a s).1 (appendCStr h a s).2 := by
  unfold appendCStr
  simp only
  split
  · exact (appendBytes_shared hs.of_length.reset _ _).afterAppend _
  · exact (appendBytes_shared hs _ _).afterAppend _

theorem append_shared {h : Heap} {id : Nat} {v : List Nat} {a : CowString}
    (hs : SharedAt h id v a) (s : CowString) :
    MovedOff id v (append h a s).1 (append h a s).2.1 := by
  unfold append
  simp only
  split
  · exact (appendBytes_shared hs.of_length.reset _ _).afterAppend _
  · exact (appendBytes_shared hs _ _).afterAppend _

theorem appendSelf_shared {h : Heap} {id : Nat} {v : List Nat} {a : CowString}
    (hs : SharedAt h id v a) :
    MovedOff id v (appendSelf h a).1 (appendSelf h a).2 := by
  unfold appendSelf
  simp only
  split
  · exact (appendBytes_shared hs.of_length.of_length.reset _ _).afterAppend _
  · exact (appendBytes_shared hs _ _).afterAppend _

end COWStrings

namespace COWStrings
open CowString

theorem SharedAt.mode_shared {h : Heap} {id : Nat} {v : List Nat} {a : CowString}
    (hs : SharedAt h id v a) : a.mode h = Mode.Shared := by
  have hs' := hs
  obtain ⟨d, rc, rfl, hb, hg, hrc⟩ := hs
  rw [mode_dyn, hs'.isShared]
  rfl

theorem reserve_shared {h : Heap} {id : Nat} {v : List Nat} {a : CowString}
    (hs : SharedAt h id v a) (n : Nat) :
    MovedOff id v (reserve h a n).1 (reserve h a n).2 := by
  unfold reserve
  simp only [hs.mode_shared, decide_True, Bool.or_true, Bool.true_or, if_true]
  exact ensureOwnedCapacity_shared hs n

theorem setCharAt_shared {h : Heap} {id : Nat} {v : List Nat} {a : CowString}
    (hs : SharedAt h id v a) (idx : Nat) (c : Character) (r : Heap × CowString)
    (hr : setCharAt h a idx c = some r) : MovedOff id v r.1 r.2 := by
  unfold setCharAt at hr
  simp only at hr
  split at hr
  · cases hr
  · rename_i offset hoff
    have hE := ensureOwnedCapacity_shared hs
      ((sub64 a.bufferSize (byteLengthFromLeadingByte (load (a.cString h) offset))
        + c.byteCount) % 2 ^ 64)
    simp only [Option.some.injEq] at hr
    subst hr
    simp only
    split <;> split
    · exact ((hE.write _).write _).write _
    · exact (hE.write _).write _
    · exact (hE.write _).write _
    · exact hE.write _

theorem setCharAt_isSome (h : Heap) (a : CowString) (idx : Nat) (c : Character) :
    (setCharAt h a idx c).isSome
      = (getCodePointInBufferAt (a.cString h) (sub64 a.bufferSize 1) idx).isSome := by
  unfold setCharAt
  simp only
  split <;> simp_all

end COWStrings

namespace COWStrings
open CowString

theorem Heap.get_write_ne (h : Heap) (buffer : Option Nat) (f : List Nat → List Nat) (j : Nat)
    (hne : buffer ≠ some j) : (h.write buffer f).get j = h.get j := by
  cases buffer with
  | none => rfl
  | some id =>
    rw [Heap.get_write, if_neg]
    intro e
    exact hne (by rw [e])

theorem Heap.get_write_self (h : Heap) (id : Nat) (f : List Nat → List Nat) (c : Shared)
    (hg : h.get id = some c) :
    (h.write (some id) f).get id = some ⟨c.refCounter, f c.value⟩ := by
  rw [Heap.get_write, if_pos rfl, hg]
  rfl

theorem stealGuard_owned {h : Heap} {a s : CowString} (hg : stealGuard h a s = true) :
    s.mode h = Mode.Owned := by
  unfold stealGuard at hg
  simp only [Bool.and_eq_true, decide_eq_true_eq] at hg
  exact hg.1.1

theorem not_isShared_of_owned {h : Heap} {d : TDynamicString}
    (hm : (dyn d).mode h = Mode.Owned) : (dyn d).isShared h = false := by
  rw [mode_dyn] at hm
  cases hsh : (dyn d).isShared h
  · rfl
  · rw [hsh] at hm
    simp at hm

/-- Heap and String after the buffer-taking path of `append(String&&)`. -/
theorem appendMove_steal (h : Heap) (a : CowString) (ds : TDynamicString)
    (hg : stealGuard h a (dyn ds) = true) :
    ∃ (hw : Heap) (d1 : TDynamicString),
      appendMove h a (dyn ds)
        = (hw.reset a.heldBlock none, dyn d1,
            initAsSmallStringEmpty ({ ds with buffer := none }.rawBytes
              (hw.reset a.heldBlock none)))
      ∧ d1.buffer = ds.buffer
      ∧ (∀ j, ds.buffer ≠ some j → hw.get j = h.get j)
      ∧ (∀ j c, ds.buffer = some j → h.get j = some c →
          ∃ x, hw.get j = some ⟨c.refCounter, x⟩) := by
  unfold appendMove
  simp only [hg, if_true]
  refine ⟨_, _, rfl, rfl, ?_, ?_⟩
  · intro j hj
    unfold shiftInto
    split
    · rw [Heap.get_write_ne _ _ _ _ hj, Heap.get_write_ne _ _ _ _ hj]
    · rfl
  · intro j c hj hc
    unfold shiftInto
    split
    · rw [hj, Heap.get_write_self _ _ _ _ (Heap.get_write_self _ _ _ _ hc)]
      exact ⟨_, rfl⟩
    · exact ⟨_, by rw [hc]⟩

theorem appendMove_shared_get {h : Heap} {id : Nat} {v : List Nat} {a : CowString}
    (hs : SharedAt h id v a) (s : CowString) :
    ∃ rc, (appendMove h a s).1.get id = some ⟨rc, v⟩ ∧ 1 ≤ rc := by
  have fallback : ∃ rc, (append h a s).1.get id = some ⟨rc, v⟩ ∧ 1 ≤ rc := by
    obtain ⟨d', new, cnew, rc, _, _, _, _, _, hid, hrc⟩ := append_shared hs s
    exact ⟨rc, hid, hrc⟩
  cases s with
  | small b => exact fallback
  | lit l => exact fallback
  | dyn ds =>
    by_cases hg : stealGuard h a (dyn ds) = true
    · obtain ⟨hw, d1, heq, hb1, hfr, hsame⟩ := appendMove_steal h a ds hg
      have hsh := not_isShared_of_owned (stealGuard_owned hg)
      obtain ⟨d, rc, rfl, hb, hget, hrc⟩ := hs
      have hne : ds.buffer ≠ some id := by
        intro e
        rw [isShared_dyn _ _ _ e, Heap.refCount_eq, hget] at hsh
        simp at hsh
        omega
      rw [heq]
      simp only [heldBlock, hb, Heap.reset]
      rw [Heap.get_unref, if_pos rfl, hfr id hne, hget]
      have : ¬ (rc - 1 = 0) := by omega
      exact ⟨rc - 1, by simp [this], by omega⟩
    · have : appendMove h a (dyn ds) = append h a (dyn ds) := by
        unfold appendMove
        simp [hg]
      rw [this]
      exact fallback

theorem appendMove_shared {h : Heap} {id : Nat} {v : List Nat} {a : CowString}
    (hs : SharedAt h id v a) (s : CowString)
    (hlive : ∀ ds, s = dyn ds →
      ∃ ids cs, ds.buffer = some ids ∧ h.get ids = some cs ∧ 1 ≤ cs.refCounter) :
    MovedOff id v (appendMove h a s).1 (appendMove h a s).2.1 := by
  cases s with
  | small b => exact append_shared hs _
  | lit l => exact append_shared hs _
  | dyn ds =>
    by_cases hg : stealGuard h a (dyn ds) = true
    · obtain ⟨hw, d1, heq, hb1, hfr, hsame⟩ := appendMove_steal h a ds hg
      have hsh := not_isShared_of_owned (stealGuard_owned hg)
      obtain ⟨ids, cs, hbs, hgs, hrcs⟩ := hlive ds rfl
      obtain ⟨d, rc, rfl, hb, hget, hrc⟩ := hs
      have hcs : cs.refCounter = 1 := by
        rw [isShared_dyn _ _ _ hbs, Heap.refCount_eq, hgs] at hsh
        simp at hsh
        omega
      have hne : ids ≠ id := by
        intro e
        subst e
        rw [hgs] at hget
        cases hget
        simp at hcs
        omega
      have hne' : ds.buffer ≠ some id := by
        rw [hbs]
        intro e
        exact hne (Option.some.inj e)
      obtain ⟨x, hx⟩ := hsame ids cs hbs hgs
      rw [heq]
      simp only [heldBlock, hb, Heap.reset]
      have hrc1 : ¬ (rc - 1 = 0) := by omega
      refine ⟨d1, ids, ⟨cs.refCounter, x⟩, rc - 1, rfl, hb1.trans hbs, hne, ?_, hcs, ?_, by omega⟩
      · rw [Heap.get_unref, if_neg hne, hx]
      · rw [Heap.get_unref, if_pos rfl, hfr id hne', hget]
        simp [hrc1]
    · have : appendMove h a (dyn ds) = append h a (dyn ds) := by
        unfold appendMove
        simp [hg]
      rw [this]
      exact append_shared hs _

theorem stealGuard_of_shared (h : Heap) (a s : CowString) (hsm : s.mode h = Mode.Shared) :
    stealGuard h a s = false := by
  unfold stealGuard
  simp [hsm]

theorem appendMoveSelf_shared {h : Heap} {id : Nat} {v : List Nat} {a : CowString}
    (hs : SharedAt h id v a) :
    MovedOff id v (appendMoveSelf h a).1 (appendMoveSelf h a).2 := by
  unfold appendMoveSelf
  rw [stealGuard_of_shared h a a hs.mode_shared]
  simp only [Bool.false_eq_true, if_false]
  exact appendSelf_shared hs

end COWStrings

namespace COWStrings
open CowString

theorem length_snd_view (h : Heap) (s : CowString) :
    (length h s).2.bufferSize = s.bufferSize
    ∧ (length h s).2.heldBlock = s.heldBlock
    ∧ ∀ h', (length h s).2.cString h' = s.cString h' := by
  cases s with
  | small b => exact ⟨rfl, rfl, fun _ => rfl⟩
  | lit l =>
    unfold CowString.length
    simp only
    split
    · exact ⟨rfl, rfl, fun _ => rfl⟩
    · exact ⟨rfl, rfl, fun _ => rfl⟩
  | dyn d =>
    unfold CowString.length
    simp only
    split
    · exact ⟨rfl, rfl, fun _ => rfl⟩
    · split
      · exact ⟨rfl, rfl, fun _ => rfl⟩
      · exact ⟨rfl, rfl, fun _ => rfl⟩

theorem append_arg_view (h : Heap) (a s : CowString) :
    (append h a s).2.2.bufferSize = s.bufferSize
    ∧ (append h a s).2.2.heldBlock = s.heldBlock
    ∧ ∀ h', (append h a s).2.2.cString h' = s.cString h' := by
  unfold append
  simp only
  split
  · exact length_snd_view h s
  · exact ⟨rfl, rfl, fun _ => rfl⟩

theorem cString_of_get {h : Heap} {d : TDynamicString} {id rc : Nat} {v : List Nat}
    (hb : d.buffer = some id) (hg : h.get id = some ⟨rc, v⟩) : (dyn d).cString h = v := by
  simp [cString, hb, Heap.data_eq, hg]

theorem MovedOff.cString {id : Nat} {v : List Nat} {h : Heap} {a : CowString}
    (hm : MovedOff id v h a) {d : TDynamicString} (hb : d.buffer = some id) :
    (dyn d).cString h = v := by
  obtain ⟨_, _, _, rc, _, _, _, _, _, hid, _⟩ := hm
  exact cString_of_get hb hid

/-- C3 (copy-on-write isolation). Let the Strings `a = dyn da` and `b = dyn db` hold
the same heap block `id`, live with bytes `v` and a reference count of at least 2.
Then after every mutation of `a` (`append` of a `Character`, of a C string, of another
String by reference or by move, of itself, `setCharAt`, `reserve`) the bytes behind
`b.cString()` are still `v`. The fields of `b` are not written by an operation on `a`
(`b` is not an operand), so `b.bufferSize()` stays as well; where `b` itself is the
argument of `append`, the argument afterwards has the `bufferSize()` and the bytes it
had before. -/
theorem C3_cow_isolation (h : Heap) (da db : TDynamicString) (id rc : Nat) (v : List Nat)
    (ha : da.buffer = some id) (hb : db.buffer = some id)
    (hg : h.get id = some ⟨rc, v⟩) (hrc : 2 ≤ rc) :
    (dyn db).cString h = v
    ∧ (∀ c, (dyn db).cString (appendChar h (dyn da) c).1 = v)
    ∧ (∀ s, (dyn db).cString (appendCStr h (dyn da) s).1 = v)
    ∧ (∀ s, (dyn db).cString (append h (dyn da) s).1 = v)
    ∧ (dyn db).cString (appendSelf h (dyn da)).1 = v
    ∧ (∀ s, (dyn db).cString (appendMove h (dyn da) s).1 = v)
    ∧ (dyn db).cString (appendMoveSelf h (dyn da)).1 = v
    ∧ (∀ idx c r, setCharAt h (dyn da) idx c = some r → (dyn db).cString r.1 = v)
    ∧ (∀ n, (dyn db).cString (reserve h (dyn da) n).1 = v)
    ∧ ((append h (dyn da) (dyn db)).2.2.bufferSize = (dyn db).bufferSize
        ∧ (append h (dyn da) (dyn db)).2.2.cString (append h (dyn da) (dyn db)).1 = v)
    ∧ ((appendMove h (dyn da) (dyn db)).2.2.bufferSize = (dyn db).bufferSize
        ∧ (appendMove h (dyn da) (dyn db)).2.2.cString (appendMove h (dyn da) (dyn db)).1
            = v) := by
  have hs : SharedAt h id v (dyn da) := ⟨da, rc, rfl, ha, hg, hrc⟩
  have hsb : SharedAt h id v (dyn db) := ⟨db, rc, rfl, hb, hg, hrc⟩
  have hview := append_arg_view h (dyn da) (dyn db)
  have hmove : appendMove h (dyn da) (dyn db) = append h (dyn da) (dyn db) := by
    unfold appendMove
    simp [stealGuard_of_shared h (dyn da) (dyn db) hsb.mode_shared]
  have harg : (append h (dyn da) (dyn db)).2.2.cString (append h (dyn da) (dyn db)).1 = v := by
    rw [hview.2.2]
    exact (append_shared hs (dyn db)).cString hb
  refine ⟨cString_of_get hb hg, ?_, ?_, ?_, ?_, ?_, ?_, ?_, ?_, ⟨hview.1, harg⟩, ?_⟩
  · intro c
    exact (appendChar_shared hs c).cString hb
  · intro s
    exact (appendCStr_shared hs s).cString hb
  · intro s
    exact (append_shared hs s).cString hb
  · exact (appendSelf_shared hs).cString hb
  · intro s
    obtain ⟨rc', hget, _⟩ := appendMove_shared_get hs s
    exact cString_of_get hb hget
  · exact (appendMoveSelf_shared hs).cString hb
  · intro idx c r hr
    exact (setCharAt_shared hs idx c r hr).cString hb
  · intro n
    exact (reserve_shared hs n).cString hb
  · rw [hmove]
    exact ⟨hview.1, harg⟩

end COWStrings

namespace COWStrings
open CowString

theorem demoShared_get : demoShared.1.get 0 = some ⟨2, demoBytes⟩ := by decide

theorem demoShared_snd : demoShared.2 = dyn ⟨some 0, 64, 41, 0⟩ := by decide

/-- Witness of C3: two Strings on block 0 of `demoShared`; after `a.append('x')`
the bytes behind `b.cString()` are the ones from before. -/
theorem C3_cow_isolation_witness :
    (⟨some 0, 64, 41, 0⟩ : TDynamicString).buffer = some 0
    ∧ (⟨some 0, 64, 41, 0⟩ : TDynamicString).buffer = some 0
    ∧ demoShared.1.get 0 = some ⟨2, demoBytes⟩
    ∧ 2 ≤ 2
    ∧ (dyn ⟨some 0, 64, 41, 0⟩).cString
        (appendChar demoShared.1 (dyn ⟨some 0, 64, 41, 0⟩) ⟨120⟩).1 = demoBytes :=
  ⟨rfl, rfl, demoShared_get, le_refl 2,
    (C3_cow_isolation demoShared.1 ⟨some 0, 64, 41, 0⟩ ⟨some 0, 64, 41, 0⟩ 0 2 demoBytes
      rfl rfl demoShared_get (le_refl 2)).2.1 ⟨120⟩⟩

theorem MovedOff.ownedUnique {id : Nat} {v : List Nat} {h : Heap} {a : CowString}
    (hm : MovedOff id v h a) : OwnedUnique h a :=
  ⟨hm.mode.1, hm.mode.2.1⟩

/-- C4 (shared to owned on write). Let the String `a = dyn d` be Dynamic/Shared: it
holds block `id`, live with a reference count of at least 2. After `append` of any
`Character`, of any C string (also the empty one), of any other String by reference,
of itself, of any String by move (a Dynamic argument holding a live block), after
`setCharAt` at any index the source accepts and after `reserve` with any argument, `a`
is Dynamic/Owned on a block whose reference count is exactly 1; `setCharAt` completes
whenever `getCodePointInBufferAt` finds the index. -/
theorem C4_shared_to_owned (h : Heap) (d : TDynamicString) (id rc : Nat) (v : List Nat)
    (hb : d.buffer = some id) (hg : h.get id = some ⟨rc, v⟩) (hrc : 2 ≤ rc) :
    (dyn d).mode h = Mode.Shared
    ∧ (∀ c, OwnedUnique (appendChar h (dyn d) c).1 (appendChar h (dyn d) c).2)
    ∧ (∀ s, OwnedUnique (appendCStr h (dyn d) s).1 (appendCStr h (dyn d) s).2)
    ∧ (∀ s, OwnedUnique (append h (dyn d) s).1 (append h (dyn d) s).2.1)
    ∧ OwnedUnique (appendSelf h (dyn d)).1 (appendSelf h (dyn d)).2
    ∧ (∀ s, (∀ ds, s = dyn ds →
          ∃ ids cs, ds.buffer = some ids ∧ h.get ids = some cs ∧ 1 ≤ cs.refCounter) →
        OwnedUnique (appendMove h (dyn d) s).1 (appendMove h (dyn d) s).2.1)
    ∧ OwnedUnique (appendMoveSelf h (dyn d)).1 (appendMoveSelf h (dyn d)).2
    ∧ (∀ idx c off,
        getCodePointInBufferAt ((dyn d).cString h) (sub64 (dyn d).bufferSize 1) idx = some off →
        ∃ r, setCharAt h (dyn d) idx c = some r ∧ OwnedUnique r.1 r.2)
    ∧ (∀ n, OwnedUnique (reserve h (dyn d) n).1 (reserve h (dyn d) n).2) := by
  have hs : SharedAt h id v (dyn d) := ⟨d, rc, rfl, hb, hg, hrc⟩
  refine ⟨hs.mode_shared, ?_, ?_, ?_, ?_, ?_, ?_, ?_, ?_⟩
  · intro c
    exact (appendChar_shared hs c).ownedUnique
  · intro s
    exact (appendCStr_shared hs s).ownedUnique
  · intro s
    exact (append_shared hs s).ownedUnique
  · exact (appendSelf_shared hs).ownedUnique
  · intro s hlive
    exact (appendMove_shared hs s hlive).ownedUnique
  · exact (appendMoveSelf_shared hs).ownedUnique
  · intro idx c off hoff
    have hsome : (setCharAt h (dyn d) idx c).isSome = true := by
      rw [setCharAt_isSome, hoff]
      rfl
    obtain ⟨r, hr⟩ := Option.isSome_iff_exists.mp hsome
    exact ⟨r, hr, (setCharAt_shared hs idx c r hr).ownedUnique⟩
  · intro n
    exact (reserve_shared hs n).ownedUnique

/-- Witness of C4: the Shared String of `demoShared`; after `reserve(0)` it is
Dynamic/Owned on a block of its own. -/
theorem C4_shared_to_owned_witness :
    (⟨some 0, 64, 41, 0⟩ : TDynamicString).buffer = some 0
    ∧ demoShared.1.get 0 = some ⟨2, demoBytes⟩
    ∧ 2 ≤ 2
    ∧ OwnedUnique (reserve demoShared.1 (dyn ⟨some 0, 64, 41, 0⟩) 0).1
        (reserve demoShared.1 (dyn ⟨some 0, 64, 41, 0⟩) 0).2 :=
  ⟨rfl, demoShared_get, le_refl 2,
    (C4_shared_to_owned demoShared.1 ⟨some 0, 64, 41, 0⟩ 0 2 demoBytes
      rfl demoShared_get (le_refl 2)).2.2.2.2.2.2.2.2 0⟩

end COWStrings

namespace COWStrings

/-! ## Counting code points -/

theorem byteLength_pos (b : Nat) : 1 ≤ byteLengthFromLeadingByte b := by
  unfold byteLengthFromLeadingByte
  split_ifs <;> omega

theorem byteLength_le (b : Nat) : byteLengthFromLeadingByte b ≤ 4 := by
  unfold byteLengthFromLeadingByte
  split_ifs <;> omega

theorem load_append_right (x m : List Nat) (p : Nat) : load (x ++ m) (x.length + p) = load m p := by
  simp [load_eq, List.getElem?_append_right]

theorem load_append_left (x m : List Nat) (p : Nat) (hp : p < x.length) :
    load (x ++ m) p = load x p := by
  simp [load_eq, List.getElem?_append_left hp]

/-- The loop only looks at bytes below `endPos`. -/
theorem countLoop_congr (m m' : List Nat) (e : Nat)
    (hm : ∀ p, p < e → load m p = load m' p) :
    ∀ fuel pos cnt, countLoop m e fuel pos cnt = countLoop m' e fuel pos cnt := by
  intro fuel
  induction fuel with
  | zero => intro pos cnt; rfl
  | succ f ih =>
    intro pos cnt
    simp only [countLoop]
    by_cases hp : pos < e
    · rw [if_pos hp, if_pos hp, hm pos hp, ih]
    · rw [if_neg hp, if_neg hp]

theorem countLoop_shift (x m : List Nat) (e : Nat) :
    ∀ fuel pos cnt,
      countLoop (x ++ m) (x.length + e) fuel (x.length + pos) cnt = countLoop m e fuel pos cnt := by
  intro fuel
  induction fuel with
  | zero => intro pos cnt; rfl
  | succ f ih =>
    intro pos cnt
    simp only [countLoop]
    by_cases hp : pos < e
    · have hp' : x.length + pos < x.length + e := by omega
      rw [if_pos hp, if_pos hp', load_append_right, Nat.add_assoc, ih]
    · have hp' : ¬ x.length + pos < x.length + e := by omega
      rw [if_neg hp, if_neg hp']

theorem countLoop_acc (m : List Nat) (e : Nat) :
    ∀ fuel pos cnt, countLoop m e fuel pos cnt = cnt + countLoop m e fuel pos 0 := by
  intro fuel
  induction fuel with
  | zero => intro pos cnt; simp [countLoop]
  | succ f ih =>
    intro pos cnt
    simp only [countLoop]
    by_cases hp : pos < e
    · rw [if_pos hp, if_pos hp, ih _ (cnt + 1), ih _ (0 + 1)]
      omega
    · rw [if_neg hp, if_neg hp]
      rfl

/-- Enough fuel: once the fuel covers the distance to `endPos`, more fuel changes nothing. -/
theorem countLoop_fuel (m : List Nat) (e : Nat) :
    ∀ fuel pos cnt k, e ≤ pos + fuel →
      countLoop m e (fuel + k) pos cnt = countLoop m e fuel pos cnt := by
  intro fuel
  induction fuel with
  | zero =>
    intro pos cnt k h
    have hp : ¬ pos < e := by omega
    cases k with
    | zero => rfl
    | succ k => simp [countLoop, hp]
  | succ f ih =>
    intro pos cnt k h
    have : f + 1 + k = (f + k) + 1 := by omega
    rw [this]
    simp only [countLoop]
    by_cases hp : pos < e
    · rw [if_pos hp, if_pos hp]
      apply ih
      have := byteLength_pos (load m pos)
      omega
    · rw [if_neg hp, if_neg hp]

theorem count_congr (m m' : List Nat) (n : Nat) (hm : m.take n = m'.take n) :
    countCodePointsInBuffer m n = countCodePointsInBuffer m' n := by
  apply countLoop_congr
  intro p hp
  have h1 : (m.take n)[p]? = m[p]? := by simp [List.getElem?_take, hp]
  have h2 : (m'.take n)[p]? = m'[p]? := by simp [List.getElem?_take, hp]
  rw [load_eq, load_eq, ← h1, ← h2, hm]

theorem count_zero (m : List Nat) : countCodePointsInBuffer m 0 = 0 := rfl

/-- One complete code point in front: it is counted once and the walk goes on behind it. -/
theorem count_cons (b : Nat) (tail rest : List Nat) (n : Nat)
    (ht : tail.length + 1 = byteLengthFromLeadingByte b) :
    countCodePointsInBuffer (b :: tail ++ rest) (byteLengthFromLeadingByte b + n)
      = 1 + countCodePointsInBuffer rest n := by
  unfold countCodePointsInBuffer
  have hpos := byteLength_pos b
  obtain ⟨f, hf⟩ : ∃ f, byteLengthFromLeadingByte b + n = f + 1 := ⟨_, (Nat.sub_add_cancel (by omega)).symm⟩
  rw [hf]
  simp only [countLoop]
  have h0 : 0 < f + 1 := by omega
  rw [if_pos h0]
  have hl : load (b :: tail ++ rest) 0 = b := by simp [load_eq]
  rw [hl, ← hf]
  have hx : (b :: tail).length = byteLengthFromLeadingByte b := by simp [ht]
  have e1 : countLoop (b :: tail ++ rest) (byteLengthFromLeadingByte b + n) f
        (0 + byteLengthFromLeadingByte b) (0 + 1)
      = countLoop ((b :: tail) ++ rest) ((b :: tail).length + n) f ((b :: tail).length + 0) 1 := by
    rw [hx]
    simp
  rw [e1, countLoop_shift, countLoop_acc]
  congr 1
  have hfn : f = n + (f - n) := by omega
  rw [hfn, countLoop_fuel _ _ n 0 0 (f - n) (by omega)]

theorem count_append (xs : List Nat) (hx : Framed xs) (rest : List Nat) (n : Nat) :
    countCodePointsInBuffer (xs ++ rest) (xs.length + n)
      = countCodePointsInBuffer xs xs.length + countCodePointsInBuffer rest n := by
  induction hx with
  | nil => simp [count_zero]
  | cons b tail xs' ht _ ih =>
    have e1 : (b :: tail ++ xs' ++ rest) = b :: tail ++ (xs' ++ rest) := by simp
    have e2 : (b :: tail ++ xs').length + n = byteLengthFromLeadingByte b + (xs'.length + n) := by
      simp only [List.length_append, List.length_cons]
      omega
    have e3 : (b :: tail ++ xs').length = byteLengthFromLeadingByte b + xs'.length := by
      simp only [List.length_append, List.length_cons]
      omega
    rw [e1, e2, count_cons b tail _ _ ht, ih, e3, count_cons b tail _ _ ht]
    omega

theorem Framed.append {xs ys : List Nat} (hx : Framed xs) (hy : Framed ys) : Framed (xs ++ ys) := by
  induction hx with
  | nil => simpa using hy
  | cons b tail xs' ht _ ih =>
    have : b :: tail ++ xs' ++ ys = b :: tail ++ (xs' ++ ys) := by simp
    rw [this]
    exact Framed.cons b tail _ ht ih

theorem Framed.single (b : Nat) (hb : b < 128) : Framed [b] := by
  have h := Framed.cons b [] [] (by simp [byteLengthFromLeadingByte, hb]) Framed.nil
  simpa using h

theorem Framed.snoc_zero {xs : List Nat} (hx : Framed xs) : Framed (xs ++ [0]) :=
  hx.append (Framed.single 0 (by omega))

theorem count_le (m : List Nat) (n : Nat) : countCodePointsInBuffer m n ≤ n := by
  have key : ∀ fuel pos cnt, countLoop m n fuel pos cnt ≤ cnt + fuel := by
    intro fuel
    induction fuel with
    | zero => intro pos cnt; simp [countLoop]
    | succ f ih =>
      intro pos cnt
      simp only [countLoop]
      split
      · have := ih (pos + byteLengthFromLeadingByte (load m pos)) (cnt + 1)
        omega
      · omega
  have := key n 0 0
  unfold countCodePointsInBuffer
  omega

end COWStrings

namespace COWStrings

theorem cstrLoop_skip (mem : List Nat) :
    ∀ k fuel pos cnt, (∀ i, i < k → load mem (pos + i) ≠ 0) →
      cstrLoop mem (fuel + k) pos cnt k = cstrLoop mem fuel (pos + k) cnt 0 := by
  intro k
  induction k with
  | zero => intro fuel pos cnt _; rfl
  | succ k ih =>
    intro fuel pos cnt hnz
    have h0 : load mem pos ≠ 0 := by simpa using hnz 0 (by omega)
    have e : fuel + (k + 1) = (fuel + k) + 1 := by omega
    rw [e]
    simp only [cstrLoop]
    have hb : (load mem pos != 0) = true := by simpa using h0
    rw [if_pos hb, if_neg (by omega)]
    have hs : sub64 (k + 1) 1 = k := by simp [sub64]
    rw [hs, ih fuel (pos + 1) cnt]
    · congr 1
      omega
    · intro i hi
      have := hnz (i + 1) (by omega)
      rwa [show pos + 1 + i = pos + (i + 1) by omega]

theorem cstrLoop_framed (xs : List Nat) (hx : Framed xs) (hnz : ∀ x ∈ xs, x ≠ 0)
    (rest : List Nat) :
    ∀ (pre : List Nat) (cnt fuel : Nat), xs.length + 1 ≤ fuel →
      cstrLoop (pre ++ (xs ++ 0 :: rest)) fuel pre.length cnt 0
        = (cnt + countCodePointsInBuffer xs xs.length, pre.length + xs.length) := by
  induction hx with
  | nil =>
    intro pre cnt fuel hf
    obtain ⟨f, rfl⟩ : ∃ f, fuel = f + 1 := ⟨fuel - 1, by simp at hf; omega⟩
    have hl : load (pre ++ ([] ++ 0 :: rest)) pre.length = 0 := by
      have := load_append_right pre (0 :: rest) 0
      simpa [load_eq] using this
    have hl' : load (pre ++ 0 :: rest) pre.length = 0 := by simpa using hl
    simp [cstrLoop, hl', count_zero]
  | cons b tail xs' ht _ ih =>
    intro pre cnt fuel hf
    have hb0 : b ≠ 0 := hnz b (by simp)
    have htail : ∀ x ∈ tail, x ≠ 0 := fun x hx => hnz x (by simp [hx])
    have hxs' : ∀ x ∈ xs', x ≠ 0 := fun x hx => hnz x (by simp [hx])
    have hlen : (b :: tail ++ xs').length = tail.length + 1 + xs'.length := by
      simp only [List.length_append, List.length_cons]
    rw [hlen] at hf
    obtain ⟨f, rfl⟩ : ∃ f, fuel = (f + tail.length) + 1 := ⟨fuel - 1 - tail.length, by omega⟩
    have hmem : pre ++ (b :: tail ++ xs' ++ 0 :: rest)
        = (pre ++ b :: tail) ++ (xs' ++ 0 :: rest) := by simp
    have hl : load (pre ++ (b :: tail ++ xs' ++ 0 :: rest)) pre.length = b := by
      have := load_append_right pre (b :: tail ++ xs' ++ 0 :: rest) 0
      simpa [load_eq] using this
    simp only [cstrLoop]
    have hbb : (load (pre ++ (b :: tail ++ xs' ++ 0 :: rest)) pre.length != 0) = true := by
      rw [hl]; simpa using hb0
    rw [if_pos hbb, if_pos trivial, hl]
    have hs : sub64 (byteLengthFromLeadingByte b) 1 = tail.length := by
      rw [sub64_of_le (byteLength_pos b)]
      omega
    rw [hs, cstrLoop_skip]
    · rw [hmem]
      have hpl : pre.length + 1 + tail.length = (pre ++ b :: tail).length := by
        simp only [List.length_append, List.length_cons]
        omega
      rw [hpl, ih hxs' _ _ _ (by omega)]
      have e3 : (b :: tail ++ xs').length = byteLengthFromLeadingByte b + xs'.length := by
        simp only [List.length_append, List.length_cons]
        omega
      rw [e3, count_cons b tail _ _ ht]
      simp only [List.length_append, List.length_cons]
      congr 1 <;> omega
    · intro i hi
      have e : pre ++ (b :: tail ++ xs' ++ 0 :: rest)
          = (pre ++ [b]) ++ (tail ++ (xs' ++ 0 :: rest)) := by simp
      have e2 : pre.length + 1 + i = (pre ++ [b]).length + i := by simp
      rw [e, e2, load_append_right, load_append_left _ _ _ hi, load_eq]
      have hget : tail[i]? = some (tail[i]) := List.getElem?_eq_getElem hi
      rw [hget]
      exact htail _ (List.getElem_mem hi)

theorem countCodePointsInCString_framed (b rest : List Nat) (hb : Framed b)
    (hnz : ∀ x ∈ b, x ≠ 0) :
    countCodePointsInCString (b ++ 0 :: rest) = (countCodePointsInBuffer b b.length, b.length) := by
  unfold countCodePointsInCString
  have := cstrLoop_framed b hb hnz rest [] 0 ((b ++ 0 :: rest).length + 1)
    (by simp only [List.length_append, List.length_cons]; omega)
  simpa using this

end COWStrings

namespace COWStrings
open CowString

/-! ## The cache invariant: what `length()` returns -/

theorem mod_count (m : List Nat) (n : Nat) (hn : n < 2 ^ 62) :
    countCodePointsInBuffer m n % 2 ^ 62 = countCodePointsInBuffer m n :=
  Nat.mod_eq_of_lt (lt_of_le_of_lt (count_le m n) hn)

theorem Shape.sub64 {h : Heap} {s : CowString} (hs : Shape h s) :
    sub64 s.bufferSize 1 = s.bufferSize - 1 :=
  sub64_of_le hs.used_pos

theorem Shape.pred_lt {h : Heap} {s : CowString} (hs : Shape h s) : s.bufferSize - 1 < 2 ^ 62 := by
  have h1 := hs.used_pos
  have h2 := hs.used_bound
  omega

/-- With the representation invariant and a valid cache, `length()` returns the number
of code points counted in front of the terminator. -/
theorem length_eq_count {h : Heap} {s : CowString} (hs : Shape h s) (hc : CacheOk h s) :
    (length h s).1 = countCodePointsInBuffer (s.cString h) (s.bufferSize - 1) := by
  have hsub := hs.sub64
  have hlt := hs.pred_lt
  cases s with
  | small b =>
    simp only [CowString.length, countCodePoints, hsub]
  | lit l =>
    unfold CowString.length
    simp only
    split
    · simp only [TLiteralString.setCodePoints, TLiteralString.getCodePoints, countCodePoints,
        hsub, Nat.mod_mod]
      exact mod_count _ _ hlt
    · rename_i hcached
      simp only [TLiteralString.hasCachedCodePoints, Bool.not_eq_true', Bool.or_eq_false_iff,
        not_and, bne_eq_false_iff_eq, decide_eq_false_iff_not, not_le] at hcached
      by_cases hz : l.getCodePoints = 0
      · have hu := hcached hz
        have hu1 : (lit l).bufferSize - 1 = 0 := by
          simp only [bufferSize]
          omega
        rw [hz, hu1, count_zero]
      · exact hc hz
  | dyn d =>
    obtain ⟨id, rc, hb, hg, hrc, hcap⟩ := hs.held d rfl
    unfold CowString.length
    simp only [hb, Option.isNone_some, Bool.false_eq_true, if_false]
    split
    · simp only [TDynamicString.setCodePoints, TDynamicString.getCodePoints, countCodePoints,
        hsub, Nat.mod_mod]
      exact mod_count _ _ hlt
    · rename_i hcached
      simp only [TDynamicString.hasCachedCodePoints, Bool.not_eq_true', Bool.or_eq_false_iff,
        not_and, bne_eq_false_iff_eq, decide_eq_false_iff_not, not_le] at hcached
      by_cases hz : d.getCodePoints = 0
      · have hu := hcached hz
        have hu1 : (dyn d).bufferSize - 1 = 0 := by
          simp only [bufferSize, hb, Option.isSome_some, if_true]
          omega
        rw [hz, hu1, count_zero]
      · exact hc hz

theorem length_snd_cachedCount {h : Heap} {s : CowString} (hs : Shape h s) (hc : CacheOk h s) :
    (length h s).2.cachedCount = 0
      ∨ (length h s).2.cachedCount = countCodePointsInBuffer (s.cString h) (s.bufferSize - 1) := by
  have hsub := hs.sub64
  have hlt := hs.pred_lt
  cases s with
  | small b => left; rfl
  | lit l =>
    unfold CowString.length
    simp only
    split
    · right
      simp only [cachedCount, TLiteralString.setCodePoints, TLiteralString.getCodePoints,
        countCodePoints, hsub, Nat.mod_mod]
      exact mod_count _ _ hlt
    · by_cases hz : l.getCodePoints = 0
      · left; exact hz
      · right; exact hc hz
  | dyn d =>
    obtain ⟨id, rc, hb, hg, hrc, hcap⟩ := hs.held d rfl
    unfold CowString.length
    simp only [hb, Option.isNone_some, Bool.false_eq_true, if_false]
    split
    · right
      simp only [cachedCount, TDynamicString.setCodePoints, TDynamicString.getCodePoints,
        countCodePoints, hsub, Nat.mod_mod]
      exact mod_count _ _ hlt
    · by_cases hz : d.getCodePoints = 0
      · left; exact hz
      · right; exact hc hz

theorem length_snd_cString (h : Heap) (s : CowString) (h' : Heap) :
    (length h s).2.cString h' = s.cString h' := (length_snd_view h s).2.2 h'

theorem length_snd_bufferSize (h : Heap) (s : CowString) :
    (length h s).2.bufferSize = s.bufferSize := (length_snd_view h s).1

theorem length_snd_small (h : Heap) (s : CowString) :
    (length h s).2.isSmall = s.isSmall := by
  cases s with
  | small b => rfl
  | lit l => unfold CowString.length; simp only; split <;> rfl
  | dyn d =>
    unfold CowString.length
    simp only
    split
    · rfl
    · split <;> rfl

end COWStrings

namespace COWStrings
open CowString

/-! ## Writing behind the used bytes -/

theorem take_store_ge (m : List Nat) (i x k : Nat) (hk : k ≤ i) :
    (store m i x).take k = m.take k := by
  apply List.ext_getElem?
  intro j
  rw [List.getElem?_take, List.getElem?_take]
  by_cases hj : j < k
  · rw [if_pos hj, if_pos hj, getElem?_store, if_neg (by omega)]
  · rw [if_neg hj, if_neg hj]

theorem load_store_self (m : List Nat) (i x : Nat) (hi : i < m.length) :
    load (store m i x) i = x := by
  rw [load_eq, getElem?_store, if_pos rfl, if_pos hi]
  rfl

theorem load_store_ne (m : List Nat) (i x j : Nat) (hij : i ≠ j) :
    load (store m i x) j = load m j := by
  rw [load_eq, getElem?_store, if_neg hij, load_eq]

theorem take_memcpy (dst : List Nat) (off : Nat) (src : List Nat) (n : Nat)
    (hd : off + n ≤ dst.length) (hs : n ≤ src.length) :
    (memcpy dst off src n).take (off + n) = dst.take off ++ src.take n := by
  apply take_eq_of_getElem?
  · simp only [List.length_append, List.length_take]
    omega
  · intro j hj
    rw [getElem?_memcpy, if_pos (by omega)]
    have hmin : min n src.length = n := by omega
    rw [hmin]
    by_cases h1 : off ≤ j
    · rw [if_pos ⟨h1, hj⟩, List.getElem?_append_right (by simp; omega)]
      simp only [List.length_take, List.getElem?_take]
      have e : min off dst.length = off := by omega
      rw [e, if_pos (by omega)]
    · have h2 : ¬ (off ≤ j ∧ j < off + n) := by omega
      rw [if_neg h2, List.getElem?_append_left (by simp; omega), List.getElem?_take,
        if_pos (by omega)]

theorem take_memcpy_lt (dst : List Nat) (off : Nat) (src : List Nat) (n k : Nat)
    (hk : k ≤ off) : (memcpy dst off src n).take k = dst.take k := by
  apply List.ext_getElem?
  intro j
  rw [List.getElem?_take, List.getElem?_take]
  by_cases hj : j < k
  · rw [if_pos hj, if_pos hj, getElem?_memcpy]
    by_cases hl : j < dst.length
    · rw [if_pos hl, if_neg (by omega)]
    · rw [if_neg hl, List.getElem?_eq_none (by omega)]
  · rw [if_neg hj, if_neg hj]

/-- The bytes in front of the new terminator after `memcpy(buf + used - 1, src, n)` and
`buf[used + n - 1] = 0`. -/
theorem take_append_write (v : List Nat) (u n : Nat) (src : List Nat)
    (hu : 1 ≤ u) (hv : u + n ≤ v.length) (hs : n ≤ src.length) :
    (store (memcpy v (u - 1) src n) (u + n - 1) 0).take (u + n - 1)
        = v.take (u - 1) ++ src.take n
    ∧ load (store (memcpy v (u - 1) src n) (u + n - 1) 0) (u + n - 1) = 0
    ∧ (store (memcpy v (u - 1) src n) (u + n - 1) 0).length = v.length := by
  refine ⟨?_, ?_, ?_⟩
  · rw [take_store_ge _ _ _ _ (le_refl _)]
    have e : u + n - 1 = (u - 1) + n := by omega
    rw [e]
    exact take_memcpy _ _ _ _ (by omega) hs
  · exact load_store_self _ _ _ (by rw [length_memcpy]; omega)
  · rw [length_store, length_memcpy]

theorem length_junk (h : Heap) (n : Nat) : ((List.range n).map h.junk).length = n := by simp

theorem take_take_of_le (m : List Nat) {k n : Nat} (hk : k ≤ n) :
    (m.take n).take k = m.take k := by
  rw [List.take_take, Nat.min_eq_left hk]

theorem take_eq_take_of_le {m m' : List Nat} {n k : Nat} (hk : k ≤ n)
    (h : m.take n = m'.take n) : m.take k = m'.take k := by
  rw [← take_take_of_le m hk, ← take_take_of_le m' hk, h]

theorem load_eq_of_take {m m' : List Nat} {n k : Nat} (hk : k < n)
    (h : m.take n = m'.take n) : load m k = load m' k := by
  have h1 : (m.take n)[k]? = m[k]? := by rw [List.getElem?_take, if_pos hk]
  have h2 : (m'.take n)[k]? = m'[k]? := by rw [List.getElem?_take, if_pos hk]
  rw [load_eq, load_eq, ← h1, ← h2, h]

end COWStrings

namespace COWStrings
open CowString

/-! ## `ensureOwnedCapacity` on a String that satisfies the representation invariant -/

theorem grow_room (h : Heap) (a : CowString) (m : Nat)
    (hu : a.bufferSize ≤ (a.cString h).length)
    (hm : a.bufferSize ≤ max (TSmallCapacity * 2) m) :
    ∃ v1, (growIntoDynamicString h a m).2
          = ⟨some h.cells.length, max (TSmallCapacity * 2) m, a.bufferSize, 0⟩
      ∧ (growIntoDynamicString h a m).1.get h.cells.length = some ⟨1, v1⟩
      ∧ v1.length = max (TSmallCapacity * 2) m
      ∧ v1.take a.bufferSize = (a.cString h).take a.bufferSize
      ∧ ∀ j, j ≠ h.cells.length → (growIntoDynamicString h a m).1.get j = h.get j := by
  refine ⟨store (memcpy ((List.range (max (TSmallCapacity * 2) m)).map h.junk) 0
      (a.cString h) a.bufferSize) a.bufferSize 0, ?_, ?_, ?_, ?_, ?_⟩
  · simp [growIntoDynamicString, Heap.make_snd, TDynamicString.setCodePoints]
  · simp only [growIntoDynamicString, Heap.make_snd, Heap.reset]
    rw [Heap.get_ref, if_pos rfl, Heap.get_write, if_pos rfl, Heap.get_write, if_pos rfl,
      Heap.get_make, if_pos rfl]
    rfl
  · rw [length_store, length_memcpy, length_junk]
  · rw [take_store_ge _ _ _ _ (le_refl _)]
    have := take_memcpy ((List.range (max (TSmallCapacity * 2) m)).map h.junk) 0
      (a.cString h) a.bufferSize (by rw [length_junk]; omega) hu
    simpa using this
  · intro j hj
    simp only [growIntoDynamicString, Heap.make_snd, Heap.reset]
    rw [Heap.get_ref, if_neg hj, Heap.get_write, if_neg hj, Heap.get_write, if_neg hj,
      Heap.get_make, if_neg hj]

theorem grow_spec (h : Heap) (a : CowString) (m : Nat)
    (hu : a.bufferSize ≤ (a.cString h).length) (hm : a.bufferSize ≤ m) :
    ∃ v1, (growIntoDynamicString h a m).2
          = ⟨some h.cells.length, max (TSmallCapacity * 2) m, a.bufferSize, 0⟩
      ∧ (growIntoDynamicString h a m).1.get h.cells.length = some ⟨1, v1⟩
      ∧ v1.length = max (TSmallCapacity * 2) m
      ∧ v1.take a.bufferSize = (a.cString h).take a.bufferSize
      ∧ ∀ j, j ≠ h.cells.length → (growIntoDynamicString h a m).1.get j = h.get j :=
  grow_room h a m hu (le_trans hm (le_max_right _ _))

/-- Outcome of `ensureOwnedCapacity(m)` when the block allocated for a Small or Literal
String has room for the bytes in use: the String
is Dynamic on a live block that nobody else holds (reference count 1), as long as
`capacity`, with room for `m` bytes and the old used bytes in front. Either nothing was
allocated, or the block is fresh and the block held before was released. -/
theorem ensure_room {h : Heap} {a : CowString} (hs : Shape h a) (m : Nat)
    (hm : a.isDynamic = false → a.bufferSize ≤ max (TSmallCapacity * 2) m) :
    ∃ id1 v1, (ensureOwnedCapacity h a m).2.buffer = some id1
      ∧ (ensureOwnedCapacity h a m).1.get id1 = some ⟨1, v1⟩
      ∧ v1.length = (ensureOwnedCapacity h a m).2.capacity
      ∧ m ≤ (ensureOwnedCapacity h a m).2.capacity
      ∧ (ensureOwnedCapacity h a m).2.used = a.bufferSize
      ∧ v1.take a.bufferSize = (a.cString h).take a.bufferSize
      ∧ (∀ d, a = dyn d → (ensureOwnedCapacity h a m).2.codePoints = d.codePoints)
      ∧ (a.isDynamic = false → (ensureOwnedCapacity h a m).2.codePoints = 0)
      ∧ ((a.heldBlock = some id1 ∧ (ensureOwnedCapacity h a m).1 = h)
        ∨ (id1 = h.cells.length
          ∧ ∀ j, j ≠ id1 →
              (ensureOwnedCapacity h a m).1.get j = (h.reset a.heldBlock none).get j)) := by
  cases a with
  | small b =>
    obtain ⟨v1, e1, e2, e3, e4, e5⟩ := grow_room h (small b) m hs.used_le (hm rfl)
    have he : ensureOwnedCapacity h (small b) m = growIntoDynamicString h (small b) m := rfl
    rw [he, e1]
    refine ⟨_, v1, rfl, e2, e3, by simp, rfl, e4, ?_, fun _ => rfl, Or.inr ⟨rfl, ?_⟩⟩
    · intro d hd; cases hd
    · intro j hj
      rw [e5 j hj]
      rfl
  | lit l =>
    obtain ⟨v1, e1, e2, e3, e4, e5⟩ := grow_room h (lit l) m hs.used_le (hm rfl)
    have he : ensureOwnedCapacity h (lit l) m = growIntoDynamicString h (lit l) m := rfl
    rw [he, e1]
    refine ⟨_, v1, rfl, e2, e3, by simp, rfl, e4, ?_, fun _ => rfl, Or.inr ⟨rfl, ?_⟩⟩
    · intro d hd; cases hd
    · intro j hj
      rw [e5 j hj]
      rfl
  | dyn d =>
    obtain ⟨id, rc, hb, hg, hrc, hcap⟩ := hs.held d rfl
    have hused : (dyn d).bufferSize = d.used := by simp [bufferSize, hb]
    have hcs : (dyn d).cString h = h.data id := by simp [cString, hb]
    have hbc : (dyn d).bufferCapacity = d.capacity := by simp [bufferCapacity, hb]
    have hul := hs.used_le
    rw [hused] at hul ⊢
    by_cases hre : (dyn d).isShared h = true ∨ (dyn d).bufferCapacity < m
    · rw [ensureOwnedCapacity_realloc h d m hre]
      have hlt := Heap.lt_length_of_get hg
      have hne : h.cells.length ≠ id := by omega
      obtain ⟨N, hN, hcapge, hmle⟩ : ∃ N, (if (dyn d).bufferCapacity ≥ m then
            (dyn d).bufferCapacity
            else max (max ((dyn d).bufferCapacity * 2) m) (TSmallCapacity * 2)) = N
          ∧ d.capacity ≤ N ∧ m ≤ N := by
        refine ⟨_, rfl, ?_, ?_⟩
        · rw [hbc]
          split
          · exact le_refl _
          · omega
        · split
          · assumption
          · omega
      rw [hN]
      refine ⟨h.cells.length, memcpy ((List.range N).map h.junk) 0 (h.data id) d.used, rfl,
        ?_, ?_, hmle, rfl, ?_, ?_, ?_, Or.inr ⟨rfl, ?_⟩⟩
      · simp only [hb, Heap.reset]
        rw [Heap.get_ref, if_pos rfl, Heap.get_unref, if_neg hne, Heap.get_write, if_pos rfl,
          Heap.get_make, if_pos rfl]
        rfl
      · rw [length_memcpy, length_junk]
      · rw [hcs]
        have := take_memcpy ((List.range N).map h.junk) 0
          (h.data id) d.used (by rw [length_junk]; rw [hcs] at hcap; rw [hcs] at hul; omega)
          (by rw [hcs] at hul; exact hul)
        simpa using this
      · intro d' hd'
        cases hd'
        rfl
      · intro hn
        cases hn
      · intro j hj
        simp only [hb, Heap.reset, heldBlock]
        rw [Heap.get_ref, if_neg hj]
        by_cases hji : j = id
        · subst hji
          rw [Heap.get_unref, if_pos rfl, Heap.get_unref, if_pos rfl, Heap.get_write, if_neg hj,
            Heap.get_make, if_neg hj]
        · rw [Heap.get_unref, if_neg hji, Heap.get_unref, if_neg hji, Heap.get_write, if_neg hj,
            Heap.get_make, if_neg hj]
    · have hns : (dyn d).isShared h = false := by
        cases hsh : (dyn d).isShared h
        · rfl
        · exact absurd (Or.inl hsh) hre
      have hge : m ≤ (dyn d).bufferCapacity := by
        by_contra hlt
        exact hre (Or.inr (by omega))
      have he : ensureOwnedCapacity h (dyn d) m = (h, d) := by
        unfold ensureOwnedCapacity
        simp [hns, hge]
      have hrc1 : rc = 1 := by
        rw [isShared_dyn _ _ _ hb, Heap.refCount_eq, hg] at hns
        simp at hns
        omega
      rw [he]
      subst hrc1
      refine ⟨id, (dyn d).cString h, hb, hg, hcap, by rw [← hbc]; exact hge, rfl, rfl, ?_, ?_,
        Or.inl ⟨hb, rfl⟩⟩
      · intro d' hd'
        cases hd'
        rfl
      · intro hn
        cases hn

/-- Outcome of `ensureOwnedCapacity(m)` for `m` at least the bytes in use. -/
theorem ensure_spec {h : Heap} {a : CowString} (hs : Shape h a) (m : Nat)
    (hm : a.bufferSize ≤ m) :
    ∃ id1 v1, (ensureOwnedCapacity h a m).2.buffer = some id1
      ∧ (ensureOwnedCapacity h a m).1.get id1 = some ⟨1, v1⟩
      ∧ v1.length = (ensureOwnedCapacity h a m).2.capacity
      ∧ m ≤ (ensureOwnedCapacity h a m).2.capacity
      ∧ (ensureOwnedCapacity h a m).2.used = a.bufferSize
      ∧ v1.take a.bufferSize = (a.cString h).take a.bufferSize
      ∧ (∀ d, a = dyn d → (ensureOwnedCapacity h a m).2.codePoints = d.codePoints)
      ∧ (a.isDynamic = false → (ensureOwnedCapacity h a m).2.codePoints = 0)
      ∧ ((a.heldBlock = some id1 ∧ (ensureOwnedCapacity h a m).1 = h)
        ∨ (id1 = h.cells.length
          ∧ ∀ j, j ≠ id1 →
              (ensureOwnedCapacity h a m).1.get j = (h.reset a.heldBlock none).get j)) :=
  ensure_room hs m (fun _ => le_trans hm (le_max_right _ _))

end COWStrings

namespace COWStrings
open CowString

/-! ## `appendBytes` on a String that satisfies the representation invariant -/

theorem content_eq (h : Heap) (s : CowString) :
    s.content h = (s.cString h).take (s.bufferSize - 1) := rfl

/-- The owned-buffer part of `appendBytes`: the String ends Dynamic on a block nobody
else holds, its bytes are the old ones followed by the `n` source bytes, and the heap
differs from the old one only in that block (and in the release of the block held
before, when a new one was allocated). -/
theorem appendBytesOwned_spec {h : Heap} {a : CowString} (hs : Shape h a) (bytes : BytePtr)
    (n : Nat) (hfit : a.bufferSize + n ≤ 2 ^ 62)
    (hn : n ≤ (deref (ensureOwnedCapacity h a (a.bufferSize + n)).1
        (dyn (ensureOwnedCapacity h a (a.bufferSize + n)).2)
        (rebase bytes a.heldBlock (ensureOwnedCapacity h a (a.bufferSize + n)).2.buffer)).length)
    (hX : Framed ((deref (ensureOwnedCapacity h a (a.bufferSize + n)).1
        (dyn (ensureOwnedCapacity h a (a.bufferSize + n)).2)
        (rebase bytes a.heldBlock
          (ensureOwnedCapacity h a (a.bufferSize + n)).2.buffer)).take n)) :
    Shape (appendBytesOwned h a bytes n).1 (appendBytesOwned h a bytes n).2
    ∧ (appendBytesOwned h a bytes n).2.content (appendBytesOwned h a bytes n).1
        = a.content h ++ (deref (ensureOwnedCapacity h a (a.bufferSize + n)).1
            (dyn (ensureOwnedCapacity h a (a.bufferSize + n)).2)
            (rebase bytes a.heldBlock
              (ensureOwnedCapacity h a (a.bufferSize + n)).2.buffer)).take n
    ∧ (appendBytesOwned h a bytes n).2.bufferSize = a.bufferSize + n
    ∧ (appendBytesOwned h a bytes n).2.isSmall = false
    ∧ (∀ l, bytes = BytePtr.mem l →
        (appendBytesOwned h a bytes n).2.cachedCount = 0
        ∨ (a.cachedCount ≠ 0 ∧ a.isDynamic = true
          ∧ (appendBytesOwned h a bytes n).2.cachedCount
              = (a.cachedCount + countCodePointsInBuffer l n) % 2 ^ 62))
    ∧ ∃ id1 v3, (appendBytesOwned h a bytes n).2.heldBlock = some id1
      ∧ (appendBytesOwned h a bytes n).1.get id1 = some ⟨1, v3⟩
      ∧ ((a.heldBlock = some id1 ∧ h.refCount id1 = 1
          ∧ ∀ j, j ≠ id1 → (appendBytesOwned h a bytes n).1.get j = h.get j)
        ∨ (id1 = h.cells.length
          ∧ ∀ j, j ≠ id1 →
              (appendBytesOwned h a bytes n).1.get j = (h.reset a.heldBlock none).get j)) := by
  obtain ⟨id1, v1, hb1, hg1, hlen1, hcap1, hused1, htake1, hcpd, hcpn, hstep⟩ :=
    ensure_spec hs (a.bufferSize + n) (by omega)
  have hpos := hs.used_pos
  have hs1 : sub64 a.bufferSize 1 = a.bufferSize - 1 := sub64_of_le hpos
  have hs2 : sub64 (a.bufferSize + n) 1 = a.bufferSize + n - 1 := sub64_of_le (by omega)
  have hdef : appendBytesOwned h a bytes n =
      (let e := ensureOwnedCapacity h a (a.bufferSize + n)
       let bytes1 := rebase bytes a.heldBlock e.2.buffer
       let h3 := (e.1.write e.2.buffer fun v =>
          memcpy v (sub64 a.bufferSize 1) (deref e.1 (dyn e.2) bytes1) n).write e.2.buffer
            fun v => store v (sub64 (a.bufferSize + n) 1) 0
       let d2 : TDynamicString := { e.2 with used := a.bufferSize + n }
       (h3, dyn (if d2.hasCachedCodePoints && decide (n ≤ 64) then
          d2.setCodePoints (d2.getCodePoints
            + countCodePointsInBuffer (deref h3 (dyn d2) bytes1) n)
          else d2.setCodePoints 0))) := by
    unfold appendBytesOwned
    simp only
    split <;> rfl
  rw [hdef]
  clear hdef
  generalize ensureOwnedCapacity h a (a.bufferSize + n) = e at *
  obtain ⟨h1, d1⟩ := e
  obtain ⟨buf1, cap1, used1, cp1⟩ := d1
  simp only at hb1 hg1 hlen1 hcap1 hused1 hcpd hcpn hstep hn hX ⊢
  subst hb1
  rw [hs1, hs2]
  generalize hsrc : deref h1 (dyn ⟨some id1, cap1, used1, cp1⟩) (rebase bytes a.heldBlock (some id1))
    = src at hn hX ⊢
  obtain ⟨w1, w2, w3⟩ := take_append_write v1 a.bufferSize n src hpos (by omega) hn
  have hg3 : ((h1.write (some id1) fun v => memcpy v (a.bufferSize - 1) src n).write (some id1)
      fun v => store v (a.bufferSize + n - 1) 0).get id1
        = some ⟨1, store (memcpy v1 (a.bufferSize - 1) src n) (a.bufferSize + n - 1) 0⟩ := by
    rw [Heap.get_write, if_pos rfl, Heap.get_write, if_pos rfl, hg1]
    rfl
  have hfr3 : ∀ j, j ≠ id1 →
      ((h1.write (some id1) fun v => memcpy v (a.bufferSize - 1) src n).write (some id1)
        fun v => store v (a.bufferSize + n - 1) 0).get j = h1.get j := by
    intro j hj
    rw [Heap.get_write, if_neg hj, Heap.get_write, if_neg hj]
  generalize hh3 : ((h1.write (some id1) fun v => memcpy v (a.bufferSize - 1) src n).write
      (some id1) fun v => store v (a.bufferSize + n - 1) 0) = h3 at hg3 hfr3 ⊢
  generalize hd3 : (if (TDynamicString.hasCachedCodePoints ⟨some id1, cap1, a.bufferSize + n, cp1⟩
        && decide (n ≤ 64)) = true then
      TDynamicString.setCodePoints ⟨some id1, cap1, a.bufferSize + n, cp1⟩
        (TDynamicString.getCodePoints ⟨some id1, cap1, a.bufferSize + n, cp1⟩
          + countCodePointsInBuffer (deref h3 (dyn ⟨some id1, cap1, a.bufferSize + n, cp1⟩)
              (rebase bytes a.heldBlock (some id1))) n)
      else TDynamicString.setCodePoints ⟨some id1, cap1, a.bufferSize + n, cp1⟩ 0) = d3
  have hb3 : d3.buffer = some id1 := by
    rw [← hd3]; split <;> rfl
  have hc3 : d3.capacity = cap1 := by
    rw [← hd3]; split <;> rfl
  have hu3 : d3.used = a.bufferSize + n := by
    rw [← hd3]; split <;> rfl
  have hcs3 : (dyn d3).cString h3
      = store (memcpy v1 (a.bufferSize - 1) src n) (a.bufferSize + n - 1) 0 := by
    simp only [cString, hb3, Heap.data_eq, hg3]
    rfl
  have hbs3 : (dyn d3).bufferSize = a.bufferSize + n := by
    simp [bufferSize, hb3, hu3]
  have hcontent : (dyn d3).content h3 = a.content h ++ src.take n := by
    rw [content_eq, hcs3, hbs3, w1, content_eq]
    congr 1
    exact take_eq_take_of_le (by omega) htake1
  refine ⟨?_, hcontent, hbs3, rfl, ?_, id1, _, hb3, hg3, ?_⟩
  · refine ⟨by omega, ?_, by omega, ?_, ?_, ?_, ?_⟩
    · rw [hcs3, w3, hbs3]; omega
    · rw [hcs3, hbs3]; exact w2
    · rw [hcontent]; exact hs.framed.append hX
    · intro b hb
      cases hb
    · intro d hd
      cases hd
      refine ⟨id1, 1, hb3, ?_, le_refl 1, ?_⟩
      · rw [hg3, ← hcs3]
      · rw [hcs3, w3, hlen1, hc3]
  · intro l hl
    subst hl
    have hderef : deref h3 (dyn ⟨some id1, cap1, a.bufferSize + n, cp1⟩)
        (rebase (BytePtr.mem l) a.heldBlock (some id1)) = l := by
      simp [rebase, deref]
    rw [hderef] at hd3
    by_cases hc : (TDynamicString.hasCachedCodePoints ⟨some id1, cap1, a.bufferSize + n, cp1⟩
        && decide (n ≤ 64)) = true
    · rw [if_pos hc] at hd3
      simp only [Bool.and_eq_true, decide_eq_true_eq, TDynamicString.hasCachedCodePoints,
        Bool.or_eq_true, bne_iff_ne, ne_eq, TDynamicString.getCodePoints] at hc
      by_cases hz : cp1 % 2 ^ 62 = 0
      · left
        have hn0 : n = 0 := by
          rcases hc.1 with hc1 | hc1
          · exact absurd hz hc1
          · omega
        subst hn0
        rw [← hd3]
        simp only [cachedCount, TDynamicString.getCodePoints, TDynamicString.setCodePoints,
          count_zero, hz, Nat.add_zero, Nat.zero_mod]
      · right
        have hdy : a.isDynamic = true := by
          cases hdyn : a.isDynamic
          · exfalso
            apply hz
            rw [hcpn hdyn]
            rfl
          · rfl
        obtain ⟨d, rfl⟩ : ∃ d, a = dyn d := by
          cases a with
          | dyn d => exact ⟨d, rfl⟩
          | small b => cases hdy
          | lit l => cases hdy
        have hcp := hcpd d rfl
        subst hcp
        refine ⟨hz, rfl, ?_⟩
        rw [← hd3]
        simp [cachedCount, TDynamicString.getCodePoints, TDynamicString.setCodePoints]
    · rw [if_neg hc] at hd3
      left
      rw [← hd3]
      simp [cachedCount, TDynamicString.getCodePoints, TDynamicString.setCodePoints]
  · rcases hstep with ⟨hheld, heq⟩ | ⟨hid, hfr⟩
    · left
      refine ⟨hheld, ?_, ?_⟩
      · rw [← heq, Heap.refCount_eq, hg1]
        rfl
      · intro j hj
        rw [hfr3 j hj, heq]
    · right
      refine ⟨hid, ?_⟩
      intro j hj
      rw [hfr3 j hj, hfr j hj]

end COWStrings

namespace COWStrings
open CowString

theorem small_bufferSize (b : List Nat) :
    (small b).bufferSize = sub64 32 (load b 31) := rfl

theorem Shape.small_last {h : Heap} {b : List Nat} (hs : Shape h (small b)) :
    load b 31 ≤ 31 ∧ (small b).bufferSize = 32 - load b 31 := by
  have h1 := hs.used_pos
  have h2 := hs.used_le
  have h3 := (hs.inl b rfl).1
  have h4 := (hs.inl b rfl).2
  simp only [cString, h3] at h2
  rw [small_bufferSize] at h1 h2 ⊢
  unfold COWStrings.sub64 at h1 h2 ⊢
  split at h1
  · rename_i hle
    rw [if_pos hle] at h2 ⊢
    exact ⟨by omega, rfl⟩
  · rename_i hle
    rw [if_neg hle] at h2
    omega

/-- The inline branch of `appendBytes`: the String stays Small, its bytes are the old
ones followed by the `n` source bytes, the heap is not touched. -/
theorem appendBytes_inline_spec {h : Heap} {b : List Nat} (hs : Shape h (small b))
    (bytes : BytePtr) (n : Nat) (hin : (small b).bufferSize + n ≤ 32)
    (hn : n ≤ (deref h (small b) bytes).length)
    (hX : Framed ((deref h (small b) bytes).take n)) :
    (appendBytes h (small b) bytes n).1 = h
    ∧ (appendBytes h (small b) bytes n).2.isSmall = true
    ∧ Shape h (appendBytes h (small b) bytes n).2
    ∧ (appendBytes h (small b) bytes n).2.content h
        = (small b).content h ++ (deref h (small b) bytes).take n
    ∧ (appendBytes h (small b) bytes n).2.bufferSize = (small b).bufferSize + n := by
  obtain ⟨hlast, hbs⟩ := hs.small_last
  have hlen := (hs.inl b rfl).1
  have hpos := hs.used_pos
  generalize hsrc : deref h (small b) bytes = src at hn hX ⊢
  generalize hu : (small b).bufferSize = u at hin hbs hpos ⊢
  have hs1 : sub64 u 1 = u - 1 := sub64_of_le hpos
  have hs2 : sub64 (u + n) 1 = u + n - 1 := sub64_of_le (by omega)
  have hdef : appendBytes h (small b) bytes n
      = (h, small (store (store (memcpy b (u - 1) src n) 31 ((32 - u - n) % 256))
          (u + n - 1) 0)) := by
    unfold appendBytes
    simp only [hu, bufferCapacity, TSmallCapacity, hin, if_true, hs1, hs2, hsrc]
  rw [hdef]
  generalize hb' : store (store (memcpy b (u - 1) src n) 31 ((32 - u - n) % 256)) (u + n - 1) 0
    = b'
  have hlen1 : (memcpy b (u - 1) src n).length = 32 := by rw [length_memcpy, hlen]
  have hlen' : b'.length = 32 := by
    rw [← hb', length_store, length_store, hlen1]
  have hmod : (32 - u - n) % 256 = 32 - u - n := Nat.mod_eq_of_lt (by omega)
  have hl31 : load b' 31 = 32 - (u + n) := by
    rw [← hb']
    by_cases he : u + n - 1 = 31
    · rw [he, load_store_self _ _ _ (by rw [length_store, hlen1]; omega)]
      omega
    · rw [load_store_ne _ _ _ _ he, load_store_self _ _ _ (by rw [hlen1]; omega), hmod]
      omega
  have hbs' : (small b').bufferSize = u + n := by
    rw [small_bufferSize, hl31, sub64_of_le (by omega)]
    omega
  have hterm : load b' (u + n - 1) = 0 := by
    rw [← hb']
    exact load_store_self _ _ _ (by rw [length_store, hlen1]; omega)
  have htake : b'.take (u + n - 1) = b.take (u - 1) ++ src.take n := by
    rw [← hb', take_store_ge _ _ _ _ (le_refl _), take_store_ge _ _ _ _ (by omega)]
    have e : u + n - 1 = (u - 1) + n := by omega
    rw [e]
    exact take_memcpy _ _ _ _ (by rw [hlen]; omega) hn
  have hcontent : (small b').content h = (small b).content h ++ src.take n := by
    rw [content_eq, hbs', content_eq, hu]
    exact htake
  refine ⟨rfl, rfl, ?_, hcontent, hbs'⟩
  refine ⟨by rw [hbs']; omega, ?_, ?_, ?_, ?_, ?_, ?_⟩
  · rw [hbs']
    simp only [cString, hlen']
    exact hin
  · rw [hbs']
    omega
  · rw [hbs']
    exact hterm
  · rw [hcontent]
    exact hs.framed.append hX
  · intro b0 hb0
    cases hb0
    exact ⟨hlen', by rw [hl31]; omega⟩
  · intro d hd
    cases hd

end COWStrings

namespace COWStrings
open CowString

/-! ## Counting the holders of a block -/

theorem holders_nil (id : Nat) : holders [] id = 0 := rfl

theorem holders_cons (s : CowString) (l : List CowString) (id : Nat) :
    holders (s :: l) id = holders l id + (if s.heldBlock = some id then 1 else 0) := by
  unfold holders
  rw [List.countP_cons]
  simp

theorem holders_append_one (l : List CowString) (t : CowString) (id : Nat) :
    holders (l ++ [t]) id = holders l id + (if t.heldBlock = some id then 1 else 0) := by
  unfold holders
  rw [List.countP_append, List.countP_cons]
  simp

theorem holders_set (l : List CowString) (i : Nat) (a a' : CowString) (id : Nat)
    (hi : l[i]? = some a) :
    holders (l.set i a') id + (if a.heldBlock = some id then 1 else 0)
      = holders l id + (if a'.heldBlock = some id then 1 else 0) := by
  induction l generalizing i with
  | nil => simp at hi
  | cons x xs ih =>
    cases i with
    | zero =>
      simp only [List.getElem?_cons_zero, Option.some.injEq] at hi
      subst hi
      simp only [List.set_cons_zero, holders_cons]
      omega
    | succ k =>
      simp only [List.getElem?_cons_succ] at hi
      simp only [List.set_cons_succ, holders_cons]
      have := ih k hi
      omega

theorem holders_pos (l : List CowString) (i : Nat) (s : CowString) (id : Nat)
    (hi : l[i]? = some s) (hs : s.heldBlock = some id) : 1 ≤ holders l id := by
  induction l generalizing i with
  | nil => simp at hi
  | cons x xs ih =>
    cases i with
    | zero =>
      simp only [List.getElem?_cons_zero, Option.some.injEq] at hi
      subst hi
      rw [holders_cons, if_pos hs]
      omega
    | succ k =>
      simp only [List.getElem?_cons_succ] at hi
      rw [holders_cons]
      have := ih k hi
      omega

theorem holders_two (l : List CowString) (i j : Nat) (s t : CowString) (id : Nat)
    (hij : i ≠ j) (hi : l[i]? = some s) (hj : l[j]? = some t)
    (hs : s.heldBlock = some id) (ht : t.heldBlock = some id) : 2 ≤ holders l id := by
  induction l generalizing i j with
  | nil => simp at hi
  | cons x xs ih =>
    rw [holders_cons]
    cases i with
    | zero =>
      simp only [List.getElem?_cons_zero, Option.some.injEq] at hi
      subst hi
      cases j with
      | zero => exact absurd rfl hij
      | succ k =>
        simp only [List.getElem?_cons_succ] at hj
        have := holders_pos xs k t id hj ht
        rw [if_pos hs]
        omega
    | succ k =>
      simp only [List.getElem?_cons_succ] at hi
      cases j with
      | zero =>
        simp only [List.getElem?_cons_zero, Option.some.injEq] at hj
        subst hj
        have := holders_pos xs k s id hi hs
        rw [if_pos ht]
        omega
      | succ m =>
        simp only [List.getElem?_cons_succ] at hj
        have := ih k m (fun e => hij (by rw [e])) hi hj
        omega

/-! ## Strings that an operation does not touch -/

/-- Block `id` is live in both heaps and holds the same bytes. -/
theorem cString_frame {h h' : Heap} {t : CowString}
    (hf : ∀ id, t.heldBlock = some id → h'.data id = h.data id) :
    t.cString h' = t.cString h := by
  cases t with
  | small b => rfl
  | lit l => rfl
  | dyn d =>
    cases hb : d.buffer with
    | none => simp [cString, hb]
    | some id =>
      simp only [cString, hb]
      exact hf id (by simp [heldBlock, hb])

theorem Shape.frame {h h' : Heap} {t : CowString} (hs : Shape h t)
    (hf : ∀ id, t.heldBlock = some id →
      ∃ rc rc' v, h.get id = some ⟨rc, v⟩ ∧ h'.get id = some ⟨rc', v⟩ ∧ 1 ≤ rc') :
    Shape h' t := by
  have hcs : t.cString h' = t.cString h := by
    apply cString_frame
    intro id hid
    obtain ⟨rc, rc', v, h1, h2, _⟩ := hf id hid
    rw [Heap.data_eq, Heap.data_eq, h1, h2]
    rfl
  have hcontent : t.content h' = t.content h := by
    rw [content_eq, content_eq, hcs]
  refine ⟨hs.used_pos, by rw [hcs]; exact hs.used_le, hs.used_bound,
    by rw [hcs]; exact hs.terminated, by rw [hcontent]; exact hs.framed, hs.inl, ?_⟩
  intro d hd
  obtain ⟨id, rc, hb, hg, hrc, hcap⟩ := hs.held d hd
  obtain ⟨rc0, rc', v, h1, h2, h3⟩ := hf id (by rw [hd]; exact hb)
  rw [hg] at h1
  cases h1
  exact ⟨id, rc', hb, by rw [hcs]; exact h2, h3, by rw [hcs]; exact hcap⟩

theorem CacheOk.cache_frame {h h' : Heap} {t : CowString} (hc : CacheOk h t)
    (hcs : t.cString h' = t.cString h) : CacheOk h' t := by
  unfold CacheOk at hc ⊢
  rw [hcs]
  exact hc

end COWStrings

namespace COWStrings
open CowString

/-! ## The world invariant under a mutation of one String -/

theorem Shape.held_live {h : Heap} {t : CowString} (hs : Shape h t) {id : Nat}
    (hid : t.heldBlock = some id) :
    ∃ rc, h.get id = some ⟨rc, t.cString h⟩ ∧ 1 ≤ rc := by
  cases t with
  | small b => cases hid
  | lit l => cases hid
  | dyn d =>
    obtain ⟨id', rc, hb, hg, hrc, _⟩ := hs.held d rfl
    have : id' = id := by
      simp only [heldBlock] at hid
      rw [hb] at hid
      exact Option.some.inj hid
    subst this
    exact ⟨rc, hg, hrc⟩

theorem getElem?_set_cases {α : Type} (l : List α) (i k : Nat) (x t : α)
    (h : (l.set i x)[k]? = some t) : (k = i ∧ t = x) ∨ (k ≠ i ∧ l[k]? = some t) := by
  rw [List.getElem?_set] at h
  by_cases hik : i = k
  · subst hik
    rw [if_pos rfl] at h
    split at h
    · left
      exact ⟨rfl, (Option.some.inj h).symm⟩
    · cases h
  · rw [if_neg hik] at h
    right
    exact ⟨fun e => hik e.symm, h⟩

/-- Other Strings keep their block across a heap step of the String at position `i`. -/
theorem other_block_kept {h h' : Heap} {strs : List CowString} {i k : Nat}
    {a a' t : CowString} (hc : Consistent ⟨h, strs⟩) (hi : strs[i]? = some a)
    (hk : strs[k]? = some t) (hki : k ≠ i) (hstep : HeapStep h a h' a') {id : Nat}
    (hid : t.heldBlock = some id) :
    a'.heldBlock ≠ some id ∨ (a.heldBlock = some id ∧ h' = h) := by
  rcases hstep with ⟨heq, hheld, _⟩ | ⟨id1, v3, ha, ha', hrc, hg, hfr⟩ | ⟨v3, ha', hg, hfr⟩
  · by_cases hh : a'.heldBlock = some id
    · right
      exact ⟨by rw [← hheld]; exact hh, heq⟩
    · left
      exact hh
  · left
    intro hh
    rw [ha'] at hh
    have hid1 : id1 = id := Option.some.inj hh
    subst hid1
    have h2 := holders_two strs k i t a id1 hki hk hi hid ha
    have h3 := hc.counted id1
    simp only at h3
    omega
  · left
    intro hh
    rw [ha'] at hh
    have hid1 : h.cells.length = id := Option.some.inj hh
    obtain ⟨rc, hlive, _⟩ := (hc.shape k t hk).1.held_live hid
    have := Heap.lt_length_of_get hlive
    simp only at this
    omega

theorem block_after_step {h h' : Heap} {strs : List CowString} {i k : Nat}
    {a a' t : CowString} (hc : Consistent ⟨h, strs⟩) (hi : strs[i]? = some a)
    (hk : strs[k]? = some t) (hki : k ≠ i) (hstep : HeapStep h a h' a') {id : Nat}
    (hid : t.heldBlock = some id) :
    ∃ rc rc' v, h.get id = some ⟨rc, v⟩ ∧ h'.get id = some ⟨rc', v⟩ ∧ 1 ≤ rc' := by
  obtain ⟨rc, hlive, hrc⟩ := (hc.shape k t hk).1.held_live hid
  simp only at hlive
  have hlt := Heap.lt_length_of_get hlive
  rcases hstep with ⟨heq, hheld, _⟩ | ⟨id1, v3, ha, ha', hrc1, hg, hfr⟩ | ⟨v3, ha', hg, hfr⟩
  · subst heq
    exact ⟨rc, rc, _, hlive, hlive, hrc⟩
  · have hne : id ≠ id1 := by
      intro e
      subst e
      have h2 := holders_two strs k i t a id hki hk hi hid ha
      have h3 := hc.counted id
      simp only at h3
      omega
    exact ⟨rc, rc, _, hlive, by rw [hfr id hne]; exact hlive, hrc⟩
  · have hne : id ≠ h.cells.length := by omega
    by_cases hah : a.heldBlock = some id
    · have h2 := holders_two strs k i t a id hki hk hi hid hah
      have h3 := hc.counted id
      simp only [Heap.refCount_eq, hlive] at h3
      simp only [Option.map_some', Option.getD_some] at h3
      have hrc2 : ¬ (rc - 1 = 0) := by omega
      refine ⟨rc, rc - 1, _, hlive, ?_, by omega⟩
      rw [hfr id hne, hah]
      simp only [Heap.reset]
      rw [Heap.get_unref, if_pos rfl, hlive]
      simp [hrc2]
    · refine ⟨rc, rc, _, hlive, ?_, hrc⟩
      rw [hfr id hne]
      cases hab : a.heldBlock with
      | none => exact hlive
      | some old =>
        simp only [Heap.reset]
        rw [Heap.get_unref, if_neg, hlive]
        intro e
        apply hah
        rw [hab, e]

end COWStrings

namespace COWStrings
open CowString

theorem holders_fresh {h : Heap} {strs : List CowString} (hc : Consistent ⟨h, strs⟩) :
    holders strs h.cells.length = 0 := by
  have h1 := hc.counted h.cells.length
  simp only [Heap.refCount_eq, Heap.get_of_length_le (le_refl _)] at h1
  simpa using h1

theorem refCount_reset_le (h : Heap) (a : CowString) (id : Nat) :
    h.refCount id ≤ (h.reset a.heldBlock none).refCount id
      + (if a.heldBlock = some id then 1 else 0) := by
  cases hab : a.heldBlock with
  | none => simp [Heap.reset]
  | some old =>
    simp only [Heap.reset, Heap.refCount_eq, Heap.get_unref]
    by_cases he : id = old
    · subst he
      rw [if_pos rfl, if_pos rfl]
      cases hg : h.get id with
      | none => simp
      | some c =>
        by_cases hz : c.refCounter - 1 = 0
        · simp only [Option.some_bind, hz, if_true, Option.map_none', Option.getD_none,
            Option.map_some', Option.getD_some]
          omega
        · simp only [Option.some_bind, hz, if_false, Option.map_some', Option.getD_some]
          omega
    · rw [if_neg he, if_neg (fun e => he (Option.some.inj e).symm)]
      omega

/-- The world invariant is kept when the String at position `i` is replaced by the
outcome of an operation that satisfies the invariants itself and changes the heap by a
heap step. -/
theorem Consistent.mutate {h h' : Heap} {strs : List CowString} {i : Nat} {a a' : CowString}
    (hc : Consistent ⟨h, strs⟩) (hi : strs[i]? = some a)
    (hs' : Shape h' a') (hc' : CacheOk h' a') (hstep : HeapStep h a h' a') :
    Consistent ⟨h', strs.set i a'⟩ := by
  refine ⟨?_, ?_, ?_⟩
  · intro k t hk
    simp only at hk ⊢
    rcases getElem?_set_cases _ _ _ _ _ hk with ⟨_, rfl⟩ | ⟨hki, hk'⟩
    · exact ⟨hs', hc'⟩
    · have hfr : ∀ id, t.heldBlock = some id →
          ∃ rc rc' v, h.get id = some ⟨rc, v⟩ ∧ h'.get id = some ⟨rc', v⟩ ∧ 1 ≤ rc' :=
        fun id hid => block_after_step hc hi hk' hki hstep hid
      refine ⟨(hc.shape k t hk').1.frame hfr, (hc.shape k t hk').2.cache_frame ?_⟩
      apply cString_frame
      intro id hid
      obtain ⟨rc, rc', v, h1, h2, _⟩ := hfr id hid
      rw [Heap.data_eq, Heap.data_eq, h1, h2]
      rfl
  · intro id
    simp only
    have hset := holders_set strs i a a' id hi
    have hold := hc.counted id
    simp only at hold
    rcases hstep with ⟨heq, hheld, _⟩ | ⟨id1, v3, ha, ha', hrc1, hg, hfr⟩ | ⟨v3, ha', hg, hfr⟩
    · subst heq
      rw [hheld] at hset
      omega
    · rw [ha, ha'] at hset
      by_cases he : id = id1
      · subst he
        have : h'.refCount id = 1 := by
          rw [Heap.refCount_eq, hg]
          rfl
        omega
      · have : h'.refCount id = h.refCount id := by
          rw [Heap.refCount_eq, Heap.refCount_eq, hfr id he]
        omega
    · by_cases he : id = h.cells.length
      · subst he
        have h0 := holders_fresh hc
        have : h'.refCount h.cells.length = 1 := by
          rw [Heap.refCount_eq, hg]
          rfl
        rw [ha', if_pos rfl] at hset
        omega
      · have h1 : h'.refCount id = (h.reset a.heldBlock none).refCount id := by
          rw [Heap.refCount_eq, Heap.refCount_eq, hfr id he]
        have h2 := refCount_reset_le h a id
        rw [ha', if_neg (fun e => he (Option.some.inj e).symm)] at hset
        omega
  · intro k m s t id hk hm hsid htid
    simp only at hk hm
    rcases getElem?_set_cases _ _ _ _ _ hk with ⟨hki, rfl⟩ | ⟨hki, hk'⟩
    · rcases getElem?_set_cases _ _ _ _ _ hm with ⟨_, rfl⟩ | ⟨hmi, hm'⟩
      · rfl
      · rcases other_block_kept hc hi hm' hmi hstep htid with hno | ⟨hah, heq⟩
        · exact absurd hsid hno
        · rcases hstep with ⟨_, hheld, hsz⟩ | ⟨id1, v3, ha, ha', hrc1, hg, hfr⟩
              | ⟨v3, ha', hg, hfr⟩
          · rw [hsz (by rw [hah]; simp)]
            exact hc.agree i m a t id hi hm' hah htid
          · have h2 := holders_two strs m i t a id hmi hm' hi htid hah
            have h3 := hc.counted id
            simp only at h3
            rw [ha] at hah
            cases hah
            omega
          · rw [ha'] at hsid
            have := Heap.lt_length_of_get ((hc.shape m t hm').1.held_live htid).choose_spec.1
            simp only at this
            cases hsid
            omega
    · rcases getElem?_set_cases _ _ _ _ _ hm with ⟨_, rfl⟩ | ⟨hmi, hm'⟩
      · rcases other_block_kept hc hi hk' hki hstep hsid with hno | ⟨hah, heq⟩
        · exact absurd htid hno
        · rcases hstep with ⟨_, hheld, hsz⟩ | ⟨id1, v3, ha, ha', hrc1, hg, hfr⟩
              | ⟨v3, ha', hg, hfr⟩
          · rw [hsz (by rw [hah]; simp)]
            exact hc.agree k i s a id hk' hi hsid hah
          · have h2 := holders_two strs k i s a id hki hk' hi hsid hah
            have h3 := hc.counted id
            simp only at h3
            rw [ha] at hah
            cases hah
            omega
          · rw [ha'] at htid
            have := Heap.lt_length_of_get ((hc.shape k s hk').1.held_live hsid).choose_spec.1
            simp only at this
            cases htid
            omega
      · exact hc.agree k m s t id hk' hm' hsid htid

end COWStrings

namespace COWStrings
open CowString

theorem appendBytes_of_not_inline (h : Heap) (a : CowString) (bytes : BytePtr) (n : Nat)
    (hno : ∀ b, a = small b → ¬ a.bufferSize + n ≤ 32) :
    appendBytes h a bytes n = appendBytesOwned h a bytes n := by
  cases a with
  | small b =>
    have := hno b rfl
    unfold appendBytes
    simp only [bufferCapacity, TSmallCapacity, this, if_false]
  | lit l => rfl
  | dyn d => rfl

/-- `appendBytes` under the representation invariant, for `n` source bytes `X` that are
complete code points: the invariant holds afterwards, the bytes are the old ones
followed by `X`, and the heap changed by a heap step. -/
theorem appendBytes_spec {h : Heap} {a : CowString} (hs : Shape h a) (bytes : BytePtr)
    (n : Nat) (hfit : a.bufferSize + n ≤ 2 ^ 62) (X : List Nat) (hX : Framed X)
    (hin : ∀ b, a = small b → a.bufferSize + n ≤ 32 →
      n ≤ (deref h a bytes).length ∧ (deref h a bytes).take n = X)
    (how : (∀ b, a = small b → ¬ a.bufferSize + n ≤ 32) →
      n ≤ (deref (ensureOwnedCapacity h a (a.bufferSize + n)).1
          (dyn (ensureOwnedCapacity h a (a.bufferSize + n)).2)
          (rebase bytes a.heldBlock (ensureOwnedCapacity h a (a.bufferSize + n)).2.buffer)).length
      ∧ (deref (ensureOwnedCapacity h a (a.bufferSize + n)).1
          (dyn (ensureOwnedCapacity h a (a.bufferSize + n)).2)
          (rebase bytes a.heldBlock
            (ensureOwnedCapacity h a (a.bufferSize + n)).2.buffer)).take n = X) :
    Shape (appendBytes h a bytes n).1 (appendBytes h a bytes n).2
    ∧ (appendBytes h a bytes n).2.content (appendBytes h a bytes n).1 = a.content h ++ X
    ∧ (appendBytes h a bytes n).2.bufferSize = a.bufferSize + n
    ∧ HeapStep h a (appendBytes h a bytes n).1 (appendBytes h a bytes n).2
    ∧ (appendBytes h a bytes n).2.isLiteral = false
    ∧ (∀ l, bytes = BytePtr.mem l →
        (appendBytes h a bytes n).2.cachedCount = 0
        ∨ (a.cachedCount ≠ 0
          ∧ (appendBytes h a bytes n).2.cachedCount
              = (a.cachedCount + countCodePointsInBuffer l n) % 2 ^ 62)) := by
  by_cases hcase : ∀ b, a = small b → ¬ a.bufferSize + n ≤ 32
  · obtain ⟨hn, hsrc⟩ := how hcase
    rw [appendBytes_of_not_inline h a bytes n hcase]
    obtain ⟨s1, s2, s3, s4, s5, id1, v3, s6, s7, s8⟩ :=
      appendBytesOwned_spec hs bytes n hfit hn (by rw [hsrc]; exact hX)
    rw [hsrc] at s2
    have hnl : (appendBytesOwned h a bytes n).2.isLiteral = false := by
      cases hr : (appendBytesOwned h a bytes n).2 with
      | small b' => rfl
      | lit l => rw [hr] at s6; cases s6
      | dyn d => rfl
    refine ⟨s1, s2, s3, ?_, hnl, ?_⟩
    · rcases s8 with ⟨e1, e2, e3⟩ | ⟨e1, e2⟩
      · right; left
        exact ⟨id1, v3, e1, s6, by omega, s7, e3⟩
      · right; right
        subst e1
        exact ⟨v3, s6, s7, e2⟩
    · intro l hl
      rcases s5 l hl with hz | ⟨e1, _, e3⟩
      · left; exact hz
      · right; exact ⟨e1, e3⟩
  · push_neg at hcase
    obtain ⟨b, rfl, hle⟩ := hcase
    obtain ⟨hn, hsrc⟩ := hin b rfl hle
    obtain ⟨s1, s2, s3, s4, s5⟩ := appendBytes_inline_spec hs bytes n hle hn
      (by rw [hsrc]; exact hX)
    rw [hsrc] at s4
    have hsm : ∃ b', (appendBytes h (small b) bytes n).2 = small b' := by
      cases hr : (appendBytes h (small b) bytes n).2 with
      | small b' => exact ⟨b', rfl⟩
      | lit l => rw [hr] at s2; cases s2
      | dyn d => rw [hr] at s2; cases s2
    obtain ⟨b', hb'⟩ := hsm
    rw [s1]
    refine ⟨s3, s4, s5, Or.inl ⟨rfl, by rw [hb']; rfl, fun hne => absurd rfl hne⟩,
      by rw [hb']; rfl, ?_⟩
    intro l _
    left
    rw [hb']
    rfl

end COWStrings

namespace COWStrings
open CowString

/-! ## The cache after an append -/

theorem Shape.content_length {h : Heap} {s : CowString} (hs : Shape h s) :
    (s.content h).length = s.bufferSize - 1 := by
  rw [content_eq, List.length_take]
  have := hs.used_le
  omega

theorem Shape.count_content {h : Heap} {s : CowString} (hs : Shape h s) :
    countCodePointsInBuffer (s.cString h) (s.bufferSize - 1)
      = countCodePointsInBuffer (s.content h) (s.content h).length := by
  rw [hs.content_length]
  apply count_congr
  rw [content_eq, List.take_take, Nat.min_self]

theorem cacheOk_of_count {h : Heap} {s : CowString} (hs : Shape h s)
    (hc : s.cachedCount = 0
      ∨ s.cachedCount = countCodePointsInBuffer (s.content h) (s.content h).length) :
    CacheOk h s := by
  intro hne
  rcases hc with hz | he
  · exact absurd hz hne
  · rw [hs.count_content]
    exact he

theorem CacheOk.count {h : Heap} {s : CowString} (hs : Shape h s) (hc : CacheOk h s)
    (hne : s.cachedCount ≠ 0) :
    s.cachedCount = countCodePointsInBuffer (s.content h) (s.content h).length := by
  rw [← hs.count_content]
  exact hc hne

theorem count_take_self (l : List Nat) (n : Nat) (hn : n ≤ l.length) :
    countCodePointsInBuffer (l.take n) (l.take n).length = countCodePointsInBuffer l n := by
  have : (l.take n).length = n := by rw [List.length_take]; omega
  rw [this]
  apply count_congr
  rw [List.take_take, Nat.min_self]

/-- Counting over old bytes followed by new complete code points, below `2 ^ 62`. -/
theorem count_after_append {h h' : Heap} {a a' : CowString} (hs : Shape h a)
    (hs' : Shape h' a') (X : List Nat) (hcontent : a'.content h' = a.content h ++ X) :
    (countCodePointsInBuffer (a.content h) (a.content h).length
        + countCodePointsInBuffer X X.length) % 2 ^ 62
      = countCodePointsInBuffer (a'.content h') (a'.content h').length := by
  have h1 := count_append (a.content h) hs.framed X X.length
  have h2 : (a'.content h').length = (a.content h).length + X.length := by
    rw [hcontent, List.length_append]
  rw [h2, hcontent, h1]
  apply Nat.mod_eq_of_lt
  rw [← h1, ← List.length_append, ← hcontent]
  have h3 := count_le (a'.content h') (a'.content h').length
  have h4 := hs'.content_length
  have h5 := hs'.pred_lt
  omega

/-! ## `append(Character)` -/

theorem Character.framed (c : Character) : Framed (c.bytes.take c.byteCount) := by
  have hpos := byteLength_pos (load c.bytes 0)
  have hle := byteLength_le (load c.bytes 0)
  have hl : load c.bytes 0 = c.value % 256 := by
    simp [Character.bytes, load]
  unfold Character.byteCount
  rw [hl] at hpos hle ⊢
  have key : ∀ k, k + 1 = byteLengthFromLeadingByte (c.value % 256) → k ≤ 3 →
      Framed (c.bytes.take (k + 1)) := by
    intro k hk hk3
    have e : c.bytes.take (k + 1)
        = (c.value % 256) ::
            ([c.value / 256 % 256, c.value / 65536 % 256, c.value / 16777216 % 256].take k)
            ++ [] := by
      simp [Character.bytes]
    rw [e]
    refine Framed.cons _ _ [] ?_ Framed.nil
    rw [List.length_take, ← hk]
    simp
    omega
  obtain ⟨k, hk⟩ : ∃ k, byteLengthFromLeadingByte (c.value % 256) = k + 1 :=
    ⟨_, (Nat.sub_add_cancel hpos).symm⟩
  rw [hk]
  exact key k hk.symm (by omega)

theorem Character.byteCount_le (c : Character) : c.byteCount ≤ c.bytes.length := by
  have := byteLength_le (load c.bytes 0)
  simp only [Character.byteCount, Character.bytes, List.length_cons, List.length_nil] at this ⊢
  omega

/-- `append(Character)` keeps the invariants and changes the heap by a heap step. -/
theorem appendChar_spec {h : Heap} {a : CowString} (hs : Shape h a) (hc : CacheOk h a)
    (c : Character) (hfit : a.bufferSize + c.byteCount ≤ 2 ^ 62) :
    Shape (appendChar h a c).1 (appendChar h a c).2
    ∧ CacheOk (appendChar h a c).1 (appendChar h a c).2
    ∧ HeapStep h a (appendChar h a c).1 (appendChar h a c).2 := by
  unfold appendChar
  obtain ⟨s1, s2, s3, s4, s5, s6⟩ := appendBytes_spec hs (BytePtr.mem c.bytes) c.byteCount hfit
    (c.bytes.take c.byteCount) c.framed
    (fun _ _ _ => ⟨c.byteCount_le, rfl⟩)
    (fun _ => ⟨c.byteCount_le, rfl⟩)
  refine ⟨s1, ?_, s4⟩
  apply cacheOk_of_count s1
  rcases s6 _ rfl with hz | ⟨hne, heq⟩
  · left; exact hz
  · right
    rw [heq, hc.count hs hne, ← count_take_self c.bytes c.byteCount c.byteCount_le]
    exact count_after_append hs s1 _ s2

end COWStrings

namespace COWStrings
open CowString

/-! ## Updates of the cache alone -/

theorem Shape.setCodePoints_dyn {h : Heap} {d : TDynamicString} (hs : Shape h (dyn d))
    (v : Nat) : Shape h (dyn (d.setCodePoints v)) := by
  refine ⟨hs.used_pos, hs.used_le, hs.used_bound, hs.terminated, hs.framed, ?_, ?_⟩
  · intro b hb
    cases hb
  · intro d' hd'
    cases hd'
    exact hs.held d rfl

theorem Shape.setCodePoints_lit {h : Heap} {l : TLiteralString} (hs : Shape h (lit l))
    (v : Nat) : Shape h (lit (l.setCodePoints v)) := by
  refine ⟨hs.used_pos, hs.used_le, hs.used_bound, hs.terminated, hs.framed, ?_, ?_⟩
  · intro b hb
    cases hb
  · intro d' hd'
    cases hd'

theorem Shape.reset_cache {h : Heap} {s : CowString} (hs : Shape h s) :
    Shape h s.resetCodePointsLitOrDyn := by
  cases s with
  | small b => exact hs
  | lit l => exact hs.setCodePoints_lit 0
  | dyn d => exact hs.setCodePoints_dyn 0

theorem Shape.length {h : Heap} {s : CowString} (hs : Shape h s) :
    Shape h (CowString.length h s).2 := by
  cases s with
  | small b => exact hs
  | lit l =>
    unfold CowString.length
    simp only
    split
    · exact hs.setCodePoints_lit _
    · exact hs
  | dyn d =>
    unfold CowString.length
    simp only
    split
    · exact hs
    · split
      · exact hs.setCodePoints_dyn _
      · exact hs

theorem content_length_snd (h : Heap) (s : CowString) (h' : Heap) :
    (CowString.length h s).2.content h' = s.content h' := by
  rw [content_eq, content_eq, length_snd_cString, length_snd_bufferSize]

theorem CacheOk.after_length {h : Heap} {s : CowString} (hs : Shape h s) (hc : CacheOk h s) :
    CacheOk h (CowString.length h s).2 := by
  apply cacheOk_of_count hs.length
  rcases length_snd_cachedCount hs hc with hz | he
  · left; exact hz
  · right
    rw [he, content_length_snd, hs.count_content]

theorem reset_view (s : CowString) :
    s.resetCodePointsLitOrDyn.bufferSize = s.bufferSize
    ∧ s.resetCodePointsLitOrDyn.heldBlock = s.heldBlock
    ∧ s.resetCodePointsLitOrDyn.isSmall = s.isSmall
    ∧ s.resetCodePointsLitOrDyn.cachedCount = 0
    ∧ ∀ h, s.resetCodePointsLitOrDyn.cString h = s.cString h := by
  cases s <;> exact ⟨rfl, rfl, rfl, rfl, fun _ => rfl⟩

theorem reset_content (s : CowString) (h : Heap) :
    s.resetCodePointsLitOrDyn.content h = s.content h := by
  rw [content_eq, content_eq, (reset_view s).2.2.2.2, (reset_view s).1]

theorem HeapStep.congr {h h' : Heap} {a0 a a2 a' : CowString} (hst : HeapStep h a0 h' a2)
    (e1 : a0.heldBlock = a.heldBlock) (e2 : a0.bufferSize = a.bufferSize)
    (e3 : a'.heldBlock = a2.heldBlock) (e4 : a'.bufferSize = a2.bufferSize) :
    HeapStep h a h' a' := by
  rcases hst with ⟨heq, hheld, hsz⟩ | ⟨id1, v3, ha, ha', hrc1, hg, hfr⟩ | ⟨v3, ha', hg, hfr⟩
  · left
    refine ⟨heq, by rw [e3, hheld, e1], ?_⟩
    intro hne
    rw [e4, hsz (by rw [e1]; exact hne), e2]
  · right; left
    exact ⟨id1, v3, by rw [← e1]; exact ha, by rw [e3]; exact ha', hrc1, hg, hfr⟩
  · right; right
    exact ⟨v3, by rw [e3]; exact ha', hg, by rw [← e1]; exact hfr⟩

/-- The last statement of the `append` overloads, `if (!isSmall()) dyn().setCodePoints(N)`,
with `N` either 0 or the number of code points in front of the terminator. -/
theorem finish_spec {h : Heap} {a2 : CowString} (hs2 : Shape h a2)
    (hnl : a2.isLiteral = false) (N : Nat)
    (hN : N % 2 ^ 62 = 0
      ∨ N % 2 ^ 62 = countCodePointsInBuffer (a2.content h) (a2.content h).length) :
    Shape h (if !a2.isSmall then dynSetCodePoints N a2 else a2)
    ∧ CacheOk h (if !a2.isSmall then dynSetCodePoints N a2 else a2)
    ∧ (if !a2.isSmall then dynSetCodePoints N a2 else a2).heldBlock = a2.heldBlock
    ∧ (if !a2.isSmall then dynSetCodePoints N a2 else a2).bufferSize = a2.bufferSize := by
  cases a2 with
  | small b =>
    refine ⟨hs2, ?_, rfl, rfl⟩
    intro hne
    exact absurd rfl hne
  | lit l => cases hnl
  | dyn d =>
    have hsh : Shape h (dyn (d.setCodePoints N)) := hs2.setCodePoints_dyn N
    refine ⟨hsh, ?_, rfl, rfl⟩
    apply cacheOk_of_count hsh
    have hcc : (dyn (d.setCodePoints N)).cachedCount = N % 2 ^ 62 := by
      simp [cachedCount, TDynamicString.getCodePoints, TDynamicString.setCodePoints]
    have hct : (dyn (d.setCodePoints N)).content h = (dyn d).content h := rfl
    show (dyn (d.setCodePoints N)).cachedCount = 0
      ∨ (dyn (d.setCodePoints N)).cachedCount
          = countCodePointsInBuffer ((dyn (d.setCodePoints N)).content h)
              ((dyn (d.setCodePoints N)).content h).length
    rw [hcc, hct]
    exact hN

end COWStrings

namespace COWStrings
open CowString

/-- Common part of the `append` overloads: `appendBytes` on the String `a1` (the String
`a` with its cache filled or reset) followed by the final store of the code-point count
`N`, which is 0 or the sum of the counts of the old bytes and of the appended ones. -/
theorem append_wrap {h : Heap} {a a1 : CowString} (_hs : Shape h a) (hs1 : Shape h a1)
    (e1 : a1.heldBlock = a.heldBlock) (e2 : a1.bufferSize = a.bufferSize)
    (e3 : a1.content h = a.content h) (bytes : BytePtr) (n : Nat)
    (hfit : a.bufferSize + n ≤ 2 ^ 62) (X : List Nat) (hX : Framed X)
    (hin : ∀ b, a1 = small b → a1.bufferSize + n ≤ 32 →
      n ≤ (deref h a1 bytes).length ∧ (deref h a1 bytes).take n = X)
    (how : (∀ b, a1 = small b → ¬ a1.bufferSize + n ≤ 32) →
      n ≤ (deref (ensureOwnedCapacity h a1 (a1.bufferSize + n)).1
          (dyn (ensureOwnedCapacity h a1 (a1.bufferSize + n)).2)
          (rebase bytes a1.heldBlock
            (ensureOwnedCapacity h a1 (a1.bufferSize + n)).2.buffer)).length
      ∧ (deref (ensureOwnedCapacity h a1 (a1.bufferSize + n)).1
          (dyn (ensureOwnedCapacity h a1 (a1.bufferSize + n)).2)
          (rebase bytes a1.heldBlock
            (ensureOwnedCapacity h a1 (a1.bufferSize + n)).2.buffer)).take n = X)
    (N : Nat)
    (hN : N % 2 ^ 62 = 0
      ∨ N % 2 ^ 62 = (countCodePointsInBuffer (a.content h) (a.content h).length
          + countCodePointsInBuffer X X.length) % 2 ^ 62) :
    Shape (appendBytes h a1 bytes n).1
      (if !(appendBytes h a1 bytes n).2.isSmall then
        dynSetCodePoints N (appendBytes h a1 bytes n).2 else (appendBytes h a1 bytes n).2)
    ∧ CacheOk (appendBytes h a1 bytes n).1
      (if !(appendBytes h a1 bytes n).2.isSmall then
        dynSetCodePoints N (appendBytes h a1 bytes n).2 else (appendBytes h a1 bytes n).2)
    ∧ HeapStep h a (appendBytes h a1 bytes n).1
      (if !(appendBytes h a1 bytes n).2.isSmall then
        dynSetCodePoints N (appendBytes h a1 bytes n).2 else (appendBytes h a1 bytes n).2) := by
  obtain ⟨s1, s2, s3, s4, s5, _⟩ := appendBytes_spec hs1 bytes n (by rw [e2]; exact hfit)
    X hX hin how
  have hN' : N % 2 ^ 62 = 0
      ∨ N % 2 ^ 62 = countCodePointsInBuffer
          ((appendBytes h a1 bytes n).2.content (appendBytes h a1 bytes n).1)
          ((appendBytes h a1 bytes n).2.content (appendBytes h a1 bytes n).1).length := by
    rcases hN with hz | he
    · left; exact hz
    · right
      rw [he, ← e3]
      exact count_after_append hs1 s1 X s2
  obtain ⟨f1, f2, f3, f4⟩ := finish_spec s1 s5 N hN'
  exact ⟨f1, f2, s4.congr e1 e2 f3 f4⟩

theorem append_prepare {h : Heap} {a : CowString} (hs : Shape h a) :
    Shape h (CowString.length h a).2.resetCodePointsLitOrDyn
    ∧ (CowString.length h a).2.resetCodePointsLitOrDyn.heldBlock = a.heldBlock
    ∧ (CowString.length h a).2.resetCodePointsLitOrDyn.bufferSize = a.bufferSize
    ∧ (CowString.length h a).2.resetCodePointsLitOrDyn.content h = a.content h := by
  refine ⟨hs.length.reset_cache, ?_, ?_, ?_⟩
  · rw [(reset_view _).2.1, (length_snd_view h a).2.1]
  · rw [(reset_view _).1, length_snd_bufferSize]
  · rw [reset_content, content_length_snd]

theorem take_cstr_left (b rest : List Nat) : (b ++ 0 :: rest).take b.length = b := by
  rw [List.take_left' rfl]

/-- `append(const char*)` of a NUL-free C string of complete code points keeps the
invariants and changes the heap by a heap step. -/
theorem appendCStr_spec {h : Heap} {a : CowString} (hs : Shape h a) (hc : CacheOk h a)
    (b rest : List Nat) (hnz : ∀ x ∈ b, x ≠ 0) (hb : Framed b)
    (hfit : a.bufferSize + b.length ≤ 2 ^ 62) :
    Shape (appendCStr h a (b ++ 0 :: rest)).1 (appendCStr h a (b ++ 0 :: rest)).2
    ∧ CacheOk (appendCStr h a (b ++ 0 :: rest)).1 (appendCStr h a (b ++ 0 :: rest)).2
    ∧ HeapStep h a (appendCStr h a (b ++ 0 :: rest)).1 (appendCStr h a (b ++ 0 :: rest)).2 := by
  have hlenle : b.length ≤ (b ++ 0 :: rest).length := by
    rw [List.length_append]; omega
  unfold appendCStr
  rw [countCodePointsInCString_framed b rest hb hnz]
  simp only
  split
  · obtain ⟨p1, p2, p3, p4⟩ := append_prepare hs
    exact append_wrap hs p1 p2 p3 p4 (BytePtr.mem (b ++ 0 :: rest)) b.length hfit b hb
      (fun _ _ _ => ⟨hlenle, take_cstr_left b rest⟩)
      (fun _ => ⟨hlenle, take_cstr_left b rest⟩) _
      (Or.inr (by rw [length_eq_count hs hc, hs.count_content]))
  · exact append_wrap hs hs rfl rfl rfl (BytePtr.mem (b ++ 0 :: rest)) b.length hfit b hb
      (fun _ _ _ => ⟨hlenle, take_cstr_left b rest⟩)
      (fun _ => ⟨hlenle, take_cstr_left b rest⟩) 0 (Or.inl rfl)

end COWStrings

namespace COWStrings
open CowString

/-! ## `append(const String&)` with another String as argument -/

theorem deref_cStringPtr (h : Heap) (a s : CowString) :
    deref h a (cStringPtr s) = s.cString h := by
  cases s with
  | small b => rfl
  | lit l => rfl
  | dyn d =>
    cases hb : d.buffer with
    | none => simp [cStringPtr, cString, deref, hb]
    | some id => simp [cStringPtr, cString, deref, hb]

theorem Shape.pred_le_length {h : Heap} {s : CowString} (hs : Shape h s) :
    s.bufferSize - 1 ≤ (s.cString h).length := by
  have := hs.used_le
  omega

/-- The source bytes `appendBytes` reads through `s.cString()` once the buffer of `a`
is owned: they are the bytes of `s`, also when `s` shares the block of `a` and the
pointer was moved to the new block. -/
theorem string_src_owned {h : Heap} {a s : CowString} (hsa : Shape h a) (hss : Shape h s)
    (hagree : ∀ id, a.heldBlock = some id → s.heldBlock = some id →
      s.bufferSize ≤ a.bufferSize)
    (m : Nat) (hm : a.bufferSize ≤ m) :
    s.bufferSize - 1 ≤ (deref (ensureOwnedCapacity h a m).1 (dyn (ensureOwnedCapacity h a m).2)
        (rebase (cStringPtr s) a.heldBlock (ensureOwnedCapacity h a m).2.buffer)).length
    ∧ (deref (ensureOwnedCapacity h a m).1 (dyn (ensureOwnedCapacity h a m).2)
        (rebase (cStringPtr s) a.heldBlock (ensureOwnedCapacity h a m).2.buffer)).take
          (s.bufferSize - 1) = s.content h := by
  obtain ⟨id1, v1, hb1, hg1, hlen1, hcap1, hused1, htake1, _, _, hstep⟩ := ensure_spec hsa m hm
  rw [hb1]
  cases s with
  | small b => exact ⟨hss.pred_le_length, rfl⟩
  | lit l => exact ⟨hss.pred_le_length, rfl⟩
  | dyn ds =>
    obtain ⟨ids, rc, hbs, hgs, hrc, hcaps⟩ := hss.held ds rfl
    have hptr : cStringPtr (dyn ds) = BytePtr.block ids := by simp [cStringPtr, hbs]
    have hheld : (dyn ds).heldBlock = some ids := by simp [heldBlock, hbs]
    have hlt := Heap.lt_length_of_get hgs
    rw [hptr]
    by_cases hsame : a.heldBlock = some ids
    · -- the pointer follows the buffer
      have hreb : rebase (BytePtr.block ids) a.heldBlock (some id1) = BytePtr.block id1 := by
        simp [rebase, hsame]
      rw [hreb]
      have hle := hagree ids hsame hheld
      have hacs : a.cString h = (dyn ds).cString h := by
        obtain ⟨rc', hlive, _⟩ := hsa.held_live hsame
        rw [hgs] at hlive
        exact (congrArg Shared.value (Option.some.inj hlive)).symm
      have hd : deref (ensureOwnedCapacity h a m).1 (dyn (ensureOwnedCapacity h a m).2)
          (BytePtr.block id1) = v1 := by
        simp only [deref, Heap.data_eq, hg1]
        rfl
      rw [hd]
      refine ⟨by omega, ?_⟩
      rw [content_eq, ← hacs]
      exact take_eq_take_of_le (by omega) htake1
    · have hreb : rebase (BytePtr.block ids) a.heldBlock (some id1) = BytePtr.block ids := by
        cases hab : a.heldBlock with
        | none => simp [rebase]
        | some old =>
          have : ids ≠ old := by
            intro e
            apply hsame
            rw [hab, e]
          simp [rebase, this]
      rw [hreb]
      have hget : (ensureOwnedCapacity h a m).1.get ids = h.get ids := by
        rcases hstep with ⟨_, heq⟩ | ⟨hid, hfr⟩
        · rw [heq]
        · rw [hfr ids (by omega)]
          cases hab : a.heldBlock with
          | none => rfl
          | some old =>
            simp only [Heap.reset]
            rw [Heap.get_unref, if_neg]
            intro e
            apply hsame
            rw [hab, e]
      have hd : deref (ensureOwnedCapacity h a m).1 (dyn (ensureOwnedCapacity h a m).2)
          (BytePtr.block ids) = (dyn ds).cString h := by
        simp only [deref, Heap.data_eq, hget, hgs]
        rfl
      rw [hd]
      exact ⟨hss.pred_le_length, rfl⟩

/-- `append(const String& s)` with another String `s`: the invariants hold for `this`
afterwards, the heap changed by a heap step, and `s` has at most had its cache
filled. -/
theorem append_spec {h : Heap} {a s : CowString} (hsa : Shape h a) (hca : CacheOk h a)
    (hss : Shape h s) (hcs : CacheOk h s)
    (hagree : ∀ id, a.heldBlock = some id → s.heldBlock = some id →
      s.bufferSize ≤ a.bufferSize)
    (hfit : a.bufferSize + (s.bufferSize - 1) ≤ 2 ^ 62) :
    Shape (append h a s).1 (append h a s).2.1
    ∧ CacheOk (append h a s).1 (append h a s).2.1
    ∧ HeapStep h a (append h a s).1 (append h a s).2.1
    ∧ Shape h (append h a s).2.2 ∧ CacheOk h (append h a s).2.2
    ∧ (append h a s).2.2.heldBlock = s.heldBlock
    ∧ (append h a s).2.2.bufferSize = s.bufferSize := by
  unfold append
  simp only
  split
  · obtain ⟨p1, p2, p3, p4⟩ := append_prepare hsa
    have hss1 := hss.length
    have hbs1 := length_snd_bufferSize h s
    have hct1 := content_length_snd h s h
    have hhb1 := (length_snd_view h s).2.1
    rw [hss1.sub64, hbs1]
    have hw := append_wrap hsa p1 p2 p3 p4 (cStringPtr (CowString.length h s).2)
      (s.bufferSize - 1) hfit (s.content h) hss.framed
      (fun _ _ _ => by
        rw [deref_cStringPtr, length_snd_cString]
        exact ⟨hss.pred_le_length, rfl⟩)
      (fun _ => by
        have := string_src_owned p1 hss1
          (by rw [p2, hhb1, p3, hbs1]; exact hagree)
          ((CowString.length h a).2.resetCodePointsLitOrDyn.bufferSize + (s.bufferSize - 1))
          (by omega)
        rw [hbs1, hct1] at this
        exact this)
      ((CowString.length h a).1 + (CowString.length h s).1)
      (Or.inr (by
        rw [length_eq_count hsa hca, length_eq_count hss hcs, hsa.count_content,
          hss.count_content]))
    exact ⟨hw.1, hw.2.1, hw.2.2, hss1, hcs.after_length hss, hhb1, rfl⟩
  · rw [hss.sub64]
    have hw := append_wrap hsa hsa rfl rfl rfl (cStringPtr s)
      (s.bufferSize - 1) hfit (s.content h) hss.framed
      (fun _ _ _ => by
        rw [deref_cStringPtr]
        exact ⟨hss.pred_le_length, rfl⟩)
      (fun _ => string_src_owned hsa hss hagree _ (by omega))
      0 (Or.inl rfl)
    exact ⟨hw.1, hw.2.1, hw.2.2, hss, hcs, rfl, rfl⟩

end COWStrings

namespace COWStrings
open CowString

/-! ## Self-append of a Small String that outgrows the inline buffer

The source pointer is `data.bytes` of the String itself, which after the transition
holds the `dyn` view; the bytes appended are the first bytes of that view. -/

theorem Framed.of_ascii (ys : List Nat) (h : ∀ y ∈ ys, y < 128) : Framed ys := by
  induction ys with
  | nil => exact Framed.nil
  | cons y ys ih =>
    have hy : y < 128 := h y (by simp)
    have := Framed.cons y [] ys (by simp [byteLengthFromLeadingByte, hy])
      (ih fun z hz => h z (by simp [hz]))
    simpa using this

/-- Any bytes followed by at least three bytes below 128 split into complete code
points: a leading byte reaches at most three bytes further. -/
theorem Framed.of_ascii_tail (ys : List Nat) (hys : ∀ y ∈ ys, y < 128) (h3 : 3 ≤ ys.length) :
    ∀ (k : Nat) (xs : List Nat), xs.length = k → Framed (xs ++ ys) := by
  intro k
  induction k using Nat.strong_induction_on with
  | _ k ih =>
    intro xs hk
    cases xs with
    | nil => simpa using Framed.of_ascii ys hys
    | cons b xs' =>
      have hpos := byteLength_pos b
      have hle := byteLength_le b
      simp only [List.length_cons] at hk
      by_cases hfit : byteLengthFromLeadingByte b - 1 ≤ xs'.length
      · have e : b :: xs' ++ ys
            = b :: xs'.take (byteLengthFromLeadingByte b - 1)
                ++ (xs'.drop (byteLengthFromLeadingByte b - 1) ++ ys) := by
          simp only [List.cons_append, List.append_assoc]
          rw [← List.append_assoc, List.take_append_drop]
        rw [e]
        refine Framed.cons b _ _ ?_ (ih _ ?_ _ rfl)
        · rw [List.length_take]
          omega
        · rw [List.length_drop]
          omega
      · have e : b :: xs' ++ ys
            = b :: (xs' ++ ys.take (byteLengthFromLeadingByte b - 1 - xs'.length))
                ++ ys.drop (byteLengthFromLeadingByte b - 1 - xs'.length) := by
          simp only [List.cons_append, List.append_assoc, List.take_append_drop]
        rw [e]
        refine Framed.cons b _ _ ?_ (Framed.of_ascii _ ?_)
        · rw [List.length_append, List.length_take]
          omega
        · intro y hy
          exact hys y (List.mem_of_mem_drop hy)

theorem le64_length (n : Nat) : (le64 n).length = 8 := by simp [le64]

theorem le64_small (u : Nat) (hu : u ≤ 64) : le64 u = [u, 0, 0, 0, 0, 0, 0, 0] := by
  simp only [le64, List.range, List.range.loop, List.map]
  have h1 : u / 256 ^ 0 % 256 = u := by
    simp
    omega
  have hz : ∀ i, 1 ≤ i → u / 256 ^ i % 256 = 0 := by
    intro i hi
    have : u / 256 ^ i = 0 := by
      apply Nat.div_eq_of_lt
      calc u < 256 ^ 1 := by omega
        _ ≤ 256 ^ i := Nat.pow_le_pow_right (by omega) hi
    rw [this]
  rw [h1, hz 1 (by omega), hz 2 (by omega), hz 3 (by omega), hz 4 (by omega), hz 5 (by omega),
    hz 6 (by omega), hz 7 (by omega)]

theorem le64_top : le64 (0 % 2 ^ 62 + 2 ^ 63) = [0, 0, 0, 0, 0, 0, 0, 128] := by decide

/-- The first `n` bytes (`16 ≤ n ≤ 31`) of the `dyn` view of a String that has just
grown out of the inline buffer are complete code points, whatever the buffer pointer. -/
theorem rawBytes_framed (h : Heap) (id u n : Nat) (hu : u ≤ 32) (hn1 : 11 ≤ n) (hn2 : n ≤ 31) :
    n ≤ ((TDynamicString.mk (some id) 64 u 0).rawBytes h).length
    ∧ Framed (((TDynamicString.mk (some id) 64 u 0).rawBytes h).take n) := by
  have hraw : (TDynamicString.mk (some id) 64 u 0).rawBytes h
      = le64 (h.addr id) ++ ([64, 0, 0, 0, 0, 0, 0, 0] ++ [u, 0, 0, 0, 0, 0, 0, 0]
          ++ [0, 0, 0, 0, 0, 0, 0, 128]) := by
    simp only [TDynamicString.rawBytes, le64_small 64 (le_refl _), le64_small u (by omega),
      le64_top, List.append_assoc]
  rw [hraw]
  constructor
  · simp only [List.length_append, le64_length, List.length_cons, List.length_nil]
    omega
  · rw [List.take_append_eq_append_take, le64_length,
      List.take_of_length_le (by rw [le64_length]; omega)]
    apply Framed.of_ascii_tail _ _ _ 8 _ (le64_length _)
    · intro y hy
      have hy' := List.mem_of_mem_take hy
      have : n - 8 ≤ 23 := by omega
      have hsub : y ∈ (([64, 0, 0, 0, 0, 0, 0, 0] ++ [u, 0, 0, 0, 0, 0, 0, 0]
          ++ [0, 0, 0, 0, 0, 0, 0, 128] : List Nat)).take 23 := by
        have e : (([64, 0, 0, 0, 0, 0, 0, 0] ++ [u, 0, 0, 0, 0, 0, 0, 0]
            ++ [0, 0, 0, 0, 0, 0, 0, 128] : List Nat)).take (n - 8)
            = ((([64, 0, 0, 0, 0, 0, 0, 0] ++ [u, 0, 0, 0, 0, 0, 0, 0]
              ++ [0, 0, 0, 0, 0, 0, 0, 128] : List Nat)).take 23).take (n - 8) := by
          rw [List.take_take, Nat.min_eq_left this]
        rw [e] at hy
        exact List.mem_of_mem_take hy
      simp at hsub
      omega
    · rw [List.length_take]
      simp only [List.length_append, List.length_cons, List.length_nil]
      omega

end COWStrings

namespace COWStrings
open CowString

theorem selfPtr_of_not_small (a : CowString) (hns : a.isSmall = false) :
    selfPtr a = cStringPtr a := by
  cases a with
  | small b => cases hns
  | lit l => rfl
  | dyn d => rfl

theorem appendSelf_cached (h : Heap) (a : CowString)
    (hcond : ((a.isSmall && a.hasCachedCodePointsLitOrDyn)
      || (a.hasCachedCodePointsLitOrDyn && a.isSmall)
      || (a.hasCachedCodePointsLitOrDyn && a.hasCachedCodePointsLitOrDyn)) = true) :
    appendSelf h a =
      ((appendBytes h (CowString.length h (CowString.length h a).2).2.resetCodePointsLitOrDyn
          (selfPtr (CowString.length h (CowString.length h a).2).2.resetCodePointsLitOrDyn)
          (sub64 (CowString.length h (CowString.length h a).2).2.resetCodePointsLitOrDyn.bufferSize
            1)).1,
        if !(appendBytes h (CowString.length h (CowString.length h a).2).2.resetCodePointsLitOrDyn
          (selfPtr (CowString.length h (CowString.length h a).2).2.resetCodePointsLitOrDyn)
          (sub64 (CowString.length h (CowString.length h a).2).2.resetCodePointsLitOrDyn.bufferSize
            1)).2.isSmall then
          dynSetCodePoints ((CowString.length h a).1
              + (CowString.length h (CowString.length h a).2).1)
            (appendBytes h (CowString.length h (CowString.length h a).2).2.resetCodePointsLitOrDyn
              (selfPtr (CowString.length h (CowString.length h a).2).2.resetCodePointsLitOrDyn)
              (sub64
                (CowString.length h (CowString.length h a).2).2.resetCodePointsLitOrDyn.bufferSize
                1)).2
        else (appendBytes h (CowString.length h (CowString.length h a).2).2.resetCodePointsLitOrDyn
          (selfPtr (CowString.length h (CowString.length h a).2).2.resetCodePointsLitOrDyn)
          (sub64 (CowString.length h (CowString.length h a).2).2.resetCodePointsLitOrDyn.bufferSize
            1)).2) := by
  unfold appendSelf
  simp only [hcond, if_true]

theorem appendSelf_uncached (h : Heap) (a : CowString)
    (hcond : ((a.isSmall && a.hasCachedCodePointsLitOrDyn)
      || (a.hasCachedCodePointsLitOrDyn && a.isSmall)
      || (a.hasCachedCodePointsLitOrDyn && a.hasCachedCodePointsLitOrDyn)) = false) :
    appendSelf h a =
      ((appendBytes h a (selfPtr a) (sub64 a.bufferSize 1)).1,
        if !(appendBytes h a (selfPtr a) (sub64 a.bufferSize 1)).2.isSmall then
          dynSetCodePoints 0 (appendBytes h a (selfPtr a) (sub64 a.bufferSize 1)).2
        else (appendBytes h a (selfPtr a) (sub64 a.bufferSize 1)).2) := by
  unfold appendSelf
  simp only [hcond, Bool.false_eq_true, if_false]


/-! ## `a.append(a)` -/

theorem appendSelf_small_spec {h : Heap} {b : List Nat} (hs : Shape h (small b))
    (hfit : (small b).bufferSize + ((small b).bufferSize - 1) ≤ 2 ^ 62) :
    Shape (appendSelf h (small b)).1 (appendSelf h (small b)).2
    ∧ CacheOk (appendSelf h (small b)).1 (appendSelf h (small b)).2
    ∧ HeapStep h (small b) (appendSelf h (small b)).1 (appendSelf h (small b)).2 := by
  obtain ⟨hlast, hbs⟩ := hs.small_last
  have hdef : appendSelf h (small b)
      = ((appendBytes h (small b) BytePtr.inline ((small b).bufferSize - 1)).1,
          if !(appendBytes h (small b) BytePtr.inline ((small b).bufferSize - 1)).2.isSmall then
            dynSetCodePoints 0 (appendBytes h (small b) BytePtr.inline
              ((small b).bufferSize - 1)).2
          else (appendBytes h (small b) BytePtr.inline ((small b).bufferSize - 1)).2) := by
    rw [appendSelf_uncached h (small b) (by simp [isSmall, hasCachedCodePointsLitOrDyn]),
      hs.sub64]
    rfl
  rw [hdef]
  by_cases hin : (small b).bufferSize + ((small b).bufferSize - 1) ≤ 32
  · exact append_wrap hs hs rfl rfl rfl BytePtr.inline _ hfit ((small b).content h) hs.framed
      (fun _ _ _ => ⟨hs.pred_le_length, rfl⟩)
      (fun hno => absurd hin (hno b rfl)) 0 (Or.inl rfl)
  · have hgrow := grow_spec h (small b) ((small b).bufferSize + ((small b).bufferSize - 1))
      hs.used_le (by omega)
    obtain ⟨v1, e1, _⟩ := hgrow
    have he : ensureOwnedCapacity h (small b) ((small b).bufferSize + ((small b).bufferSize - 1))
        = growIntoDynamicString h (small b)
            ((small b).bufferSize + ((small b).bufferSize - 1)) := rfl
    have hmax : max (TSmallCapacity * 2) ((small b).bufferSize + ((small b).bufferSize - 1))
        = 64 := by
      simp only [TSmallCapacity]
      omega
    have hraw := rawBytes_framed
      (growIntoDynamicString h (small b) ((small b).bufferSize + ((small b).bufferSize - 1))).1
      h.cells.length (small b).bufferSize ((small b).bufferSize - 1) (by omega) (by omega)
      (by omega)
    exact append_wrap hs hs rfl rfl rfl BytePtr.inline _ hfit _ hraw.2
      (fun _ _ hle => absurd hle hin)
      (fun _ => by
        rw [he, e1, hmax]
        exact ⟨hraw.1, rfl⟩) 0 (Or.inl rfl)

/-- `a.append(a)` keeps the invariants and changes the heap by a heap step. -/
theorem appendSelf_spec {h : Heap} {a : CowString} (hs : Shape h a) (hc : CacheOk h a)
    (hfit : a.bufferSize + (a.bufferSize - 1) ≤ 2 ^ 62) :
    Shape (appendSelf h a).1 (appendSelf h a).2
    ∧ CacheOk (appendSelf h a).1 (appendSelf h a).2
    ∧ HeapStep h a (appendSelf h a).1 (appendSelf h a).2 := by
  by_cases hsm : a.isSmall = true
  · cases a with
    | small b => exact appendSelf_small_spec hs hfit
    | lit l => cases hsm
    | dyn d => cases hsm
  · have hns : a.isSmall = false := by
      cases hh : a.isSmall
      · rfl
      · exact absurd hh hsm
    by_cases hcond : ((a.isSmall && a.hasCachedCodePointsLitOrDyn)
        || (a.hasCachedCodePointsLitOrDyn && a.isSmall)
        || (a.hasCachedCodePointsLitOrDyn && a.hasCachedCodePointsLitOrDyn)) = true
    · -- the cache was valid: both `length()` calls return the count
      rw [appendSelf_cached h a hcond]
      have hs0 := hs.length
      have hc0 := hc.after_length hs
      obtain ⟨p1, p2, p3, p4⟩ := append_prepare hs0
      have q2 : (CowString.length h (CowString.length h a).2).2.resetCodePointsLitOrDyn.heldBlock
          = a.heldBlock := by rw [p2, (length_snd_view h a).2.1]
      have q3 : (CowString.length h (CowString.length h a).2).2.resetCodePointsLitOrDyn.bufferSize
          = a.bufferSize := by rw [p3, length_snd_bufferSize]
      have q4 : (CowString.length h (CowString.length h a).2).2.resetCodePointsLitOrDyn.content h
          = a.content h := by rw [p4, content_length_snd]
      have qsm : (CowString.length h (CowString.length h a).2).2.resetCodePointsLitOrDyn.isSmall
          = false := by
        rw [(reset_view _).2.2.1, length_snd_small, length_snd_small, hns]
      rw [selfPtr_of_not_small _ qsm, p1.sub64, q3]
      have hsrc := string_src_owned p1 p1 (fun _ _ _ => le_refl _)
        ((CowString.length h (CowString.length h a).2).2.resetCodePointsLitOrDyn.bufferSize
          + (a.bufferSize - 1)) (by omega)
      rw [q3, q4] at hsrc
      exact append_wrap hs p1 q2 q3 q4 _ (a.bufferSize - 1) hfit (a.content h) hs.framed
        (fun b hb _ => by rw [hb] at qsm; cases qsm)
        (fun _ => by rw [q3]; exact hsrc) _
        (Or.inr (by
          rw [length_eq_count hs hc, length_eq_count hs0 hc0, length_snd_cString,
            length_snd_bufferSize, hs.count_content]))
    · rw [appendSelf_uncached h a (by simpa using hcond), selfPtr_of_not_small _ hns, hs.sub64]
      exact append_wrap hs hs rfl rfl rfl _ (a.bufferSize - 1) hfit (a.content h) hs.framed
        (fun b hb _ => by rw [hb] at hns; cases hns)
        (fun _ => string_src_owned hs hs (fun _ _ _ => le_refl _) _ (by omega)) 0 (Or.inl rfl)

end COWStrings

namespace COWStrings
open CowString

/-! ## Constructors establish the invariants -/

theorem zeroData_length : zeroData.length = 32 := rfl

/-- The free-slot byte `initAsSmallString` leaves: `32 - len` up to 30 bytes, and 0 for
31 and 32 bytes, where the terminator store or the copied terminator lands on it. -/
theorem initAsSmallString_last (s : List Nat) (l : Nat) (hl : l ≤ 32) (hl1 : 1 ≤ l)
    (hs : l ≤ s.length) (hz : s[l - 1]? = some 0) :
    ∃ b, initAsSmallString zeroData s l = small b ∧ b.length = 32
      ∧ load b 31 = (if l ≤ 30 then 32 - l else 0) := by
  refine ⟨_, rfl, ?_, ?_⟩
  · simp only [length_store, length_memcpy, zeroData_length]
  · simp only [TSmallCapacity]
    rw [load_store_self _ _ _ (by simp only [length_store, length_memcpy, zeroData_length]; omega)]
    by_cases h30 : l ≤ 30
    · rw [if_pos h30, load_store_ne _ _ _ _ (by omega),
        load_store_self _ _ _ (by simp only [length_memcpy, zeroData_length]; omega)]
      omega
    · rw [if_neg h30]
      by_cases h31 : l = 31
      · subst h31
        rw [load_store_self _ _ _ (by simp only [length_store, length_memcpy, zeroData_length]; omega)]
      · have h32 : l = 32 := by omega
        subst h32
        rw [load_store_ne _ _ _ _ (by omega),
          load_store_self _ _ _ (by simp only [length_memcpy, zeroData_length]; omega)]

/-- The pointer-and-length initialisation of a Small String gives a String that
satisfies the representation invariant, for a source of complete code points followed
by a terminator. -/
theorem initAsSmallString_shape (h : Heap) (s : List Nat) (l : Nat) (hl : l ≤ 32)
    (hl1 : 1 ≤ l) (hs : l ≤ s.length) (hz : s[l - 1]? = some 0)
    (hf : Framed (s.take (l - 1))) :
    Shape h (initAsSmallString zeroData s l) ∧ CacheOk h (initAsSmallString zeroData s l) := by
  obtain ⟨b, hb, hlen, hlast⟩ := initAsSmallString_last s l hl hl1 hs hz
  have htake := initAsSmallString_take h s l hl hs hz hl1
  rw [hb] at htake ⊢
  have hcs : (small b).cString h = b := rfl
  rw [hcs] at htake
  have hbs : (small b).bufferSize = if l ≤ 30 then l else 32 := by
    rw [small_bufferSize, hlast]
    by_cases h30 : l ≤ 30
    · rw [if_pos h30, if_pos h30, sub64_of_le (by omega)]
      omega
    · rw [if_neg h30, if_neg h30]
      rfl
  have hload : load s (l - 1) = 0 := by
    rw [load_eq, hz]
    rfl
  refine ⟨⟨?_, ?_, ?_, ?_, ?_, ?_, ?_⟩, ?_⟩
  · rw [hbs]
    split <;> omega
  · rw [hcs, hlen, hbs]
    split <;> omega
  · rw [hbs]
    have : (32 : Nat) ≤ 2 ^ 62 := by norm_num
    split <;> omega
  · rw [hcs, hbs]
    by_cases h30 : l ≤ 30
    · rw [if_pos h30, load_eq_of_take (by omega : l - 1 < l) htake]
      exact hload
    · rw [if_neg h30]
      show load b 31 = 0
      rw [hlast, if_neg h30]
  · show Framed (((small b).cString h).take ((small b).bufferSize - 1))
    rw [hcs, hbs]
    by_cases h30 : l ≤ 30
    · rw [if_pos h30, take_eq_take_of_le (by omega : l - 1 ≤ l) htake]
      exact hf
    · rw [if_neg h30]
      by_cases h31 : l = 31
      · subst h31
        show Framed (b.take 31)
        rw [htake]
        have : s.take 31 = s.take 30 ++ [0] := by
          have h30lt : 30 < s.length := by omega
          rw [List.take_succ]
          simp only [Nat.add_one_sub_one] at hz
          rw [hz]
          rfl
        rw [this]
        exact hf.snoc_zero
      · have h32 : l = 32 := by omega
        subst h32
        show Framed (b.take 31)
        rw [take_eq_take_of_le (by omega : 31 ≤ 32) htake]
        exact hf
  · intro b' hb'
    cases hb'
    refine ⟨hlen, ?_⟩
    rw [hlast]
    split <;> omega
  · intro d hd
    cases hd
  · intro hne
    exact absurd rfl hne

end COWStrings

namespace COWStrings
open CowString

/-- The default constructor gives the empty Small String. -/
theorem mkDefault_spec (h : Heap) :
    Shape h mkDefault ∧ CacheOk h mkDefault ∧ mkDefault.heldBlock = none := by
  refine ⟨⟨by decide, ?_, by decide, ?_, ?_, ?_, ?_⟩, ?_, rfl⟩
  · show mkDefault.bufferSize ≤ (store (store zeroData 31 31) 0 0).length
    decide
  · show load (store (store zeroData 31 31) 0 0) (mkDefault.bufferSize - 1) = 0
    decide
  · exact Framed.nil
  · intro b hb
    cases hb
    exact ⟨by decide, by decide⟩
  · intro d hd
    cases hd
  · intro hne
    exact absurd rfl hne

/-- The pointer constructor on complete code points followed by a terminator: the
String satisfies the invariants; it is Small in the unchanged heap, or it holds the
fresh block with one reference. -/
theorem ofCString_spec (h : Heap) (b rest : List Nat) (hnz : ∀ x ∈ b, x ≠ 0) (hf : Framed b)
    (hfit : strlen (b ++ 0 :: rest) + 1 ≤ 2 ^ 62) :
    Shape (ofCString h (b ++ 0 :: rest) none).1 (ofCString h (b ++ 0 :: rest) none).2
    ∧ CacheOk (ofCString h (b ++ 0 :: rest) none).1 (ofCString h (b ++ 0 :: rest) none).2
    ∧ (((ofCString h (b ++ 0 :: rest) none).1 = h
          ∧ (ofCString h (b ++ 0 :: rest) none).2.heldBlock = none)
      ∨ ((ofCString h (b ++ 0 :: rest) none).2.heldBlock = some h.cells.length
          ∧ (∃ v, (ofCString h (b ++ 0 :: rest) none).1.get h.cells.length = some ⟨1, v⟩)
          ∧ ∀ j, j ≠ h.cells.length →
              (ofCString h (b ++ 0 :: rest) none).1.get j = h.get j)) := by
  have hlen := strlen_append_zero b rest hnz
  rw [hlen] at hfit
  by_cases hsmall : b.length + 1 ≤ 32
  · have hdef : ofCString h (b ++ 0 :: rest) none
        = (h, initAsSmallString zeroData (b ++ 0 :: rest) (b.length + 1)) := by
      unfold ofCString
      simp only [hlen, TSmallCapacity, hsmall, if_true]
    rw [hdef]
    have hz : (b ++ 0 :: rest)[b.length + 1 - 1]? = some 0 := by
      rw [Nat.add_sub_cancel, List.getElem?_append_right (le_refl _)]
      simp
    have hfr : Framed ((b ++ 0 :: rest).take (b.length + 1 - 1)) := by
      rw [Nat.add_sub_cancel, take_cstr_left]
      exact hf
    obtain ⟨h1, h2⟩ := initAsSmallString_shape h (b ++ 0 :: rest) (b.length + 1) hsmall
      (by omega) (by simp) hz hfr
    exact ⟨h1, h2, Or.inl ⟨rfl, rfl⟩⟩
  · have hl : 32 < strlen (b ++ 0 :: rest) + 1 := by
      rw [hlen]
      omega
    have htake := ofCString_take h b rest hnz
    obtain ⟨hstr, hget⟩ := ofCString_large h (b ++ 0 :: rest) hl
    rw [hlen] at hstr hget
    have hg0 := hget h.cells.length
    rw [if_pos rfl] at hg0
    generalize ofCString h (b ++ 0 :: rest) none = r at *
    obtain ⟨h', t⟩ := r
    simp only at hstr hget hg0 htake ⊢
    subst hstr
    have hcs : (dyn ⟨some h.cells.length, max (b.length + 1) 64, b.length + 1, 0⟩).cString h'
        = memcpy ((List.range (max (b.length + 1) 64)).map h.junk) 0 (b ++ 0 :: rest)
            (b.length + 1) := by
      show h'.data h.cells.length = _
      rw [Heap.data_eq, hg0]
      rfl
    have hbs : (dyn ⟨some h.cells.length, max (b.length + 1) 64, b.length + 1, 0⟩).bufferSize
        = b.length + 1 := rfl
    have hcl : ((dyn ⟨some h.cells.length, max (b.length + 1) 64, b.length + 1, 0⟩).cString
        h').length = max (b.length + 1) 64 := by
      rw [hcs, length_memcpy]
      simp
    refine ⟨⟨?_, ?_, ?_, ?_, ?_, ?_, ?_⟩, ?_, Or.inr ⟨rfl, ⟨_, hg0⟩, ?_⟩⟩
    · rw [hbs]
      omega
    · rw [hcl, hbs]
      exact le_max_left _ _
    · rw [hbs]
      exact hfit
    · rw [hbs, Nat.add_sub_cancel]
      have : load (b ++ [0]) b.length = 0 := by
        rw [load_eq, List.getElem?_append_right (le_refl _)]
        simp
      refine Eq.trans (load_eq_of_take (by omega : b.length < b.length + 1) ?_) this
      rw [htake]
      simp
    · show Framed (((dyn ⟨some h.cells.length, max (b.length + 1) 64, b.length + 1, 0⟩).cString
        h').take (b.length + 1 - 1))
      rw [Nat.add_sub_cancel]
      have : ((dyn ⟨some h.cells.length, max (b.length + 1) 64, b.length + 1, 0⟩).cString
          h').take b.length = b := by
        rw [← take_take_of_le _ (by omega : b.length ≤ b.length + 1), htake]
        simp
      rw [this]
      exact hf
    · intro b' hb'
      cases hb'
    · intro d hd
      cases hd
      refine ⟨h.cells.length, 1, rfl, ?_, le_refl _, hcl⟩
      rw [hg0, hcs]
    · intro hne
      exact absurd rfl hne
    · intro j hj
      rw [hget j, if_neg hj]

/-- The array constructor on complete code points followed by the terminator: the
String satisfies the invariants and holds no heap block. -/
theorem ofArray_spec (h : Heap) (b : List Nat) (hf : Framed b)
    (hfit : (b ++ [0]).length ≤ 2 ^ 62) :
    Shape h (ofArray (b ++ [0])) ∧ CacheOk h (ofArray (b ++ [0]))
    ∧ (ofArray (b ++ [0])).heldBlock = none := by
  have hlen : (b ++ [0]).length = b.length + 1 := by simp
  have hz : (b ++ [0])[b.length + 1 - 1]? = some 0 := by
    rw [Nat.add_sub_cancel, List.getElem?_append_right (le_refl _)]
    simp
  have htk : (b ++ [0]).take (b.length + 1 - 1) = b := by
    rw [Nat.add_sub_cancel]
    simp
  by_cases hsmall : b.length + 1 ≤ 32
  · have hdef : ofArray (b ++ [0]) = initAsSmallString zeroData (b ++ [0]) (b.length + 1) := by
      unfold ofArray
      simp only [hlen, TSmallCapacity, hsmall, if_true]
    rw [hdef]
    obtain ⟨h1, h2⟩ := initAsSmallString_shape h (b ++ [0]) (b.length + 1) hsmall
      (by omega) (by rw [hlen]) hz (by rw [htk]; exact hf)
    exact ⟨h1, h2, rfl⟩
  · have hdef : ofArray (b ++ [0]) = lit ⟨b ++ [0], 0, b.length + 1, 0⟩ := by
      unfold ofArray
      simp only [hlen, TSmallCapacity, hsmall, if_false]
      rfl
    rw [hdef]
    rw [hlen] at hfit
    refine ⟨⟨?_, ?_, hfit, ?_, ?_, ?_, ?_⟩, ?_, rfl⟩
    · show 1 ≤ b.length + 1
      omega
    · show b.length + 1 ≤ (b ++ [0]).length
      rw [hlen]
    · show load (b ++ [0]) (b.length + 1 - 1) = 0
      rw [load_eq, hz]
      rfl
    · show Framed ((b ++ [0]).take (b.length + 1 - 1))
      rw [htk]
      exact hf
    · intro b' hb'
      cases hb'
    · intro d hd
      cases hd
    · intro hne
      exact absurd rfl hne

/-- Copying a Small String (`copySmallString`) gives a String that satisfies the
invariants. -/
theorem copySmallString_spec {h : Heap} {b : List Nat} (hs : Shape h (small b)) (h' : Heap) :
    Shape h' (copySmallString (small b)) ∧ CacheOk h' (copySmallString (small b))
    ∧ (copySmallString (small b)).heldBlock = none := by
  obtain ⟨hlast, hbs⟩ := hs.small_last
  have hlen := (hs.inl b rfl).1
  have hz : b[(small b).bufferSize - 1]? = some 0 := by
    have ht := hs.terminated
    have hlt : (small b).bufferSize - 1 < b.length := by
      rw [hlen, hbs]
      omega
    rw [load_eq] at ht
    have hcs : (small b).cString h = b := rfl
    rw [hcs, List.getElem?_eq_getElem hlt] at ht
    rw [List.getElem?_eq_getElem hlt]
    exact congrArg some ht
  obtain ⟨h1, h2⟩ := initAsSmallString_shape h' b (small b).bufferSize (by rw [hbs]; omega)
    hs.used_pos (by rw [hlen, hbs]; omega) hz hs.framed
  exact ⟨h1, h2, rfl⟩

end COWStrings

namespace COWStrings
open CowString

/-- The copy constructor: the copy satisfies the invariants; it holds no block in the
unchanged heap, or it holds the block of its argument, which got one more reference. -/
theorem copy_spec {h : Heap} {s : CowString} (hs : Shape h s) (hc : CacheOk h s) :
    Shape (copy h s).1 (copy h s).2 ∧ CacheOk (copy h s).1 (copy h s).2
    ∧ (((copy h s).1 = h ∧ (copy h s).2.heldBlock = none)
      ∨ (∃ id, s.heldBlock = some id ∧ (copy h s).2 = s ∧ (copy h s).1 = h.ref id)) := by
  cases s with
  | small b =>
    obtain ⟨h1, h2, h3⟩ := copySmallString_spec hs h
    exact ⟨h1, h2, Or.inl ⟨rfl, h3⟩⟩
  | lit l => exact ⟨hs, hc, Or.inl ⟨rfl, rfl⟩⟩
  | dyn d =>
    obtain ⟨id, rc, hb, hg, hrc, hl⟩ := hs.held d rfl
    have hdef : copy h (dyn d) = (h.ref id, dyn d) := by
      show (h.reset none d.buffer, dyn d) = _
      rw [hb]
      rfl
    rw [hdef]
    have hfr : ∀ id', (dyn d).heldBlock = some id' →
        ∃ rc rc' v, h.get id' = some ⟨rc, v⟩ ∧ (h.ref id).get id' = some ⟨rc', v⟩ ∧ 1 ≤ rc' := by
      intro id' hid'
      have : id' = id := by
        have h1 : (dyn d).heldBlock = some id := hb
        rw [h1] at hid'
        exact (Option.some.inj hid').symm
      subst this
      refine ⟨rc, rc + 1, _, hg, ?_, by omega⟩
      rw [Heap.get_ref, if_pos rfl, hg]
      rfl
    refine ⟨hs.frame hfr, hc.cache_frame (cString_frame ?_), Or.inr ⟨id, hb, rfl, rfl⟩⟩
    intro id' hid'
    obtain ⟨rc1, rc2, v, h1, h2, _⟩ := hfr id' hid'
    rw [Heap.data_eq, Heap.data_eq, h1, h2]
    rfl

/-- The world invariant is kept when a String is added, provided the blocks held so far
keep their bytes, the new String is counted, and it agrees with the Strings it shares
a block with. -/
theorem Consistent.push_core {h h' : Heap} {strs : List CowString} {t : CowString}
    (hc : Consistent ⟨h, strs⟩) (hs' : Shape h' t) (hc' : CacheOk h' t)
    (hframe : ∀ (k : Nat) s id, strs[k]? = some s → s.heldBlock = some id →
      ∃ rc rc' v, h.get id = some ⟨rc, v⟩ ∧ h'.get id = some ⟨rc', v⟩ ∧ 1 ≤ rc')
    (hcount : ∀ id, holders strs id + (if t.heldBlock = some id then 1 else 0)
      ≤ h'.refCount id)
    (hagree : ∀ (k : Nat) s id, strs[k]? = some s → s.heldBlock = some id →
      t.heldBlock = some id → s.bufferSize = t.bufferSize) :
    Consistent ⟨h', strs ++ [t]⟩ := by
  have hget : ∀ (k : Nat) s, (strs ++ [t])[k]? = some s →
      (k < strs.length ∧ strs[k]? = some s) ∨ (k = strs.length ∧ s = t) := by
    intro k s hk
    by_cases hlt : k < strs.length
    · rw [List.getElem?_append_left hlt] at hk
      exact Or.inl ⟨hlt, hk⟩
    · rw [List.getElem?_append_right (by omega)] at hk
      have hk0 : k - strs.length = 0 := by
        by_contra hne
        have : 1 ≤ k - strs.length := by omega
        rw [List.getElem?_eq_none (by simpa using this)] at hk
        cases hk
      rw [hk0] at hk
      simp only [List.getElem?_cons_zero, Option.some.injEq] at hk
      exact Or.inr ⟨by omega, hk.symm⟩
  refine ⟨?_, ?_, ?_⟩
  · intro k s hk
    simp only at hk ⊢
    rcases hget k s hk with ⟨_, hk'⟩ | ⟨_, rfl⟩
    · have hfr : ∀ id, s.heldBlock = some id →
          ∃ rc rc' v, h.get id = some ⟨rc, v⟩ ∧ h'.get id = some ⟨rc', v⟩ ∧ 1 ≤ rc' :=
        fun id hid => hframe k s id hk' hid
      refine ⟨(hc.shape k s hk').1.frame hfr, (hc.shape k s hk').2.cache_frame (cString_frame ?_)⟩
      intro id hid
      obtain ⟨rc, rc', v, h1, h2, _⟩ := hfr id hid
      rw [Heap.data_eq, Heap.data_eq, h1, h2]
      rfl
    · exact ⟨hs', hc'⟩
  · intro id
    simp only
    rw [holders_append_one]
    exact hcount id
  · intro i j s u id hi hj hsi huj
    simp only at hi hj
    rcases hget i s hi with ⟨_, hi'⟩ | ⟨_, rfl⟩
    · rcases hget j u hj with ⟨_, hj'⟩ | ⟨_, rfl⟩
      · exact hc.agree i j s u id hi' hj' hsi huj
      · exact hagree i s id hi' hsi huj
    · rcases hget j u hj with ⟨_, hj'⟩ | ⟨_, rfl⟩
      · exact (hagree j u id hj' huj hsi).symm
      · rfl

/-- Adding a String that holds no block, in the unchanged heap. -/
theorem Consistent.push_plain {h : Heap} {strs : List CowString} {t : CowString}
    (hc : Consistent ⟨h, strs⟩) (hs' : Shape h t) (hc' : CacheOk h t)
    (hnone : t.heldBlock = none) : Consistent ⟨h, strs ++ [t]⟩ := by
  refine hc.push_core hs' hc' ?_ ?_ ?_
  · intro k s id hk hid
    obtain ⟨rc, hg, hrc⟩ := (hc.shape k s hk).1.held_live hid
    exact ⟨rc, rc, _, hg, hg, hrc⟩
  · intro id
    rw [hnone, if_neg (by simp)]
    exact hc.counted id
  · intro k s id _ _ ht
    rw [hnone] at ht
    cases ht

/-- Adding a String that holds a freshly allocated block with one reference. -/
theorem Consistent.push_fresh {h h' : Heap} {strs : List CowString} {t : CowString}
    (hc : Consistent ⟨h, strs⟩) (hs' : Shape h' t) (hc' : CacheOk h' t)
    (hheld : t.heldBlock = some h.cells.length)
    (hnew : ∃ v, h'.get h.cells.length = some ⟨1, v⟩)
    (hold : ∀ j, j ≠ h.cells.length → h'.get j = h.get j) :
    Consistent ⟨h', strs ++ [t]⟩ := by
  have hlive : ∀ (k : Nat) s id, strs[k]? = some s → s.heldBlock = some id →
      id ≠ h.cells.length := by
    intro k s id hk hid
    obtain ⟨rc, hg, _⟩ := (hc.shape k s hk).1.held_live hid
    exact Nat.ne_of_lt (Heap.lt_length_of_get hg)
  refine hc.push_core hs' hc' ?_ ?_ ?_
  · intro k s id hk hid
    obtain ⟨rc, hg, hrc⟩ := (hc.shape k s hk).1.held_live hid
    refine ⟨rc, rc, _, hg, ?_, hrc⟩
    rw [hold id (hlive k s id hk hid)]
    exact hg
  · intro id
    rw [hheld]
    by_cases he : id = h.cells.length
    · subst he
      obtain ⟨v, hv⟩ := hnew
      rw [holders_fresh hc, if_pos rfl, Heap.refCount_eq, hv]
      exact le_refl _
    · rw [if_neg (fun hh => he (Option.some.inj hh).symm), Heap.refCount_eq, hold id he,
        ← Heap.refCount_eq]
      exact hc.counted id
  · intro k s id hk hid ht
    rw [hheld] at ht
    have := hlive k s id hk hid
    exact absurd (Option.some.inj ht).symm this

/-- Adding a copy of the String at position `i`, which holds block `id`: the block got
one more reference. -/
theorem Consistent.push_copy {h : Heap} {strs : List CowString} {i id : Nat} {s : CowString}
    (hc : Consistent ⟨h, strs⟩) (hi : strs[i]? = some s) (hid : s.heldBlock = some id)
    (hs' : Shape (h.ref id) s) (hc' : CacheOk (h.ref id) s) :
    Consistent ⟨h.ref id, strs ++ [s]⟩ := by
  obtain ⟨rc0, hg0, hrc0⟩ := (hc.shape i s hi).1.held_live hid
  refine hc.push_core hs' hc' ?_ ?_ ?_
  · intro k u id' hk hid'
    obtain ⟨rc, hg, hrc⟩ := (hc.shape k u hk).1.held_live hid'
    by_cases he : id' = id
    · subst he
      refine ⟨rc, rc + 1, _, hg, ?_, by omega⟩
      rw [Heap.get_ref, if_pos rfl, hg]
      rfl
    · refine ⟨rc, rc, _, hg, ?_, hrc⟩
      rw [Heap.get_ref, if_neg he]
      exact hg
  · intro id'
    have hold := hc.counted id'
    simp only at hold
    rw [hid]
    by_cases he : id' = id
    · subst he
      rw [if_pos rfl, Heap.refCount_eq, Heap.get_ref, if_pos rfl, hg0]
      rw [Heap.refCount_eq, hg0] at hold
      simp only [Option.map_some', Option.getD_some] at hold ⊢
      omega
    · rw [if_neg (fun hh => he (Option.some.inj hh).symm), Heap.refCount_eq, Heap.get_ref,
        if_neg he, ← Heap.refCount_eq]
      exact hold
  · intro k u id' hk hid' ht
    exact hc.agree k i u s id' hk hi hid' ht

end COWStrings

namespace COWStrings
open CowString

theorem rawBytes_length (h : Heap) (d : TDynamicString) : (d.rawBytes h).length = 32 := by
  simp [TDynamicString.rawBytes, le64_length]

/-- The empty initialisation of a Small String on any 32 raw bytes gives the empty
Small String. -/
theorem initAsSmallStringEmpty_spec (h : Heap) (data : List Nat) (hlen : data.length = 32) :
    Shape h (initAsSmallStringEmpty data) ∧ CacheOk h (initAsSmallStringEmpty data)
    ∧ (initAsSmallStringEmpty data).heldBlock = none := by
  have hl31 : load (store (store data 31 31) 0 0) 31 = 31 := by
    rw [load_store_ne _ _ _ _ (by omega), load_store_self _ _ _ (by omega)]
  have hl0 : load (store (store data 31 31) 0 0) 0 = 0 := by
    rw [load_store_self _ _ _ (by rw [length_store]; omega)]
  have hbs : (initAsSmallStringEmpty data).bufferSize = 1 := by
    show sub64 32 (load (store (store data 31 31) 0 0) 31) = 1
    rw [hl31]
    rfl
  have hcs : (initAsSmallStringEmpty data).cString h = store (store data 31 31) 0 0 := rfl
  refine ⟨⟨?_, ?_, ?_, ?_, ?_, ?_, ?_⟩, ?_, rfl⟩
  · rw [hbs]
  · rw [hbs, hcs, length_store, length_store, hlen]
    omega
  · rw [hbs]
    norm_num
  · rw [hbs, hcs]
    exact hl0
  · show Framed (((initAsSmallStringEmpty data).cString h).take
      ((initAsSmallStringEmpty data).bufferSize - 1))
    rw [hbs]
    exact Framed.nil
  · intro b hb
    cases hb
    refine ⟨by rw [length_store, length_store, hlen], ?_⟩
    show load (store (store data 31 31) 0 0) 31 ≤ 32
    rw [hl31]
    omega
  · intro d hd
    cases hd
  · intro hne
    exact absurd rfl hne

/-- The all-zero Small String: 31 NUL bytes in use in front of the terminator. -/
theorem zeroData_spec (h : Heap) :
    Shape h (small zeroData) ∧ CacheOk h (small zeroData) := by
  refine ⟨⟨by decide, ?_, by decide, ?_, ?_, ?_, ?_⟩, ?_⟩
  · show (small zeroData).bufferSize ≤ zeroData.length
    decide
  · show load zeroData ((small zeroData).bufferSize - 1) = 0
    decide
  · show Framed (zeroData.take ((small zeroData).bufferSize - 1))
    apply Framed.of_ascii
    decide
  · intro b hb
    cases hb
    exact ⟨by decide, by decide⟩
  · intro d hd
    cases hd
  · intro hne
    exact absurd rfl hne

theorem set_same {α : Type} (l : List α) (i : Nat) (x : α) (hi : l[i]? = some x) :
    l.set i x = l := by
  apply List.ext_getElem?
  intro k
  rw [List.getElem?_set]
  by_cases hk : i = k
  · subst hk
    rw [if_pos rfl, hi]
    have : i < l.length := by
      by_contra hne
      rw [List.getElem?_eq_none (by omega)] at hi
      cases hi
    rw [if_pos this]
  · rw [if_neg hk]

/-- The world invariant is kept when a String stops holding its block without
releasing it. -/
theorem Consistent.drop {h : Heap} {strs : List CowString} {i : Nat} {a a' : CowString}
    (hc : Consistent ⟨h, strs⟩) (hi : strs[i]? = some a)
    (hs' : Shape h a') (hc' : CacheOk h a') (hnone : a'.heldBlock = none) :
    Consistent ⟨h, strs.set i a'⟩ := by
  refine ⟨?_, ?_, ?_⟩
  · intro k t hk
    simp only at hk ⊢
    rcases getElem?_set_cases _ _ _ _ _ hk with ⟨_, rfl⟩ | ⟨_, hk'⟩
    · exact ⟨hs', hc'⟩
    · exact hc.shape k t hk'
  · intro id
    simp only
    have hset := holders_set strs i a a' id hi
    have hold := hc.counted id
    simp only at hold
    have h0 : (if a'.heldBlock = some id then 1 else 0) = 0 := by
      rw [hnone]
      rfl
    rw [h0] at hset
    omega
  · intro k j s t id hk hj hs ht
    simp only at hk hj
    rcases getElem?_set_cases _ _ _ _ _ hk with ⟨_, rfl⟩ | ⟨_, hk'⟩
    · rw [hnone] at hs
      cases hs
    · rcases getElem?_set_cases _ _ _ _ _ hj with ⟨_, rfl⟩ | ⟨_, hj'⟩
      · rw [hnone] at ht
        cases ht
      · exact hc.agree k j s t id hk' hj' hs ht

end COWStrings

namespace COWStrings
open CowString

/-- The move constructor keeps the world invariant: the new String takes over the block
of the argument, which is left as the empty Small String. -/
theorem Consistent.move {h : Heap} {strs : List CowString} {i : Nat} {s : CowString}
    (hc : Consistent ⟨h, strs⟩) (hi : strs[i]? = some s) :
    Consistent ⟨(CowString.move h s).1,
      strs.set i (CowString.move h s).2.2 ++ [(CowString.move h s).2.1]⟩ := by
  obtain ⟨hs, hcache⟩ := hc.shape i s hi
  cases s with
  | small b =>
    show Consistent ⟨h, strs.set i (small b) ++ [copySmallString (small b)]⟩
    rw [set_same strs i _ hi]
    obtain ⟨h1, h2, h3⟩ := copySmallString_spec hs h
    exact hc.push_plain h1 h2 h3
  | lit l =>
    show Consistent ⟨h, strs.set i (lit l) ++ [small zeroData]⟩
    rw [set_same strs i _ hi]
    exact hc.push_plain (zeroData_spec h).1 (zeroData_spec h).2 rfl
  | dyn d =>
    obtain ⟨id, rc, hb, hg, hrc, hl⟩ := hs.held d rfl
    obtain ⟨e1, e2, e3⟩ := initAsSmallStringEmpty_spec h
      ({ d with buffer := none }.rawBytes h) (rawBytes_length h _)
    have hdrop := hc.drop hi e1 e2 e3
    have hheld : (dyn ((TDynamicString.mk d.buffer d.capacity d.used 0).setCodePoints
        d.getCodePoints)).heldBlock = some id := hb
    have hheld0 : (dyn d).heldBlock = some id := hb
    have hsn : Shape h (dyn ((TDynamicString.mk d.buffer d.capacity d.used 0).setCodePoints
        d.getCodePoints)) := by
      refine ⟨hs.used_pos, hs.used_le, hs.used_bound, hs.terminated, hs.framed, ?_, ?_⟩
      · intro b hb'
        cases hb'
      · intro d' hd'
        cases hd'
        exact ⟨id, rc, hb, hg, hrc, hl⟩
    have hcn : CacheOk h (dyn ((TDynamicString.mk d.buffer d.capacity d.used 0).setCodePoints
        d.getCodePoints)) := by
      have hcc : (dyn ((TDynamicString.mk d.buffer d.capacity d.used 0).setCodePoints
          d.getCodePoints)).cachedCount = (dyn d).cachedCount := by
        show d.codePoints % 2 ^ 62 % 2 ^ 62 % 2 ^ 62 = d.codePoints % 2 ^ 62
        rw [Nat.mod_mod, Nat.mod_mod]
      intro hne
      rw [hcc] at hne ⊢
      exact hcache hne
    have key : Consistent ⟨h, strs.set i
        (initAsSmallStringEmpty ({ d with buffer := none }.rawBytes h))
        ++ [dyn ((TDynamicString.mk d.buffer d.capacity d.used 0).setCodePoints
          d.getCodePoints)]⟩ := ?_
    · exact key
    refine hdrop.push_core hsn hcn ?_ ?_ ?_
    · intro k u id' hk hid'
      obtain ⟨rc', hg', hrc'⟩ := (hdrop.shape k u hk).1.held_live hid'
      exact ⟨rc', rc', _, hg', hg', hrc'⟩
    · intro id'
      have hset := holders_set strs i (dyn d)
        (initAsSmallStringEmpty ({ d with buffer := none }.rawBytes h)) id' hi
      have hold := hc.counted id'
      simp only at hold
      have h0 : (if (initAsSmallStringEmpty ({ d with buffer := none }.rawBytes h)).heldBlock
          = some id' then 1 else 0) = 0 := by
        rw [e3]
        rfl
      rw [h0] at hset
      rw [hheld]
      rw [hheld0] at hset
      omega
    · intro k u id' hk hid' ht
      rcases getElem?_set_cases _ _ _ _ _ hk with ⟨_, rfl⟩ | ⟨_, hk'⟩
      · rw [e3] at hid'
        cases hid'
      · rw [hheld] at ht
        rw [Option.some.inj ht] at hheld0
        exact hc.agree k i u (dyn d) id' hk' hi hid' hheld0

end COWStrings


namespace COWStrings
open CowString

/-- UTF-8 input is made of complete code points as the character helper sees them. -/
theorem Utf8.toFramed {xs : List Nat} (hx : Utf8 xs) : Framed xs := by
  induction hx with
  | nil => exact Framed.nil
  | one b rest hb _ ih =>
    have h1 : ([] : List Nat).length + 1 = byteLengthFromLeadingByte b := by
      unfold byteLengthFromLeadingByte
      rw [if_pos hb]
      rfl
    exact Framed.cons b [] rest h1 ih
  | two b c1 rest hb1 hb2 _ _ _ ih =>
    have h1 : [c1].length + 1 = byteLengthFromLeadingByte b := by
      unfold byteLengthFromLeadingByte
      rw [if_neg (by omega), if_pos hb2]
      rfl
    exact Framed.cons b [c1] rest h1 ih
  | three b c1 c2 rest hb1 hb2 _ _ _ _ _ ih =>
    have h1 : [c1, c2].length + 1 = byteLengthFromLeadingByte b := by
      unfold byteLengthFromLeadingByte
      rw [if_neg (by omega), if_neg (by omega), if_pos hb2]
      rfl
    exact Framed.cons b [c1, c2] rest h1 ih
  | four b c1 c2 c3 rest hb1 hb2 _ _ _ _ _ _ _ ih =>
    have h1 : [c1, c2, c3].length + 1 = byteLengthFromLeadingByte b := by
      unfold byteLengthFromLeadingByte
      rw [if_neg (by omega), if_neg (by omega), if_neg (by omega)]
      rfl
    exact Framed.cons b [c1, c2, c3] rest h1 ih

end COWStrings

namespace COWStrings
open CowString

/-! ## `append(String&&)`: taking over the buffer of the argument -/

theorem take_memcpy_front (dst src : List Nat) (p m : Nat) (hp : p ≤ src.length)
    (hpm : p ≤ m) (hm : m ≤ dst.length) :
    (memcpy dst 0 src p).take m = src.take p ++ (dst.take m).drop p := by
  apply List.ext_getElem?
  intro j
  rw [List.getElem?_take, getElem?_memcpy]
  by_cases hj : j < m
  · rw [if_pos hj, if_pos (by omega)]
    by_cases hjp : j < p
    · rw [if_pos ⟨Nat.zero_le _, by rw [Nat.min_eq_left hp]; omega⟩,
        List.getElem?_append_left (by rw [List.length_take]; omega), List.getElem?_take,
        if_pos hjp]
      rfl
    · rw [if_neg (by rw [Nat.min_eq_left hp]; omega),
        List.getElem?_append_right (by rw [List.length_take]; omega), List.length_take,
        Nat.min_eq_left hp, List.getElem?_drop, List.getElem?_take,
        if_pos (by omega)]
      congr 1
      omega
  · rw [if_neg hj]
    symm
    apply List.getElem?_eq_none
    rw [List.length_append, List.length_take, List.length_drop, List.length_take]
    omega

/-- Bytes of the buffer after `memmove(buf + p, buf, n); memcpy(buf, src, p)`. -/
theorem steal_bytes (vs src : List Nat) (p n : Nat) (hcap : p + n ≤ vs.length)
    (hsrc : p ≤ src.length) :
    (memcpy (memmove vs p 0 n) 0 src p).length = vs.length
    ∧ (memcpy (memmove vs p 0 n) 0 src p).take (p + n) = src.take p ++ vs.take n := by
  have hmv : memmove vs p 0 n = memcpy vs p vs n := by
    unfold memmove
    rw [List.drop_zero]
  rw [hmv]
  refine ⟨by rw [length_memcpy, length_memcpy], ?_⟩
  rw [take_memcpy_front _ _ p (p + n) hsrc (by omega) (by rw [length_memcpy]; exact hcap),
    take_memcpy vs p vs n hcap (by omega), List.drop_append_of_le_length
      (by rw [List.length_take]; omega)]
  have : (vs.take p).drop p = [] := by
    apply List.drop_eq_nil_of_le
    rw [List.length_take]
    omega
  rw [this, List.nil_append]

/-- The heap after the shift block: the block of the argument holds the bytes of `this`
in front of the bytes of the argument, every other block is as before. -/
theorem shiftInto_spec {h : Heap} {a : CowString} (hs : Shape h a) (ds : TDynamicString)
    (ids : Nat) (vs : List Nat) (hb : ds.buffer = some ids) (hg : h.get ids = some ⟨1, vs⟩)
    (hne : a.heldBlock ≠ some ids) (hcap : a.bufferSize - 1 + ds.used ≤ vs.length) :
    ∃ v2, (shiftInto h a ds).get ids = some ⟨1, v2⟩ ∧ v2.length = vs.length
      ∧ v2.take (a.bufferSize - 1 + ds.used) = (a.cString h).take (a.bufferSize - 1)
          ++ vs.take ds.used
      ∧ ∀ j, j ≠ ids → (shiftInto h a ds).get j = h.get j := by
  have hbs : (dyn ds).bufferSize = ds.used := by
    show (if ds.buffer.isSome then ds.used else 0) = ds.used
    rw [hb]
    rfl
  unfold shiftInto
  by_cases he : a.isEmpty = true
  · have h1 : a.bufferSize - 1 = 0 := by
      have : a.bufferSize ≤ 1 := by simpa [isEmpty] using he
      omega
    simp only [he, Bool.not_true, Bool.false_eq_true, if_false]
    refine ⟨vs, hg, rfl, ?_, fun _ _ => trivial⟩
    rw [h1, List.take_zero, Nat.zero_add, List.nil_append]
  · have he' : (!a.isEmpty) = true := by simpa using he
    rw [if_pos he']
    simp only [hb]
    have hg1 := Heap.get_write_self h ids
      (fun v => memmove v (sub64 a.bufferSize 1) 0 (dyn ds).bufferSize) _ hg
    have hcs : a.cString (h.write (some ids)
        (fun v => memmove v (sub64 a.bufferSize 1) 0 (dyn ds).bufferSize)) = a.cString h := by
      apply cString_frame
      intro id hid
      have hidne : (some ids : Option Nat) ≠ some id := by
        intro e
        rw [← e] at hid
        exact hne hid
      rw [Heap.data_eq, Heap.data_eq, Heap.get_write_ne _ _ _ _ hidne]
    have hg2 := Heap.get_write_self _ ids
      (fun v => memcpy v 0 (a.cString (h.write (some ids)
        (fun v => memmove v (sub64 a.bufferSize 1) 0 (dyn ds).bufferSize)))
        (sub64 a.bufferSize 1)) _ hg1
    simp only at hg2
    rw [hcs, hs.sub64, hbs] at hg2
    have hsb := steal_bytes vs (a.cString h) (a.bufferSize - 1) ds.used hcap
      (by have := hs.used_le; omega)
    refine ⟨_, ?_, hsb.1, hsb.2, ?_⟩
    · rw [hcs, hs.sub64, hbs]
      exact hg2
    · intro j hj
      have hjne : (some ids : Option Nat) ≠ some j := fun e => hj (Option.some.inj e).symm
      rw [Heap.get_write_ne _ _ _ _ hjne, Heap.get_write_ne _ _ _ _ hjne]

/-- `length()` of a String that is Small or has a cache does not read the heap. -/
theorem length_fst_heap (h h' : Heap) (a : CowString)
    (hc : (a.isSmall || a.hasCachedCodePointsLitOrDyn) = true) :
    (CowString.length h' a).1 = (CowString.length h a).1 := by
  cases a with
  | small b => rfl
  | lit l =>
    have hl : l.hasCachedCodePoints = true := by simpa [isSmall, hasCachedCodePointsLitOrDyn] using hc
    simp only [CowString.length, hl, Bool.not_true, Bool.false_eq_true, if_false]
  | dyn d =>
    have hl : d.hasCachedCodePoints = true := by simpa [isSmall, hasCachedCodePointsLitOrDyn] using hc
    simp only [CowString.length, hl, Bool.not_true, Bool.false_eq_true, if_false]

end COWStrings

namespace COWStrings
open CowString

theorem appendMove_steal_eq (h : Heap) (a : CowString) (ds : TDynamicString)
    (hg : stealGuard h a (dyn ds) = true) :
    appendMove h a (dyn ds)
      = ((shiftInto h a ds).reset a.heldBlock none,
          dyn ((TDynamicString.mk ds.buffer ds.capacity (sub64 (a.bufferSize + ds.used) 1)
            0).setCodePoints
              (if (a.isSmall || a.hasCachedCodePointsLitOrDyn) && ds.hasCachedCodePoints then
                (CowString.length (shiftInto h a ds) a).1
                  + (CowString.length (shiftInto h a ds) (dyn ds)).1
              else 0)),
          initAsSmallStringEmpty ({ ds with buffer := none }.rawBytes
            ((shiftInto h a ds).reset a.heldBlock none))) := by
  unfold appendMove
  simp only [hg, if_true]

theorem get_reset_ne (h : Heap) (own : Option Nat) (j : Nat) (hne : own ≠ some j) :
    (h.reset own none).get j = h.get j := by
  cases own with
  | none => rfl
  | some old =>
    show (h.unref old).get j = h.get j
    rw [Heap.get_unref, if_neg (fun e => hne (by rw [e]))]

theorem get_reset_congr (h h' : Heap) (own : Option Nat) (j : Nat)
    (hj : h'.get j = h.get j) (hown : ∀ old, own = some old → h'.get old = h.get old) :
    (h'.reset own none).get j = (h.reset own none).get j := by
  cases own with
  | none => exact hj
  | some old =>
    show (h'.unref old).get j = (h.unref old).get j
    rw [Heap.get_unref, Heap.get_unref, hj, hown old rfl]

theorem take_append_take (xs ys : List Nat) (n k : Nat) (hk : k ≤ n) :
    (xs ++ ys.take n).take (xs.length + k) = xs ++ ys.take k := by
  rw [List.take_append, take_take_of_le _ hk]

/-- The argument of a buffer-taking `append(String&&)` is the only holder of its block,
and the block has room for both Strings. -/
theorem steal_facts {h : Heap} {a : CowString} {ds : TDynamicString} (hsa : Shape h a)
    (hss : Shape h (dyn ds)) (hg : stealGuard h a (dyn ds) = true) :
    ∃ ids, ds.buffer = some ids ∧ h.get ids = some ⟨1, (dyn ds).cString h⟩
      ∧ h.refCount ids = 1 ∧ (dyn ds).bufferSize = ds.used
      ∧ a.bufferSize - 1 + ds.used ≤ ((dyn ds).cString h).length
      ∧ ((dyn ds).cString h).length = ds.capacity := by
  obtain ⟨ids, rc, hb, hget, hrc, hlen⟩ := hss.held ds rfl
  have hmode := stealGuard_owned hg
  have hsh := not_isShared_of_owned hmode
  rw [isShared_dyn h ds ids hb] at hsh
  have hrc1 : h.refCount ids ≤ 1 := by simpa using hsh
  have hrcq : h.refCount ids = rc := by
    rw [Heap.refCount_eq, hget]
    rfl
  have hrc' : rc = 1 := by omega
  subst hrc'
  have hbs : (dyn ds).bufferSize = ds.used := by
    show (if ds.buffer.isSome then ds.used else 0) = ds.used
    rw [hb]
    rfl
  have hbc : (dyn ds).bufferCapacity = ds.capacity := by
    show (if ds.buffer.isSome then ds.capacity else 0) = ds.capacity
    rw [hb]
    rfl
  have hcap : (dyn ds).bufferCapacity ≥ sub64 ((dyn ds).bufferSize + a.bufferSize) 1 := by
    unfold stealGuard at hg
    simp only [Bool.and_eq_true, decide_eq_true_eq] at hg
    exact hg.1.2
  have hpa := hsa.used_pos
  rw [sub64_of_le (by omega), hbc, hbs] at hcap
  exact ⟨ids, hb, hget, hrcq, hbs, by rw [hlen]; omega, hlen⟩

end COWStrings

namespace COWStrings
open CowString

/-- The buffer-taking path of `append(String&&)`: `this` ends on the block of the
argument with the bytes of both Strings and a valid cache, the argument ends as the
empty Small String, the block `this` held before is released. -/
theorem appendMove_steal_spec {h : Heap} {a : CowString} {ds : TDynamicString}
    (hsa : Shape h a) (hca : CacheOk h a) (hss : Shape h (dyn ds)) (hcs : CacheOk h (dyn ds))
    (hg : stealGuard h a (dyn ds) = true) (ids : Nat) (hb : ds.buffer = some ids)
    (hne : a.heldBlock ≠ some ids)
    (hfit : a.bufferSize + ((dyn ds).bufferSize - 1) ≤ 2 ^ 62) :
    Shape (appendMove h a (dyn ds)).1 (appendMove h a (dyn ds)).2.1
    ∧ CacheOk (appendMove h a (dyn ds)).1 (appendMove h a (dyn ds)).2.1
    ∧ (appendMove h a (dyn ds)).2.1.heldBlock = some ids
    ∧ (∃ v3, (appendMove h a (dyn ds)).1.get ids = some ⟨1, v3⟩)
    ∧ (∀ j, j ≠ ids →
        (appendMove h a (dyn ds)).1.get j = (h.reset a.heldBlock none).get j)
    ∧ Shape h (appendMove h a (dyn ds)).2.2 ∧ CacheOk h (appendMove h a (dyn ds)).2.2
    ∧ (appendMove h a (dyn ds)).2.2.heldBlock = none := by
  obtain ⟨ids', hb', hget, hrc, hbs, hcap, hlen⟩ := steal_facts hsa hss hg
  have hids : ids' = ids := by
    rw [hb] at hb'
    exact (Option.some.inj hb').symm
  subst hids
  obtain ⟨v2, hg2, hl2, ht2, hfr2⟩ := shiftInto_spec hsa ds ids' _ hb hget hne hcap
  obtain ⟨e1, e2, e3⟩ := initAsSmallStringEmpty_spec h
    ({ ds with buffer := none }.rawBytes ((shiftInto h a ds).reset a.heldBlock none))
    (rawBytes_length _ _)
  rw [appendMove_steal_eq h a ds hg]
  simp only
  generalize hN : (if (a.isSmall || a.hasCachedCodePointsLitOrDyn) && ds.hasCachedCodePoints
      then (CowString.length (shiftInto h a ds) a).1
        + (CowString.length (shiftInto h a ds) (dyn ds)).1
      else 0) = N
  have hpa := hsa.used_pos
  have hps := hss.used_pos
  rw [hbs] at hps hfit
  have hused : sub64 (a.bufferSize + ds.used) 1 = a.bufferSize - 1 + ds.used := by
    rw [sub64_of_le (by omega)]
    omega
  rw [hused]
  have hg3 : ((shiftInto h a ds).reset a.heldBlock none).get ids' = some ⟨1, v2⟩ := by
    rw [get_reset_ne _ _ _ hne]
    exact hg2
  have hcsn : (dyn ((TDynamicString.mk ds.buffer ds.capacity (a.bufferSize - 1 + ds.used)
      0).setCodePoints N)).cString ((shiftInto h a ds).reset a.heldBlock none) = v2 := by
    show (match ds.buffer with
      | some id => ((shiftInto h a ds).reset a.heldBlock none).data id
      | none => [0]) = v2
    rw [hb]
    show ((shiftInto h a ds).reset a.heldBlock none).data ids' = v2
    rw [Heap.data_eq, hg3]
    rfl
  have hbsn : (dyn ((TDynamicString.mk ds.buffer ds.capacity (a.bufferSize - 1 + ds.used)
      0).setCodePoints N)).bufferSize = a.bufferSize - 1 + ds.used := by
    show (if ds.buffer.isSome then a.bufferSize - 1 + ds.used else 0) = _
    rw [hb]
    rfl
  have hacl : (a.content h).length = a.bufferSize - 1 := hsa.content_length
  have hcontent : (dyn ((TDynamicString.mk ds.buffer ds.capacity (a.bufferSize - 1 + ds.used)
      0).setCodePoints N)).content ((shiftInto h a ds).reset a.heldBlock none)
      = a.content h ++ (dyn ds).content h := by
    rw [content_eq, hcsn, hbsn, content_eq, content_eq, hbs]
    have e : a.bufferSize - 1 + ds.used - 1 = (a.content h).length + (ds.used - 1) := by
      rw [hacl]
      omega
    rw [← take_take_of_le v2 (by omega : a.bufferSize - 1 + ds.used - 1
      ≤ a.bufferSize - 1 + ds.used), ht2, e]
    exact take_append_take _ _ _ _ (by omega)
  have hsn : Shape ((shiftInto h a ds).reset a.heldBlock none)
      (dyn ((TDynamicString.mk ds.buffer ds.capacity (a.bufferSize - 1 + ds.used)
        0).setCodePoints N)) := by
    refine ⟨?_, ?_, ?_, ?_, ?_, ?_, ?_⟩
    · rw [hbsn]
      omega
    · rw [hbsn, hcsn, hl2]
      exact hcap
    · rw [hbsn]
      omega
    · rw [hbsn, hcsn]
      have e : a.bufferSize - 1 + ds.used - 1 = (a.content h).length + (ds.used - 1) := by
        rw [hacl]
        omega
      rw [load_eq_of_take (by omega : a.bufferSize - 1 + ds.used - 1
        < a.bufferSize - 1 + ds.used) (ht2.trans (List.take_of_length_le (by
          rw [List.length_append, List.length_take, List.length_take]
          have := hsa.used_le
          omega)).symm), e]
      show load (a.content h ++ _) _ = 0
      rw [load_append_right]
      have ht := hss.terminated
      rw [hbs] at ht
      rw [← ht]
      apply load_eq_of_take (by omega : ds.used - 1 < ds.used)
      rw [List.take_take, Nat.min_self]
    · rw [hcontent]
      exact hsa.framed.append hss.framed
    · intro b hb'
      cases hb'
    · intro d hd
      cases hd
      exact ⟨ids', 1, hb, by rw [hg3, hcsn], le_refl _, by rw [hcsn, hl2, hlen]; rfl⟩
  refine ⟨hsn, ?_, hb, ⟨v2, hg3⟩, ?_, e1, e2, e3⟩
  · apply cacheOk_of_count hsn
    show N % 2 ^ 62 % 2 ^ 62 = 0 ∨ N % 2 ^ 62 % 2 ^ 62 = _
    rw [Nat.mod_mod]
    by_cases hcond : ((a.isSmall || a.hasCachedCodePointsLitOrDyn)
        && ds.hasCachedCodePoints) = true
    · right
      rw [if_pos hcond] at hN
      have hc1 : (a.isSmall || a.hasCachedCodePointsLitOrDyn) = true := by
        simp only [Bool.and_eq_true] at hcond
        exact hcond.1
      have hc2 : ((dyn ds).isSmall || (dyn ds).hasCachedCodePointsLitOrDyn) = true := by
        simp only [Bool.and_eq_true] at hcond
        simp only [isSmall, hasCachedCodePointsLitOrDyn, Bool.false_or]
        exact hcond.2
      rw [length_fst_heap h _ a hc1, length_fst_heap h _ (dyn ds) hc2,
        length_eq_count hsa hca, length_eq_count hss hcs, hsa.count_content,
        hss.count_content] at hN
      rw [← hN]
      exact count_after_append hsa hsn _ hcontent
    · left
      rw [if_neg hcond] at hN
      rw [← hN]
      rfl
  · intro j hj
    apply get_reset_congr
    · exact hfr2 j hj
    · intro old hold
      apply hfr2
      intro e
      apply hne
      rw [hold, e]

end COWStrings

namespace COWStrings
open CowString

/-- The world invariant is kept when the String at position `i` moves to a live block
`X` that no String of the world holds, releasing the block it held before. -/
theorem Consistent.rehome {h h' : Heap} {strs : List CowString} {i X : Nat}
    {a a' : CowString} {v3 : List Nat}
    (hc : Consistent ⟨h, strs⟩) (hi : strs[i]? = some a) (hX : holders strs X = 0)
    (hs' : Shape h' a') (hc' : CacheOk h' a') (ha' : a'.heldBlock = some X)
    (hg : h'.get X = some ⟨1, v3⟩)
    (hfr : ∀ j, j ≠ X → h'.get j = (h.reset a.heldBlock none).get j) :
    Consistent ⟨h', strs.set i a'⟩ := by
  have hfree : ∀ (k : Nat) t id, strs[k]? = some t → t.heldBlock = some id → id ≠ X := by
    intro k t id hk hid e
    subst e
    have := holders_pos strs k t id hk hid
    omega
  have hkept : ∀ (k : Nat) t id, k ≠ i → strs[k]? = some t → t.heldBlock = some id →
      ∃ rc rc' v, h.get id = some ⟨rc, v⟩ ∧ h'.get id = some ⟨rc', v⟩ ∧ 1 ≤ rc' := by
    intro k t id hki hk hid
    obtain ⟨rc, hlive, hrc⟩ := (hc.shape k t hk).1.held_live hid
    simp only at hlive
    have hne := hfree k t id hk hid
    by_cases hah : a.heldBlock = some id
    · have h2 := holders_two strs k i t a id hki hk hi hid hah
      have h3 := hc.counted id
      simp only [Heap.refCount_eq, hlive] at h3
      simp only [Option.map_some', Option.getD_some] at h3
      have hrc2 : ¬ (rc - 1 = 0) := by omega
      refine ⟨rc, rc - 1, _, hlive, ?_, by omega⟩
      rw [hfr id hne, hah]
      simp only [Heap.reset]
      rw [Heap.get_unref, if_pos rfl, hlive]
      simp [hrc2]
    · refine ⟨rc, rc, _, hlive, ?_, hrc⟩
      rw [hfr id hne, get_reset_ne _ _ _ hah]
      exact hlive
  refine ⟨?_, ?_, ?_⟩
  · intro k t hk
    simp only at hk ⊢
    rcases getElem?_set_cases _ _ _ _ _ hk with ⟨_, rfl⟩ | ⟨hki, hk'⟩
    · exact ⟨hs', hc'⟩
    · have hfr' : ∀ id, t.heldBlock = some id →
          ∃ rc rc' v, h.get id = some ⟨rc, v⟩ ∧ h'.get id = some ⟨rc', v⟩ ∧ 1 ≤ rc' :=
        fun id hid => hkept k t id hki hk' hid
      refine ⟨(hc.shape k t hk').1.frame hfr', (hc.shape k t hk').2.cache_frame ?_⟩
      apply cString_frame
      intro id hid
      obtain ⟨rc, rc', v, h1, h2, _⟩ := hfr' id hid
      rw [Heap.data_eq, Heap.data_eq, h1, h2]
      rfl
  · intro id
    simp only
    have hset := holders_set strs i a a' id hi
    have hold := hc.counted id
    simp only at hold
    by_cases he : id = X
    · subst he
      have : h'.refCount id = 1 := by
        rw [Heap.refCount_eq, hg]
        rfl
      rw [ha', if_pos rfl] at hset
      omega
    · have h1 : h'.refCount id = (h.reset a.heldBlock none).refCount id := by
        rw [Heap.refCount_eq, Heap.refCount_eq, hfr id he]
      have h2 := refCount_reset_le h a id
      rw [ha', if_neg (fun e => he (Option.some.inj e).symm)] at hset
      omega
  · intro k m s t id hk hm hsid htid
    simp only at hk hm
    rcases getElem?_set_cases _ _ _ _ _ hk with ⟨hki, rfl⟩ | ⟨hki, hk'⟩
    · rcases getElem?_set_cases _ _ _ _ _ hm with ⟨_, rfl⟩ | ⟨hmi, hm'⟩
      · rfl
      · rw [ha'] at hsid
        exact absurd (Option.some.inj hsid).symm (hfree m t id hm' htid)
    · rcases getElem?_set_cases _ _ _ _ _ hm with ⟨_, rfl⟩ | ⟨hmi, hm'⟩
      · rw [ha'] at htid
        exact absurd (Option.some.inj htid).symm (hfree k s id hk' hsid)
      · exact hc.agree k m s t id hk' hm' hsid htid

/-- With `s` and `this` the same object the buffer-taking guards of `append(String&&)`
do not hold. -/
theorem stealGuard_self (h : Heap) (a : CowString) : stealGuard h a a = false := by
  cases hg : stealGuard h a a
  · rfl
  · exfalso
    unfold stealGuard at hg
    simp only [Bool.and_eq_true, Bool.or_eq_true, decide_eq_true_eq] at hg
    have hm := hg.1.1
    have hcap := hg.1.2
    have hrest := hg.2
    cases hrest with
    | inl h12 =>
      cases h12 with
      | inl hno => exact hno hm
      | inr hlt =>
        have := hlt.2
        omega
    | inr hgt =>
      have := hgt.2
      rw [sub64_of_le (le_refl _)] at this
      omega

theorem appendMoveSelf_eq (h : Heap) (a : CowString) : appendMoveSelf h a = appendSelf h a := by
  unfold appendMoveSelf
  rw [stealGuard_self]
  rfl

theorem appendMove_eq_append (h : Heap) (a s : CowString) (hg : stealGuard h a s = false) :
    appendMove h a s = append h a s := by
  cases s with
  | small b => rfl
  | lit l => rfl
  | dyn ds =>
    unfold appendMove
    simp only [hg, Bool.false_eq_true, if_false]

theorem dyn_of_stealGuard {h : Heap} {a s : CowString} (hg : stealGuard h a s = true) :
    ∃ ds, s = dyn ds := by
  have hm := stealGuard_owned hg
  cases s with
  | small b => simp [mode, isSmall] at hm
  | lit l => simp [mode, isSmall, isLiteral] at hm
  | dyn ds => exact ⟨ds, rfl⟩

end COWStrings

namespace COWStrings
open CowString

/-! ## The invariant along a program -/

/-- Every call with well-formed inputs within the size bound keeps the world
invariant. -/
theorem World.step_consistent {w : World} (c : Call) (hc : Consistent w) (hv : c.Valid)
    (hf : c.Fits w) : Consistent (w.step c) := by
  obtain ⟨h, strs⟩ := w
  cases c with
  | default =>
    obtain ⟨h1, h2, h3⟩ := mkDefault_spec h
    exact hc.push_plain h1 h2 h3
  | ofCString s =>
    obtain ⟨b, rest, rfl, hnz, hfr⟩ := hv
    obtain ⟨h1, h2, h3⟩ := ofCString_spec h b rest hnz hfr hf
    show Consistent ⟨(CowString.ofCString h (b ++ 0 :: rest) none).1,
      strs ++ [(CowString.ofCString h (b ++ 0 :: rest) none).2]⟩
    rcases h3 with ⟨he, hn⟩ | ⟨hheld, hnew, hold⟩
    · rw [he] at h1 h2 ⊢
      exact hc.push_plain h1 h2 hn
    · exact hc.push_fresh h1 h2 hheld hnew hold
  | ofArray s =>
    obtain ⟨b, rfl, hfr⟩ := hv
    obtain ⟨h1, h2, h3⟩ := ofArray_spec h b hfr hf
    exact hc.push_plain h1 h2 h3
  | copy i =>
    cases hi : strs[i]? with
    | none =>
      simp only [World.step, hi]
      exact hc
    | some s =>
      simp only [World.step, hi]
      obtain ⟨hs, hcache⟩ := hc.shape i s hi
      obtain ⟨h1, h2, h3⟩ := copy_spec hs hcache
      rcases h3 with ⟨he, hn⟩ | ⟨id, hid, het, heh⟩
      · rw [he] at h1 h2 ⊢
        exact hc.push_plain h1 h2 hn
      · rw [het, heh] at h1 h2 ⊢
        exact hc.push_copy hi hid h1 h2
  | move i =>
    cases hi : strs[i]? with
    | none =>
      simp only [World.step, hi]
      exact hc
    | some s =>
      simp only [World.step, hi]
      exact hc.move hi
  | length i =>
    cases hi : strs[i]? with
    | none =>
      simp only [World.step, hi]
      exact hc
    | some s =>
      simp only [World.step, hi]
      obtain ⟨hs, hcache⟩ := hc.shape i s hi
      exact hc.mutate hi hs.length (hcache.after_length hs)
        (Or.inl ⟨rfl, (length_snd_view h s).2.1, fun _ => (length_snd_view h s).1⟩)
  | appendChar i ch =>
    cases hi : strs[i]? with
    | none =>
      simp only [World.step, hi]
      exact hc
    | some a =>
      simp only [World.step, hi]
      obtain ⟨hs, hcache⟩ := hc.shape i a hi
      obtain ⟨h1, h2, h3⟩ := appendChar_spec hs hcache ch (hf a hi)
      exact hc.mutate hi h1 h2 h3
  | appendCStr i s =>
    cases hi : strs[i]? with
    | none =>
      simp only [World.step, hi]
      exact hc
    | some a =>
      simp only [World.step, hi]
      obtain ⟨b, rest, rfl, hnz, hfr⟩ := hv
      obtain ⟨hs, hcache⟩ := hc.shape i a hi
      have hfit := hf a hi
      rw [strlen_append_zero b rest hnz] at hfit
      obtain ⟨h1, h2, h3⟩ := appendCStr_spec hs hcache b rest hnz hfr hfit
      exact hc.mutate hi h1 h2 h3
  | append i j =>
    by_cases hij : i = j
    · subst hij
      cases hi : strs[i]? with
      | none =>
        simp only [World.step, hi, if_true]
        exact hc
      | some a =>
        simp only [World.step, hi, if_true]
        obtain ⟨hs, hcache⟩ := hc.shape i a hi
        obtain ⟨h1, h2, h3⟩ := appendSelf_spec hs hcache (hf a a hi hi)
        exact hc.mutate hi h1 h2 h3
    · cases hi : strs[i]? with
      | none =>
        simp only [World.step, hi, if_neg hij]
        exact hc
      | some a =>
        cases hj : strs[j]? with
        | none =>
          simp only [World.step, hi, hj, if_neg hij]
          exact hc
        | some s =>
          simp only [World.step, hi, hj, if_neg hij]
          obtain ⟨hsa, hca⟩ := hc.shape i a hi
          obtain ⟨hss, hcs⟩ := hc.shape j s hj
          obtain ⟨h1, h2, h3, h4, h5, h6, h7⟩ := append_spec hsa hca hss hcs
            (fun id ha hs' => le_of_eq (hc.agree j i s a id hj hi hs' ha)) (hf a s hi hj)
          have hcj : Consistent ⟨h, strs.set j (CowString.append h a s).2.2⟩ :=
            hc.mutate hj h4 h5 (Or.inl ⟨rfl, h6, fun _ => h7⟩)
          have hi' : (strs.set j (CowString.append h a s).2.2)[i]? = some a := by
            rw [List.getElem?_set, if_neg (fun hh => hij hh.symm)]
            exact hi
          exact hcj.mutate hi' h1 h2 h3
  | appendMove i j =>
    by_cases hij : i = j
    · subst hij
      cases hi : strs[i]? with
      | none =>
        simp only [World.step, hi, if_true]
        exact hc
      | some a =>
        simp only [World.step, hi, if_true]
        obtain ⟨hs, hcache⟩ := hc.shape i a hi
        rw [appendMoveSelf_eq]
        obtain ⟨h1, h2, h3⟩ := appendSelf_spec hs hcache (hf a a hi hi)
        exact hc.mutate hi h1 h2 h3
    · cases hi : strs[i]? with
      | none =>
        simp only [World.step, hi, if_neg hij]
        exact hc
      | some a =>
        cases hj : strs[j]? with
        | none =>
          simp only [World.step, hi, hj, if_neg hij]
          exact hc
        | some s =>
          simp only [World.step, hi, hj, if_neg hij]
          obtain ⟨hsa, hca⟩ := hc.shape i a hi
          obtain ⟨hss, hcs⟩ := hc.shape j s hj
          cases hg : stealGuard h a s with
          | false =>
            rw [appendMove_eq_append h a s hg]
            obtain ⟨h1, h2, h3, h4, h5, h6, h7⟩ := append_spec hsa hca hss hcs
              (fun id ha hs' => le_of_eq (hc.agree j i s a id hj hi hs' ha)) (hf a s hi hj)
            have hcj : Consistent ⟨h, strs.set j (CowString.append h a s).2.2⟩ :=
              hc.mutate hj h4 h5 (Or.inl ⟨rfl, h6, fun _ => h7⟩)
            have hi' : (strs.set j (CowString.append h a s).2.2)[i]? = some a := by
              rw [List.getElem?_set, if_neg (fun hh => hij hh.symm)]
              exact hi
            exact hcj.mutate hi' h1 h2 h3
          | true =>
            obtain ⟨ds, hds⟩ := dyn_of_stealGuard hg
            rw [hds] at hj hss hcs hg ⊢
            obtain ⟨ids, hb, hget, hrc0, _, _, _⟩ := steal_facts hsa hss hg
            have hrc : h.refCount ids = 1 := hrc0
            have hsheld : (dyn ds).heldBlock = some ids := hb
            have hcnt : holders strs ids ≤ h.refCount ids := hc.counted ids
            have hne : a.heldBlock ≠ some ids := by
              intro hah
              have := holders_two strs i j a (dyn ds) ids hij hi hj hah hsheld
              omega
            obtain ⟨h1, h2, h3, ⟨v3, h4⟩, h5, h6, h7, h8⟩ :=
              appendMove_steal_spec hsa hca hss hcs hg ids hb hne (hf a (dyn ds) hi hj)
            have hcj : Consistent ⟨h, strs.set j (CowString.appendMove h a (dyn ds)).2.2⟩ :=
              hc.drop hj h6 h7 h8
            have hi' : (strs.set j (CowString.appendMove h a (dyn ds)).2.2)[i]? = some a := by
              rw [List.getElem?_set, if_neg (fun hh => hij hh.symm)]
              exact hi
            have hX : holders (strs.set j (CowString.appendMove h a (dyn ds)).2.2) ids = 0 := by
              have hset := holders_set strs j (dyn ds)
                (CowString.appendMove h a (dyn ds)).2.2 ids hj
              have h0 : (if (CowString.appendMove h a (dyn ds)).2.2.heldBlock = some ids
                  then 1 else 0) = 0 := by
                rw [h8]
                rfl
              rw [h0, hsheld, if_pos rfl] at hset
              omega
            exact hcj.rehome hi' hX h1 h2 h3 h4 h5

/-- Every reachable world satisfies the world invariant. -/
theorem Reachable.consistent {w : World} (hw : Reachable w) : Consistent w := by
  induction hw with
  | init h =>
    refine ⟨?_, ?_, ?_⟩
    · intro i s hi
      simp at hi
    · intro id
      exact Nat.zero_le _
    · intro i j s t id hi
      simp at hi
  | step c _ hv hf ih => exact World.step_consistent c ih hv hf

end COWStrings

namespace COWStrings
open CowString

/-- A String with a cache that is not dirty has the count of its bytes in the cache. -/
theorem cached_of_hasCached {h : Heap} {s : CowString} (hs : Shape h s) (hc : CacheOk h s)
    (hd : s.hasCachedCodePointsLitOrDyn = true) :
    s.cachedCount = countCodePointsInBuffer (s.cString h) (s.bufferSize - 1) := by
  by_cases hz : s.cachedCount = 0
  · have hu : s.bufferSize - 1 = 0 := by
      cases s with
      | small b => cases hd
      | lit l =>
        have h1 : (l.getCodePoints != 0 || decide (l.used ≤ 1)) = true := hd
        have h2 : l.getCodePoints = 0 := hz
        rw [h2] at h1
        have h3 : l.used ≤ 1 := by simpa using h1
        show l.used - 1 = 0
        omega
      | dyn d =>
        have h1 : (d.getCodePoints != 0 || decide (d.used ≤ 1)) = true := hd
        have h2 : d.getCodePoints = 0 := hz
        rw [h2] at h1
        have h3 : d.used ≤ 1 := by simpa using h1
        have h4 : (dyn d).bufferSize ≤ d.used := by
          show (if d.buffer.isSome then d.used else 0) ≤ d.used
          split <;> omega
        omega
    rw [hz, hu, count_zero]
  · exact hc hz

theorem demoSource_valid : (Call.ofCString demoSource).Valid := by
  refine ⟨195 :: 169 :: List.replicate 38 97, [], rfl, by decide, ?_⟩
  exact Framed.cons 195 [169] (List.replicate 38 97) rfl (Framed.of_ascii _ (by decide))

theorem demoWorld_reachable : Reachable demoWorld := by
  have r1 : Reachable demoWorld1 :=
    Reachable.step _ (Reachable.init Heap.empty) demoSource_valid
      (show strlen demoSource + 1 ≤ 2 ^ 62 by decide)
  have r2 : Reachable demoWorld2 := Reachable.step _ r1 trivial trivial
  have r3 : Reachable demoWorld3 := Reachable.step _ r2 trivial trivial
  have r4 : Reachable demoWorld4 := by
    refine Reachable.step _ r3 ⟨[98], [], rfl, by decide, Framed.single 98 (by decide)⟩ ?_
    intro a ha
    have e : demoWorld3.strs[0]? = some (dyn ⟨some 0, 64, 41, 0⟩) := by decide
    rw [e] at ha
    cases ha
    decide
  have r5 : Reachable demoWorld5 := Reachable.step _ r4 trivial trivial
  refine Reachable.step _ r5 trivial ?_
  intro a s ha hs
  have e0 : demoWorld5.strs[0]? = some (dyn ⟨some 1, 64, 42, 40⟩) := by decide
  have e1 : demoWorld5.strs[1]? = some (dyn ⟨some 0, 64, 41, 39⟩) := by decide
  rw [e0] at ha
  rw [e1] at hs
  cases ha
  cases hs
  decide

/-- Cache validity in the worlds of the world model. In every world reached from any
heap by constructor calls (default, pointer, array, copy, move), `length()` calls and
`append` calls (`append(String)` by reference or by move, `append(Character)`, and
`append(C string)` on a C string in memory the call does not write) with inputs of
complete code points that keep each String within `2 ^ 62` bytes, every String `s` of
the world has `length()` equal to `countCodePointsInBuffer` over the first
`bufferSize() - 1` bytes of `cString()`, and a cache that is not dirty holds exactly
that count. The call `a.append(a.cString())` is not a call of these worlds. -/
theorem reachable_cache_valid (w : World) (hw : Reachable w) (i : Nat) (s : CowString)
    (hs : w.strs[i]? = some s) :
    (CowString.length w.heap s).1
        = countCodePointsInBuffer (s.cString w.heap) (s.bufferSize - 1)
      ∧ (s.hasCachedCodePointsLitOrDyn = true →
          s.cachedCount = countCodePointsInBuffer (s.cString w.heap) (s.bufferSize - 1)) := by
  obtain ⟨hshape, hcache⟩ := hw.consistent.shape i s hs
  exact ⟨length_eq_count hshape hcache, cached_of_hasCached hshape hcache⟩

/-- The example program ends with `s0` on block 2 with 82 bytes in use
and a cached count of 79, which is what `length()` returns and what the count over its
81 bytes gives. -/
theorem reachable_cache_valid_demo :
    Reachable demoWorld
      ∧ demoWorld.strs[0]? = some (dyn ⟨some 2, 128, 82, 79⟩)
      ∧ (CowString.length demoWorld.heap (dyn ⟨some 2, 128, 82, 79⟩)).1
          = countCodePointsInBuffer ((dyn ⟨some 2, 128, 82, 79⟩).cString demoWorld.heap)
              ((dyn ⟨some 2, 128, 82, 79⟩).bufferSize - 1)
      ∧ ((dyn ⟨some 2, 128, 82, 79⟩).hasCachedCodePointsLitOrDyn = true →
          (dyn ⟨some 2, 128, 82, 79⟩).cachedCount
            = countCodePointsInBuffer ((dyn ⟨some 2, 128, 82, 79⟩).cString demoWorld.heap)
                ((dyn ⟨some 2, 128, 82, 79⟩).bufferSize - 1)) :=
  ⟨demoWorld_reachable, by decide,
    reachable_cache_valid demoWorld demoWorld_reachable 0 (dyn ⟨some 2, 128, 82, 79⟩) (by decide)⟩

end COWStrings

namespace COWStrings
open CowString

/-! ## `setCharAt`, `reserve` and the constructors on concrete Strings -/

/-- C12: in `"abc"`, `setCharAt(1, 'ä')` replaces the 1-byte `b` by the 2-byte `ä`, and
`bufferSize()` is 4 as before, not 4 - 1 + 2 = 5: `setCharAt` never stores the new
`used`. -/
theorem C12_setCharAt_keeps_used :
    demoAbc.bufferSize = 4
    ∧ byteLengthFromLeadingByte (load (demoAbc.cString Heap.empty) 1) = 1
    ∧ demoUml.byteCount = 2
    ∧ (setCharAt Heap.empty demoAbc 1 demoUml).map (fun r => r.2.bufferSize) = some 4 := by
  decide

/-- C13: `"abc"` has `length()` 3; after `setCharAt(1, 'ä')` the bytes are
`61 C3 A4 63 00`, but `length()` is 2: it counts the 3 bytes in front of the stale
`used - 1`. -/
theorem C13_setCharAt_length :
    (CowString.length Heap.empty demoAbc).1 = 3
    ∧ (setCharAt Heap.empty demoAbc 1 demoUml).map
        (fun r => ((r.2.cString r.1).take 5, (CowString.length r.1 r.2).1))
      = some ([97, 195, 164, 99, 0], 2) := by
  decide

/-- C14: after `String s("abc"); s.setCharAt(1, 'ä')` the byte at offset
`bufferSize() - 1` of `cString()` is `c` (99), not the terminator. -/
theorem C14_setCharAt_terminator :
    (setCharAt Heap.empty demoAbc 1 demoUml).map
        (fun r => (r.2.bufferSize, load (r.2.cString r.1) (r.2.bufferSize - 1)))
      = some (4, 99) := by
  decide

end COWStrings

namespace COWStrings
open CowString

/-- C15: `reserve(0)` on the Literal String of 101 bytes makes it Dynamic with a block
of 64 bytes while `bufferSize()` stays 101: `growIntoDynamicString` allocates
`max(64, numBytes)` bytes whatever the bytes in use. -/
theorem C15_reserve_literal_capacity :
    demoLiteral.isLiteral = true ∧ demoLiteral.bufferSize = 101
    ∧ (reserve Heap.empty demoLiteral 0).2.isDynamic = true
    ∧ (reserve Heap.empty demoLiteral 0).2.bufferCapacity = 64
    ∧ (reserve Heap.empty demoLiteral 0).2.bufferSize = 101
    ∧ ((reserve Heap.empty demoLiteral 0).2.cString (reserve Heap.empty demoLiteral 0).1).length
        = 64 := by
  decide

/-- C17: the String move-constructed from a Literal String of 52 letters is Small with
`bufferSize()` 32 and all-zero bytes, where the source is Literal with 53 bytes in use:
the Literal branch assigns `data.lit` to itself. -/
theorem C17_move_from_literal :
    (ofArray (List.replicate 52 97 ++ [0])).mode Heap.empty = Mode.Literal
    ∧ (ofArray (List.replicate 52 97 ++ [0])).bufferSize = 53
    ∧ (move Heap.empty (ofArray (List.replicate 52 97 ++ [0]))).2.1.mode Heap.empty
        = Mode.Small
    ∧ (move Heap.empty (ofArray (List.replicate 52 97 ++ [0]))).2.1.bufferSize = 32
    ∧ (move Heap.empty (ofArray (List.replicate 52 97 ++ [0]))).2.1.cString Heap.empty
        = List.replicate 32 0 := by
  decide

/-- C20: `s.append(s)` on the Small String of 20 `a`: `bufferSize()` is 41, the first
20 bytes are the old contents, the 20 bytes behind them are the raw bytes of the object
in its Dynamic view (block address, capacity 64, used 21), not the old contents. -/
theorem C20_self_append_small_outgrows :
    demoTwenty.isSmall = true ∧ demoTwenty.bufferSize = 21
    ∧ (appendSelf Heap.empty demoTwenty).2.bufferSize = 41
    ∧ ((appendSelf Heap.empty demoTwenty).2.cString (appendSelf Heap.empty demoTwenty).1).take 41
        = List.replicate 20 97
            ++ [0, 16, 0, 0, 0, 0, 0, 0, 64, 0, 0, 0, 0, 0, 0, 0, 21, 0, 0, 0] ++ [0] := by
  decide

/-- C18, counterexample: after move-constructing a String from the Small String `"abc"`
the source still has 4 bytes in use and is not empty. -/
theorem C18_move_from_small_keeps_source :
    demoAbc.isSmall = true
    ∧ (move Heap.empty demoAbc).2.2 = demoAbc
    ∧ (move Heap.empty demoAbc).2.2.bufferSize = 4
    ∧ (move Heap.empty demoAbc).2.2.isEmpty = false := by
  decide

/-- C16, counterexample: `reserve(0)` on the Small String `"abc"` leaves it Small. -/
theorem C16_reserve_small_stays_small :
    demoAbc.mode Heap.empty = Mode.Small
    ∧ (reserve Heap.empty demoAbc 0).2 = demoAbc
    ∧ (reserve Heap.empty demoAbc 0).2.mode (reserve Heap.empty demoAbc 0).1 = Mode.Small := by
  decide

end COWStrings

namespace COWStrings
open CowString

/-- The empty initialisation on 32 raw bytes: one byte in use, the terminator. -/
theorem initAsSmallStringEmpty_view (data : List Nat) (hlen : data.length = 32) (h : Heap) :
    (initAsSmallStringEmpty data).isSmall = true
    ∧ (initAsSmallStringEmpty data).mode h = Mode.Small
    ∧ (initAsSmallStringEmpty data).bufferSize = 1
    ∧ (initAsSmallStringEmpty data).bufferCapacity = 32
    ∧ (initAsSmallStringEmpty data).isEmpty = true
    ∧ (CowString.length h (initAsSmallStringEmpty data)).1 = 0
    ∧ load ((initAsSmallStringEmpty data).cString h) 0 = 0 := by
  have hl31 : load (store (store data 31 31) 0 0) 31 = 31 := by
    rw [load_store_ne _ _ _ _ (by omega), load_store_self _ _ _ (by omega)]
  have hl0 : load (store (store data 31 31) 0 0) 0 = 0 := by
    rw [load_store_self _ _ _ (by rw [length_store]; omega)]
  have hbs : (initAsSmallStringEmpty data).bufferSize = 1 := by
    show sub64 32 (load (store (store data 31 31) 0 0) 31) = 1
    rw [hl31]
    rfl
  refine ⟨rfl, rfl, hbs, rfl, ?_, ?_, hl0⟩
  · show decide ((initAsSmallStringEmpty data).bufferSize ≤ 1) = true
    rw [hbs]
    rfl
  · show countCodePointsInBuffer _ (sub64 (initAsSmallStringEmpty data).bufferSize 1) = 0
    rw [hbs]
    rfl

/-- C18 (amended). Move construction empties a Dynamic source: for every heap and every
String `s` in the Dynamic view, after move-constructing another String from `s`, `s` is
an empty Small String: `mode()` is Small, `isEmpty()` is true, `bufferSize()` is 1,
`bufferCapacity()` is 32, `length()` is 0 and `cString()` points at a 0 byte. A Small or
Literal source is left as it was. -/
theorem C18_move_empties_dynamic_source (h : Heap) :
    (∀ d : TDynamicString,
        (move h (dyn d)).2.2.mode (move h (dyn d)).1 = Mode.Small
        ∧ (move h (dyn d)).2.2.isEmpty = true
        ∧ (move h (dyn d)).2.2.bufferSize = 1
        ∧ (move h (dyn d)).2.2.bufferCapacity = 32
        ∧ (CowString.length (move h (dyn d)).1 (move h (dyn d)).2.2).1 = 0
        ∧ load ((move h (dyn d)).2.2.cString (move h (dyn d)).1) 0 = 0)
    ∧ (∀ b, (move h (small b)).2.2 = small b)
    ∧ (∀ l, (move h (lit l)).2.2 = lit l) := by
  refine ⟨?_, fun _ => rfl, fun _ => rfl⟩
  intro d
  obtain ⟨_, e2, e3, e4, e5, e6, e7⟩ := initAsSmallStringEmpty_view
    ({ d with buffer := none }.rawBytes h) (rawBytes_length h _) h
  exact ⟨e2, e5, e3, e4, e6, e7⟩

end COWStrings

namespace COWStrings
open CowString

/-! ## `reserve` -/

theorem ownedUnique_of_block {h : Heap} {d : TDynamicString} {id : Nat} {v : List Nat}
    (hb : d.buffer = some id) (hg : h.get id = some ⟨1, v⟩) : OwnedUnique h (dyn d) := by
  have hrc : h.refCount id = 1 := by
    rw [Heap.refCount_eq, hg]
    rfl
  refine ⟨?_, ?_⟩
  · rw [mode_dyn, isShared_dyn h d id hb, hrc]
    rfl
  · show (match d.buffer with
      | some id => h.refCount id
      | none => 0) = 1
    rw [hb]
    exact hrc

/-- C16 (amended). For every String `s` that satisfies the representation invariant and
every `n`, a Literal `s` having fewer than `max(64, n)` bytes in use: after
`s.reserve(n)`, `bufferSize()` and the first `bufferSize()` bytes behind `cString()` are
unchanged, `bufferCapacity()` is at least `n` and at least `bufferSize()`, and the String
is Dynamic/Owned on a block with reference count 1, except that a Small String with
`n <= 32` is left as it is. -/
theorem C16_reserve (h : Heap) (s : CowString) (n : Nat) (hs : Shape h s)
    (hlit : ∀ l, s = lit l → l.used < max 64 n) :
    (reserve h s n).2.bufferSize = s.bufferSize
    ∧ ((reserve h s n).2.cString (reserve h s n).1).take s.bufferSize
        = (s.cString h).take s.bufferSize
    ∧ n ≤ (reserve h s n).2.bufferCapacity
    ∧ (reserve h s n).2.bufferSize ≤ (reserve h s n).2.bufferCapacity
    ∧ (s.isSmall = true → n ≤ 32 → (reserve h s n).2 = s ∧ (reserve h s n).1 = h)
    ∧ (¬ (s.isSmall = true ∧ n ≤ 32) → OwnedUnique (reserve h s n).1 (reserve h s n).2) := by
  have hul := hs.used_le
  by_cases hguard : (decide (s.bufferCapacity < n) || decide (s.mode h = Mode.Shared)
      || decide (s.mode h = Mode.Literal)) = true
  · have hdef : reserve h s n
        = ((ensureOwnedCapacity h s n).1, dyn (ensureOwnedCapacity h s n).2) := by
      unfold reserve
      rw [if_pos hguard]
    have hroom : s.isDynamic = false → s.bufferSize ≤ max (TSmallCapacity * 2) n := by
      intro hnd
      cases s with
      | small b =>
        have := hs.small_last
        have h64 : (64 : Nat) ≤ max (TSmallCapacity * 2) n := le_max_left _ _
        omega
      | lit l =>
        have := hlit l rfl
        show l.used ≤ max (TSmallCapacity * 2) n
        exact le_of_lt this
      | dyn d => cases hnd
    obtain ⟨id1, v1, e1, e2, e3, e4, e5, e6, _, _, _⟩ := ensure_room hs n hroom
    rw [hdef]
    generalize ensureOwnedCapacity h s n = r at *
    obtain ⟨h1, d1⟩ := r
    simp only at e1 e2 e3 e4 e5 e6 ⊢
    have hbs : (dyn d1).bufferSize = s.bufferSize := by
      show (if d1.buffer.isSome then d1.used else 0) = s.bufferSize
      rw [e1, e5]
      rfl
    have hcs : (dyn d1).cString h1 = v1 := by
      show (match d1.buffer with
        | some id => h1.data id
        | none => [0]) = v1
      rw [e1]
      show h1.data id1 = v1
      rw [Heap.data_eq, e2]
      rfl
    have hbc : (dyn d1).bufferCapacity = d1.capacity := by
      show (if d1.buffer.isSome then d1.capacity else 0) = d1.capacity
      rw [e1]
      rfl
    have hle : s.bufferSize ≤ v1.length := by
      have := congrArg List.length e6
      rw [List.length_take, List.length_take] at this
      omega
    refine ⟨hbs, by rw [hcs]; exact e6, by rw [hbc]; exact e4, by rw [hbs, hbc, ← e3]; exact hle,
      ?_, fun _ => ownedUnique_of_block e1 e2⟩
    intro hsm hn
    exfalso
    cases s with
    | small b =>
      have : (decide ((small b).bufferCapacity < n) || decide ((small b).mode h = Mode.Shared)
          || decide ((small b).mode h = Mode.Literal)) = false := by
        have h1 : (small b).bufferCapacity = 32 := rfl
        have h2 : (small b).mode h = Mode.Small := rfl
        rw [h1, h2]
        simp
        omega
      rw [this] at hguard
      cases hguard
    | lit l => cases hsm
    | dyn d => cases hsm
  · have hdef : reserve h s n = (h, s) := by
      unfold reserve
      rw [if_neg hguard]
    rw [hdef]
    simp only [Bool.or_eq_true, decide_eq_true_eq, not_or, not_lt] at hguard
    obtain ⟨⟨hcap, hnsh⟩, hnlit⟩ := hguard
    refine ⟨rfl, rfl, hcap, ?_, fun _ _ => ⟨rfl, rfl⟩, ?_⟩
    · cases s with
      | small b =>
        have := hs.small_last
        show (small b).bufferSize ≤ 32
        omega
      | lit l => exact absurd rfl hnlit
      | dyn d =>
        obtain ⟨id, rc, hb, hg, hrc, hlen⟩ := hs.held d rfl
        have hbc : (dyn d).bufferCapacity = d.capacity := by
          show (if d.buffer.isSome then d.capacity else 0) = d.capacity
          rw [hb]
          rfl
        rw [hbc, ← hlen]
        exact hul
    · intro hnot
      cases s with
      | small b =>
        exfalso
        apply hnot
        refine ⟨rfl, ?_⟩
        have : (small b).bufferCapacity = 32 := rfl
        omega
      | lit l => exact absurd rfl hnlit
      | dyn d =>
        obtain ⟨id, rc, hb, hg, hrc, hlen⟩ := hs.held d rfl
        have hsh : (dyn d).isShared h = false := by
          cases hq : (dyn d).isShared h
          · rfl
          · exfalso
            apply hnsh
            rw [mode_dyn, hq]
            rfl
        rw [isShared_dyn h d id hb, Heap.refCount_eq, hg] at hsh
        have hrc1 : rc = 1 := by
          simp at hsh
          omega
        subst hrc1
        exact ownedUnique_of_block hb hg

end COWStrings

namespace COWStrings
open CowString

/-- Witness of C16: `reserve()` on the Literal String of 52 letters of the repository's
test: it ends Dynamic/Owned with its 53 bytes. -/
theorem C16_reserve_witness :
    Shape Heap.empty (ofArray (List.replicate 52 97 ++ [0]))
    ∧ (∀ l, ofArray (List.replicate 52 97 ++ [0]) = lit l → l.used < max 64 0)
    ∧ (reserve Heap.empty (ofArray (List.replicate 52 97 ++ [0])) 0).2.bufferSize
        = (ofArray (List.replicate 52 97 ++ [0])).bufferSize
    ∧ OwnedUnique (reserve Heap.empty (ofArray (List.replicate 52 97 ++ [0])) 0).1
        (reserve Heap.empty (ofArray (List.replicate 52 97 ++ [0])) 0).2 := by
  have hshape : Shape Heap.empty (ofArray (List.replicate 52 97 ++ [0])) :=
    (ofArray_spec Heap.empty (List.replicate 52 97) (Framed.of_ascii _ (by decide))
      (by decide)).1
  have hlit : ∀ l, ofArray (List.replicate 52 97 ++ [0]) = lit l → l.used < max 64 0 := by
    intro l hl
    have e : ofArray (List.replicate 52 97 ++ [0])
        = lit ⟨List.replicate 52 97 ++ [0], 0, 53, 0⟩ := by decide
    rw [e] at hl
    cases hl
    decide
  have key := C16_reserve Heap.empty (ofArray (List.replicate 52 97 ++ [0])) 0 hshape hlit
  exact ⟨hshape, hlit, key.1, key.2.2.2.2.2 (by decide)⟩

end COWStrings

namespace COWStrings
open CowString

/-! ## Contents after `append(const String&)` -/

theorem finish_content (h : Heap) (a2 : CowString) (N : Nat) :
    (if !a2.isSmall then dynSetCodePoints N a2 else a2).content h = a2.content h := by
  cases a2 <;> rfl

/-- `a.append(s)` for another String `s`: the bytes of `a` are followed by the bytes of
`s`, which keeps its own. -/
theorem append_content {h : Heap} {a s : CowString} (hsa : Shape h a) (hss : Shape h s)
    (hagree : ∀ id, a.heldBlock = some id → s.heldBlock = some id →
      s.bufferSize ≤ a.bufferSize)
    (hfit : a.bufferSize + (s.bufferSize - 1) ≤ 2 ^ 62) :
    (append h a s).2.1.content (append h a s).1 = a.content h ++ s.content h
    ∧ ∀ h', (append h a s).2.2.content h' = s.content h' := by
  unfold append
  simp only
  split
  · obtain ⟨p1, p2, p3, p4⟩ := append_prepare hsa
    have hss1 := hss.length
    have hbs1 := length_snd_bufferSize h s
    have hct1 := content_length_snd h s h
    have hhb1 := (length_snd_view h s).2.1
    rw [hss1.sub64, hbs1]
    obtain ⟨_, s2, _⟩ := appendBytes_spec p1 (cStringPtr (CowString.length h s).2)
      (s.bufferSize - 1) (by rw [p3]; exact hfit) (s.content h) hss.framed
      (fun _ _ _ => by
        rw [deref_cStringPtr, length_snd_cString]
        exact ⟨hss.pred_le_length, rfl⟩)
      (fun _ => by
        have := string_src_owned p1 hss1
          (by rw [p2, hhb1, p3, hbs1]; exact hagree)
          ((CowString.length h a).2.resetCodePointsLitOrDyn.bufferSize + (s.bufferSize - 1))
          (by omega)
        rw [hbs1, hct1] at this
        exact this)
    refine ⟨?_, fun h' => content_length_snd h s h'⟩
    rw [finish_content, s2, p4]
  · rw [hss.sub64]
    obtain ⟨_, s2, _⟩ := appendBytes_spec hsa (cStringPtr s)
      (s.bufferSize - 1) hfit (s.content h) hss.framed
      (fun _ _ _ => by
        rw [deref_cStringPtr]
        exact ⟨hss.pred_le_length, rfl⟩)
      (fun _ => string_src_owned hsa hss hagree _ (by omega))
    refine ⟨?_, fun _ => rfl⟩
    rw [finish_content, s2]

/-- A String at another position of the world keeps its bytes when the String at
position `i` makes a heap step. -/
theorem content_kept {h h' : Heap} {strs : List CowString} {i k : Nat}
    {a a' t : CowString} (hc : Consistent ⟨h, strs⟩) (hi : strs[i]? = some a)
    (hk : strs[k]? = some t) (hki : k ≠ i) (hstep : HeapStep h a h' a') :
    t.content h' = t.content h := by
  have hcs : t.cString h' = t.cString h := by
    apply cString_frame
    intro id hid
    obtain ⟨rc, rc', v, h1, h2, _⟩ := block_after_step hc hi hk hki hstep hid
    rw [Heap.data_eq, Heap.data_eq, h1, h2]
    rfl
  rw [content_eq, content_eq, hcs]

end COWStrings

namespace COWStrings
open CowString

/-! ## Contents of the Strings of a world along `append` and copy construction -/

theorem contentAt_some {w : World} {m : Nat} {X : List Nat} (hm : w.contentAt m = some X) :
    ∃ t, w.strs[m]? = some t ∧ t.content w.heap = X := by
  unfold World.contentAt at hm
  cases ht : w.strs[m]? with
  | none =>
    rw [ht] at hm
    cases hm
  | some t =>
    rw [ht] at hm
    exact ⟨t, rfl, Option.some.inj hm⟩

theorem bufferSize_of_content {h : Heap} {t : CowString} (hs : Shape h t) :
    t.bufferSize = (t.content h).length + 1 := by
  have h1 := hs.content_length
  have h2 := hs.used_pos
  omega

theorem lt_length_of_getElem? {α : Type} {l : List α} {i : Nat} {x : α}
    (h : l[i]? = some x) : i < l.length := by
  by_contra hne
  rw [List.getElem?_eq_none (by omega)] at h
  cases h

/-- The world after `strs[i].append(strs[j])` for `i ≠ j`: the invariant holds, the
String at `i` has its bytes followed by those of the String at `j`, every other String
has the bytes it had. -/
theorem step_append_contentAt (w : World) (hc : Consistent w) (i j : Nat) (hij : i ≠ j)
    (A S : List Nat) (hi : w.contentAt i = some A) (hj : w.contentAt j = some S)
    (hfit : A.length + S.length + 1 ≤ 2 ^ 62) :
    Consistent (w.step (Call.append i j))
    ∧ (w.step (Call.append i j)).strs.length = w.strs.length
    ∧ ∀ m, (w.step (Call.append i j)).contentAt m
        = if m = i then some (A ++ S) else w.contentAt m := by
  obtain ⟨a, hia, hA⟩ := contentAt_some hi
  obtain ⟨s, hjs, hS⟩ := contentAt_some hj
  obtain ⟨h, strs⟩ := w
  simp only at hia hjs hA hS
  obtain ⟨hsa, hca⟩ := hc.shape i a hia
  obtain ⟨hss, hcs⟩ := hc.shape j s hjs
  simp only at hsa hca hss hcs
  have hba := bufferSize_of_content hsa
  have hbs := bufferSize_of_content hss
  rw [hA] at hba
  rw [hS] at hbs
  have hfit' : a.bufferSize + (s.bufferSize - 1) ≤ 2 ^ 62 := by omega
  have hagree : ∀ id, a.heldBlock = some id → s.heldBlock = some id →
      s.bufferSize ≤ a.bufferSize :=
    fun id ha hs' => le_of_eq (hc.agree j i s a id hjs hia hs' ha)
  have hfits : (Call.append i j).Fits ⟨h, strs⟩ := by
    intro a' s' ha' hs'
    simp only at ha' hs'
    rw [hia] at ha'
    rw [hjs] at hs'
    cases ha'
    cases hs'
    exact hfit'
  have hcons := World.step_consistent (Call.append i j) hc trivial hfits
  have hstep : World.step ⟨h, strs⟩ (Call.append i j)
      = ⟨(CowString.append h a s).1,
          (strs.set j (CowString.append h a s).2.2).set i (CowString.append h a s).2.1⟩ := by
    simp only [World.step, hia, hjs, if_neg hij]
  rw [hstep] at hcons ⊢
  obtain ⟨_, _, h3, h4, h5, h6, h7⟩ := append_spec hsa hca hss hcs hagree hfit'
  obtain ⟨c1, c2⟩ := append_content hsa hss hagree hfit'
  have hcj : Consistent ⟨h, strs.set j (CowString.append h a s).2.2⟩ :=
    hc.mutate hjs h4 h5 (Or.inl ⟨rfl, h6, fun _ => h7⟩)
  have hi' : (strs.set j (CowString.append h a s).2.2)[i]? = some a := by
    rw [List.getElem?_set, if_neg (fun hh => hij hh.symm)]
    exact hia
  refine ⟨hcons, by simp only [List.length_set], ?_⟩
  intro m
  unfold World.contentAt
  simp only
  by_cases hmi : m = i
  · subst hmi
    rw [if_pos rfl, List.getElem?_set, if_pos rfl,
      if_pos (by rw [List.length_set]; exact lt_length_of_getElem? hia)]
    show some ((CowString.append h a s).2.1.content (CowString.append h a s).1) = some _
    rw [c1, hA, hS]
  · rw [if_neg hmi, List.getElem?_set, if_neg (fun hh => hmi hh.symm)]
    cases ht : (strs.set j (CowString.append h a s).2.2)[m]? with
    | none =>
      have : strs[m]? = none := by
        rw [List.getElem?_set] at ht
        by_cases hjm : j = m
        · subst hjm
          rw [if_pos rfl, if_pos (lt_length_of_getElem? hjs)] at ht
          cases ht
        · rw [if_neg hjm] at ht
          exact ht
      rw [this]
      rfl
    | some t =>
      have hk := content_kept hcj hi' ht hmi h3
      show some (t.content _) = _
      rw [hk]
      rcases getElem?_set_cases _ _ _ _ _ ht with ⟨hmj, rfl⟩ | ⟨_, ht'⟩
      · subst hmj
        rw [hjs, c2]
        rfl
      · rw [ht']
        rfl

end COWStrings

namespace COWStrings
open CowString

/-- C19: with `a` a Small String of 31 used bytes (30 `a`), `b = "x"` and `c = "y"`:
after `a.append(b); a.append(c)` the contents of `a` are the 30 `a` followed by `xy`;
after `String a2(a); b.append(c); a2.append(b)` the contents of `a2` are the 30 `a`
alone, the clone having 32 bytes in use with the terminator among them. -/
theorem C19_append_assoc_small_31 :
    demoAssoc.strs.map (fun s => (s.isSmall, s.bufferSize)) = [(true, 31), (true, 2), (true, 2)]
    ∧ (assocLeft demoAssoc 0 1 2).textAt 0 = some (List.replicate 30 97 ++ [120, 121])
    ∧ (assocRight demoAssoc 0 1 2).textAt 3 = some (List.replicate 30 97)
    ∧ ((demoAssoc.step (Call.copy 0)).strs.map fun s => s.bufferSize) = [31, 2, 2, 32] := by
  decide

end COWStrings

namespace COWStrings
open CowString

/-! ## The character helper and the default String on concrete inputs -/

/-- C24: the default String is Small and empty: `isEmpty()` is true, `bufferCapacity()`
is 32, `bufferSize()` is 1, `length()` is 0, and the one byte in use behind `cString()`
is 0. -/
theorem C24_default_construction (h : Heap) :
    mkDefault.isSmall = true
    ∧ mkDefault.mode h = Mode.Small
    ∧ mkDefault.isEmpty = true
    ∧ mkDefault.bufferCapacity = 32
    ∧ mkDefault.bufferSize = 1
    ∧ (CowString.length h mkDefault).1 = 0
    ∧ (mkDefault.cString h).take mkDefault.bufferSize = [0]
    ∧ ((mkDefault.cString h).takeWhile fun x => x != 0) = [] :=
  ⟨rfl, rfl, by decide, rfl, by decide, rfl, rfl, rfl⟩

/-- C22: the Character decoded from `C3 A4`, the UTF-8 encoding of `ä` (U+00E4), has
`byteCount()` 2 and the bytes `C3 A4`, but `toUnicodeCodepoint()` is 2307, not 228: the
value holds the bytes in memory order (`0xA4C3`), and `utf8ToUnicodeCodePoint` compares
the whole value with the leading-byte bounds and masks the leading byte in the upper
byte. -/
theorem C22_decode_two_bytes :
    IsScalar 228 ∧ utf8Encode 228 = [195, 164]
    ∧ (Character.ofPtr (utf8Encode 228 ++ [0]) 0).byteCount = 2
    ∧ (Character.ofPtr (utf8Encode 228 ++ [0]) 0).bytes.take 2 = [195, 164]
    ∧ (Character.ofPtr (utf8Encode 228 ++ [0]) 0).toUnicodeCodepoint = 2307 := by
  decide

/-- C27: `setCharAt(1, 'x')` on the Small String `"abc"`, a replacement of equal width
(the result needs 4 bytes), leaves the String Dynamic/Owned with a capacity of 64. -/
theorem C27_setCharAt_leaves_small :
    demoAbc.isSmall = true ∧ demoAbc.bufferSize = 4
    ∧ (setCharAt Heap.empty demoAbc 1 ⟨120⟩).map
        (fun r => (r.2.isSmall, r.2.mode r.1, r.2.bufferCapacity, (r.2.cString r.1).take 4))
      = some (false, Mode.Owned, 64, [97, 120, 99, 0]) := by
  decide

/-- C23, counterexample: for the C string `"abc"` (3 bytes before the terminator)
`countCodePointsInCString` writes 3 to its length parameter, not 3 + 1. -/
theorem C23_length_of_abc :
    countCodePointsInCString [97, 98, 99, 0] = (3, 3) := by
  decide

end COWStrings

namespace COWStrings
open CowString

/-! ## The length `countCodePointsInCString` reports -/

theorem cstrLoop_snd (mem : List Nat) (n : Nat) (hnz : ∀ i, i < n → load mem i ≠ 0)
    (hz : load mem n = 0) :
    ∀ fuel pos cnt skip, pos ≤ n → n - pos + 1 ≤ fuel →
      (cstrLoop mem fuel pos cnt skip).2 = n := by
  intro fuel
  induction fuel with
  | zero =>
    intro pos cnt skip _ hf
    omega
  | succ fuel ih =>
    intro pos cnt skip hp hf
    simp only [cstrLoop]
    by_cases h0 : load mem pos = 0
    · have hpn : pos = n := by
        by_contra hne
        exact hnz pos (by omega) h0
      have hb : (load mem pos != 0) = false := by simp [h0]
      rw [hb]
      simp only [Bool.false_eq_true, if_false]
      exact hpn
    · have hpn : pos < n := by
        by_contra hne
        have : pos = n := by omega
        rw [this] at h0
        exact h0 hz
      have hb : (load mem pos != 0) = true := by simpa using h0
      rw [hb]
      simp only [if_true]
      split
      · exact ih _ _ _ (by omega) (by omega)
      · exact ih _ _ _ (by omega) (by omega)

/-- C23 (amended). For every C string whose bytes before the terminator are `b` (none of
them 0, `n = |b|` of them), whatever lies behind the terminator,
`countCodePointsInCString` writes `n`, the byte length without the terminator (the
value of `strlen`), to its length parameter. -/
theorem C23_length_excludes_terminator (b rest : List Nat) (hb : ∀ x ∈ b, x ≠ 0) :
    (countCodePointsInCString (b ++ 0 :: rest)).2 = b.length
    ∧ (countCodePointsInCString (b ++ 0 :: rest)).2 = strlen (b ++ 0 :: rest) := by
  have key : (countCodePointsInCString (b ++ 0 :: rest)).2 = b.length := by
    unfold countCodePointsInCString
    apply cstrLoop_snd
    · intro i hi
      rw [load_append_left _ _ _ hi, load_eq, List.getElem?_eq_getElem hi]
      exact hb _ (List.getElem_mem _)
    · have := load_append_right b (0 :: rest) 0
      rw [Nat.add_zero] at this
      rw [this]
      rfl
    · omega
    · simp only [List.length_append, List.length_cons]
      omega
  exact ⟨key, by rw [key, strlen_append_zero b rest hb]⟩

/-- Witness of C23 on the C string `"hi"`. -/
theorem C23_length_excludes_terminator_witness :
    (∀ x ∈ [104, 105], x ≠ 0)
    ∧ (countCodePointsInCString ([104, 105] ++ 0 :: [])).2 = [104, 105].length :=
  ⟨by decide, (C23_length_excludes_terminator [104, 105] [] (by decide)).1⟩

end COWStrings

namespace COWStrings
open CowString

/-! ## The capacity of a newly allocated buffer -/

/-- C28, counterexample: the Dynamic/Shared String of `demoShared` (capacity 64, 41 bytes
in use) gets a new buffer on `append('x')` (42 bytes required), and its capacity is 64,
not `max(2 * 64, 42, 64) = 128`. -/
theorem C28_shared_keeps_capacity :
    demoShared.2.mode demoShared.1 = Mode.Shared
    ∧ demoShared.2.bufferCapacity = 64 ∧ demoShared.2.bufferSize = 41
    ∧ demoShared.2.heldBlock = some 0
    ∧ (appendChar demoShared.1 demoShared.2 ⟨120⟩).2.heldBlock = some 1
    ∧ (appendChar demoShared.1 demoShared.2 ⟨120⟩).2.bufferCapacity = 64
    ∧ (appendChar demoShared.1 demoShared.2 ⟨120⟩).2.bufferSize = 42 := by
  decide

/-- C28 (amended). `ensureOwnedCapacity(r)`, through which `appendBytes`, `setCharAt` and
`reserve` allocate, on a String of capacity `c = bufferCapacity()`: a Small or Literal
String, and a Dynamic String with `c < r`, gets a fresh buffer of capacity
`max(2 * c, r, 64)`; a Dynamic/Shared String with `r <= c` gets a fresh buffer of
capacity `c`; a Dynamic String that is not Shared and has `r <= c` keeps its buffer. -/
theorem C28_growth_policy (h : Heap) (a : CowString) (r : Nat) :
    (a.isDynamic = false →
      (ensureOwnedCapacity h a r).2.buffer = some h.cells.length
      ∧ (ensureOwnedCapacity h a r).2.capacity = max (max (2 * a.bufferCapacity) r) 64)
    ∧ (a.isDynamic = true → a.bufferCapacity < r →
      (ensureOwnedCapacity h a r).2.buffer = some h.cells.length
      ∧ (ensureOwnedCapacity h a r).2.capacity = max (max (2 * a.bufferCapacity) r) 64)
    ∧ (a.isDynamic = true → a.isShared h = true → r ≤ a.bufferCapacity →
      (ensureOwnedCapacity h a r).2.buffer = some h.cells.length
      ∧ (ensureOwnedCapacity h a r).2.capacity = a.bufferCapacity)
    ∧ (a.isDynamic = true → a.isShared h = false → r ≤ a.bufferCapacity →
      (ensureOwnedCapacity h a r).1 = h ∧ dyn (ensureOwnedCapacity h a r).2 = a) := by
  cases a with
  | small b =>
    refine ⟨fun _ => ⟨rfl, ?_⟩, fun hd => (by cases hd), fun hd => (by cases hd),
      fun hd => (by cases hd)⟩
    show max (TSmallCapacity * 2) r = max (max (2 * TSmallCapacity) r) 64
    simp only [TSmallCapacity]
    omega
  | lit l =>
    refine ⟨fun _ => ⟨rfl, ?_⟩, fun hd => (by cases hd), fun hd => (by cases hd),
      fun hd => (by cases hd)⟩
    show max (TSmallCapacity * 2) r = max (max (2 * 0) r) 64
    simp only [TSmallCapacity]
    omega
  | dyn d =>
    refine ⟨fun hd => (by cases hd), ?_, ?_, ?_⟩
    · intro _ hlt
      rw [ensureOwnedCapacity_realloc h d r (Or.inr hlt)]
      refine ⟨rfl, ?_⟩
      show (if (dyn d).bufferCapacity ≥ r then (dyn d).bufferCapacity
        else max (max ((dyn d).bufferCapacity * 2) r) (TSmallCapacity * 2)) = _
      rw [if_neg (by omega)]
      simp only [TSmallCapacity]
      omega
    · intro _ hsh hle
      rw [ensureOwnedCapacity_realloc h d r (Or.inl hsh)]
      refine ⟨rfl, ?_⟩
      show (if (dyn d).bufferCapacity ≥ r then (dyn d).bufferCapacity
        else max (max ((dyn d).bufferCapacity * 2) r) (TSmallCapacity * 2)) = _
      rw [if_pos hle]
    · intro _ hsh hle
      have he : ensureOwnedCapacity h (dyn d) r = (h, d) := by
        unfold ensureOwnedCapacity
        simp [hsh, hle]
      rw [he]
      exact ⟨rfl, rfl⟩

/-- Witness of C28: the pointer constructor's 40-byte String of `demoShared`, Shared
with capacity 64: 100 bytes required give a fresh buffer of capacity 128. -/
theorem C28_growth_policy_witness :
    (dyn ⟨some 0, 64, 41, 0⟩).isDynamic = true
    ∧ (dyn ⟨some 0, 64, 41, 0⟩).bufferCapacity < 100
    ∧ (ensureOwnedCapacity demoShared.1 (dyn ⟨some 0, 64, 41, 0⟩) 100).2.capacity
        = max (max (2 * (dyn ⟨some 0, 64, 41, 0⟩).bufferCapacity) 100) 64 :=
  ⟨rfl, by decide,
    ((C28_growth_policy demoShared.1 (dyn ⟨some 0, 64, 41, 0⟩) 100).2.1 rfl (by decide)).2⟩

end COWStrings

namespace COWStrings
open CowString

/-! ## Counting over encoded code points -/

/-- The encoding of a code point is a leading byte followed by as many bytes as the
leading byte announces. -/
theorem utf8Encode_group (cp : Nat) :
    ∃ b tail, utf8Encode cp = b :: tail ∧ tail.length + 1 = byteLengthFromLeadingByte b := by
  unfold utf8Encode
  by_cases h1 : cp < 0x80
  · rw [if_pos h1]
    refine ⟨cp, [], rfl, ?_⟩
    unfold byteLengthFromLeadingByte
    rw [if_pos (by omega)]
    rfl
  · rw [if_neg h1]
    by_cases h2 : cp < 0x800
    · rw [if_pos h2]
      refine ⟨_, _, rfl, ?_⟩
      unfold byteLengthFromLeadingByte
      rw [if_neg (by omega), if_pos (by omega)]
      rfl
    · rw [if_neg h2]
      by_cases h3 : cp < 0x10000
      · rw [if_pos h3]
        refine ⟨_, _, rfl, ?_⟩
        unfold byteLengthFromLeadingByte
        rw [if_neg (by omega), if_neg (by omega), if_pos (by omega)]
        rfl
      · rw [if_neg h3]
        refine ⟨_, _, rfl, ?_⟩
        unfold byteLengthFromLeadingByte
        rw [if_neg (by omega), if_neg (by omega), if_neg (by omega)]
        rfl

theorem utf8EncodeAll_append (xs ys : List Nat) :
    utf8EncodeAll (xs ++ ys) = utf8EncodeAll xs ++ utf8EncodeAll ys := by
  induction xs with
  | nil => rfl
  | cons x xs ih =>
    show utf8Encode x ++ utf8EncodeAll (xs ++ ys) = (utf8Encode x ++ utf8EncodeAll xs) ++ _
    rw [ih, List.append_assoc]

/-- C29. For every list `cs` of Unicode scalar values, `countCodePointsInBuffer` on
the well-formed UTF-8 encoding of `cs` (whatever bytes follow it) and its exact byte
length returns the number of elements of `cs`; on an empty range it returns 0. -/
theorem C29_count_encoded (cs rest : List Nat) (hcs : ∀ c ∈ cs, IsScalar c) :
    countCodePointsInBuffer (utf8EncodeAll cs ++ rest) (utf8EncodeAll cs).length = cs.length
    ∧ countCodePointsInBuffer rest 0 = 0 := by
  refine ⟨?_, count_zero rest⟩
  induction cs with
  | nil => exact count_zero _
  | cons c cs ih =>
    obtain ⟨b, tail, hb, ht⟩ := utf8Encode_group c
    have e1 : utf8EncodeAll (c :: cs) ++ rest = b :: tail ++ (utf8EncodeAll cs ++ rest) := by
      show (utf8Encode c ++ utf8EncodeAll cs) ++ rest = _
      rw [hb, List.append_assoc]
    have e2 : (utf8EncodeAll (c :: cs)).length
        = byteLengthFromLeadingByte b + (utf8EncodeAll cs).length := by
      show (utf8Encode c ++ utf8EncodeAll cs).length = _
      rw [hb, List.length_append, List.length_cons, ht]
    rw [e1, e2, count_cons b tail _ _ ht,
      ih (fun x hx => hcs x (List.mem_cons_of_mem c hx)), List.length_cons]
    omega

/-- Witness of C29 on the code points of `aä€` and the terminator behind them. -/
theorem C29_count_encoded_witness :
    (∀ c ∈ [97, 228, 8364], IsScalar c)
    ∧ countCodePointsInBuffer (utf8EncodeAll [97, 228, 8364] ++ [0])
        (utf8EncodeAll [97, 228, 8364]).length = [97, 228, 8364].length :=
  ⟨by decide, (C29_count_encoded [97, 228, 8364] [0] (by decide)).1⟩

end COWStrings

namespace COWStrings
open CowString

/-! ## Locating a code point -/

theorem walk_lt_succ (mem : List Nat) (k : Nat) : walk mem k < walk mem (k + 1) := by
  have := byteLength_pos (load mem (walk mem k))
  show walk mem k < walk mem k + byteLengthFromLeadingByte (load mem (walk mem k))
  omega

theorem walk_mono (mem : List Nat) (k j : Nat) : walk mem k ≤ walk mem (k + j) := by
  induction j with
  | zero => exact le_refl _
  | succ j ih =>
    have := walk_lt_succ mem (k + j)
    have e : k + (j + 1) = k + j + 1 := rfl
    rw [e]
    omega

/-- The search from the position of code point `k`: it ends at code point `k + idx` if
that one starts inside the buffer. -/
theorem getLoop_walk (mem : List Nat) (e : Nat) :
    ∀ fuel k idx, e ≤ walk mem k + fuel →
      getLoop mem e fuel (walk mem k) idx
        = if walk mem (k + idx) < e then some (walk mem (k + idx)) else none := by
  intro fuel
  induction fuel with
  | zero =>
    intro k idx hf
    have := walk_mono mem k idx
    rw [if_neg (by omega)]
    rfl
  | succ fuel ih =>
    intro k idx hf
    simp only [getLoop]
    by_cases hp : walk mem k < e
    · rw [if_pos hp]
      cases idx with
      | zero =>
        rw [if_pos rfl, Nat.add_zero, if_pos hp]
      | succ i =>
        rw [if_neg (by omega)]
        have hs := walk_lt_succ mem k
        have e1 : walk mem k + byteLengthFromLeadingByte (load mem (walk mem k))
            = walk mem (k + 1) := rfl
        have e2 : k + (i + 1) = k + 1 + i := by omega
        rw [e1, Nat.add_sub_cancel, e2]
        exact ih (k + 1) i (by omega)
    · rw [if_neg hp]
      have := walk_mono mem k idx
      rw [if_neg (by omega)]

/-- The count from the position of code point `k`: the loop adds the number `m` of
code points from `k` on that start inside the buffer. -/
theorem countLoop_walk (mem : List Nat) (e : Nat) :
    ∀ fuel k cnt, e ≤ walk mem k + fuel →
      ∃ m, countLoop mem e fuel (walk mem k) cnt = cnt + m
        ∧ e ≤ walk mem (k + m) ∧ ∀ j, j < m → walk mem (k + j) < e := by
  intro fuel
  induction fuel with
  | zero =>
    intro k cnt hf
    exact ⟨0, rfl, by simpa using hf, fun j hj => absurd hj (Nat.not_lt_zero j)⟩
  | succ fuel ih =>
    intro k cnt hf
    simp only [countLoop]
    by_cases hp : walk mem k < e
    · rw [if_pos hp]
      have hs := walk_lt_succ mem k
      obtain ⟨m, h1, h2, h3⟩ := ih (k + 1) (cnt + 1) (by omega)
      refine ⟨m + 1, ?_, ?_, ?_⟩
      · have e1 : walk mem k + byteLengthFromLeadingByte (load mem (walk mem k))
            = walk mem (k + 1) := rfl
        rw [e1, h1]
        omega
      · have e2 : k + (m + 1) = k + 1 + m := by omega
        rw [e2]
        exact h2
      · intro j hj
        cases j with
        | zero => exact hp
        | succ j =>
          have e2 : k + (j + 1) = k + 1 + j := by omega
          rw [e2]
          exact h3 j (by omega)
    · rw [if_neg hp]
      exact ⟨0, rfl, by simpa using hp, fun j hj => absurd hj (Nat.not_lt_zero j)⟩

/-- The code points `countCodePointsInBuffer` counts are those that start inside the
buffer. -/
theorem count_walk (mem : List Nat) (len idx : Nat) :
    idx < countCodePointsInBuffer mem len ↔ walk mem idx < len := by
  obtain ⟨m, h1, h2, h3⟩ := countLoop_walk mem len len 0 0 (by simp)
  have hc : countCodePointsInBuffer mem len = m := by
    unfold countCodePointsInBuffer
    have : walk mem 0 = 0 := rfl
    rw [this] at h1
    rw [h1, Nat.zero_add]
  rw [hc]
  rw [Nat.zero_add] at h2
  constructor
  · intro hlt
    have := h3 idx hlt
    rw [Nat.zero_add] at this
    exact this
  · intro hw
    by_contra hge
    have hmono := walk_mono mem m (idx - m)
    have e : m + (idx - m) = idx := by omega
    rw [e] at hmono
    omega

theorem get_walk (mem : List Nat) (len idx : Nat) :
    getCodePointInBufferAt mem len idx
      = if walk mem idx < len then some (walk mem idx) else none := by
  unfold getCodePointInBufferAt
  have := getLoop_walk mem len len 0 idx (by simp)
  rw [Nat.zero_add] at this
  exact this

/-- In the encoding of `cs`, code point `idx` starts behind the encodings of the first
`idx` elements. -/
theorem walk_encoded (cs rest : List Nat) :
    ∀ idx, idx ≤ cs.length →
      walk (utf8EncodeAll cs ++ rest) idx = (utf8EncodeAll (cs.take idx)).length := by
  intro idx
  induction idx with
  | zero => intro _; rfl
  | succ i ih =>
    intro hi
    have hlt : i < cs.length := by omega
    have hsplit : cs = cs.take i ++ cs[i] :: cs.drop (i + 1) := by
      rw [List.getElem_cons_drop, List.take_append_drop]
    obtain ⟨b, tail, hb, ht⟩ := utf8Encode_group cs[i]
    have hmem : utf8EncodeAll cs ++ rest
        = utf8EncodeAll (cs.take i) ++ (b :: (tail ++ (utf8EncodeAll (cs.drop (i + 1)) ++ rest))) := by
      conv_lhs => rw [hsplit]
      rw [utf8EncodeAll_append]
      show (utf8EncodeAll (cs.take i) ++ (utf8Encode cs[i] ++ utf8EncodeAll (cs.drop (i + 1))))
        ++ rest = _
      rw [hb]
      simp only [List.append_assoc, List.cons_append]
    have hload : load (utf8EncodeAll cs ++ rest) (utf8EncodeAll (cs.take i)).length = b := by
      rw [hmem]
      have := load_append_right (utf8EncodeAll (cs.take i))
        (b :: (tail ++ (utf8EncodeAll (cs.drop (i + 1)) ++ rest))) 0
      exact this.trans rfl
    show walk _ i + byteLengthFromLeadingByte (load _ (walk _ i)) = _
    rw [ih (by omega), hload]
    have htk : cs.take (i + 1) = cs.take i ++ [cs[i]] := by
      rw [List.take_succ, List.getElem?_eq_getElem hlt]
      rfl
    rw [htk, utf8EncodeAll_append, List.length_append]
    show _ = _ + (utf8Encode cs[i] ++ []).length
    rw [List.append_nil, hb, List.length_cons, ht]

theorem utf8Encode_length_pos (cp : Nat) : 1 ≤ (utf8Encode cp).length := by
  obtain ⟨b, tail, hb, _⟩ := utf8Encode_group cp
  rw [hb, List.length_cons]
  omega

theorem encoded_take_lt (cs : List Nat) (idx : Nat) (hi : idx < cs.length) :
    (utf8EncodeAll (cs.take idx)).length < (utf8EncodeAll cs).length := by
  have hsplit : cs = cs.take idx ++ cs[idx] :: cs.drop (idx + 1) := by
    rw [List.getElem_cons_drop, List.take_append_drop]
  conv_rhs => rw [hsplit]
  rw [utf8EncodeAll_append, List.length_append]
  show _ < _ + (utf8Encode cs[idx] ++ utf8EncodeAll (cs.drop (idx + 1))).length
  rw [List.length_append]
  have := utf8Encode_length_pos cs[idx]
  omega

/-- C30: `getCodePointInBufferAt` returns the not-found sentinel exactly when `idx` is
at least `countCodePointsInBuffer`; otherwise it returns the offset that is the sum of
the leading-byte lengths of the first `idx` code points (`walk`), and in a buffer that
starts with the UTF-8 encoding of the scalar values `cs` this is the offset of the
first byte of the encoding of `cs[idx]`. -/
theorem C30_locate_code_point (mem : List Nat) (len idx : Nat) :
    (getCodePointInBufferAt mem len idx = none ↔ countCodePointsInBuffer mem len ≤ idx)
    ∧ (idx < countCodePointsInBuffer mem len →
        getCodePointInBufferAt mem len idx = some (walk mem idx))
    ∧ (∀ cs rest : List Nat, mem = utf8EncodeAll cs ++ rest →
        len = (utf8EncodeAll cs).length → (∀ c ∈ cs, IsScalar c) → idx < cs.length →
        getCodePointInBufferAt mem len idx = some (utf8EncodeAll (cs.take idx)).length
        ∧ (utf8EncodeAll cs ++ rest).drop (utf8EncodeAll (cs.take idx)).length
            = utf8EncodeAll (cs.drop idx) ++ rest) := by
  refine ⟨?_, ?_, ?_⟩
  · rw [get_walk]
    have hw := count_walk mem len idx
    by_cases hp : walk mem idx < len
    · rw [if_pos hp]
      have := hw.2 hp
      constructor
      · intro hn
        cases hn
      · intro hle
        omega
    · rw [if_neg hp]
      constructor
      · intro _
        by_contra hlt
        exact hp (hw.1 (by omega))
      · intro _
        rfl
  · intro hlt
    rw [get_walk, if_pos ((count_walk mem len idx).1 hlt)]
  · intro cs rest hmem hlen _ hi
    constructor
    · rw [get_walk, hmem, walk_encoded cs rest idx (by omega), hlen,
        if_pos (encoded_take_lt cs idx hi)]
    · have hsplit : utf8EncodeAll cs
          = utf8EncodeAll (cs.take idx) ++ utf8EncodeAll (cs.drop idx) := by
        rw [← utf8EncodeAll_append, List.take_append_drop]
      conv_lhs => rw [hsplit]
      rw [List.append_assoc, List.drop_left]

/-- Witness of C30 in the encoding of `aä€` with its terminator: code point 2 starts at
offset 3. -/
theorem C30_locate_code_point_witness :
    (∀ c ∈ [97, 228, 8364], IsScalar c)
    ∧ getCodePointInBufferAt [97, 195, 164, 226, 130, 172, 0] 6 2 = some 3
    ∧ (getCodePointInBufferAt [97, 195, 164, 226, 130, 172, 0] 6 3 = none
        ↔ countCodePointsInBuffer [97, 195, 164, 226, 130, 172, 0] 6 ≤ 3) :=
  ⟨by decide,
    ((C30_locate_code_point [97, 195, 164, 226, 130, 172, 0] 6 2).2.2 [97, 228, 8364] [0]
      (by decide) (by decide) (by decide) (by decide)).1,
    (C30_locate_code_point [97, 195, 164, 226, 130, 172, 0] 6 3).1⟩

end COWStrings

namespace COWStrings
open CowString

/-- The search of `charAt` fails exactly from the number of code points that start in
front of offset `bufferSize() - 1` on. -/
theorem charAt_none_iff (h : Heap) (s : CowString) (idx : Nat) :
    charAt h s idx = none ↔ s.countCodePoints h ≤ idx := by
  have hw := count_walk (s.cString h) (sub64 s.bufferSize 1) idx
  have hc : s.countCodePoints h
      = countCodePointsInBuffer (s.cString h) (sub64 s.bufferSize 1) := rfl
  unfold charAt
  rw [get_walk, hc]
  by_cases hp : walk (s.cString h) idx < sub64 s.bufferSize 1
  · rw [if_pos hp]
    have := hw.2 hp
    constructor
    · intro hn
      cases hn
    · intro hle
      omega
  · rw [if_neg hp]
    constructor
    · intro _
      by_contra hlt
      exact hp (hw.1 (by omega))
    · intro _
      rfl

set_option maxRecDepth 8000 in
/-- C21: the Dynamic String of `é` and 38 `a` (41 bytes) has `length()` 39, which the
call caches. After `setCharAt(1, 'ä')` the text is `éä` and 37 `a`, still 39 code
points, and `length()` answers 39 from the cache; but `bufferSize()` is still 41, so
the last `a`, at offset 40, is not in front of `bufferSize() - 1` and `charAt(38)`
fails although 38 is less than `length()`. The stale `used` of `setCharAt` is the
cause. -/
theorem C21_charAt_after_setCharAt :
    (CowString.length (ofCString Heap.empty demoSource none).1
        (ofCString Heap.empty demoSource none).2).1 = 39
    ∧ (setCharAt (ofCString Heap.empty demoSource none).1
          (CowString.length (ofCString Heap.empty demoSource none).1
            (ofCString Heap.empty demoSource none).2).2 1 demoUml).map
        (fun r => ((r.2.cString r.1).take 42, r.2.bufferSize, (CowString.length r.1 r.2).1,
          (charAt r.1 r.2 37).map Character.bytes, (charAt r.1 r.2 38).isNone))
      = some (195 :: 169 :: 195 :: 164 :: List.replicate 37 97 ++ [0], 41, 39,
          some [97, 0, 0, 0], true) := by
  decide

end COWStrings

namespace COWStrings
open CowString

/-! ## The boundary of the inline storage -/

/-- `bufferSize()` of a Small String whose last byte is a free-slot count. -/
theorem small_used (b : List Nat) (hlast : load b 31 ≤ 31) :
    1 ≤ (small b).bufferSize ∧ (small b).bufferSize ≤ 32
    ∧ (small b).bufferSize = 32 - load b 31 := by
  rw [small_bufferSize, sub64_of_le (by omega)]
  omega

/-- The inline branch of `appendBytes`, for any source pointer: what the 32 bytes
are afterwards. -/
theorem appendBytes_inline_eq (h : Heap) (b : List Nat) (bytes : BytePtr) (n : Nat)
    (hlast : load b 31 ≤ 31) (hin : (small b).bufferSize + n ≤ 32) :
    appendBytes h (small b) bytes n
      = (h, small (store (store (memcpy b ((small b).bufferSize - 1) (deref h (small b) bytes) n)
          31 ((32 - (small b).bufferSize - n) % 256)) ((small b).bufferSize + n - 1) 0)) := by
  obtain ⟨hpos, _, _⟩ := small_used b hlast
  generalize hu : (small b).bufferSize = u at hin hpos ⊢
  have hs1 : sub64 u 1 = u - 1 := sub64_of_le hpos
  have hs2 : sub64 (u + n) 1 = u + n - 1 := sub64_of_le (by omega)
  unfold appendBytes
  simp only [hu, bufferCapacity, TSmallCapacity, hin, if_true, hs1, hs2]

/-- The growing branch of `appendBytes` on a Small String: the String is Dynamic on the
fresh block, which nobody else holds, of `max(64, used + n)` bytes. -/
theorem appendBytes_outgrow (h : Heap) (b : List Nat) (bytes : BytePtr) (n : Nat)
    (hlen : b.length = 32) (hlast : load b 31 ≤ 31)
    (hout : 32 < (small b).bufferSize + n) :
    ∃ d v, (appendBytes h (small b) bytes n).2 = dyn d
      ∧ d.buffer = some h.cells.length
      ∧ d.capacity = max 64 ((small b).bufferSize + n)
      ∧ d.used = (small b).bufferSize + n
      ∧ (appendBytes h (small b) bytes n).1.get h.cells.length = some ⟨1, v⟩ := by
  obtain ⟨hpos, hle, _⟩ := small_used b hlast
  have hul : (small b).bufferSize ≤ ((small b).cString h).length := by
    show _ ≤ b.length
    omega
  obtain ⟨v1, e1, e2, _, _, _⟩ := grow_room h (small b) ((small b).bufferSize + n) hul
    (by simp only [TSmallCapacity]; omega)
  have hdef : appendBytes h (small b) bytes n = appendBytesOwned h (small b) bytes n := by
    unfold appendBytes
    simp only [bufferCapacity, TSmallCapacity]
    rw [if_neg (by omega)]
  have he : ensureOwnedCapacity h (small b) ((small b).bufferSize + n)
      = growIntoDynamicString h (small b) ((small b).bufferSize + n) := rfl
  have hdef2 : appendBytesOwned h (small b) bytes n =
      (let e := ensureOwnedCapacity h (small b) ((small b).bufferSize + n)
       let bytes1 := rebase bytes (small b).heldBlock e.2.buffer
       let h3 := (e.1.write e.2.buffer fun v =>
          memcpy v (sub64 (small b).bufferSize 1) (deref e.1 (dyn e.2) bytes1) n).write
            e.2.buffer fun v => store v (sub64 ((small b).bufferSize + n) 1) 0
       let d2 : TDynamicString := { e.2 with used := (small b).bufferSize + n }
       (h3, dyn (if d2.hasCachedCodePoints && decide (n ≤ 64) then
          d2.setCodePoints (d2.getCodePoints
            + countCodePointsInBuffer (deref h3 (dyn d2) bytes1) n)
          else d2.setCodePoints 0))) := by
    unfold appendBytesOwned
    simp only
    split <;> rfl
  rw [hdef, hdef2, he]
  generalize growIntoDynamicString h (small b) ((small b).bufferSize + n) = e at e1 e2 ⊢
  obtain ⟨h1, d1⟩ := e
  simp only at e1 e2 ⊢
  subst e1
  exact ⟨_, _, rfl, by split <;> rfl, by split <;> rfl, by split <;> rfl,
    by rw [Heap.get_write, if_pos rfl, Heap.get_write, if_pos rfl, e2]; rfl⟩

/-- The inline branch of `appendBytes`: the heap is untouched, the String stays Small
with capacity 32, the bytes in use grow by `n`, the last one is the terminator, and the
bytes in front of it are the old ones followed by the `n` source bytes. -/
theorem appendBytes_inline_fits (h : Heap) (b : List Nat) (bytes : BytePtr) (n : Nat)
    (hlen : b.length = 32) (hlast : load b 31 ≤ 31) :
    (small b).bufferSize + n ≤ 32 →
      (appendBytes h (small b) bytes n).1 = h
      ∧ (appendBytes h (small b) bytes n).2.mode h = Mode.Small
      ∧ (appendBytes h (small b) bytes n).2.bufferCapacity = 32
      ∧ (appendBytes h (small b) bytes n).2.bufferSize = (small b).bufferSize + n
      ∧ load ((appendBytes h (small b) bytes n).2.cString h) ((small b).bufferSize + n - 1) = 0
      ∧ (n ≤ (deref h (small b) bytes).length →
          (appendBytes h (small b) bytes n).2.content h
            = (small b).content h ++ (deref h (small b) bytes).take n) := by
  obtain ⟨hpos, hle, _⟩ := small_used b hlast
  intro hin
  rw [appendBytes_inline_eq h b bytes n hlast hin]
  generalize hsrc : deref h (small b) bytes = src
  rw [content_eq (h := h) (s := small b)]
  generalize hu : (small b).bufferSize = u at hin hpos hle ⊢
  generalize hb' : store (store (memcpy b (u - 1) src n) 31 ((32 - u - n) % 256)) (u + n - 1) 0
    = b'
  have hlen1 : (memcpy b (u - 1) src n).length = 32 := by rw [length_memcpy, hlen]
  have hlen' : b'.length = 32 := by
    rw [← hb', length_store, length_store, hlen1]
  have hmod : (32 - u - n) % 256 = 32 - u - n := Nat.mod_eq_of_lt (by omega)
  have hl31 : load b' 31 = 32 - (u + n) := by
    rw [← hb']
    by_cases he : u + n - 1 = 31
    · rw [he, load_store_self _ _ _ (by rw [length_store, hlen1]; omega)]
      omega
    · rw [load_store_ne _ _ _ _ he, load_store_self _ _ _ (by rw [hlen1]; omega), hmod]
      omega
  have hbs' : (small b').bufferSize = u + n := by
    rw [small_bufferSize, hl31, sub64_of_le (by omega)]
    omega
  refine ⟨rfl, rfl, rfl, hbs', ?_, ?_⟩
  · show load b' (u + n - 1) = 0
    rw [← hb']
    exact load_store_self _ _ _ (by rw [length_store, hlen1]; omega)
  · intro hn
    rw [content_eq, hbs']
    show b'.take (u + n - 1) = b.take (u - 1) ++ src.take n
    rw [← hb', take_store_ge _ _ _ _ (le_refl _), take_store_ge _ _ _ _ (by omega)]
    have e : u + n - 1 = (u - 1) + n := by omega
    rw [e]
    exact take_memcpy _ _ _ _ (by rw [hlen]; omega) hn

end COWStrings

namespace COWStrings
open CowString

/-! ## Strings of arbitrary bytes: `ensureOwnedCapacity` and `appendBytes` -/

theorem Stored.held_block {h : Heap} {d : TDynamicString} (hs : Stored h (dyn d)) :
    ∃ id rc, d.buffer = some id ∧ h.get id = some ⟨rc, (dyn d).cString h⟩ ∧ 1 ≤ rc
      ∧ ((dyn d).cString h).length = d.capacity := by
  have hpos := hs.nonempty
  cases hb : d.buffer with
  | none =>
    simp only [bufferSize, hb] at hpos
    simp at hpos
  | some id =>
    obtain ⟨rc, hg, hrc, hcap⟩ := hs.block id (by simp [heldBlock, hb])
    refine ⟨id, rc, rfl, hg, hrc, ?_⟩
    rw [hcap]
    simp [bufferCapacity, hb]

theorem Stored.pred_inside {h : Heap} {s : CowString} (hs : Stored h s) :
    s.bufferSize - 1 ≤ (s.cString h).length := by
  have := hs.inside
  omega

theorem Stored.live {h : Heap} {t : CowString} (hs : Stored h t) {id : Nat}
    (hid : t.heldBlock = some id) :
    ∃ rc, h.get id = some ⟨rc, t.cString h⟩ ∧ 1 ≤ rc := by
  obtain ⟨rc, hg, hrc, _⟩ := hs.block id hid
  exact ⟨rc, hg, hrc⟩

/-- Outcome of `ensureOwnedCapacity(m)`, for `m` at least the bytes in use, on a String
of arbitrary bytes. -/
theorem ensure_stored {h : Heap} {a : CowString} (hs : Stored h a) (m : Nat)
    (hm : a.bufferSize ≤ m) :
    ∃ id1 v1, (ensureOwnedCapacity h a m).2.buffer = some id1
      ∧ (ensureOwnedCapacity h a m).1.get id1 = some ⟨1, v1⟩
      ∧ v1.length = (ensureOwnedCapacity h a m).2.capacity
      ∧ m ≤ (ensureOwnedCapacity h a m).2.capacity
      ∧ (ensureOwnedCapacity h a m).2.used = a.bufferSize
      ∧ v1.take a.bufferSize = (a.cString h).take a.bufferSize
      ∧ ((a.heldBlock = some id1 ∧ (ensureOwnedCapacity h a m).1 = h)
        ∨ (id1 = h.cells.length
          ∧ ∀ j, j ≠ id1 →
              (ensureOwnedCapacity h a m).1.get j = (h.reset a.heldBlock none).get j)) := by
  cases a with
  | small b =>
    obtain ⟨v1, e1, e2, e3, e4, e5⟩ := grow_spec h (small b) m hs.inside hm
    have he : ensureOwnedCapacity h (small b) m = growIntoDynamicString h (small b) m := rfl
    rw [he, e1]
    refine ⟨_, v1, rfl, e2, e3, by simp, rfl, e4, Or.inr ⟨rfl, ?_⟩⟩
    intro j hj
    rw [e5 j hj]
    rfl
  | lit l =>
    obtain ⟨v1, e1, e2, e3, e4, e5⟩ := grow_spec h (lit l) m hs.inside hm
    have he : ensureOwnedCapacity h (lit l) m = growIntoDynamicString h (lit l) m := rfl
    rw [he, e1]
    refine ⟨_, v1, rfl, e2, e3, by simp, rfl, e4, Or.inr ⟨rfl, ?_⟩⟩
    intro j hj
    rw [e5 j hj]
    rfl
  | dyn d =>
    obtain ⟨id, rc, hb, hg, hrc, hcap⟩ := hs.held_block
    have hused : (dyn d).bufferSize = d.used := by simp [bufferSize, hb]
    have hcs : (dyn d).cString h = h.data id := by simp [cString, hb]
    have hbc : (dyn d).bufferCapacity = d.capacity := by simp [bufferCapacity, hb]
    have hul := hs.inside
    rw [hused] at hul ⊢
    by_cases hre : (dyn d).isShared h = true ∨ (dyn d).bufferCapacity < m
    · rw [ensureOwnedCapacity_realloc h d m hre]
      have hlt := Heap.lt_length_of_get hg
      have hne : h.cells.length ≠ id := by omega
      obtain ⟨N, hN, hcapge, hmle⟩ : ∃ N, (if (dyn d).bufferCapacity ≥ m then
            (dyn d).bufferCapacity
            else max (max ((dyn d).bufferCapacity * 2) m) (TSmallCapacity * 2)) = N
          ∧ d.capacity ≤ N ∧ m ≤ N := by
        refine ⟨_, rfl, ?_, ?_⟩
        · rw [hbc]
          split
          · exact le_refl _
          · omega
        · split
          · assumption
          · omega
      rw [hN]
      refine ⟨h.cells.length, memcpy ((List.range N).map h.junk) 0 (h.data id) d.used, rfl,
        ?_, ?_, hmle, rfl, ?_, Or.inr ⟨rfl, ?_⟩⟩
      · simp only [hb, Heap.reset]
        rw [Heap.get_ref, if_pos rfl, Heap.get_unref, if_neg hne, Heap.get_write, if_pos rfl,
          Heap.get_make, if_pos rfl]
        rfl
      · rw [length_memcpy, length_junk]
      · rw [hcs]
        have := take_memcpy ((List.range N).map h.junk) 0
          (h.data id) d.used (by rw [length_junk]; rw [hcs] at hcap; rw [hcs] at hul; omega)
          (by rw [hcs] at hul; exact hul)
        simpa using this
      · intro j hj
        simp only [hb, Heap.reset, heldBlock]
        rw [Heap.get_ref, if_neg hj]
        by_cases hji : j = id
        · subst hji
          rw [Heap.get_unref, if_pos rfl, Heap.get_unref, if_pos rfl, Heap.get_write, if_neg hj,
            Heap.get_make, if_neg hj]
        · rw [Heap.get_unref, if_neg hji, Heap.get_unref, if_neg hji, Heap.get_write, if_neg hj,
            Heap.get_make, if_neg hj]
    · have hns : (dyn d).isShared h = false := by
        cases hsh : (dyn d).isShared h
        · rfl
        · exact absurd (Or.inl hsh) hre
      have hge : m ≤ (dyn d).bufferCapacity := by
        by_contra hlt
        exact hre (Or.inr (by omega))
      have he : ensureOwnedCapacity h (dyn d) m = (h, d) := by
        unfold ensureOwnedCapacity
        simp [hns, hge]
      have hrc1 : rc = 1 := by
        rw [isShared_dyn _ _ _ hb, Heap.refCount_eq, hg] at hns
        simp at hns
        omega
      rw [he]
      subst hrc1
      exact ⟨id, (dyn d).cString h, hb, hg, hcap, by rw [← hbc]; exact hge, rfl, rfl,
        Or.inl ⟨hb, rfl⟩⟩

theorem take_succ_load (m : List Nat) (k : Nat) (hk : k < m.length) :
    m.take (k + 1) = m.take k ++ [load m k] := by
  rw [List.take_succ, load_eq, List.getElem?_eq_getElem hk]
  rfl

/-- The owned-buffer part of `appendBytes` on a String of arbitrary bytes: the bytes in
use are the old ones followed by the `n` source bytes and the terminator. -/
theorem appendBytesOwned_stored {h : Heap} {a : CowString} (hs : Stored h a) (bytes : BytePtr)
    (n : Nat)
    (hn : n ≤ (deref (ensureOwnedCapacity h a (a.bufferSize + n)).1
        (dyn (ensureOwnedCapacity h a (a.bufferSize + n)).2)
        (rebase bytes a.heldBlock (ensureOwnedCapacity h a (a.bufferSize + n)).2.buffer)).length) :
    (appendBytesOwned h a bytes n).2.content (appendBytesOwned h a bytes n).1
        = a.content h ++ (deref (ensureOwnedCapacity h a (a.bufferSize + n)).1
            (dyn (ensureOwnedCapacity h a (a.bufferSize + n)).2)
            (rebase bytes a.heldBlock
              (ensureOwnedCapacity h a (a.bufferSize + n)).2.buffer)).take n
    ∧ (appendBytesOwned h a bytes n).2.bufferSize = a.bufferSize + n
    ∧ load ((appendBytesOwned h a bytes n).2.cString (appendBytesOwned h a bytes n).1)
        (a.bufferSize + n - 1) = 0
    ∧ a.bufferSize + n
        ≤ ((appendBytesOwned h a bytes n).2.cString (appendBytesOwned h a bytes n).1).length
    ∧ (appendBytesOwned h a bytes n).2.isDynamic = true := by
  obtain ⟨id1, v1, hb1, hg1, hlen1, hcap1, hused1, htake1, _⟩ :=
    ensure_stored hs (a.bufferSize + n) (by omega)
  have hpos := hs.nonempty
  have hs1 : sub64 a.bufferSize 1 = a.bufferSize - 1 := sub64_of_le hpos
  have hs2 : sub64 (a.bufferSize + n) 1 = a.bufferSize + n - 1 := sub64_of_le (by omega)
  have hdef : appendBytesOwned h a bytes n =
      (let e := ensureOwnedCapacity h a (a.bufferSize + n)
       let bytes1 := rebase bytes a.heldBlock e.2.buffer
       let h3 := (e.1.write e.2.buffer fun v =>
          memcpy v (sub64 a.bufferSize 1) (deref e.1 (dyn e.2) bytes1) n).write e.2.buffer
            fun v => store v (sub64 (a.bufferSize + n) 1) 0
       let d2 : TDynamicString := { e.2 with used := a.bufferSize + n }
       (h3, dyn (if d2.hasCachedCodePoints && decide (n ≤ 64) then
          d2.setCodePoints (d2.getCodePoints
            + countCodePointsInBuffer (deref h3 (dyn d2) bytes1) n)
          else d2.setCodePoints 0))) := by
    unfold appendBytesOwned
    simp only
    split <;> rfl
  rw [hdef]
  clear hdef
  generalize ensureOwnedCapacity h a (a.bufferSize + n) = e at *
  obtain ⟨h1, d1⟩ := e
  obtain ⟨buf1, cap1, used1, cp1⟩ := d1
  simp only at hb1 hg1 hlen1 hcap1 hused1 hn ⊢
  subst hb1
  rw [hs1, hs2]
  generalize hsrc : deref h1 (dyn ⟨some id1, cap1, used1, cp1⟩) (rebase bytes a.heldBlock (some id1))
    = src at hn ⊢
  obtain ⟨w1, w2, w3⟩ := take_append_write v1 a.bufferSize n src hpos (by omega) hn
  have hg3 : ((h1.write (some id1) fun v => memcpy v (a.bufferSize - 1) src n).write (some id1)
      fun v => store v (a.bufferSize + n - 1) 0).get id1
        = some ⟨1, store (memcpy v1 (a.bufferSize - 1) src n) (a.bufferSize + n - 1) 0⟩ := by
    rw [Heap.get_write, if_pos rfl, Heap.get_write, if_pos rfl, hg1]
    rfl
  generalize hh3 : ((h1.write (some id1) fun v => memcpy v (a.bufferSize - 1) src n).write
      (some id1) fun v => store v (a.bufferSize + n - 1) 0) = h3 at hg3 ⊢
  generalize hd3 : (if (TDynamicString.hasCachedCodePoints ⟨some id1, cap1, a.bufferSize + n, cp1⟩
        && decide (n ≤ 64)) = true then
      TDynamicString.setCodePoints ⟨some id1, cap1, a.bufferSize + n, cp1⟩
        (TDynamicString.getCodePoints ⟨some id1, cap1, a.bufferSize + n, cp1⟩
          + countCodePointsInBuffer (deref h3 (dyn ⟨some id1, cap1, a.bufferSize + n, cp1⟩)
              (rebase bytes a.heldBlock (some id1))) n)
      else TDynamicString.setCodePoints ⟨some id1, cap1, a.bufferSize + n, cp1⟩ 0) = d3
  have hb3 : d3.buffer = some id1 := by
    rw [← hd3]; split <;> rfl
  have hu3 : d3.used = a.bufferSize + n := by
    rw [← hd3]; split <;> rfl
  have hcs3 : (dyn d3).cString h3
      = store (memcpy v1 (a.bufferSize - 1) src n) (a.bufferSize + n - 1) 0 := by
    simp only [cString, hb3, Heap.data_eq, hg3]
    rfl
  have hbs3 : (dyn d3).bufferSize = a.bufferSize + n := by
    simp [bufferSize, hb3, hu3]
  refine ⟨?_, hbs3, ?_, ?_, rfl⟩
  · rw [content_eq, hcs3, hbs3, w1, content_eq]
    congr 1
    exact take_eq_take_of_le (by omega) htake1
  · rw [hcs3]
    exact w2
  · rw [hcs3, w3]
    omega

end COWStrings

namespace COWStrings
open CowString

/-- The states `appendBytes` of `n` bytes on a String of arbitrary bytes ends in: the
bytes in front of the terminator are the old ones followed by the `n` source bytes
`X`. -/
theorem appendBytes_stored {h : Heap} {a : CowString} (hs : Stored h a) (bytes : BytePtr)
    (n : Nat) (X : List Nat)
    (hin : ∀ b, a = small b → a.bufferSize + n ≤ 32 →
      n ≤ (deref h a bytes).length ∧ (deref h a bytes).take n = X)
    (how : (∀ b, a = small b → ¬ a.bufferSize + n ≤ 32) →
      n ≤ (deref (ensureOwnedCapacity h a (a.bufferSize + n)).1
          (dyn (ensureOwnedCapacity h a (a.bufferSize + n)).2)
          (rebase bytes a.heldBlock (ensureOwnedCapacity h a (a.bufferSize + n)).2.buffer)).length
      ∧ (deref (ensureOwnedCapacity h a (a.bufferSize + n)).1
          (dyn (ensureOwnedCapacity h a (a.bufferSize + n)).2)
          (rebase bytes a.heldBlock
            (ensureOwnedCapacity h a (a.bufferSize + n)).2.buffer)).take n = X) :
    (appendBytes h a bytes n).2.content (appendBytes h a bytes n).1 = a.content h ++ X
    ∧ (appendBytes h a bytes n).2.bufferSize = a.bufferSize + n
    ∧ load ((appendBytes h a bytes n).2.cString (appendBytes h a bytes n).1)
        (a.bufferSize + n - 1) = 0
    ∧ a.bufferSize + n
        ≤ ((appendBytes h a bytes n).2.cString (appendBytes h a bytes n).1).length := by
  by_cases hcase : ∀ b, a = small b → ¬ a.bufferSize + n ≤ 32
  · have hdef : appendBytes h a bytes n = appendBytesOwned h a bytes n := by
      cases a with
      | small b =>
        have := hcase b rfl
        unfold appendBytes
        simp only [bufferCapacity, TSmallCapacity]
        rw [if_neg this]
      | lit l => rfl
      | dyn d => rfl
    obtain ⟨hn, hsrc⟩ := how hcase
    obtain ⟨s1, s2, s3, s4, _⟩ := appendBytesOwned_stored hs bytes n hn
    rw [hsrc] at s1
    rw [hdef]
    exact ⟨s1, s2, s3, s4⟩
  · push_neg at hcase
    obtain ⟨b, rfl, hle⟩ := hcase
    obtain ⟨hn, hsrc⟩ := hin b rfl hle
    obtain ⟨hl32, hl31⟩ := hs.inline32 rfl
    obtain ⟨s1, s2, s3, s4, s5, s6⟩ := appendBytes_inline_fits h b bytes n hl32 hl31 hle
    have s7 := s6 hn
    rw [hsrc] at s7
    rw [s1]
    refine ⟨s7, s4, s5, ?_⟩
    have hsm : (appendBytes h (small b) bytes n).2.isSmall = true := by
      have := s2
      unfold mode at this
      cases hr : (appendBytes h (small b) bytes n).2.isSmall
      · rw [hr] at this
        simp only [Bool.false_eq_true, if_false] at this
        split at this
        · cases this
        · split at this <;> cases this
      · rfl
    obtain ⟨b', hb'⟩ : ∃ b', (appendBytes h (small b) bytes n).2 = small b' := by
      cases hr : (appendBytes h (small b) bytes n).2 with
      | small b' => exact ⟨b', rfl⟩
      | lit l => rw [hr] at hsm; cases hsm
      | dyn d => rw [hr] at hsm; cases hsm
    have hlen' : ((appendBytes h (small b) bytes n).2.cString h).length = 32 := by
      rw [appendBytes_inline_eq h b bytes n hl31 hle]
      show (store _ _ _).length = 32
      rw [length_store, length_store, length_memcpy]
      exact hl32
    rw [hlen']
    exact hle

/-- From the bytes in front of the terminator to the outcome of an append. -/
theorem appended_of {h : Heap} {a : CowString} (hs : Stored h a)
    (hza : ∀ x ∈ a.content h, x ≠ 0) (b : List Nat) (hzb : ∀ x ∈ b, x ≠ 0)
    (r : Heap × CowString)
    (hc : r.2.content r.1 = a.content h ++ b)
    (hb : r.2.bufferSize = a.bufferSize + b.length)
    (ht : load (r.2.cString r.1) (a.bufferSize + b.length - 1) = 0)
    (hl : a.bufferSize + b.length ≤ (r.2.cString r.1).length) :
    Appended h a b r := by
  have hpos := hs.nonempty
  have htake : (r.2.cString r.1).take r.2.bufferSize = a.content h ++ b ++ [0] := by
    have e : r.2.bufferSize = (r.2.bufferSize - 1) + 1 := by omega
    rw [e, take_succ_load _ _ (by omega), ← content_eq, hc, hb, ht]
  refine ⟨hb, htake, ?_⟩
  apply takeWhile_of_take_eq
  · intro x hx
    rcases List.mem_append.1 hx with h1 | h1
    · exact hza x h1
    · exact hzb x h1
  · have hcl : (a.content h).length = a.bufferSize - 1 := by
      rw [content_eq, List.length_take]
      have := hs.inside
      omega
    have e : (a.content h ++ b).length + 1 = r.2.bufferSize := by
      rw [List.length_append, hcl, hb]
      omega
    rw [e]
    exact htake

/-- The views of a String that the cache updates in front of `appendBytes` leave as
they are. -/
theorem prepare_view (h : Heap) (a : CowString) :
    (CowString.length h a).2.resetCodePointsLitOrDyn.bufferSize = a.bufferSize
    ∧ (CowString.length h a).2.resetCodePointsLitOrDyn.heldBlock = a.heldBlock
    ∧ (CowString.length h a).2.resetCodePointsLitOrDyn.isSmall = a.isSmall
    ∧ (CowString.length h a).2.resetCodePointsLitOrDyn.bufferCapacity = a.bufferCapacity
    ∧ ∀ h', (CowString.length h a).2.resetCodePointsLitOrDyn.cString h' = a.cString h' := by
  cases a with
  | small b => exact ⟨rfl, rfl, rfl, rfl, fun _ => rfl⟩
  | lit l =>
    unfold CowString.length
    simp only
    split <;> exact ⟨rfl, rfl, rfl, rfl, fun _ => rfl⟩
  | dyn d =>
    unfold CowString.length
    simp only
    split
    · exact ⟨rfl, rfl, rfl, rfl, fun _ => rfl⟩
    · split <;> exact ⟨rfl, rfl, rfl, rfl, fun _ => rfl⟩

theorem length_view (h : Heap) (s : CowString) :
    (CowString.length h s).2.bufferSize = s.bufferSize
    ∧ (CowString.length h s).2.heldBlock = s.heldBlock
    ∧ (CowString.length h s).2.isSmall = s.isSmall
    ∧ (CowString.length h s).2.bufferCapacity = s.bufferCapacity
    ∧ cStringPtr (CowString.length h s).2 = cStringPtr s
    ∧ ∀ h', (CowString.length h s).2.cString h' = s.cString h' := by
  cases s with
  | small b => exact ⟨rfl, rfl, rfl, rfl, rfl, fun _ => rfl⟩
  | lit l =>
    unfold CowString.length
    simp only
    split <;> exact ⟨rfl, rfl, rfl, rfl, rfl, fun _ => rfl⟩
  | dyn d =>
    unfold CowString.length
    simp only
    split
    · exact ⟨rfl, rfl, rfl, rfl, rfl, fun _ => rfl⟩
    · split <;> exact ⟨rfl, rfl, rfl, rfl, rfl, fun _ => rfl⟩

theorem Stored.of_view {h : Heap} {a a1 : CowString} (hs : Stored h a)
    (e1 : a1.bufferSize = a.bufferSize) (e2 : a1.heldBlock = a.heldBlock)
    (e3 : a1.isSmall = a.isSmall) (e4 : a1.bufferCapacity = a.bufferCapacity)
    (e5 : ∀ h', a1.cString h' = a.cString h') : Stored h a1 := by
  refine ⟨?_, ?_, ?_, ?_, ?_⟩
  · rw [e1]; exact hs.nonempty
  · rw [e1, e5]; exact hs.inside
  · rw [e1, e5]; exact hs.closed
  · rw [e3, e5]; exact hs.inline32
  · rw [e2, e4, e5]; exact hs.block

/-- The write of the cache behind `appendBytes` leaves the bytes as they are. -/
theorem finish_view (a2 : CowString) (N : Nat) :
    (if !a2.isSmall then dynSetCodePoints N a2 else a2).bufferSize = a2.bufferSize
    ∧ ∀ h, (if !a2.isSmall then dynSetCodePoints N a2 else a2).cString h = a2.cString h := by
  cases a2 <;> exact ⟨rfl, fun _ => rfl⟩

/-- The length `countCodePointsInCString` finds is the number of bytes in front of the
first zero byte. -/
theorem cstr_numBytes (b rest : List Nat) (hb : ∀ x ∈ b, x ≠ 0) :
    (countCodePointsInCString (b ++ 0 :: rest)).2 = b.length := by
  unfold countCodePointsInCString
  apply cstrLoop_snd
  · intro i hi
    rw [load_append_left _ _ _ hi, load_eq, List.getElem?_eq_getElem hi]
    exact hb _ (List.getElem_mem _)
  · have := load_append_right b (0 :: rest) 0
    rw [Nat.add_zero] at this
    rw [this]
    rfl
  · omega
  · simp only [List.length_append, List.length_cons]
    omega

end COWStrings

namespace COWStrings
open CowString

theorem Stored.pred_sub64 {h : Heap} {s : CowString} (hs : Stored h s) :
    sub64 s.bufferSize 1 = s.bufferSize - 1 := sub64_of_le hs.nonempty

theorem Stored.content_size {h : Heap} {s : CowString} (hs : Stored h s) :
    (s.content h).length = s.bufferSize - 1 := by
  rw [content_eq, List.length_take]
  have := hs.inside
  omega

/-- The source bytes `appendBytes` reads when they are those of another String `s`, after
`ensureOwnedCapacity` on the String `a` appended to: the bytes of `s` in front of its
terminator, also when both hold the same block. -/
theorem string_src_stored {h : Heap} {a s : CowString} (hsa : Stored h a) (hss : Stored h s)
    (hagree : ∀ id, a.heldBlock = some id → s.heldBlock = some id →
      s.bufferSize ≤ a.bufferSize)
    (m : Nat) (hm : a.bufferSize ≤ m) :
    s.bufferSize - 1 ≤ (deref (ensureOwnedCapacity h a m).1 (dyn (ensureOwnedCapacity h a m).2)
        (rebase (cStringPtr s) a.heldBlock (ensureOwnedCapacity h a m).2.buffer)).length
    ∧ (deref (ensureOwnedCapacity h a m).1 (dyn (ensureOwnedCapacity h a m).2)
        (rebase (cStringPtr s) a.heldBlock (ensureOwnedCapacity h a m).2.buffer)).take
          (s.bufferSize - 1) = s.content h := by
  obtain ⟨id1, v1, hb1, hg1, hlen1, hcap1, hused1, htake1, hstep⟩ := ensure_stored hsa m hm
  rw [hb1]
  cases s with
  | small b => exact ⟨hss.pred_inside, rfl⟩
  | lit l => exact ⟨hss.pred_inside, rfl⟩
  | dyn ds =>
    obtain ⟨ids, rc, hbs, hgs, hrc, hcaps⟩ := hss.held_block
    have hptr : cStringPtr (dyn ds) = BytePtr.block ids := by simp [cStringPtr, hbs]
    have hheld : (dyn ds).heldBlock = some ids := by simp [heldBlock, hbs]
    have hlt := Heap.lt_length_of_get hgs
    rw [hptr]
    by_cases hsame : a.heldBlock = some ids
    · have hreb : rebase (BytePtr.block ids) a.heldBlock (some id1) = BytePtr.block id1 := by
        simp [rebase, hsame]
      rw [hreb]
      have hle := hagree ids hsame hheld
      have hacs : a.cString h = (dyn ds).cString h := by
        obtain ⟨rc', hlive, _⟩ := hsa.live hsame
        rw [hgs] at hlive
        exact (congrArg Shared.value (Option.some.inj hlive)).symm
      have hd : deref (ensureOwnedCapacity h a m).1 (dyn (ensureOwnedCapacity h a m).2)
          (BytePtr.block id1) = v1 := by
        simp only [deref, Heap.data_eq, hg1]
        rfl
      rw [hd]
      refine ⟨by omega, ?_⟩
      rw [content_eq, ← hacs]
      exact take_eq_take_of_le (by omega) htake1
    · have hreb : rebase (BytePtr.block ids) a.heldBlock (some id1) = BytePtr.block ids := by
        cases hab : a.heldBlock with
        | none => simp [rebase]
        | some old =>
          have : ids ≠ old := by
            intro e
            apply hsame
            rw [hab, e]
          simp [rebase, this]
      rw [hreb]
      have hget : (ensureOwnedCapacity h a m).1.get ids = h.get ids := by
        rcases hstep with ⟨_, heq⟩ | ⟨hid, hfr⟩
        · rw [heq]
        · rw [hfr ids (by omega)]
          cases hab : a.heldBlock with
          | none => rfl
          | some old =>
            simp only [Heap.reset]
            rw [Heap.get_unref, if_neg]
            intro e
            apply hsame
            rw [hab, e]
      have hd : deref (ensureOwnedCapacity h a m).1 (dyn (ensureOwnedCapacity h a m).2)
          (BytePtr.block ids) = (dyn ds).cString h := by
        simp only [deref, Heap.data_eq, hget, hgs]
        rfl
      rw [hd]
      exact ⟨hss.pred_inside, rfl⟩

/-- The public `append` calls around `appendBytes`: `appendBytes` runs on `a1`, the
String `a` with at most its cache changed, and at most the cache is written
afterwards. -/
theorem wrap_appended {h : Heap} {a a1 : CowString} (hs : Stored h a)
    (e1 : a1.bufferSize = a.bufferSize) (e2 : a1.heldBlock = a.heldBlock)
    (e3 : a1.isSmall = a.isSmall) (e4 : a1.bufferCapacity = a.bufferCapacity)
    (e5 : ∀ h', a1.cString h' = a.cString h')
    (hza : ∀ x ∈ a.content h, x ≠ 0) (b : List Nat) (hzb : ∀ x ∈ b, x ≠ 0)
    (bytes : BytePtr)
    (hin : ∀ b0, a1 = small b0 → a1.bufferSize + b.length ≤ 32 →
      b.length ≤ (deref h a1 bytes).length ∧ (deref h a1 bytes).take b.length = b)
    (how : (∀ b0, a1 = small b0 → ¬ a1.bufferSize + b.length ≤ 32) →
      b.length ≤ (deref (ensureOwnedCapacity h a1 (a1.bufferSize + b.length)).1
          (dyn (ensureOwnedCapacity h a1 (a1.bufferSize + b.length)).2)
          (rebase bytes a1.heldBlock
            (ensureOwnedCapacity h a1 (a1.bufferSize + b.length)).2.buffer)).length
      ∧ (deref (ensureOwnedCapacity h a1 (a1.bufferSize + b.length)).1
          (dyn (ensureOwnedCapacity h a1 (a1.bufferSize + b.length)).2)
          (rebase bytes a1.heldBlock
            (ensureOwnedCapacity h a1 (a1.bufferSize + b.length)).2.buffer)).take b.length = b)
    (N : Nat) :
    Appended h a b ((appendBytes h a1 bytes b.length).1,
      if !(appendBytes h a1 bytes b.length).2.isSmall then
        dynSetCodePoints N (appendBytes h a1 bytes b.length).2
      else (appendBytes h a1 bytes b.length).2) := by
  have hs1 : Stored h a1 := hs.of_view e1 e2 e3 e4 e5
  obtain ⟨s1, s2, s3, s4⟩ := appendBytes_stored hs1 bytes b.length b hin how
  have hc1 : a1.content h = a.content h := by rw [content_eq, content_eq, e1, e5]
  obtain ⟨f1, f2⟩ := finish_view (appendBytes h a1 bytes b.length).2 N
  apply appended_of hs hza b hzb
  · show CowString.content _ _ = _
    rw [finish_content, s1, hc1]
  · show CowString.bufferSize _ = _
    rw [f1, s2, e1]
  · show load (CowString.cString _ _) _ = 0
    rw [f2, ← e1]
    exact s3
  · show _ ≤ (CowString.cString _ _).length
    rw [f2, ← e1]
    exact s4

end COWStrings

namespace COWStrings
open CowString

theorem appendChar_appended {h : Heap} {a : CowString} (hs : Stored h a)
    (hza : ∀ x ∈ a.content h, x ≠ 0) (c : Character)
    (hzc : ∀ x ∈ c.bytes.take c.byteCount, x ≠ 0) :
    Appended h a (c.bytes.take c.byteCount) (appendChar h a c) := by
  have hbl : (c.bytes.take c.byteCount).length = c.byteCount := by
    rw [List.length_take]
    exact Nat.min_eq_left c.byteCount_le
  have hw := wrap_appended hs rfl rfl rfl rfl (fun _ => rfl) hza (c.bytes.take c.byteCount) hzc
    (BytePtr.mem c.bytes)
    (fun _ _ _ => by
      rw [hbl]
      exact ⟨c.byteCount_le, rfl⟩)
    (fun _ => by
      rw [hbl]
      exact ⟨c.byteCount_le, rfl⟩) 0
  rw [hbl] at hw
  obtain ⟨w1, w2, w3⟩ := hw
  obtain ⟨f1, f2⟩ := finish_view (appendBytes h a (BytePtr.mem c.bytes) c.byteCount).2 0
  unfold appendChar
  refine ⟨?_, ?_, ?_⟩
  · rw [← f1]
    exact w1
  · rw [← f1, ← f2]
    exact w2
  · rw [← f2]
    exact w3

theorem appendCStr_appended {h : Heap} {a : CowString} (hs : Stored h a)
    (hza : ∀ x ∈ a.content h, x ≠ 0) (b rest : List Nat) (hzb : ∀ x ∈ b, x ≠ 0) :
    Appended h a b (appendCStr h a (b ++ 0 :: rest)) := by
  have hlenle : b.length ≤ (b ++ 0 :: rest).length := by
    rw [List.length_append]; omega
  have hnb := cstr_numBytes b rest hzb
  unfold appendCStr
  generalize countCodePointsInCString (b ++ 0 :: rest) = cc at hnb
  obtain ⟨cnt, nb⟩ := cc
  simp only at hnb
  subst hnb
  simp only
  split
  · obtain ⟨p1, p2, p3, p4, p5⟩ := prepare_view h a
    exact wrap_appended hs p1 p2 p3 p4 p5 hza b hzb (BytePtr.mem (b ++ 0 :: rest))
      (fun _ _ _ => ⟨hlenle, take_cstr_left b rest⟩)
      (fun _ => ⟨hlenle, take_cstr_left b rest⟩) _
  · exact wrap_appended hs rfl rfl rfl rfl (fun _ => rfl) hza b hzb
      (BytePtr.mem (b ++ 0 :: rest))
      (fun _ _ _ => ⟨hlenle, take_cstr_left b rest⟩)
      (fun _ => ⟨hlenle, take_cstr_left b rest⟩) 0

theorem append_appended {h : Heap} {a s : CowString} (hsa : Stored h a)
    (hza : ∀ x ∈ a.content h, x ≠ 0) (hss : Stored h s) (hzs : ∀ x ∈ s.content h, x ≠ 0)
    (hagree : ∀ id, a.heldBlock = some id → s.heldBlock = some id →
      s.bufferSize ≤ a.bufferSize) :
    Appended h a (s.content h) ((append h a s).1, (append h a s).2.1) := by
  have hcl := hss.content_size
  unfold append
  simp only
  split
  · obtain ⟨p1, p2, p3, p4, p5⟩ := prepare_view h a
    obtain ⟨q1, q2, q3, q4, q5, q6⟩ := length_view h s
    have hss1 : Stored h (CowString.length h s).2 := hss.of_view q1 q2 q3 q4 q6
    have hsa1 : Stored h (CowString.length h a).2.resetCodePointsLitOrDyn :=
      hsa.of_view p1 p2 p3 p4 p5
    rw [hss1.pred_sub64, q1, q5, ← hcl]
    exact wrap_appended hsa p1 p2 p3 p4 p5 hza (s.content h) hzs (cStringPtr s)
      (fun _ _ _ => by
        rw [deref_cStringPtr, hcl]
        exact ⟨hss.pred_inside, rfl⟩)
      (fun _ => by
        have := string_src_stored hsa1 hss
          (by rw [p2, p1]; exact hagree)
          ((CowString.length h a).2.resetCodePointsLitOrDyn.bufferSize + (s.bufferSize - 1))
          (by omega)
        rw [hcl]
        exact this) _
  · rw [hss.pred_sub64, ← hcl]
    exact wrap_appended hsa rfl rfl rfl rfl (fun _ => rfl) hza (s.content h) hzs (cStringPtr s)
      (fun _ _ _ => by
        rw [deref_cStringPtr, hcl]
        exact ⟨hss.pred_inside, rfl⟩)
      (fun _ => by
        have := string_src_stored hsa hss hagree (a.bufferSize + (s.bufferSize - 1)) (by omega)
        rw [hcl]
        exact this) 0

end COWStrings

namespace COWStrings
open CowString

theorem demoAbc_stored : Stored Heap.empty demoAbc := by
  refine ⟨by decide, by decide, by decide, fun _ => by decide, ?_⟩
  intro id hid
  have hn : demoAbc.heldBlock = none := by decide
  rw [hn] at hid
  cases hid

/-- Append is concatenation when the appended bytes come from elsewhere. Let `a` be a
String in any mode that satisfies the representation invariant and has no 0 among the
bytes in front of its terminator, and `b` a sequence of bytes without 0
(`a.bufferSize() + |b|` below `2 ^ 64`). Whether `b` is supplied as a C string in memory
the call does not write (`b`, a 0, anything behind it), as a `Character` whose
`byteCount()` bytes are `b`, or as another String whose bytes in front of the
terminator are `b` (Strings that share a block use the same number of its bytes), after
the append `bufferSize()` is the old `bufferSize() + |b|`, the used bytes behind
`cString()` are the old bytes in front of the terminator, then `b`, then 0, and the C
string behind `cString()` is the old bytes followed by `b`. -/
theorem append_concatenates {h : Heap} {a : CowString} (hs : Stored h a)
    (hza : ∀ x ∈ a.content h, x ≠ 0) (b : List Nat) (hzb : ∀ x ∈ b, x ≠ 0)
    (_hfit : a.bufferSize + b.length < 2 ^ 64) :
    (∀ rest, Appended h a b (appendCStr h a (b ++ 0 :: rest)))
    ∧ (∀ c : Character, c.bytes.take c.byteCount = b → Appended h a b (appendChar h a c))
    ∧ (∀ s, Stored h s → s.content h = b →
        (∀ id, a.heldBlock = some id → s.heldBlock = some id →
          s.bufferSize ≤ a.bufferSize) →
        Appended h a b ((append h a s).1, (append h a s).2.1)) := by
  refine ⟨fun rest => appendCStr_appended hs hza b rest hzb, ?_, ?_⟩
  · intro c hc
    subst hc
    exact appendChar_appended hs hza c hzb
  · intro s hss hsb hagree
    subst hsb
    exact append_appended hs hza hss hzb hagree

/-- The bytes `de` appended to the Small String `abc` as a C string. -/
theorem append_concatenates_demo :
    Stored Heap.empty demoAbc
    ∧ (∀ x ∈ demoAbc.content Heap.empty, x ≠ 0)
    ∧ (∀ x ∈ [100, 101], x ≠ 0)
    ∧ demoAbc.bufferSize + [100, 101].length < 2 ^ 64
    ∧ Appended Heap.empty demoAbc [100, 101]
        (appendCStr Heap.empty demoAbc ([100, 101] ++ 0 :: [])) :=
  ⟨demoAbc_stored, by decide, by decide, by decide,
    (append_concatenates demoAbc_stored (by decide) [100, 101] (by decide)
      (by decide)).1 []⟩

end COWStrings

namespace COWStrings
open CowString

/-! ## The two mode bits of the code-point field -/

/-- Masking with two adjacent bits from bit `k` on. -/
theorem land_two_bits (x k : Nat) : x &&& (2 ^ k * 3) = 2 ^ k * (x / 2 ^ k % 4) := by
  apply Nat.eq_of_testBit_eq
  intro j
  have h1 := Nat.testBit_mul_pow_two_add 3 (Nat.two_pow_pos k) j
  have h2 := Nat.testBit_mul_pow_two_add (x / 2 ^ k % 4) (Nat.two_pow_pos k) j
  rw [Nat.add_zero] at h1 h2
  rw [Nat.testBit_and, h1, h2]
  by_cases hj : j < k
  · rw [if_pos hj, if_pos hj]
    simp
  · rw [if_neg hj, if_neg hj]
    have e3 : (3 : Nat) = 2 ^ 2 - 1 := rfl
    have e4 : (4 : Nat) = 2 ^ 2 := rfl
    rw [e3, Nat.testBit_two_pow_sub_one, e4, Nat.testBit_mod_two_pow,
      ← Nat.shiftRight_eq_div_pow, Nat.testBit_shiftRight]
    have e : k + (j - k) = j := by omega
    rw [e, Bool.and_comm]

/-- The field after `setCodePoints(v)`: the top two bits of the old field over the low
62 bits of `v`. -/
theorem rawSetCodePoints_eq (w v : Nat) :
    rawSetCodePoints w v = 2 ^ 62 * (w / 2 ^ 62 % 4) + v % 2 ^ 62 := by
  have hm : (3 <<< 62) % 2 ^ 64 = 2 ^ 62 * 3 := by decide
  have hn : 2 ^ 64 - 1 - 2 ^ 62 * 3 = 2 ^ 62 - 1 := by decide
  unfold rawSetCodePoints
  simp only
  rw [hm, hn, Nat.and_pow_two_sub_one_eq_mod, land_two_bits, Nat.or_comm,
    ← Nat.mul_add_lt_is_or (Nat.mod_lt _ (Nat.two_pow_pos 62))]

theorem rawGetCodePoints_eq (w : Nat) : rawGetCodePoints w = w % 2 ^ 62 := by
  have hn : 2 ^ 64 - 1 - (3 <<< 62) % 2 ^ 64 = 2 ^ 62 - 1 := by decide
  unfold rawGetCodePoints
  rw [hn, Nat.and_pow_two_sub_one_eq_mod]

theorem modeBits_eq (w : Nat) : modeBits w = 64 * (w / 2 ^ 62 % 4) := by
  have hl : load (le64 w) 7 = w / 256 ^ 7 % 256 := by
    simp [le64, load, List.range, List.range.loop]
  have h192 : (0xC0 : Nat) = 2 ^ 6 * 3 := by decide
  unfold modeBits
  rw [hl, h192, land_two_bits]
  omega

/-- C31: for every 64-bit field value `w` and every `v`, the field after
`setCodePoints(v)` is a 64-bit value with the top two bits of `w`, so the byte
`data.bytes[31] & 0xC0` that `isSmall`, `isDynamic` and `isLiteral` test is unchanged,
and `getCodePoints()` then returns `v` modulo `2 ^ 62`. On the field of a String in the
`dyn` or `lit` view (mode bits `10` and `01`) this is the model's `setCodePoints`, and
the cache updates `length()`, `resetCodePointsLitOrDyn()` and the `setCodePoints` of
the appends leave the field's mode bits and the view of the String as they are. -/
theorem C31_cache_keeps_mode_bits (w v : Nat) (hw : w < 2 ^ 64) :
    rawSetCodePoints w v < 2 ^ 64
    ∧ rawSetCodePoints w v / 2 ^ 62 = w / 2 ^ 62
    ∧ modeBits (rawSetCodePoints w v) = modeBits w
    ∧ rawGetCodePoints (rawSetCodePoints w v) = v % 2 ^ 62
    ∧ (∀ d : TDynamicString,
        rawSetCodePoints (dyn d).codePointsField v = (dyn (d.setCodePoints v)).codePointsField
        ∧ rawGetCodePoints (dyn d).codePointsField = d.getCodePoints
        ∧ modeBits (dyn d).codePointsField = 0x80)
    ∧ (∀ l : TLiteralString,
        rawSetCodePoints (lit l).codePointsField v = (lit (l.setCodePoints v)).codePointsField
        ∧ rawGetCodePoints (lit l).codePointsField = l.getCodePoints
        ∧ modeBits (lit l).codePointsField = 0x40)
    ∧ (∀ (h : Heap) (s : CowString),
        modeBits (CowString.length h s).2.codePointsField = modeBits s.codePointsField
        ∧ modeBits s.resetCodePointsLitOrDyn.codePointsField = modeBits s.codePointsField
        ∧ modeBits (dynSetCodePoints v s).codePointsField = modeBits s.codePointsField
        ∧ (CowString.length h s).2.mode h = s.mode h
        ∧ s.resetCodePointsLitOrDyn.mode h = s.mode h
        ∧ (dynSetCodePoints v s).mode h = s.mode h) := by
  have hset := rawSetCodePoints_eq w v
  refine ⟨by omega, by omega, ?_, ?_, ?_, ?_, ?_⟩
  · rw [modeBits_eq, modeBits_eq]
    omega
  · rw [rawGetCodePoints_eq]
    omega
  · intro d
    refine ⟨?_, ?_, ?_⟩
    · rw [rawSetCodePoints_eq]
      show _ = v % 2 ^ 62 % 2 ^ 62 + 2 ^ 63
      have : (dyn d).codePointsField = d.codePoints % 2 ^ 62 + 2 ^ 63 := rfl
      omega
    · rw [rawGetCodePoints_eq]
      show (d.codePoints % 2 ^ 62 + 2 ^ 63) % 2 ^ 62 = d.codePoints % 2 ^ 62
      omega
    · rw [modeBits_eq]
      show 64 * ((d.codePoints % 2 ^ 62 + 2 ^ 63) / 2 ^ 62 % 4) = 128
      omega
  · intro l
    refine ⟨?_, ?_, ?_⟩
    · rw [rawSetCodePoints_eq]
      show _ = v % 2 ^ 62 % 2 ^ 62 + 2 ^ 62
      have : (lit l).codePointsField = l.codePoints % 2 ^ 62 + 2 ^ 62 := rfl
      omega
    · rw [rawGetCodePoints_eq]
      show (l.codePoints % 2 ^ 62 + 2 ^ 62) % 2 ^ 62 = l.codePoints % 2 ^ 62
      omega
    · rw [modeBits_eq]
      show 64 * ((l.codePoints % 2 ^ 62 + 2 ^ 62) / 2 ^ 62 % 4) = 64
      omega
  · intro h s
    have hbits : ∀ t : CowString, modeBits t.codePointsField
        = if t.isSmall then 0 else if t.isLiteral then 64 else 128 := by
      intro t
      rw [modeBits_eq]
      cases t with
      | small b =>
        show 64 * (0 / 2 ^ 62 % 4) = 0
        decide
      | lit l =>
        show 64 * ((l.codePoints % 2 ^ 62 + 2 ^ 62) / 2 ^ 62 % 4) = 64
        omega
      | dyn d =>
        show 64 * ((d.codePoints % 2 ^ 62 + 2 ^ 63) / 2 ^ 62 % 4) = 128
        omega
    have hlen : (CowString.length h s).2.isSmall = s.isSmall
        ∧ (CowString.length h s).2.isLiteral = s.isLiteral
        ∧ (CowString.length h s).2.isShared h = s.isShared h := by
      cases s with
      | small b => exact ⟨rfl, rfl, rfl⟩
      | lit l =>
        unfold CowString.length
        simp only
        split <;> exact ⟨rfl, rfl, rfl⟩
      | dyn d =>
        unfold CowString.length
        simp only
        split
        · exact ⟨rfl, rfl, rfl⟩
        · split <;> exact ⟨rfl, rfl, rfl⟩
    have hres : s.resetCodePointsLitOrDyn.isSmall = s.isSmall
        ∧ s.resetCodePointsLitOrDyn.isLiteral = s.isLiteral
        ∧ s.resetCodePointsLitOrDyn.isShared h = s.isShared h := by
      cases s <;> exact ⟨rfl, rfl, rfl⟩
    have hdyn : (dynSetCodePoints v s).isSmall = s.isSmall
        ∧ (dynSetCodePoints v s).isLiteral = s.isLiteral
        ∧ (dynSetCodePoints v s).isShared h = s.isShared h := by
      cases s <;> exact ⟨rfl, rfl, rfl⟩
    refine ⟨?_, ?_, ?_, ?_, ?_, ?_⟩
    · rw [hbits, hbits, hlen.1, hlen.2.1]
    · rw [hbits, hbits, hres.1, hres.2.1]
    · rw [hbits, hbits, hdyn.1, hdyn.2.1]
    · unfold mode
      rw [hlen.1, hlen.2.1, hlen.2.2]
    · unfold mode
      rw [hres.1, hres.2.1, hres.2.2]
    · unfold mode
      rw [hdyn.1, hdyn.2.1, hdyn.2.2]

/-- Witness of C31: the field of a Dynamic String with 5 cached code points, updated
to 7. -/
theorem C31_cache_keeps_mode_bits_witness :
    2 ^ 63 + 5 < 2 ^ 64
    ∧ modeBits (rawSetCodePoints (2 ^ 63 + 5) 7) = modeBits (2 ^ 63 + 5)
    ∧ rawGetCodePoints (rawSetCodePoints (2 ^ 63 + 5) 7) = 7 % 2 ^ 62 :=
  ⟨by decide, (C31_cache_keeps_mode_bits (2 ^ 63 + 5) 7 (by decide)).2.2.1,
    (C31_cache_keeps_mode_bits (2 ^ 63 + 5) 7 (by decide)).2.2.2.1⟩

end COWStrings

namespace COWStrings
open CowString

set_option maxRecDepth 20000 in
/-- C33: `initAsSmallString(ptr, 32)` writes index 32, one past the 32 inline bytes, and
after `initAsSmallString(ptr, 31)` the byte at index 31 is 0, not `32 - 31 = 1`, so
`bufferSize()` returns 32; the move constructor on a Small String with 31 bytes in use
gives `bufferSize()` 32 likewise. The store `data.bytes[len] = 0` is the cause. For
every `len` from 1 to 30 the writes stay inside the buffer and `bufferSize()` returns
`len`. -/
theorem C33_inline_write_bounds :
    32 ∈ initAsSmallStringWrites 32
    ∧ (initAsSmallString zeroData (List.replicate 30 97 ++ [0]) 31).bufferSize = 32
    ∧ load ((initAsSmallString zeroData (List.replicate 30 97 ++ [0]) 31).cString Heap.empty)
        31 = 0
    ∧ (appendCStr Heap.empty mkDefault (List.replicate 30 97 ++ [0])).2.bufferSize = 31
    ∧ (move (appendCStr Heap.empty mkDefault (List.replicate 30 97 ++ [0])).1
        (appendCStr Heap.empty mkDefault (List.replicate 30 97 ++ [0])).2).2.1.bufferSize = 32
    ∧ ∀ len ∈ List.range 31, 1 ≤ len →
        (∀ i ∈ initAsSmallStringWrites len, i < 32)
        ∧ (initAsSmallString zeroData (List.replicate (len - 1) 97 ++ [0]) len).bufferSize
            = len := by
  decide

end COWStrings

namespace COWStrings
open CowString

/-! ## `append(String&&)` against `append(const String&)` -/

/-- The bytes of `this` after the buffer-taking path of `append(String&&)`: its old
bytes followed by those of the argument. -/
theorem appendMove_steal_content {h : Heap} {a : CowString} {ds : TDynamicString}
    (hsa : Shape h a) (hss : Shape h (dyn ds))
    (hg : stealGuard h a (dyn ds) = true) (ids : Nat) (hb : ds.buffer = some ids)
    (hne : a.heldBlock ≠ some ids) :
    (appendMove h a (dyn ds)).2.1.content (appendMove h a (dyn ds)).1
      = a.content h ++ (dyn ds).content h := by
  obtain ⟨ids', hb', hget, hrc, hbs, hcap, hlen⟩ := steal_facts hsa hss hg
  have hids : ids' = ids := by
    rw [hb] at hb'
    exact (Option.some.inj hb').symm
  subst hids
  obtain ⟨v2, hg2, hl2, ht2, hfr2⟩ := shiftInto_spec hsa ds ids' _ hb hget hne hcap
  rw [appendMove_steal_eq h a ds hg]
  simp only
  generalize (if (a.isSmall || a.hasCachedCodePointsLitOrDyn) && ds.hasCachedCodePoints
      then (CowString.length (shiftInto h a ds) a).1
        + (CowString.length (shiftInto h a ds) (dyn ds)).1
      else 0) = N
  have hpa := hsa.used_pos
  have hps := hss.used_pos
  rw [hbs] at hps
  have hused : sub64 (a.bufferSize + ds.used) 1 = a.bufferSize - 1 + ds.used := by
    rw [sub64_of_le (by omega)]
    omega
  rw [hused]
  have hg3 : ((shiftInto h a ds).reset a.heldBlock none).get ids' = some ⟨1, v2⟩ := by
    rw [get_reset_ne _ _ _ hne]
    exact hg2
  have hcsn : (dyn ((TDynamicString.mk ds.buffer ds.capacity (a.bufferSize - 1 + ds.used)
      0).setCodePoints N)).cString ((shiftInto h a ds).reset a.heldBlock none) = v2 := by
    show (match ds.buffer with
      | some id => ((shiftInto h a ds).reset a.heldBlock none).data id
      | none => [0]) = v2
    rw [hb]
    show ((shiftInto h a ds).reset a.heldBlock none).data ids' = v2
    rw [Heap.data_eq, hg3]
    rfl
  have hbsn : (dyn ((TDynamicString.mk ds.buffer ds.capacity (a.bufferSize - 1 + ds.used)
      0).setCodePoints N)).bufferSize = a.bufferSize - 1 + ds.used := by
    show (if ds.buffer.isSome then a.bufferSize - 1 + ds.used else 0) = _
    rw [hb]
    rfl
  have hacl : (a.content h).length = a.bufferSize - 1 := hsa.content_length
  rw [content_eq, hcsn, hbsn, content_eq, content_eq, hbs]
  have e : a.bufferSize - 1 + ds.used - 1 = (a.content h).length + (ds.used - 1) := by
    rw [hacl]
    omega
  rw [← take_take_of_le v2 (by omega : a.bufferSize - 1 + ds.used - 1
    ≤ a.bufferSize - 1 + ds.used), ht2, e]
  exact take_append_take _ _ _ _ (by omega)

/-- After `appendBytes` the String is Small or holds a block that nobody else
references, whatever the source pointer. -/
theorem appendBytes_owner {h : Heap} {a : CowString} (hs : Shape h a) (bytes : BytePtr)
    (n : Nat) :
    (appendBytes h a bytes n).2.isSmall = true
    ∨ ∃ d id v, (appendBytes h a bytes n).2 = dyn d ∧ d.buffer = some id
        ∧ (appendBytes h a bytes n).1.get id = some ⟨1, v⟩ := by
  have howned : ∃ d id v, (appendBytesOwned h a bytes n).2 = dyn d ∧ d.buffer = some id
      ∧ (appendBytesOwned h a bytes n).1.get id = some ⟨1, v⟩ := by
    obtain ⟨id1, v1, hb1, hg1, _⟩ := ensure_spec hs (a.bufferSize + n) (by omega)
    have hdef : appendBytesOwned h a bytes n =
        (let e := ensureOwnedCapacity h a (a.bufferSize + n)
         let bytes1 := rebase bytes a.heldBlock e.2.buffer
         let h3 := (e.1.write e.2.buffer fun v =>
            memcpy v (sub64 a.bufferSize 1) (deref e.1 (dyn e.2) bytes1) n).write e.2.buffer
              fun v => store v (sub64 (a.bufferSize + n) 1) 0
         let d2 : TDynamicString := { e.2 with used := a.bufferSize + n }
         (h3, dyn (if d2.hasCachedCodePoints && decide (n ≤ 64) then
            d2.setCodePoints (d2.getCodePoints
              + countCodePointsInBuffer (deref h3 (dyn d2) bytes1) n)
            else d2.setCodePoints 0))) := by
      unfold appendBytesOwned
      simp only
      split <;> rfl
    rw [hdef]
    generalize ensureOwnedCapacity h a (a.bufferSize + n) = e at hb1 hg1 ⊢
    obtain ⟨h1, d1⟩ := e
    simp only at hb1 hg1 ⊢
    exact ⟨_, id1, _, rfl, by split <;> exact hb1,
      by rw [hb1, Heap.get_write, if_pos rfl, Heap.get_write, if_pos rfl, hg1]; rfl⟩
  cases a with
  | small b =>
    by_cases hin : (small b).bufferSize + n ≤ 32
    · left
      rw [appendBytes_inline_eq h b bytes n hs.small_last.1 hin]
      rfl
    · right
      have hdef : appendBytes h (small b) bytes n = appendBytesOwned h (small b) bytes n := by
        unfold appendBytes
        simp only [bufferCapacity, TSmallCapacity]
        rw [if_neg hin]
      rw [hdef]
      exact howned
  | lit l => exact Or.inr howned
  | dyn d => exact Or.inr howned

/-- A String is Small or alone on its block. -/
theorem owner_of_dyn {h : Heap} {a : CowString}
    (ho : a.isSmall = true ∨ ∃ d id v, a = dyn d ∧ d.buffer = some id
      ∧ h.get id = some ⟨1, v⟩) :
    a.isSmall = true ∨ ∃ id v, a.heldBlock = some id ∧ h.get id = some ⟨1, v⟩ := by
  rcases ho with hsm | ⟨d, id, v, hd, hb, hg⟩
  · exact Or.inl hsm
  · right
    rw [hd]
    exact ⟨id, v, hb, hg⟩

/-- A String that is Small or alone on its block is Small or Dynamic/Owned, and not
Literal. -/
theorem mode_of_owner {h : Heap} {a : CowString}
    (ho : a.isSmall = true ∨ ∃ id v, a.heldBlock = some id ∧ h.get id = some ⟨1, v⟩) :
    (a.mode h = Mode.Owned ∨ a.mode h = Mode.Small) ∧ a.isLiteral = false := by
  rcases ho with hsm | ⟨id, v, hb, hg⟩
  · cases a with
    | small b => exact ⟨Or.inr rfl, rfl⟩
    | lit l => cases hsm
    | dyn d => cases hsm
  · cases a with
    | small b => cases hb
    | lit l => cases hb
    | dyn d => exact ⟨Or.inl (ownedUnique_of_block hb hg).1, rfl⟩

/-- The write of the cache behind `appendBytes` keeps the String Small or on its
block. -/
theorem finish_owner (a2 : CowString) (N : Nat) :
    (if !a2.isSmall then dynSetCodePoints N a2 else a2).isSmall = a2.isSmall
    ∧ (if !a2.isSmall then dynSetCodePoints N a2 else a2).heldBlock = a2.heldBlock := by
  cases a2 <;> exact ⟨rfl, rfl⟩

/-- The bytes in use of a String that is not Literal fit its capacity. -/
theorem Shape.within_capacity {h : Heap} {a : CowString} (hs : Shape h a)
    (hl : a.isLiteral = false) : a.bufferSize ≤ a.bufferCapacity := by
  cases a with
  | small b =>
    have := hs.used_le
    have hlen := (hs.inl b rfl).1
    simp only [cString, hlen] at this
    exact this
  | lit l => cases hl
  | dyn d =>
    obtain ⟨id, rc, hb, _, _, hcap⟩ := hs.held d rfl
    have := hs.used_le
    rw [hcap] at this
    show _ ≤ (if d.buffer.isSome then d.capacity else 0)
    rw [hb]
    exact this

/-- The C string in a buffer is determined by a prefix that holds a zero byte. -/
theorem takeWhile_of_take {m m' : List Nat} {n k : Nat} (hk : k < n) (hn : n ≤ m.length)
    (hz : load m k = 0) (he : m.take n = m'.take n) :
    (m.takeWhile fun x => x != 0) = m'.takeWhile fun x => x != 0 := by
  have key : ∀ (l : List Nat) (n k : Nat), k < n → n ≤ l.length → load l k = 0 →
      (l.takeWhile fun x => x != 0) = (l.take n).takeWhile fun x => x != 0 := by
    intro l
    induction l with
    | nil =>
      intro n k hk hn _
      simp at hn
      omega
    | cons x xs ih =>
      intro n k hk hn hz
      cases n with
      | zero => omega
      | succ n =>
        rw [List.take_succ_cons, List.takeWhile_cons, List.takeWhile_cons]
        by_cases hx : (x != 0) = true
        · rw [if_pos hx, if_pos hx]
          cases k with
          | zero =>
            exfalso
            have : x = 0 := hz
            rw [this] at hx
            cases hx
          | succ k =>
            have hz' : load xs k = 0 := hz
            simp only [List.length_cons] at hn
            rw [ih n k (by omega) (by omega) hz']
        · rw [if_neg hx, if_neg hx]
  have hn' : n ≤ m'.length := by
    have h1 : (m.take n).length = n := by rw [List.length_take]; omega
    rw [he, List.length_take] at h1
    omega
  have hz' : load m' k = 0 := by
    rw [← load_eq_of_take hk he]
    exact hz
  rw [key m n k hk hn hz, key m' n k hk hn' hz', he]

end COWStrings

namespace COWStrings
open CowString

theorem append_owner {h : Heap} {a : CowString} (hsa : Shape h a) (s : CowString) :
    (append h a s).2.1.isSmall = true
    ∨ ∃ id v, (append h a s).2.1.heldBlock = some id
        ∧ (append h a s).1.get id = some ⟨1, v⟩ := by
  unfold append
  simp only
  split
  · have ho := owner_of_dyn (appendBytes_owner (append_prepare hsa).1
      (cStringPtr (CowString.length h s).2) (sub64 (CowString.length h s).2.bufferSize 1))
    obtain ⟨f1, f2⟩ := finish_owner (appendBytes h (CowString.length h a).2.resetCodePointsLitOrDyn
      (cStringPtr (CowString.length h s).2) (sub64 (CowString.length h s).2.bufferSize 1)).2
      ((CowString.length h a).1 + (CowString.length h s).1)
    rw [f1, f2]
    exact ho
  · have ho := owner_of_dyn (appendBytes_owner hsa (cStringPtr s) (sub64 s.bufferSize 1))
    obtain ⟨f1, f2⟩ := finish_owner (appendBytes h a (cStringPtr s) (sub64 s.bufferSize 1)).2 0
    rw [f1, f2]
    exact ho

theorem appendSelf_owner {h : Heap} {a : CowString} (hsa : Shape h a) :
    (appendSelf h a).2.isSmall = true
    ∨ ∃ id v, (appendSelf h a).2.heldBlock = some id
        ∧ (appendSelf h a).1.get id = some ⟨1, v⟩ := by
  unfold appendSelf
  simp only
  split
  · have hs1 : Shape h (CowString.length h (CowString.length h a).2).2.resetCodePointsLitOrDyn :=
      hsa.length.length.reset_cache
    have ho := owner_of_dyn (appendBytes_owner hs1
      (selfPtr (CowString.length h (CowString.length h a).2).2.resetCodePointsLitOrDyn)
      (sub64 (CowString.length h (CowString.length h a).2).2.resetCodePointsLitOrDyn.bufferSize 1))
    obtain ⟨f1, f2⟩ := finish_owner (appendBytes h
      (CowString.length h (CowString.length h a).2).2.resetCodePointsLitOrDyn
      (selfPtr (CowString.length h (CowString.length h a).2).2.resetCodePointsLitOrDyn)
      (sub64 (CowString.length h (CowString.length h a).2).2.resetCodePointsLitOrDyn.bufferSize
        1)).2
      ((CowString.length h a).1 + (CowString.length h (CowString.length h a).2).1)
    rw [f1, f2]
    exact ho
  · have ho := owner_of_dyn (appendBytes_owner hsa (selfPtr a) (sub64 a.bufferSize 1))
    obtain ⟨f1, f2⟩ := finish_owner (appendBytes h a (selfPtr a) (sub64 a.bufferSize 1)).2 0
    rw [f1, f2]
    exact ho

theorem Shape.take_used {h : Heap} {s : CowString} (hs : Shape h s) :
    (s.cString h).take s.bufferSize = s.content h ++ [0] := by
  have hpos := hs.used_pos
  have hle := hs.used_le
  have e : s.bufferSize = (s.bufferSize - 1) + 1 := by omega
  rw [e, take_succ_load _ _ (by omega), ← content_eq, hs.terminated]

/-- Two Strings with the same bytes in front of the terminator, each satisfying the
invariants in its heap, agree on the used bytes, the C string, `bufferSize()` and
`length()`. -/
theorem agree_of_content {hm hc : Heap} {am ac : CowString} (hsm : Shape hm am)
    (hcm : CacheOk hm am) (hsc : Shape hc ac) (hcc : CacheOk hc ac)
    (he : am.content hm = ac.content hc) :
    (am.cString hm).take am.bufferSize = (ac.cString hc).take ac.bufferSize
    ∧ ((am.cString hm).takeWhile fun x => x != 0) = ((ac.cString hc).takeWhile fun x => x != 0)
    ∧ am.bufferSize = ac.bufferSize
    ∧ (CowString.length hm am).1 = (CowString.length hc ac).1 := by
  have hb : am.bufferSize = ac.bufferSize := by
    rw [bufferSize_of_content hsm, bufferSize_of_content hsc, he]
  have ht : (am.cString hm).take am.bufferSize = (ac.cString hc).take ac.bufferSize := by
    rw [hsm.take_used, hsc.take_used, he]
  refine ⟨ht, ?_, hb, ?_⟩
  · have hpos := hsm.used_pos
    apply takeWhile_of_take (by omega : am.bufferSize - 1 < am.bufferSize) hsm.used_le
      hsm.terminated
    rw [ht, hb]
  · rw [length_eq_count hsm hcm, length_eq_count hsc hcc, hsm.count_content,
      hsc.count_content, he]

end COWStrings

namespace COWStrings
open CowString

theorem getElem?_set_self {α : Type} (l : List α) (i : Nat) (x y : α) (hi : l[i]? = some x) :
    (l.set i y)[i]? = some y := by
  rw [List.getElem?_set, if_pos rfl, if_pos (lt_length_of_getElem? hi)]

theorem getElem?_set_set {α : Type} (l : List α) (i j : Nat) (x y z : α)
    (hi : l[i]? = some x) : ((l.set j z).set i y)[i]? = some y := by
  rw [List.getElem?_set, if_pos rfl, if_pos (by
    rw [List.length_set]
    exact lt_length_of_getElem? hi)]

/-- The String at position `i` after `strs[i].append(std::move(strs[j]))` and after
`strs[i].append(strs[j])`: the same bytes in front of the terminator, and after the
move-append it is Small or alone on its block. -/
theorem move_vs_copy (w : World) (hc : Consistent w) (i j : Nat) (a s : CowString)
    (hi : w.strs[i]? = some a) (hj : w.strs[j]? = some s)
    (hfit : a.bufferSize + (s.bufferSize - 1) ≤ 2 ^ 62) :
    ∃ am ac, (w.step (Call.appendMove i j)).strs[i]? = some am
      ∧ (w.step (Call.append i j)).strs[i]? = some ac
      ∧ am.content (w.step (Call.appendMove i j)).heap
          = ac.content (w.step (Call.append i j)).heap
      ∧ (am.isSmall = true
        ∨ ∃ id v, am.heldBlock = some id
            ∧ (w.step (Call.appendMove i j)).heap.get id = some ⟨1, v⟩) := by
  obtain ⟨h, strs⟩ := w
  simp only at hi hj
  obtain ⟨hsa, hca⟩ := hc.shape i a hi
  obtain ⟨hss, hcs⟩ := hc.shape j s hj
  simp only at hsa hca hss hcs
  by_cases hij : i = j
  · subst hij
    have em : World.step ⟨h, strs⟩ (Call.appendMove i i)
        = ⟨(appendSelf h a).1, strs.set i (appendSelf h a).2⟩ := by
      simp only [World.step, hi, if_true]
      rw [appendMoveSelf_eq]
    have ec : World.step ⟨h, strs⟩ (Call.append i i)
        = ⟨(appendSelf h a).1, strs.set i (appendSelf h a).2⟩ := by
      simp only [World.step, hi, if_true]
    rw [em, ec]
    exact ⟨_, _, getElem?_set_self strs i a _ hi, getElem?_set_self strs i a _ hi, rfl,
      appendSelf_owner hsa⟩
  · have ec : World.step ⟨h, strs⟩ (Call.append i j)
        = ⟨(append h a s).1, (strs.set j (append h a s).2.2).set i (append h a s).2.1⟩ := by
      simp only [World.step, hi, hj, if_neg hij]
    have em : World.step ⟨h, strs⟩ (Call.appendMove i j)
        = ⟨(appendMove h a s).1,
          (strs.set j (appendMove h a s).2.2).set i (appendMove h a s).2.1⟩ := by
      simp only [World.step, hi, hj, if_neg hij]
    rw [em, ec]
    refine ⟨_, _, getElem?_set_set strs i j a _ _ hi, getElem?_set_set strs i j a _ _ hi, ?_⟩
    simp only
    cases hg : stealGuard h a s with
    | false =>
      rw [appendMove_eq_append h a s hg]
      exact ⟨rfl, append_owner hsa s⟩
    | true =>
      obtain ⟨ds, hds⟩ := dyn_of_stealGuard hg
      rw [hds] at hj hss hcs hg hfit ⊢
      obtain ⟨ids, hb, hget, hrc0, _, _, _⟩ := steal_facts hsa hss hg
      have hrc : h.refCount ids = 1 := hrc0
      have hsheld : (dyn ds).heldBlock = some ids := hb
      have hcnt : holders strs ids ≤ h.refCount ids := hc.counted ids
      have hne : a.heldBlock ≠ some ids := by
        intro hah
        have := holders_two strs i j a (dyn ds) ids hij hi hj hah hsheld
        omega
      obtain ⟨_, _, h3, ⟨v3, h4⟩, _⟩ :=
        appendMove_steal_spec hsa hca hss hcs hg ids hb hne hfit
      refine ⟨?_, Or.inr ⟨ids, v3, h3, h4⟩⟩
      rw [appendMove_steal_content hsa hss hg ids hb hne]
      exact ((append_content hsa hss
        (fun id ha hs' => le_of_eq (hc.agree j i (dyn ds) a id hj hi hs' ha)) hfit).1).symm

end COWStrings

namespace COWStrings
open CowString

theorem demoMove_reachable : Reachable demoMove := by
  have r1 : Reachable demoWorld1 :=
    Reachable.step _ (Reachable.init Heap.empty) demoSource_valid
      (show strlen demoSource + 1 ≤ 2 ^ 62 by decide)
  exact Reachable.step _ r1
    ⟨[97, 98, 99], [], rfl, by decide, Framed.of_ascii _ (by decide)⟩
    (show strlen [97, 98, 99, 0] + 1 ≤ 2 ^ 62 by decide)

/-- C32: in a world that satisfies the invariants (representation invariant with
well-formed text, valid caches, counted references), for Strings `a = strs[i]` and
`s = strs[j]` in any modes whose bytes together stay below `2 ^ 62`: the String at `i`
after `a.append(std::move(s))` and the String at `i` after `a.append(s)` have the same
used bytes behind `cString()` and the same C string, the same `bufferSize()` and the same
`length()`; after the move-append it is Dynamic/Owned or Small and its
`bufferCapacity()` is at least its `bufferSize()`. Both paths of `append(String&&)`
are covered, and `i = j`. -/
theorem C32_move_append_agrees (w : World) (hc : Consistent w) (i j : Nat) (a s : CowString)
    (hi : w.strs[i]? = some a) (hj : w.strs[j]? = some s)
    (hfit : a.bufferSize + (s.bufferSize - 1) ≤ 2 ^ 62) :
    ∃ am ac, (w.step (Call.appendMove i j)).strs[i]? = some am
      ∧ (w.step (Call.append i j)).strs[i]? = some ac
      ∧ (am.cString (w.step (Call.appendMove i j)).heap).take am.bufferSize
          = (ac.cString (w.step (Call.append i j)).heap).take ac.bufferSize
      ∧ (w.step (Call.appendMove i j)).textAt i = (w.step (Call.append i j)).textAt i
      ∧ am.bufferSize = ac.bufferSize
      ∧ (CowString.length (w.step (Call.appendMove i j)).heap am).1
          = (CowString.length (w.step (Call.append i j)).heap ac).1
      ∧ (am.mode (w.step (Call.appendMove i j)).heap = Mode.Owned
        ∨ am.mode (w.step (Call.appendMove i j)).heap = Mode.Small)
      ∧ am.bufferSize ≤ am.bufferCapacity := by
  have hfm : (Call.appendMove i j).Fits w := by
    intro a' s' ha hs
    rw [hi] at ha
    rw [hj] at hs
    cases ha
    cases hs
    exact hfit
  have hfc : (Call.append i j).Fits w := hfm
  have hcm := World.step_consistent (Call.appendMove i j) hc trivial hfm
  have hcc := World.step_consistent (Call.append i j) hc trivial hfc
  obtain ⟨am, ac, h1, h2, h3, h4⟩ := move_vs_copy w hc i j a s hi hj hfit
  obtain ⟨hsm, hcam⟩ := hcm.shape i am h1
  obtain ⟨hsc, hcac⟩ := hcc.shape i ac h2
  obtain ⟨g1, g2, g3, g4⟩ := agree_of_content hsm hcam hsc hcac h3
  obtain ⟨m1, m2⟩ := mode_of_owner h4
  refine ⟨am, ac, h1, h2, g1, ?_, g3, g4, m1, hsm.within_capacity m2⟩
  unfold World.textAt
  rw [h1, h2]
  exact congrArg some g2

set_option maxRecDepth 20000 in
/-- Witness of C32 on `demoMove`: the Small String `abc` takes over the buffer of the
Dynamic/Owned String of 41 bytes. -/
theorem C32_move_append_agrees_witness :
    Consistent demoMove
    ∧ demoMove.strs[1]? = some demoAbc
    ∧ demoMove.strs[0]? = some (dyn ⟨some 0, 64, 41, 0⟩)
    ∧ stealGuard demoMove.heap demoAbc (dyn ⟨some 0, 64, 41, 0⟩) = true
    ∧ demoAbc.bufferSize + ((dyn ⟨some 0, 64, 41, 0⟩).bufferSize - 1) ≤ 2 ^ 62
    ∧ ∃ am ac, (demoMove.step (Call.appendMove 1 0)).strs[1]? = some am
      ∧ (demoMove.step (Call.append 1 0)).strs[1]? = some ac
      ∧ (am.cString (demoMove.step (Call.appendMove 1 0)).heap).take am.bufferSize
          = (ac.cString (demoMove.step (Call.append 1 0)).heap).take ac.bufferSize
      ∧ (demoMove.step (Call.appendMove 1 0)).textAt 1
          = (demoMove.step (Call.append 1 0)).textAt 1
      ∧ am.bufferSize = ac.bufferSize
      ∧ (CowString.length (demoMove.step (Call.appendMove 1 0)).heap am).1
          = (CowString.length (demoMove.step (Call.append 1 0)).heap ac).1
      ∧ (am.mode (demoMove.step (Call.appendMove 1 0)).heap = Mode.Owned
        ∨ am.mode (demoMove.step (Call.appendMove 1 0)).heap = Mode.Small)
      ∧ am.bufferSize ≤ am.bufferCapacity :=
  ⟨demoMove_reachable.consistent, by decide, by decide, by decide, by decide,
    C32_move_append_agrees demoMove demoMove_reachable.consistent 1 0 demoAbc
      (dyn ⟨some 0, 64, 41, 0⟩) (by decide) (by decide) (by decide)⟩

end COWStrings

namespace COWStrings
open CowString

/-! ## Failing inputs of `setCharAt` after `setCharAt` and of `a.append(a.cString())` -/

/-- C11: after `String s("abc"); s.setCharAt(1, 'ä')` the String holds `aäc`, three
code points, with `bufferSize()` still 4. Then `s.setCharAt(1, 'x')` leaves the
contents `axcc`, not `axc`: the tail moved forward is `used - offset - oldCharSize = 1`
byte long, so the terminator stays where it was behind a second `c`. And
`s.setCharAt(2, 'x')` on the same String finds no code point 2 in the `used - 1 = 3`
bytes it searches, and fails its assertion. The stale `used` of the first call is the
cause. -/
theorem C11_setCharAt_after_setCharAt :
    (setCharAt Heap.empty demoAbc 1 demoUml).map
        (fun r => ((r.2.cString r.1).takeWhile (fun x => x != 0), r.2.bufferSize))
      = some ([97, 195, 164, 99], 4)
    ∧ countCodePointsInBuffer [97, 195, 164, 99] 4 = 3
    ∧ ((setCharAt Heap.empty demoAbc 1 demoUml).bind fun r => setCharAt r.1 r.2 1 ⟨120⟩).map
        (fun r => (r.2.cString r.1).takeWhile (fun x => x != 0))
      = some [97, 120, 99, 99]
    ∧ ((setCharAt Heap.empty demoAbc 1 demoUml).bind fun r => setCharAt r.1 r.2 2 ⟨120⟩).isNone
      = true := by
  decide

/-- C2: `s.append(s.cString())` on the Small String of 20 `a`, its block allocated at
`0x55D5C8A3B2C0`: the C string has 20 bytes and 20 code points, the String outgrows the
inline bytes, and the cache is set to `length() + 20 = 40`, which `length()` then
returns. The 40 bytes in front of the terminator are the 20 `a` followed by the raw
bytes of the object in its Dynamic view (block address, capacity 64, used 21), and
`countCodePointsInBuffer` counts 37 code points in them. -/
theorem C2_aliased_append_cache :
    demoTwenty.isSmall = true ∧ demoTwenty.bufferSize = 21
    ∧ countCodePointsInCString (demoTwenty.cString demoHigh) = (20, 20)
    ∧ (appendCStrSelf demoHigh demoTwenty).2.bufferSize = 41
    ∧ (appendCStrSelf demoHigh demoTwenty).2.hasCachedCodePointsLitOrDyn = true
    ∧ (appendCStrSelf demoHigh demoTwenty).2.cachedCount = 40
    ∧ (CowString.length (appendCStrSelf demoHigh demoTwenty).1
        (appendCStrSelf demoHigh demoTwenty).2).1 = 40
    ∧ countCodePointsInBuffer
        ((appendCStrSelf demoHigh demoTwenty).2.cString (appendCStrSelf demoHigh demoTwenty).1)
        ((appendCStrSelf demoHigh demoTwenty).2.bufferSize - 1) = 37
    ∧ ((appendCStrSelf demoHigh demoTwenty).2.cString
        (appendCStrSelf demoHigh demoTwenty).1).take 41
        = List.replicate 20 97
            ++ [192, 178, 163, 200, 213, 85, 0, 0, 64, 0, 0, 0, 0, 0, 0, 0, 21, 0, 0, 0]
            ++ [0] := by
  decide

/-- C25: `s.append(s.cString())` on the Small String of 20 `a` (no 0 among them), in
the empty heap: `bufferSize()` is `21 + 20 = 41`, but the 20 bytes behind the old
contents are the raw bytes of the object in its Dynamic view, not the 20 `a` of the C
string, and the C string behind `cString()` is the 20 `a` alone. -/
theorem C25_aliased_append_contents :
    (∀ x ∈ demoTwenty.content Heap.empty, x ≠ 0)
    ∧ demoTwenty.content Heap.empty = List.replicate 20 97
    ∧ ((demoTwenty.cString Heap.empty).takeWhile fun x => x != 0) = List.replicate 20 97
    ∧ (appendCStrSelf Heap.empty demoTwenty).2.bufferSize = 41
    ∧ ((appendCStrSelf Heap.empty demoTwenty).2.cString
        (appendCStrSelf Heap.empty demoTwenty).1).take 41
        = List.replicate 20 97
            ++ [0, 16, 0, 0, 0, 0, 0, 0, 64, 0, 0, 0, 0, 0, 0, 0, 21, 0, 0, 0] ++ [0]
    ∧ (((appendCStrSelf Heap.empty demoTwenty).2.cString
        (appendCStrSelf Heap.empty demoTwenty).1).takeWhile fun x => x != 0)
        = List.replicate 20 97 := by
  decide

end COWStrings

namespace COWStrings
open CowString

/-- The growing branch of `appendBytes` on a Small String, with the block it ends on:
the block is fresh, live with reference count 1 and `max(64, used + n)` bytes long,
every other block is as before, the old bytes are in front, the terminator is at
offset `used + n - 1`, and for a source in memory the call does not write the `n`
source bytes lie between them. -/
theorem appendBytes_outgrow_block (h : Heap) (b : List Nat) (bytes : BytePtr) (n : Nat)
    (hlen : b.length = 32) (hlast : load b 31 ≤ 31)
    (hout : 32 < (small b).bufferSize + n) :
    ∃ d v, (appendBytes h (small b) bytes n).2 = dyn d
      ∧ d.buffer = some h.cells.length
      ∧ d.capacity = max 64 ((small b).bufferSize + n)
      ∧ d.used = (small b).bufferSize + n
      ∧ (appendBytes h (small b) bytes n).1.get h.cells.length = some ⟨1, v⟩
      ∧ v.length = max 64 ((small b).bufferSize + n)
      ∧ v.take ((small b).bufferSize - 1) = b.take ((small b).bufferSize - 1)
      ∧ load v ((small b).bufferSize + n - 1) = 0
      ∧ (∀ l, bytes = BytePtr.mem l → n ≤ l.length →
          v.take ((small b).bufferSize + n - 1)
            = b.take ((small b).bufferSize - 1) ++ l.take n)
      ∧ ∀ j, j ≠ h.cells.length → (appendBytes h (small b) bytes n).1.get j = h.get j := by
  obtain ⟨hpos, hle, _⟩ := small_used b hlast
  have hul : (small b).bufferSize ≤ ((small b).cString h).length := by
    show _ ≤ b.length
    omega
  obtain ⟨v1, e1, e2, e3, e4, e5⟩ := grow_room h (small b) ((small b).bufferSize + n) hul
    (by simp only [TSmallCapacity]; omega)
  have hcap : max (TSmallCapacity * 2) ((small b).bufferSize + n)
      = max 64 ((small b).bufferSize + n) := rfl
  rw [hcap] at e1 e3
  have e4' : v1.take (small b).bufferSize = b.take (small b).bufferSize := e4
  have hdef : appendBytes h (small b) bytes n = appendBytesOwned h (small b) bytes n := by
    unfold appendBytes
    simp only [bufferCapacity, TSmallCapacity]
    rw [if_neg (by omega)]
  have he : ensureOwnedCapacity h (small b) ((small b).bufferSize + n)
      = growIntoDynamicString h (small b) ((small b).bufferSize + n) := rfl
  have hdef2 : appendBytesOwned h (small b) bytes n =
      (let e := ensureOwnedCapacity h (small b) ((small b).bufferSize + n)
       let bytes1 := rebase bytes (small b).heldBlock e.2.buffer
       let h3 := (e.1.write e.2.buffer fun v =>
          memcpy v (sub64 (small b).bufferSize 1) (deref e.1 (dyn e.2) bytes1) n).write
            e.2.buffer fun v => store v (sub64 ((small b).bufferSize + n) 1) 0
       let d2 : TDynamicString := { e.2 with used := (small b).bufferSize + n }
       (h3, dyn (if d2.hasCachedCodePoints && decide (n ≤ 64) then
          d2.setCodePoints (d2.getCodePoints
            + countCodePointsInBuffer (deref h3 (dyn d2) bytes1) n)
          else d2.setCodePoints 0))) := by
    unfold appendBytesOwned
    simp only
    split <;> rfl
  have hs1 : sub64 (small b).bufferSize 1 = (small b).bufferSize - 1 := sub64_of_le hpos
  have hs2 : sub64 ((small b).bufferSize + n) 1 = (small b).bufferSize + n - 1 :=
    sub64_of_le (by omega)
  rw [hdef, hdef2, he, hs1, hs2]
  generalize (small b).bufferSize = u at *
  generalize growIntoDynamicString h (small b) (u + n) = e at e1 e2 e5 ⊢
  obtain ⟨h1, d1⟩ := e
  simp only at e1 e2 e5 ⊢
  subst e1
  generalize hsrc : deref h1 (dyn ⟨some h.cells.length, max 64 (u + n), u, 0⟩)
    (rebase bytes (small b).heldBlock (some h.cells.length)) = src
  have hlenv : (store (memcpy v1 (u - 1) src n) (u + n - 1) 0).length = max 64 (u + n) := by
    rw [length_store, length_memcpy, e3]
  refine ⟨_, store (memcpy v1 (u - 1) src n) (u + n - 1) 0, rfl, by split <;> rfl,
    by split <;> rfl, by split <;> rfl, ?_, hlenv, ?_, ?_, ?_, ?_⟩
  · rw [Heap.get_write, if_pos rfl, Heap.get_write, if_pos rfl, e2]
    rfl
  · rw [take_store_ge _ _ _ _ (by omega), take_memcpy_lt _ _ _ _ _ (le_refl _)]
    exact take_eq_take_of_le (by omega) e4'
  · apply load_store_self
    rw [length_memcpy, e3]
    omega
  · intro l hl hn
    have hsl : src = l := by
      rw [← hsrc, hl]
      rfl
    rw [take_store_ge _ _ _ _ (le_refl _)]
    have e : u + n - 1 = (u - 1) + n := by omega
    rw [e, take_memcpy _ _ _ _ (by rw [e3]; omega) (by rw [hsl]; exact hn), hsl]
    congr 1
    exact take_eq_take_of_le (by omega) e4'
  · intro j hj
    rw [Heap.get_write, if_neg hj, Heap.get_write, if_neg hj]
    exact e5 j hj

end COWStrings

namespace COWStrings
open CowString

/-- C26: `appendBytes` of `n` bytes on a Small String (32 inline bytes whose last one
is the free-slot count, `u = bufferSize()` of them in use). If `u + n ≤ 32` the heap is
untouched and the String stays Small with capacity 32 and `u + n` bytes in use, the
old bytes in front, the `n` source bytes behind them and the terminator last. If
`u + n > 32` it becomes Dynamic/Owned with capacity `max(64, u + n)` and `u + n` bytes
in use: it holds a block that did not exist before, live with reference count 1 and
`max(64, u + n)` bytes long, with the old bytes in front, the terminator at offset
`u + n - 1` and, for a source in memory the call does not write, the `n` source bytes
between them; every other block is as before. So it stays Small exactly when
`u + n ≤ 32`. (`u + n` is below `2 ^ 64`, as the sizes of two disjoint byte ranges
are.) -/
theorem C26_small_append_boundary (h : Heap) (b : List Nat) (bytes : BytePtr) (n : Nat)
    (hlen : b.length = 32) (hlast : load b 31 ≤ 31)
    (_hfit : (small b).bufferSize + n < 2 ^ 64) :
    ((small b).bufferSize + n ≤ 32 →
      (appendBytes h (small b) bytes n).1 = h
      ∧ (appendBytes h (small b) bytes n).2.mode h = Mode.Small
      ∧ (appendBytes h (small b) bytes n).2.bufferCapacity = 32
      ∧ (appendBytes h (small b) bytes n).2.bufferSize = (small b).bufferSize + n
      ∧ load ((appendBytes h (small b) bytes n).2.cString h) ((small b).bufferSize + n - 1) = 0
      ∧ (n ≤ (deref h (small b) bytes).length →
          (appendBytes h (small b) bytes n).2.content h
            = (small b).content h ++ (deref h (small b) bytes).take n))
    ∧ (32 < (small b).bufferSize + n →
      (appendBytes h (small b) bytes n).2.mode (appendBytes h (small b) bytes n).1 = Mode.Owned
      ∧ (appendBytes h (small b) bytes n).2.bufferCapacity = max 64 ((small b).bufferSize + n)
      ∧ (appendBytes h (small b) bytes n).2.bufferSize = (small b).bufferSize + n
      ∧ (appendBytes h (small b) bytes n).2.isDynamic = true
      ∧ (appendBytes h (small b) bytes n).2.heldBlock = some h.cells.length
      ∧ h.get h.cells.length = none
      ∧ (appendBytes h (small b) bytes n).1.get h.cells.length
          = some ⟨1, (appendBytes h (small b) bytes n).2.cString
              (appendBytes h (small b) bytes n).1⟩
      ∧ ((appendBytes h (small b) bytes n).2.cString (appendBytes h (small b) bytes n).1).length
          = max 64 ((small b).bufferSize + n)
      ∧ ((appendBytes h (small b) bytes n).2.cString (appendBytes h (small b) bytes n).1).take
            ((small b).bufferSize - 1) = b.take ((small b).bufferSize - 1)
      ∧ load ((appendBytes h (small b) bytes n).2.cString (appendBytes h (small b) bytes n).1)
          ((small b).bufferSize + n - 1) = 0
      ∧ (∀ l, bytes = BytePtr.mem l → n ≤ l.length →
          (appendBytes h (small b) bytes n).2.content (appendBytes h (small b) bytes n).1
            = (small b).content h ++ l.take n)
      ∧ ∀ j, j ≠ h.cells.length → (appendBytes h (small b) bytes n).1.get j = h.get j)
    ∧ ((appendBytes h (small b) bytes n).2.isSmall = true ↔ (small b).bufferSize + n ≤ 32) := by
  have hinline := appendBytes_inline_fits h b bytes n hlen hlast
  have hgrow : 32 < (small b).bufferSize + n →
      ((appendBytes h (small b) bytes n).2.mode (appendBytes h (small b) bytes n).1 = Mode.Owned
      ∧ (appendBytes h (small b) bytes n).2.bufferCapacity = max 64 ((small b).bufferSize + n)
      ∧ (appendBytes h (small b) bytes n).2.bufferSize = (small b).bufferSize + n
      ∧ (appendBytes h (small b) bytes n).2.isDynamic = true
      ∧ (appendBytes h (small b) bytes n).2.heldBlock = some h.cells.length
      ∧ h.get h.cells.length = none
      ∧ (appendBytes h (small b) bytes n).1.get h.cells.length
          = some ⟨1, (appendBytes h (small b) bytes n).2.cString
              (appendBytes h (small b) bytes n).1⟩
      ∧ ((appendBytes h (small b) bytes n).2.cString (appendBytes h (small b) bytes n).1).length
          = max 64 ((small b).bufferSize + n)
      ∧ ((appendBytes h (small b) bytes n).2.cString (appendBytes h (small b) bytes n).1).take
            ((small b).bufferSize - 1) = b.take ((small b).bufferSize - 1)
      ∧ load ((appendBytes h (small b) bytes n).2.cString (appendBytes h (small b) bytes n).1)
          ((small b).bufferSize + n - 1) = 0
      ∧ (∀ l, bytes = BytePtr.mem l → n ≤ l.length →
          (appendBytes h (small b) bytes n).2.content (appendBytes h (small b) bytes n).1
            = (small b).content h ++ l.take n)
      ∧ ∀ j, j ≠ h.cells.length → (appendBytes h (small b) bytes n).1.get j = h.get j)
      ∧ (appendBytes h (small b) bytes n).2.isSmall = false := by
    intro hout
    obtain ⟨d, v, hd, hbuf, hcap, hused, hget, hvl, hvt, hvz, hvc, hfr⟩ :=
      appendBytes_outgrow_block h b bytes n hlen hlast hout
    have hcs : (appendBytes h (small b) bytes n).2.cString (appendBytes h (small b) bytes n).1
        = v := by
      rw [hd]
      simp only [cString, hbuf, Heap.data_eq, hget]
      rfl
    have hbs : (appendBytes h (small b) bytes n).2.bufferSize = (small b).bufferSize + n := by
      rw [hd]
      simp only [bufferSize, hbuf, Option.isSome_some, if_true, hused]
    rw [hcs]
    refine ⟨⟨?_, ?_, hbs, ?_, ?_, Heap.get_of_length_le (le_refl _), hget, hvl, hvt, hvz, ?_,
      hfr⟩, ?_⟩
    · rw [hd, mode_dyn, isShared_dyn _ _ _ hbuf, Heap.refCount_eq, hget]
      rfl
    · rw [hd]
      simp only [bufferCapacity, hbuf, Option.isSome_some, if_true, hcap]
    · rw [hd]
      rfl
    · rw [hd]
      exact hbuf
    · intro l hl hn
      rw [content_eq, hcs, hbs, content_eq]
      exact hvc l hl hn
    · rw [hd]
      rfl
  refine ⟨hinline, fun hout => (hgrow hout).1, ?_⟩
  constructor
  · intro hsm
    by_contra hout
    rw [(hgrow (by omega)).2] at hsm
    cases hsm
  · intro hin
    have := (hinline hin).2.1
    rw [appendBytes_inline_eq h b bytes n hlast hin] at this ⊢
    rfl

/-- Witness of C26 on the Small String `abc` (4 bytes in use): 28 further bytes fill
the inline storage exactly and it stays Small; 29 further bytes move it to block 0 of
the empty heap, live with reference count 1. -/
theorem C26_small_append_boundary_witness :
    demoAbc = small ([97, 98, 99, 0] ++ List.replicate 27 0 ++ [28])
    ∧ ([97, 98, 99, 0] ++ List.replicate 27 0 ++ [28]).length = 32
    ∧ load ([97, 98, 99, 0] ++ List.replicate 27 0 ++ [28]) 31 ≤ 31
    ∧ (small ([97, 98, 99, 0] ++ List.replicate 27 0 ++ [28])).bufferSize + 29 < 2 ^ 64
    ∧ 32 < (small ([97, 98, 99, 0] ++ List.replicate 27 0 ++ [28])).bufferSize + 29
    ∧ ((appendBytes Heap.empty (small ([97, 98, 99, 0] ++ List.replicate 27 0 ++ [28]))
          (BytePtr.mem (List.replicate 28 97)) 28).2.isSmall = true
        ↔ (small ([97, 98, 99, 0] ++ List.replicate 27 0 ++ [28])).bufferSize + 28 ≤ 32)
    ∧ (appendBytes Heap.empty (small ([97, 98, 99, 0] ++ List.replicate 27 0 ++ [28]))
          (BytePtr.mem (List.replicate 29 97)) 29).1.get Heap.empty.cells.length
        = some ⟨1, (appendBytes Heap.empty
            (small ([97, 98, 99, 0] ++ List.replicate 27 0 ++ [28]))
            (BytePtr.mem (List.replicate 29 97)) 29).2.cString
          (appendBytes Heap.empty (small ([97, 98, 99, 0] ++ List.replicate 27 0 ++ [28]))
            (BytePtr.mem (List.replicate 29 97)) 29).1⟩ :=
  ⟨by decide, by decide, by decide, by decide, by decide,
    (C26_small_append_boundary Heap.empty ([97, 98, 99, 0] ++ List.replicate 27 0 ++ [28])
      (BytePtr.mem (List.replicate 28 97)) 28 (by decide) (by decide) (by decide)).2.2,
    ((C26_small_append_boundary Heap.empty ([97, 98, 99, 0] ++ List.replicate 27 0 ++ [28])
      (BytePtr.mem (List.replicate 29 97)) 29 (by decide) (by decide) (by decide)).2.1
        (by decide)).2.2.2.2.2.2.1⟩

end COWStrings
